import Mathlib

/-!
The librpc object model: pack, unpack, hashing, copying and reference counts

A shallow embedding of `rpc_object_vpack`, `rpc_object_vunpack`, `rpc_hash`,
`rpc_copy`, `rpc_release_impl` and the container operations they use, from
`src/rpc_object.c`.

* Values are a pure tree wherever the reference counts do not matter; the
  namespace `mem` has the same operations on a heap of reference-counted cells.
* The format string is a list of characters followed by its terminator; the
  variadic argument list is an explicit typed stream.
* Behaviour that C leaves undefined (reading the format string past its
  terminator, `va_arg` at a slot of another type or past the last argument,
  `va_arg` with the type `bool`, which no promoted argument has, writing outside
  the pointer array, a NULL key) is a separate outcome, `fault`.
* A text handed over as `const char *` is read up to its terminator (`c_str`).
* `rpct_new` is declared in `include/rpc/typing.h` but defined outside these
  sources; it is a parameter of the pack functions.
* An object passed for the `v` token is a live, non-NULL object; the tree of
  values shares no object, the heap of `mem` does.
* `size_t` has 64 bits, `int` and `guint` have 32.
* Both loops run on a step budget; `rpc_object_vpack_total` and
  `rpc_object_vunpack_total` show that the budget of the entry points is never
  exhausted.
-/

namespace librpc

/-! ## Data model -/

/-- A value: `struct rpc_object` without its reference count.  A `double` is
carried as its 64-bit pattern; array elements and dictionary values are
non-NULL objects; a dictionary is kept in insertion order. -/
inductive rpc_object where
  | null : rpc_object
  | bool (b : Bool) : rpc_object
  | uint64 (u : Nat) : rpc_object
  | int64 (i : Int) : rpc_object
  | double (bits : Nat) : rpc_object
  | date (secs : Int) : rpc_object
  | string (s : String) : rpc_object
  | binary (bytes : List Nat) (copy : Bool) : rpc_object
  | fd (n : Int) : rpc_object
  | shmem (fd : Int) (off : Int) (size : Nat) : rpc_object
  | error (code : Int) (msg : String) (extra : rpc_object) (stack : rpc_object) : rpc_object
  | dictionary (kv : List (String × rpc_object)) : rpc_object
  | array (xs : List rpc_object) : rpc_object

/-- One entry of the variadic stream read by `rpc_object_vpack`, as the caller
wrote it.  The arguments of a `B` token (pointer, length, copy flag) are a
single entry; `str none` is a NULL `const char *`.  An argument of type `bool`,
that is `bool` and the copy flag of `blob`, is one that no read of the function
takes in a defined way. -/
inductive pack_arg where
  | obj (o : rpc_object) : pack_arg
  | bool (b : Bool) : pack_arg
  | blob (bytes : List Nat) (copy : Bool) : pack_arg
  | fd (n : Int) : pack_arg
  | int64 (i : Int) : pack_arg
  | uint64 (u : Nat) : pack_arg
  | double (bits : Nat) : pack_arg
  | str (s : Option String) : pack_arg

/-- Ways in which a run leaves defined C behaviour. -/
inductive fault_kind where
  | fmt_overrun : fault_kind
  | va_arg : fault_kind
  | null_key : fault_kind
  | null_element : fault_kind
  | array_overrun : fault_kind
  | not_a_dictionary : fault_kind

/-- Outcome of `rpc_object_vpack`: an object, NULL with `errno` untouched,
NULL with `errno = EINVAL`, undefined behaviour, or an exhausted step budget
of the model. -/
inductive vpack_result where
  | object (o : rpc_object) : vpack_result
  | null : vpack_result
  | einval : vpack_result
  | fault (k : fault_kind) : vpack_result
  | fuel : vpack_result

/-- Local state of `rpc_object_vpack` that survives an iteration.  `stack` and
`keys` are the two `GQueue`s listed from the tail; the C variable `container`
always equals `g_queue_peek_tail(stack)`, that is the head of `stack`. -/
structure pack_state where
  stack : List rpc_object
  keys : List (Option String)
  type : Option String
  idx : Nat
  ap : List pack_arg

/-! ## Memory and libc helpers -/

/-- Read `fmt[i]` of the NUL-terminated format string: the terminator sits at
index `length`, anything further is outside the buffer. -/
def fmt_at (fmt : List Char) (i : Nat) : Option Char :=
  if i < fmt.length then fmt[i]?
  else if i = fmt.length then some (Char.ofNat 0)
  else none

/-- Copy made by `g_strndup (fmt + p, n)`: at most `n` characters, stopping at a NUL. -/
def g_strndup (fmt : List Char) (p n : Nat) : String :=
  String.mk (((fmt.drop p).take n).takeWhile (fun c => c ≠ Char.ofNat 0))

/-- The `isspace` class of the C locale. -/
def isspace (c : Char) : Bool :=
  c = ' ' ∨ (9 ≤ c.toNat ∧ c.toNat ≤ 13)

/-- Accumulate decimal digits: returns the value and the number of digits read. -/
def strtol_digits : List Char → Nat → Nat → Nat × Nat
  | [], acc, n => (acc, n)
  | c :: cs, acc, n =>
    if c.isDigit then strtol_digits cs (acc * 10 + (c.toNat - 48)) (n + 1)
    else (acc, n)

/-- The libc `strtol (s, &end, 10)` with a 64-bit `long`: skips white space, takes
an optional sign and the digits, saturates, and reports how many characters
were consumed (none when there is no digit). -/
def strtol (s : List Char) : Int × Nat :=
  let ws := (s.takeWhile isspace).length
  let s1 := s.drop ws
  let (neg, sg) :=
    match s1 with
    | c :: _ => if c = '-' then (true, 1) else if c = '+' then (false, 1) else (false, 0)
    | [] => (false, 0)
  let (v, n) := strtol_digits (s1.drop sg) 0 0
  if n = 0 then (0, 0)
  else if neg then (if v > 2 ^ 63 then -(2 ^ 63 : Int) else -(v : Int), ws + sg + n)
  else (if v ≥ 2 ^ 63 then (2 ^ 63 - 1 : Int) else (v : Int), ws + sg + n)

/-- What a reader of a `const char *` sees of a text: the part before the first NUL. -/
def c_str (s : String) : String :=
  String.mk (s.toList.takeWhile (fun c => c ≠ Char.ofNat 0))

/-- The conversion `(int) x` of a `size_t`: the low 32 bits, two's complement. -/
def to_int (x : Nat) : Int :=
  let lo : Nat := x % 2 ^ 32
  if lo < 2 ^ 31 then (lo : Int) else (lo : Int) - 2 ^ 32

/-! ## Containers -/

/-- `rpc_array_steal_value` on the element list: append `(int)(index - len)`
NULL objects when that is positive, then append at `index = len`, otherwise
overwrite slot `index`; `none` when that slot lies outside the array. -/
def rpc_array_steal_value (xs : List rpc_object) (index : Nat) (value : rpc_object) :
    Option (List rpc_object) :=
  let i := to_int ((index + 2 ^ 64 - xs.length) % 2 ^ 64)
  let ys := xs ++ List.replicate i.toNat rpc_object.null
  if index = ys.length then some (ys ++ [value])
  else if index < ys.length then some (ys.set index value)
  else none

/-- `rpc_dictionary_steal_value`, that is `g_hash_table_insert`, on the entries:
the value of a key that is present is replaced, else the entry is added.  The
table passes the replaced value to its value destroy function,
`rpc_release_impl`; a tree of values has no reference counts and shares no
object, so that release is not seen here.  It is part of
`mem.rpc_dictionary_steal_value`, on which everything about counts and about a
store of an object over itself is stated. -/
def rpc_dictionary_steal_value (kv : List (String × rpc_object)) (key : String)
    (value : rpc_object) : List (String × rpc_object) :=
  match kv with
  | [] => [(key, value)]
  | (k, v) :: rest =>
    if k = key then (k, value) :: rest
    else (k, v) :: rpc_dictionary_steal_value rest key value

/-- `g_hash_table_lookup` on the entries of a dictionary. -/
def dict_lookup (kv : List (String × rpc_object)) (key : String) : Option rpc_object :=
  match kv with
  | [] => none
  | (k, v) :: rest => if k = key then some v else dict_lookup rest key

/-! ## rpc_object_vpack -/

/-- The closing bracket of the current container (lines 652-657). -/
def delim_of (container : rpc_object) : Char :=
  match container with
  | .array _ => ']'
  | _ => '}'

/-- The lookahead loop of lines 663-688: returns `(search_ptr, comma_ptr,
colon_ptr)`, or `none` when the scan runs past the terminator. -/
def vpack_scan (fmt : List Char) : Nat → Nat → Option Nat → Option (Nat × Option Nat × Option Nat)
  | 0, _, _ => none
  | fuel + 1, search_ptr, colon_ptr =>
    match fmt_at fmt search_ptr with
    | none => none
    | some c =>
      if c = ',' then some (search_ptr, some search_ptr, colon_ptr)
      else
        let colon_ptr := if c = ':' then some search_ptr else colon_ptr
        if c = '<' ∨ c = '[' ∨ c = ']' ∨ c = '{' ∨ c = '}' then
          some (search_ptr, none, colon_ptr)
        else vpack_scan fmt fuel (search_ptr + 1) colon_ptr

/-- The type-bracket loop of lines 771-779: the index of the matching `>`, or
`none` when the scan runs past the terminator. -/
def vpack_skip_type (fmt : List Char) : Nat → Nat → Nat → Option Nat
  | 0, _, _ => none
  | fuel + 1, ptr, nesting =>
    match fmt_at fmt (ptr + 1) with
    | none => none
    | some c =>
      let nesting := if c = '<' then (nesting + 1) % 2 ^ 32 else nesting
      let nesting := if c = '>' then (nesting + 2 ^ 32 - 1) % 2 ^ 32 else nesting
      if nesting = 0 then some (ptr + 1) else vpack_skip_type fmt fuel (ptr + 1) nesting

/-- Lines 659-728, run when a container is open and `ch` is not its closing
bracket: look ahead, fix the index or queue the key, and select the token
character.  A key from the stream is copied by `g_strdup`, which reads it up to
its terminator and gives NULL for NULL.  Returns the new `(ch, ptr, state)`. -/
def vpack_lookahead (fmt : List Char) (container : rpc_object) (ptr : Nat) (st : pack_state) :
    Except vpack_result (Char × Nat × pack_state) :=
  match vpack_scan fmt (fmt.length + 2 - ptr) ptr none with
  | none => .error (.fault .fmt_overrun)
  | some (search_ptr, comma_ptr, colon_ptr) =>
    let st1 : Except vpack_result pack_state :=
      match container with
      | .array xs =>
        match colon_ptr with
        | some cp =>
          let r := strtol (fmt.drop ptr)
          if ptr + r.2 ≠ cp then .error .einval
          else .ok { st with idx := (r.1 % 2 ^ 64).toNat }
        | none => .ok { st with idx := xs.length }
      | _ =>
        match colon_ptr with
        | some cp => .ok { st with keys := some (g_strndup fmt ptr (cp - ptr)) :: st.keys }
        | none =>
          match st.ap with
          | .str k :: ap => .ok { st with keys := k.map c_str :: st.keys, ap := ap }
          | _ => .error (.fault .va_arg)
    match st1 with
    | .error e => .error e
    | .ok st2 =>
      let d := delim_of container
      let at_search := (fmt_at fmt search_ptr).getD (Char.ofNat 0)
      let before := (fmt_at fmt (search_ptr - 1)).getD (Char.ofNat 0)
      if comma_ptr = none ∧ at_search ≠ d then .ok (at_search, search_ptr, st2)
      else if comma_ptr = none ∧ at_search = d then .ok (before, search_ptr - 1, st2)
      else .ok (before, search_ptr, st2)

/-- Result of the `switch` of lines 730-801. -/
inductive token_result where
  | value (current : Option rpc_object) (st : pack_state) : token_result
  | next (ptr : Nat) (st : pack_state) : token_result
  | error (r : vpack_result) : token_result

/-- The `switch (ch)` of lines 730-801.  The case `b` is `va_arg (ap, bool)`
(line 740): a `bool` argument arrives promoted to `int`, so the read names a
type that no argument can have and is undefined whatever the stream holds; the
case `B` reads its copy flag in the same way (line 745).  The case `s` is
`rpc_string_create`, which reads the text up to its terminator. -/
def vpack_token (fmt : List Char) (ch : Char) (ptr : Nat) (st : pack_state) : token_result :=
  if ch = 'v' then
    match st.ap with
    | .obj o :: ap => .value (some o) { st with ap := ap }
    | _ => .error (.fault .va_arg)
  else if ch = 'n' then .value (some .null) st
  else if ch = 'b' then .error (.fault .va_arg)
  else if ch = 'B' then .error (.fault .va_arg)
  else if ch = 'f' then
    match st.ap with
    | .fd n :: ap => .value (some (.fd n)) { st with ap := ap }
    | _ => .error (.fault .va_arg)
  else if ch = 'i' then
    match st.ap with
    | .int64 i :: ap => .value (some (.int64 i)) { st with ap := ap }
    | _ => .error (.fault .va_arg)
  else if ch = 'u' then
    match st.ap with
    | .uint64 u :: ap => .value (some (.uint64 u)) { st with ap := ap }
    | _ => .error (.fault .va_arg)
  else if ch = 'd' then
    match st.ap with
    | .double bits :: ap => .value (some (.double bits)) { st with ap := ap }
    | _ => .error (.fault .va_arg)
  else if ch = 's' then
    match st.ap with
    | .str (some s) :: ap => .value (some (.string (c_str s))) { st with ap := ap }
    | .str none :: ap => .value (some .null) { st with ap := ap }
    | _ => .error (.fault .va_arg)
  else if ch = '<' then
    match vpack_skip_type fmt (fmt.length + 2 - ptr) ptr 1 with
    | none => .error (.fault .fmt_overrun)
    | some p => .next p { st with type := some (g_strndup fmt (ptr + 1) (p - (ptr + 1))) }
  else if ch = '{' then .next ptr { st with stack := .dictionary [] :: st.stack }
  else if ch = '[' then .next ptr { st with stack := .array [] :: st.stack }
  else if ch = '}' ∨ ch = ']' then
    .value st.stack.head? { st with stack := st.stack.tail }
  else .error .einval

/-- Result of storing the finished value (lines 803-830). -/
inductive store_result where
  | stored (st : pack_state) : store_result
  | done (r : vpack_result) : store_result

/-- Lines 803-810: with a type pending, `rpct_new` wraps the value and the
pending type is cleared; `none` is the `goto error` taken when it returns NULL. -/
def vpack_typed (rpct_new : String → Option rpc_object → Option rpc_object)
    (current : Option rpc_object) (st : pack_state) : Option (Option rpc_object × pack_state) :=
  match st.type with
  | some t =>
    match rpct_new t current with
    | none => none
    | some o => some (some o, { st with type := none })
  | none => some (current, st)

/-- Lines 812-830: put the value into the open container, under the key taken
from the tail of `keys` or at `idx`, or return it when no container is open. -/
def vpack_put (current : Option rpc_object) (st : pack_state) : store_result :=
  match st.stack with
  | [] =>
    match current with
    | some o => .done (.object o)
    | none => .done .null
  | container :: below =>
    match current with
    | none => .done (.fault .null_element)
    | some v =>
      match container with
      | .dictionary kv =>
        match st.keys with
        | some key :: keys =>
          .stored { st with stack := .dictionary (rpc_dictionary_steal_value kv key v) :: below,
                            keys := keys }
        | _ => .done (.fault .null_key)
      | .array xs =>
        match rpc_array_steal_value xs st.idx v with
        | some ys => .stored { st with stack := .array ys :: below }
        | none => .done (.fault .array_overrun)
      | _ => .stored st

/-- Lines 803-830: the typed wrapping, then the store. -/
def vpack_store (rpct_new : String → Option rpc_object → Option rpc_object)
    (current : Option rpc_object) (st : pack_state) : store_result :=
  match vpack_typed rpct_new current st with
  | none => .done .einval
  | some (current1, st1) => vpack_put current1 st1

/-- Outcome of one iteration of the `for` loop: the call ends, or the loop goes
on at a new `ptr`. -/
inductive iter_result where
  | done (r : vpack_result) : iter_result
  | again (ptr : Nat) (st : pack_state) : iter_result

/-- One pass through the `for` loop of lines 649-830 with `*ptr` already read
as `fmt[ptr]`; leaving the loop at the terminator falls into the `error:`
label, and so does every `goto error`. -/
def vpack_iter (rpct_new : String → Option rpc_object → Option rpc_object) (fmt : List Char)
    (ptr : Nat) (st : pack_state) : iter_result :=
  match fmt_at fmt ptr with
  | none => .done (.fault .fmt_overrun)
  | some c =>
    if c = Char.ofNat 0 then .done .einval
    else
      let sel : Except vpack_result (Char × Nat × pack_state) :=
        match st.stack with
        | container :: _ =>
          if c ≠ delim_of container then vpack_lookahead fmt container ptr st
          else .ok (c, ptr, st)
        | [] => .ok (c, ptr, st)
      match sel with
      | .error e => .done e
      | .ok (ch, ptr1, st1) =>
        match vpack_token fmt ch ptr1 st1 with
        | .error e => .done e
        | .next ptr2 st2 => .again (ptr2 + 1) st2
        | .value current st2 =>
          match vpack_store rpct_new current st2 with
          | .done r => .done r
          | .stored st3 => .again (ptr1 + 1) st3

/-- The `for` loop of lines 649-830, bounded by a step budget. -/
def vpack_loop (rpct_new : String → Option rpc_object → Option rpc_object) (fmt : List Char) :
    Nat → Nat → pack_state → vpack_result
  | 0, _, _ => .fuel
  | fuel + 1, ptr, st =>
    match vpack_iter rpct_new fmt ptr st with
    | .done r => r
    | .again ptr1 st1 => vpack_loop rpct_new fmt fuel ptr1 st1

/-- The entry point `rpc_object_vpack (fmt, ap)`; every iteration advances
`ptr`, so a budget of `length + 1` iterations is enough. -/
def rpc_object_vpack (rpct_new : String → Option rpc_object → Option rpc_object)
    (fmt : List Char) (ap : List pack_arg) : vpack_result :=
  vpack_loop rpct_new fmt (fmt.length + 1) 0
    { stack := [], keys := [], type := none, idx := 0, ap := ap }

/-! ## rpc_object_vunpack -/

/-- One entry of the variadic stream read by `rpc_object_vunpack`: a dictionary
key (`const char *`, possibly NULL) or an out-pointer. -/
inductive unpack_arg where
  | key (s : Option String) : unpack_arg
  | out : unpack_arg

/-- A value written through an out-pointer; `str none` is a NULL `const char *`. -/
inductive unpack_out where
  | obj (o : rpc_object) : unpack_out
  | bool (b : Bool) : unpack_out
  | int64 (i : Int) : unpack_out
  | uint64 (u : Nat) : unpack_out
  | double (bits : Nat) : unpack_out
  | fd (n : Int) : unpack_out
  | str (s : Option String) : unpack_out

/-- Outcome of `rpc_object_unpack_layer`: the returned index with the updated
`*cnt`, `va_list` and the writes made so far; `-1` (with or without
`errno = EINVAL`); undefined behaviour; or an exhausted step budget. -/
inductive layer_result where
  | ret (i : Nat) (cnt : Nat) (ap : List unpack_arg) (outs : List unpack_out) : layer_result
  | fail (einval : Bool) : layer_result
  | fault (k : fault_kind) : layer_result
  | fuel : layer_result

/-- Outcome of `rpc_object_vunpack`: the count with the values bound, in binding
order, or `-1`. -/
inductive vunpack_result where
  | count (n : Nat) (outs : List unpack_out) : vunpack_result
  | fail (einval : Bool) : vunpack_result
  | fault (k : fault_kind) : vunpack_result
  | fuel : vunpack_result

/-- `rpc_array_get_value`: NULL unless `array` is an array and `index` is in range. -/
def rpc_array_get_value (array : rpc_object) (index : Nat) : Option rpc_object :=
  match array with
  | .array xs => xs[index]?
  | _ => none

/-- `rpc_array_slice` on the element list: the elements `index .. end - 1`, where
`end` is the length for `len = -1` and `MIN (length, index + len)` otherwise. -/
def rpc_array_slice (xs : List rpc_object) (index : Nat) (len : Int) : List rpc_object :=
  let stop := if len = -1 then xs.length else min xs.length (((index : Int) + len) % 2 ^ 64).toNat
  (xs.take stop).drop index

/-- `rpc_bool_get_value`. -/
def rpc_bool_get_value (o : rpc_object) : Bool :=
  match o with
  | .bool b => b
  | _ => false

/-- `rpc_int64_get_value`. -/
def rpc_int64_get_value (o : rpc_object) : Int :=
  match o with
  | .int64 i => i
  | _ => -1

/-- `rpc_uint64_get_value`. -/
def rpc_uint64_get_value (o : rpc_object) : Nat :=
  match o with
  | .uint64 u => u
  | _ => 0

/-- `rpc_double_get_value`; the pattern `0` is the double `0.0`. -/
def rpc_double_get_value (o : rpc_object) : Nat :=
  match o with
  | .double bits => bits
  | _ => 0

/-- `rpc_fd_get_value`. -/
def rpc_fd_get_value (o : rpc_object) : Int :=
  match o with
  | .fd n => n
  | _ => -1

/-- `rpc_string_get_string_ptr`. -/
def rpc_string_get_string_ptr (o : rpc_object) : Option String :=
  match o with
  | .string s => some s
  | _ => none

/-- The value a binding token writes (lines 272-299), `none` for other characters. -/
def unpack_bind (ch : Char) (current : rpc_object) : Option unpack_out :=
  if ch = 'v' then some (.obj current)
  else if ch = 'b' then some (.bool (rpc_bool_get_value current))
  else if ch = 'i' then some (.int64 (rpc_int64_get_value current))
  else if ch = 'u' then some (.uint64 (rpc_uint64_get_value current))
  else if ch = 'd' then some (.double (rpc_double_get_value current))
  else if ch = 'f' then some (.fd (rpc_fd_get_value current))
  else if ch = 's' then some (.str (rpc_string_get_string_ptr current))
  else none

/-- Outcome of one iteration of the loop of `rpc_object_unpack_layer`: the layer
returns; or the loop goes on with new locals `array`, `dictionary`, `current`,
`i`, `idx` and the shared `*cnt`, `va_list` and writes; or (line 325) a nested
layer is called on `cur` at index `i`, after which the loop goes on behind the
index that layer returns. -/
inductive unpack_step where
  | done (r : layer_result) : unpack_step
  | again (array dictionary current : Option rpc_object) (i idx cnt : Nat)
      (ap : List unpack_arg) (outs : List unpack_out) : unpack_step
  | nested (cur : rpc_object) (array dictionary : Option rpc_object) (i idx cnt : Nat)
      (ap : List unpack_arg) (outs : List unpack_out) : unpack_step

/-- Lines 258-266: inside an array the next element becomes `current` and `idx`
advances; inside a dictionary the value of the key read from the `va_list`
becomes `current`; a NULL `current` returns -1.  Gives the non-NULL `current`,
the new `idx` and the new `va_list`. -/
def unpack_fetch (array dictionary current : Option rpc_object) (ch : Char) (idx : Nat)
    (ap : List unpack_arg) : Except layer_result (rpc_object × Nat × List unpack_arg) :=
  let cur1 : Option rpc_object × Nat :=
    match array with
    | some a => if ch ≠ ']' then (rpc_array_get_value a idx, idx + 1) else (current, idx)
    | none => (current, idx)
  let cur2 : Except layer_result (Option rpc_object × List unpack_arg) :=
    match dictionary with
    | some d =>
      if ch ≠ '}' then
        match ap with
        | .key k :: ap1 =>
          match d, k with
          | .dictionary kv, some key => .ok (dict_lookup kv key, ap1)
          | .dictionary _, none => .error (.fault .null_key)
          | _, _ => .error (.fault .not_a_dictionary)
        | _ => .error (.fault .va_arg)
      else .ok (cur1.1, ap)
    | none => .ok (cur1.1, ap)
  match cur2 with
  | .error e => .error e
  | .ok (none, _) => .error (.fail false)
  | .ok (some cur, ap2) => .ok (cur, cur1.2, ap2)

/-- The `switch (ch)` of lines 268-336 on the non-NULL `current`. -/
def unpack_switch (ch : Char) (cur : rpc_object) (array dictionary : Option rpc_object)
    (i idx cnt : Nat) (ap : List unpack_arg) (outs : List unpack_out) : unpack_step :=
  if ch = '*' then .again array dictionary (some cur) (i + 1) idx (cnt + 1) ap outs
  else
    match unpack_bind ch cur with
    | some o =>
      match ap with
      | .out :: ap1 => .again array dictionary (some cur) (i + 1) idx (cnt + 1) ap1 (outs ++ [o])
      | _ => .done (.fault .va_arg)
    | none =>
      if ch = 'R' then
        match array with
        | none => .done (.fail true)
        | some a =>
          match ap with
          | .out :: ap1 =>
            let tail := match a with
              | .array xs => rpc_array_slice xs (idx + 1) (-1)
              | _ => []
            .again array dictionary (some cur) (i + 1) idx (cnt + 1) ap1
              (outs ++ [.obj (.array tail)])
          | _ => .done (.fault .va_arg)
      else if ch = '[' ∨ ch = '{' then
        match array, dictionary with
        | none, none =>
          if ch = '[' then .again (some cur) none (some cur) (i + 1) idx cnt ap outs
          else .again none (some cur) (some cur) (i + 1) idx cnt ap outs
        | _, _ => .nested cur array dictionary i idx cnt ap outs
      else if ch = ']' ∨ ch = '}' then .done (.ret i cnt ap outs)
      else .done (.fail false)

/-- One pass through the `for` loop of `rpc_object_unpack_layer` (lines 256-339)
at index `i`; leaving the loop at the terminator returns `i`. -/
def unpack_iter (fmt : List Char) (array dictionary current : Option rpc_object)
    (i idx cnt : Nat) (ap : List unpack_arg) (outs : List unpack_out) : unpack_step :=
  match fmt_at fmt i with
  | none => .done (.fault .fmt_overrun)
  | some ch =>
    if ch = Char.ofNat 0 then .done (.ret i cnt ap outs)
    else
      match unpack_fetch array dictionary current ch idx ap with
      | .error e => .done e
      | .ok (cur, idx1, ap1) => unpack_switch ch cur array dictionary i idx1 cnt ap1 outs

/-- The `for` loop of `rpc_object_unpack_layer` from index `i`, bounded by a
step budget; the `va_list` is shared with a nested layer, as it is where
`va_list` is an array type, and the nested call starts with fresh locals. -/
def unpack_loop (fmt : List Char) :
    Nat → Option rpc_object → Option rpc_object → Option rpc_object → Nat → Nat → Nat →
    List unpack_arg → List unpack_out → layer_result
  | 0, _, _, _, _, _, _, _, _ => .fuel
  | fuel + 1, array, dictionary, current, i, idx, cnt, ap, outs =>
    match unpack_iter fmt array dictionary current i idx cnt ap outs with
    | .done r => r
    | .again array1 dictionary1 current1 i1 idx1 cnt1 ap1 outs1 =>
      unpack_loop fmt fuel array1 dictionary1 current1 i1 idx1 cnt1 ap1 outs1
    | .nested cur array1 dictionary1 i1 idx1 cnt1 ap1 outs1 =>
      match unpack_loop fmt fuel none none (some cur) i1 0 cnt1 ap1 outs1 with
      | .ret i2 cnt2 ap2 outs2 =>
        unpack_loop fmt fuel array1 dictionary1 (some cur) (i2 + 1) idx1 cnt2 ap2 outs2
      | r => r

/-- `rpc_object_unpack_layer (branch, fmt, fmt_cnt, cnt, ap)`. -/
def rpc_object_unpack_layer (fmt : List Char) (fuel : Nat) (branch : Option rpc_object)
    (fmt_cnt cnt : Nat) (ap : List unpack_arg) (outs : List unpack_out) : layer_result :=
  match branch with
  | none => .fail false
  | some b => unpack_loop fmt fuel none none (some b) fmt_cnt 0 cnt ap outs

/-- `rpc_object_vunpack (obj, fmt, ap)`: the count when the layer returns a
positive index, else `-1`.  A format character is visited by at most two
iterations, so the budget `3 * length + 3` is enough. -/
def rpc_object_vunpack (obj : Option rpc_object) (fmt : List Char) (ap : List unpack_arg) :
    vunpack_result :=
  match rpc_object_unpack_layer fmt (3 * fmt.length + 3) obj 0 0 ap [] with
  | .ret i cnt _ outs => if i > 0 then .count cnt outs else .fail false
  | .fail e => .fail e
  | .fault k => .fault k
  | .fuel => .fuel

/-! ## Tokens, formats and predicates used in the statements -/

/-- A scalar token of the pack language whose read of the variadic stream is
defined, with the argument it takes (`n` takes none); the token `b` is not one
of them, see `vpack_token`. -/
inductive scalar_token where
  | n : scalar_token
  | i (v : Int) : scalar_token
  | u (v : Nat) : scalar_token
  | d (bits : Nat) : scalar_token
  | s (v : Option String) : scalar_token
  | f (v : Int) : scalar_token

/-- The format character of a scalar token. -/
def scalar_token.ch : scalar_token → Char
  | .n => 'n'
  | .i _ => 'i'
  | .u _ => 'u'
  | .d _ => 'd'
  | .s _ => 's'
  | .f _ => 'f'

/-- The entries a scalar token reads from the variadic stream. -/
def scalar_token.args : scalar_token → List pack_arg
  | .n => []
  | .i v => [.int64 v]
  | .u v => [.uint64 v]
  | .d bits => [.double bits]
  | .s v => [.str v]
  | .f v => [.fd v]

/-- The value the `switch` builds for a scalar token (lines 735-766); a string
is read up to its terminator and a NULL string gives the null object
(`rpc_string_create`). -/
def scalar_token.value : scalar_token → rpc_object
  | .n => .null
  | .i v => .int64 v
  | .u v => .uint64 v
  | .d bits => .double bits
  | .s (some v) => .string (c_str v)
  | .s none => .null
  | .f v => .fd v

/-- Characters at which the lookahead of lines 663-688 stops. -/
def stop_char (c : Char) : Bool :=
  c = ',' || c = '<' || c = '[' || c = ']' || c = '{' || c = '}'

/-- Characters the lookahead passes over without recording anything. -/
def plain_char (c : Char) : Bool :=
  !stop_char c && c ≠ ':'

/-- The text `[t1,t2,...,tn]` of a flat array format. -/
def flat_array_fmt (toks : List Char) : List Char :=
  '[' :: (toks.intersperse ',' ++ [']'])

/-- The text `{t1,t2,...,tn}` of a flat dictionary format without key prefixes. -/
def flat_dict_fmt (toks : List Char) : List Char :=
  '{' :: (toks.intersperse ',' ++ ['}'])

/-- The dictionary obtained by storing the entries one after the other. -/
def dict_of_entries (kv : List (String × rpc_object)) (es : List (String × rpc_object)) :
    List (String × rpc_object) :=
  es.foldl (fun acc e => rpc_dictionary_steal_value acc e.1 e.2) kv

/-- The text `{k1:t1,...,kn:tn}` of a dictionary format with literal key prefixes. -/
def literal_dict_fmt (es : List (List Char × Char)) : List Char :=
  '{' :: (List.intercalate [','] (es.map (fun e => e.1 ++ [':', e.2])) ++ ['}'])

/-- A scalar token that both languages know and that pack reads in a defined
way (`i u d s f`), with the packed argument. -/
inductive bind_token where
  | i (v : Int) : bind_token
  | u (v : Nat) : bind_token
  | d (bits : Nat) : bind_token
  | s (v : Option String) : bind_token
  | f (v : Int) : bind_token

/-- The pack token of a shared scalar token. -/
def bind_token.scalar : bind_token → scalar_token
  | .i v => .i v
  | .u v => .u v
  | .d bits => .d bits
  | .s v => .s v
  | .f v => .f v

/-- The packed argument as an out-pointer receives it; a string argument is the
text up to its terminator. -/
def bind_token.out : bind_token → unpack_out
  | .i v => .int64 v
  | .u v => .uint64 v
  | .d bits => .double bits
  | .s v => .str (v.map c_str)
  | .f v => .fd v

/-- A format that is one scalar token or one container holding nothing or one
such format; a dictionary element comes with the key that both argument streams
carry for it. -/
inductive nest where
  | tok (t : bind_token) : nest
  | arr0 : nest
  | dict0 : nest
  | arr (e : nest) : nest
  | dict (key : String) (e : nest) : nest

/-- The format text. -/
def nest.fmt : nest → List Char
  | .tok t => [t.scalar.ch]
  | .arr0 => ['[', ']']
  | .dict0 => ['{', '}']
  | .arr e => '[' :: (e.fmt ++ [']'])
  | .dict _ e => '{' :: (e.fmt ++ ['}'])

/-- The stream `rpc_object_vpack` reads. -/
def nest.pack_args : nest → List pack_arg
  | .tok t => t.scalar.args
  | .arr0 => []
  | .dict0 => []
  | .arr e => e.pack_args
  | .dict key e => .str (some key) :: e.pack_args

/-- The object the format describes; pack reads a key up to its terminator. -/
def nest.value : nest → rpc_object
  | .tok t => t.scalar.value
  | .arr0 => .array []
  | .dict0 => .dictionary []
  | .arr e => .array [e.value]
  | .dict key e => .dictionary [(c_str key, e.value)]

/-- The stream `rpc_object_vunpack` reads: keys and out-pointers. -/
def nest.unpack_args : nest → List unpack_arg
  | .tok _ => [.out]
  | .arr0 => []
  | .dict0 => []
  | .arr e => e.unpack_args
  | .dict key e => .key (some key) :: e.unpack_args

/-- The packed scalar arguments in order, as the out-pointers should receive them. -/
def nest.outs : nest → List unpack_out
  | .tok t => [t.out]
  | .arr0 => []
  | .dict0 => []
  | .arr e => e.outs
  | .dict _ e => e.outs

/-- Every key of the format is a C string: it holds no NUL, so that both
functions read the same text from it. -/
def nest.c_keys : nest → Bool
  | .tok _ => true
  | .arr0 => true
  | .dict0 => true
  | .arr e => e.c_keys
  | .dict key e => decide (c_str key = key) && e.c_keys

/-- Number of loop iterations `rpc_object_vpack` spends on the format. -/
def nest.steps : nest → Nat
  | .tok _ => 1
  | .arr0 => 2
  | .dict0 => 2
  | .arr e => e.steps + 2
  | .dict _ e => e.steps + 2

/-- The empty container an opening bracket creates. -/
def new_container (c : Char) : rpc_object :=
  if c = '[' then .array [] else .dictionary []

/-- A nested layer run on the object of `g` returns at the closing bracket of `g`
with every scalar of `g` bound. -/
def layer_ok (g : nest) : Prop :=
  ∀ (fmt : List Char) (p : Nat) (suf : List Char) (cnt : Nat) (ap : List unpack_arg)
    (outs : List unpack_out) (fuel : Nat),
    fmt.drop p = g.fmt ++ suf →
    unpack_loop fmt (fuel + g.steps) none none (some g.value) p 0 cnt (g.unpack_args ++ ap) outs
      = .ret (p + g.fmt.length - 1) (cnt + g.outs.length) ap (outs ++ g.outs)

/-- The loop of an enclosing layer steps over `g` as the next array element. -/
def elem_in_array_ok (g : nest) : Prop :=
  ∀ (fmt : List Char) (p : Nat) (suf : List Char) (xs : List rpc_object) (idx : Nat)
    (cur : Option rpc_object) (cnt : Nat) (ap : List unpack_arg) (outs : List unpack_out)
    (fuel : Nat),
    fmt.drop p = g.fmt ++ suf → xs[idx]? = some g.value → g.steps ≤ fuel →
    unpack_loop fmt (fuel + 1) (some (.array xs)) none cur p idx cnt (g.unpack_args ++ ap) outs
      = unpack_loop fmt fuel (some (.array xs)) none (some g.value) (p + g.fmt.length) (idx + 1)
          (cnt + g.outs.length) ap (outs ++ g.outs)

/-- The loop of an enclosing layer steps over `g` as the value of the next key. -/
def elem_in_dict_ok (g : nest) : Prop :=
  ∀ (fmt : List Char) (p : Nat) (suf : List Char) (kv : List (String × rpc_object))
    (key : String) (idx : Nat) (cur : Option rpc_object) (cnt : Nat) (ap : List unpack_arg)
    (outs : List unpack_out) (fuel : Nat),
    fmt.drop p = g.fmt ++ suf → dict_lookup kv key = some g.value → g.steps ≤ fuel →
    unpack_loop fmt (fuel + 1) none (some (.dictionary kv)) cur p idx cnt
        (.key (some key) :: (g.unpack_args ++ ap)) outs
      = unpack_loop fmt fuel none (some (.dictionary kv)) (some g.value) (p + g.fmt.length) idx
          (cnt + g.outs.length) ap (outs ++ g.outs)

/-- An instance of the parameter `rpct_new` for closed statements: no type is
registered, so every request for a typed instance fails. -/
def rpct_none : String → Option rpc_object → Option rpc_object :=
  fun _ _ => none

/-- The argument stream `("n", 3, "xs", 1, 2, 3)` of the first scenario. -/
def scenario_stream : List pack_arg :=
  [.str (some "n"), .int64 3, .str (some "xs"), .int64 1, .int64 2, .int64 3]

/-- The dictionary `{n: 3, xs: [1, 2, 3]}` of the first scenario. -/
def scenario_dict : rpc_object :=
  .dictionary [("n", .int64 3), ("xs", .array [.int64 1, .int64 2, .int64 3])]

/-- The layer ended without an index: it returned -1 or its behaviour is undefined. -/
def layer_failed (r : layer_result) : Prop :=
  (∃ b, r = .fail b) ∨ (∃ k, r = .fault k)

/-- The layer ended at index `i` or without an index; in particular its budget was not exhausted. -/
def layer_ended_at (i : Nat) (r : layer_result) : Prop :=
  layer_failed r ∨ ∃ cnt ap outs, r = .ret i cnt ap outs

/-- The characters the `switch` of lines 730-801 has a case for. -/
def token_alphabet (c : Char) : Bool :=
  c = 'v' || c = 'n' || c = 'b' || c = 'B' || c = 'f' || c = 'i' || c = 'u' || c = 'd' ||
    c = 's' || c = '<' || c = '[' || c = '{' || c = ']' || c = '}'

/-! ## Tags and the tokens of a flat unpack format -/

/-- The tags of `rpc_type_t`, as listed in `rpc_types` (lines 48-64). -/
inductive rpc_type_t where
  | RPC_TYPE_NULL : rpc_type_t
  | RPC_TYPE_BOOL : rpc_type_t
  | RPC_TYPE_UINT64 : rpc_type_t
  | RPC_TYPE_INT64 : rpc_type_t
  | RPC_TYPE_DOUBLE : rpc_type_t
  | RPC_TYPE_DATE : rpc_type_t
  | RPC_TYPE_STRING : rpc_type_t
  | RPC_TYPE_BINARY : rpc_type_t
  | RPC_TYPE_FD : rpc_type_t
  | RPC_TYPE_DICTIONARY : rpc_type_t
  | RPC_TYPE_ARRAY : rpc_type_t
  | RPC_TYPE_SHMEM : rpc_type_t
  | RPC_TYPE_ERROR : rpc_type_t
  deriving DecidableEq

/-- `rpc_get_type` on a non-NULL object: the field `ro_type`. -/
def rpc_get_type (o : rpc_object) : rpc_type_t :=
  match o with
  | .null => .RPC_TYPE_NULL
  | .bool _ => .RPC_TYPE_BOOL
  | .uint64 _ => .RPC_TYPE_UINT64
  | .int64 _ => .RPC_TYPE_INT64
  | .double _ => .RPC_TYPE_DOUBLE
  | .date _ => .RPC_TYPE_DATE
  | .string _ => .RPC_TYPE_STRING
  | .binary _ _ => .RPC_TYPE_BINARY
  | .fd _ => .RPC_TYPE_FD
  | .shmem _ _ _ => .RPC_TYPE_SHMEM
  | .error _ _ _ _ => .RPC_TYPE_ERROR
  | .dictionary _ => .RPC_TYPE_DICTIONARY
  | .array _ => .RPC_TYPE_ARRAY

/-- The tag the typed getter behind a scalar unpack token tests for
(`rpc_bool_get_value`, `rpc_int64_get_value`, ...); `none` for other characters. -/
def getter_type (ch : Char) : Option rpc_type_t :=
  if ch = 'b' then some .RPC_TYPE_BOOL
  else if ch = 'i' then some .RPC_TYPE_INT64
  else if ch = 'u' then some .RPC_TYPE_UINT64
  else if ch = 'd' then some .RPC_TYPE_DOUBLE
  else if ch = 'f' then some .RPC_TYPE_FD
  else if ch = 's' then some .RPC_TYPE_STRING
  else none

/-- The value the typed getter returns when the tag differs: `false`, `-1`, `0`,
`0.0`, `-1`, NULL. -/
def getter_default (ch : Char) : unpack_out :=
  if ch = 'b' then .bool false
  else if ch = 'i' then .int64 (-1)
  else if ch = 'u' then .uint64 0
  else if ch = 'd' then .double 0
  else if ch = 'f' then .fd (-1)
  else .str none

/-- The unpack tokens that write through an out-pointer: `v b i u d f s`. -/
def is_bind_char (c : Char) : Bool :=
  c = 'v' || c = 'b' || c = 'i' || c = 'u' || c = 'd' || c = 'f' || c = 's'

/-- The out-pointers a run of unpack tokens reads: one for every token but `*`. -/
def token_args (toks : List Char) : List unpack_arg :=
  toks.flatMap (fun c => if c = '*' then [] else [unpack_arg.out])

/-- The values a run of unpack tokens binds when token `j` meets element `j`. -/
def token_outs (toks : List Char) (xs : List rpc_object) : List unpack_out :=
  (toks.zip xs).filterMap (fun p => unpack_bind p.1 p.2)

/-- The text `[t1t2...tn]` of a flat unpack format: no separators. -/
def flat_unpack_fmt (toks : List Char) : List Char :=
  '[' :: (toks ++ [']'])

/-! ## Hashing and copying -/

/-- The bytes of one character in memory (UTF-8). -/
def utf8_bytes (c : Char) : List Nat :=
  let n := c.toNat
  if n < 128 then [n]
  else if n < 2048 then [192 + n / 64, 128 + n % 64]
  else if n < 65536 then [224 + n / 4096, 128 + n / 64 % 64, 128 + n % 64]
  else [240 + n / 262144, 128 + n / 4096 % 64, 128 + n / 64 % 64, 128 + n % 64]

/-- The `len` bytes of a `GString`, or of a C string before its terminator. -/
def string_bytes (s : String) : List Nat :=
  s.toList.flatMap utf8_bytes

/-- The libc `strlen` on a buffer: the number of bytes before the first NUL. -/
def strlen (bytes : List Nat) : Nat :=
  (bytes.takeWhile (fun b => b ≠ 0)).length

/-- A `gchar` read as an `unsigned int`: `char` is signed on the Linux targets of
the library, so a byte above 127 is sign-extended. -/
def gchar_to_guint (b : Nat) : Nat :=
  if b < 128 then b else 2 ^ 32 - 256 + b

/-- GLib's `g_string_hash`: `h = (h << 5) - h + *p` over the `len` bytes, from
the first to the last, in `guint` (32 bits), starting from 0. -/
def g_string_hash (s : String) : Nat :=
  (string_bytes s).foldl
    (fun h b => ((h * 32) % 2 ^ 32 + 2 ^ 32 - h + gchar_to_guint b) % 2 ^ 32) 0

/-- The loop of `rpc_data_hash` (lines 87-88): `while (length--)` reads
`data[length]` after the decrement, so the bytes are taken from the last to the
first; `size_t` has 64 bits. -/
def rpc_data_hash_loop (data : List Nat) : Nat → Nat → Nat
  | 0, hash => hash
  | length + 1, hash =>
    rpc_data_hash_loop data length (((hash * 32) % 2 ^ 64 + hash + data.getD length 0) % 2 ^ 64)

/-- `rpc_data_hash (data, length)`. -/
def rpc_data_hash (data : List Nat) (length : Nat) : Nat :=
  rpc_data_hash_loop data length 5381

/-- What `rpc_hash` and `rpc_copy` take from outside the object: the value
`st_dev ^ st_ino` that `fstat` reports for a descriptor, the conversion
`(size_t) d` of a double given as its bit pattern, the descriptor `dup` returns,
and the text `rpc_get_backtrace` returns (a function defined outside these
sources; `none` is NULL). -/
structure host where
  fstat_dev_ino : Int → Nat
  double_to_size_t : Nat → Nat
  dup : Int → Int
  rpc_get_backtrace : Option String

mutual
/-- `rpc_hash` (lines 537-601), with `size_t` of 64 bits.  In the ERROR case the
`int` code is converted to `unsigned int` for the XOR with the `guint` hash of
the message, and the result is widened for the XOR with the hash of `extra`. -/
def rpc_hash (env : host) : rpc_object → Nat
  | .null => 0
  | .bool b => if b then 1 else 0
  | .int64 i => (i % 2 ^ 64).toNat
  | .uint64 u => u % 2 ^ 64
  | .double bits => env.double_to_size_t bits % 2 ^ 64
  | .fd n => env.fstat_dev_ino n % 2 ^ 64
  | .date secs => (secs % 2 ^ 64).toNat
  | .string s => g_string_hash s
  | .binary bytes _ => rpc_data_hash bytes bytes.length
  | .error code msg extra _ => ((code % 2 ^ 32).toNat ^^^ g_string_hash msg) ^^^ rpc_hash env extra
  | .shmem fd _ _ => env.fstat_dev_ino fd % 2 ^ 64
  | .dictionary kv => rpc_hash_entries env kv 0
  | .array xs => rpc_hash_elements env xs 0
/-- The applier of lines 593-596 run by `rpc_array_apply` over the elements, on
the running `hash`. -/
def rpc_hash_elements (env : host) : List rpc_object → Nat → Nat
  | [], hash => hash
  | v :: vs, hash => rpc_hash_elements env vs (hash ^^^ rpc_hash env v)
/-- The applier of lines 585-589 run by `rpc_dictionary_apply` over the entries
in iteration order, on the running `hash`. -/
def rpc_hash_entries (env : host) : List (String × rpc_object) → Nat → Nat
  | [], hash => hash
  | (k, v) :: rest, hash =>
    rpc_hash_entries env rest
      ((hash ^^^ rpc_data_hash (string_bytes k) (strlen (string_bytes k))) ^^^ rpc_hash env v)
end

/-- `rpc_string_create`: the null object for a NULL pointer, else a string. -/
def rpc_string_create (s : Option String) : rpc_object :=
  match s with
  | none => .null
  | some t => .string (c_str t)

mutual
/-- `rpc_copy` (lines 454-519); `none` stands for undefined behaviour in a
container write.  A string and the message of an error are read through their
`char *`; the copy of an error gets a stack of its own. -/
def rpc_copy (env : host) : rpc_object → Option rpc_object
  | .null => some .null
  | .bool b => some (.bool b)
  | .int64 i => some (.int64 i)
  | .uint64 u => some (.uint64 u)
  | .date secs => some (.date secs)
  | .double bits => some (.double bits)
  | .fd n => some (.fd (env.dup n))
  | .string s => some (rpc_string_create (some s))
  | .binary bytes _ => some (.binary bytes true)
  | .shmem fd off size => some (.shmem (env.dup fd) off size)
  | .error code msg extra _ =>
    match rpc_copy env extra with
    | none => none
    | some e => some (.error code (c_str msg) e (rpc_string_create env.rpc_get_backtrace))
  | .dictionary kv =>
    match rpc_copy_entries env kv [] with
    | none => none
    | some tmp => some (.dictionary tmp)
  | .array xs =>
    match rpc_copy_elements env xs 0 [] with
    | none => none
    | some tmp => some (.array tmp)
/-- The applier of lines 511-514 run over the elements from index `idx`, on the
elements of `tmp`. -/
def rpc_copy_elements (env : host) : List rpc_object → Nat → List rpc_object →
    Option (List rpc_object)
  | [], _, tmp => some tmp
  | v :: vs, idx, tmp =>
    match rpc_copy env v with
    | none => none
    | some c =>
      match rpc_array_steal_value tmp idx c with
      | none => none
      | some tmp1 => rpc_copy_elements env vs (idx + 1) tmp1
/-- The applier of lines 503-506 run over the entries in iteration order, on
the entries of `tmp`. -/
def rpc_copy_entries (env : host) : List (String × rpc_object) → List (String × rpc_object) →
    Option (List (String × rpc_object))
  | [], tmp => some tmp
  | (k, v) :: rest, tmp =>
    match rpc_copy env v with
    | none => none
    | some c => rpc_copy_entries env rest (rpc_dictionary_steal_value tmp (c_str k) c)
end

/-- The djb2 hash as the specification words it: start from 5381 and apply
`h := h * 33 + b` modulo the width of `size_t` to the bytes from the first to
the last. -/
def djb2_first_to_last (bytes : List Nat) : Nat :=
  bytes.foldl (fun h b => (h * 33 + b) % 2 ^ 64) 5381

/-- A host for closed statements: every descriptor is a distinct file, the
conversion of a double is left at 0, `dup` returns the next descriptor, and no
backtrace is available. -/
def host_none : host :=
  { fstat_dev_ino := fun n => n.toNat, double_to_size_t := fun _ => 0,
    dup := fun n => n + 1, rpc_get_backtrace := none }

/-! ## Objects in memory: reference counts and ownership

The same operations on allocated objects.  An object is an address into a heap
of `struct rpc_object` cells; a container holds the addresses of its elements.
Addresses are not reused, so that an access to a freed object stays visible. -/

namespace mem

/-- The tagged payload of an object (`ro_type` with `union rpc_value`); the
objects it contains are held as addresses, those of an error may be NULL. -/
inductive rpc_value where
  | null : rpc_value
  | bool (b : Bool) : rpc_value
  | uint64 (u : Nat) : rpc_value
  | int64 (i : Int) : rpc_value
  | double (bits : Nat) : rpc_value
  | date (secs : Int) : rpc_value
  | string (s : String) : rpc_value
  | binary (bytes : List Nat) (copy : Bool) : rpc_value
  | fd (n : Int) : rpc_value
  | shmem (fd : Int) (off : Int) (size : Nat) : rpc_value
  | error (code : Int) (msg : String) (extra stack : Option Nat) : rpc_value
  | dictionary (kv : List (String × Nat)) : rpc_value
  | array (xs : List Nat) : rpc_value

/-- The cell `struct rpc_object`: the reference count and the payload. -/
structure rpc_object where
  ro_refcnt : Int
  ro_value : rpc_value

/-- The objects allocated so far, by address: `some o` is live, `none` has been
passed to `g_free`. -/
abbrev heap := List (Option rpc_object)

/-- Ways in which a run leaves defined behaviour: those of the pack loop, an
access to an object that is not live, the failed `assert (ro_refcnt > 0)`, and
`abort ()`. -/
inductive fault_kind where
  | pack (k : librpc.fault_kind) : fault_kind
  | dead_object : fault_kind
  | refcnt_assert : fault_kind
  | abort : fault_kind

/-- Outcome of an operation on the heap: a result, undefined behaviour, or an
exhausted step budget of the model. -/
inductive outcome (α : Type) where
  | ok (x : α) : outcome α
  | fault (k : fault_kind) : outcome α
  | fuel : outcome α

/-- `rpc_prim_create`: a new cell with reference count 1; returns its address. -/
def rpc_prim_create (h : heap) (val : rpc_value) : heap × Nat :=
  (h ++ [some { ro_refcnt := 1, ro_value := val }], h.length)

/-- `rpc_retain`: `g_atomic_int_inc` on the `int` counter, which wraps around
behind 2^31 - 1. -/
def rpc_retain (h : heap) (object : Nat) : outcome heap :=
  match h[object]? with
  | some (some o) =>
    .ok (h.set object (some { o with ro_refcnt := to_int ((o.ro_refcnt + 1) % 2 ^ 32).toNat }))
  | _ => .fault .dead_object

/-- The objects a release of the payload is passed on to (lines 394-409): the
elements of an array (the free function of the `GPtrArray`), the values of a
dictionary (the value destroy function of the `GHashTable`), `extra` and
`stack` of an error. -/
def contained (val : rpc_value) : List (Option Nat) :=
  match val with
  | .array xs => xs.map some
  | .dictionary kv => kv.map (fun e => some e.2)
  | .error _ _ extra stack => [extra, stack]
  | _ => []

/-- A pending step of a release: a call `rpc_release_impl (object)`, or the
`g_free (object)` that ends a call whose count reached zero. -/
inductive work where
  | release (object : Option Nat) : work
  | free (object : Nat) : work

/-- The body of `rpc_release_impl` (lines 373-428) with its recursion through the
contained objects unrolled into a list of pending steps: NULL is skipped; the
count must be positive; a count that reaches zero passes the release on to the
contained objects, in order, and then frees the cell; otherwise the count is
decremented. -/
def release_loop : Nat → heap → List work → outcome heap
  | 0, _, _ => .fuel
  | _ + 1, h, [] => .ok h
  | fuel + 1, h, .free a :: rest => release_loop fuel (h.set a none) rest
  | fuel + 1, h, .release none :: rest => release_loop fuel h rest
  | fuel + 1, h, .release (some a) :: rest =>
    match h[a]? with
    | some (some o) =>
      if o.ro_refcnt ≤ 0 then .fault .refcnt_assert
      else if o.ro_refcnt - 1 = 0 then
        release_loop fuel (h.set a (some { o with ro_refcnt := 0 }))
          ((contained o.ro_value).map work.release ++ work.free a :: rest)
      else release_loop fuel (h.set a (some { o with ro_refcnt := o.ro_refcnt - 1 })) rest
    | _ => .fault .dead_object

/-- A step budget that covers every release on the heap: each live cell is
freed at most once, which takes one step for the cell, one for each object it
contains and one for its `g_free`. -/
def release_budget (h : heap) : Nat :=
  (h.map (fun c =>
    match c with
    | some o => (contained o.ro_value).length + 2
    | none => 0)).sum + 2

/-- `rpc_release_impl (object)`: returns the heap and the `int` result, 0 for
NULL and for an object that was freed, else the remaining count. -/
def rpc_release_impl (h : heap) (object : Option Nat) : outcome (heap × Int) :=
  match object with
  | none => .ok (h, 0)
  | some a =>
    match release_loop (release_budget h) h [.release (some a)] with
    | .ok h1 =>
      match h1[a]? with
      | some (some o) => .ok (h1, o.ro_refcnt)
      | _ => .ok (h1, 0)
    | .fault k => .fault k
    | .fuel => .fuel

/-- Modelled from the spec: the macro `rpc_release` of `include/rpc/object.h`, a
header that is not among these sources; "release decrements and tears down at
zero", so it is the call `rpc_release_impl (object)` with the result dropped. -/
def rpc_release (h : heap) (object : Option Nat) : outcome heap :=
  match rpc_release_impl h object with
  | .ok r => .ok r.1
  | .fault k => .fault k
  | .fuel => .fuel

/-- The loop of lines 1340-1345: append `n` new null objects. -/
def fill_nulls : Nat → heap → List Nat → heap × List Nat
  | 0, h, xs => (h, xs)
  | n + 1, h, xs =>
    let r := rpc_prim_create h .null
    fill_nulls n r.1 (xs ++ [r.2])

/-- `rpc_array_steal_value (array, index, value)`: fill the gap with null
objects, then append at `index = len`, otherwise release the old element of
slot `index` and overwrite it; the count of `value` is not touched. -/
def rpc_array_steal_value (h : heap) (array index value : Nat) : outcome heap :=
  match h[array]? with
  | some (some o) =>
    match o.ro_value with
    | .array xs =>
      let i := to_int ((index + 2 ^ 64 - xs.length) % 2 ^ 64)
      let r := fill_nulls i.toNat h xs
      let ys := r.2
      if index = ys.length then .ok (r.1.set array (some { o with ro_value := .array (ys ++ [value]) }))
      else
        match ys[index]? with
        | some old =>
          match rpc_release_impl (r.1.set array (some { o with ro_value := .array ys })) (some old) with
          | .ok (h1, _) =>
            match h1[array]? with
            | some (some o1) =>
              match o1.ro_value with
              | .array zs => .ok (h1.set array (some { o1 with ro_value := .array (zs.set index value) }))
              | _ => .fault .dead_object
            | _ => .fault .dead_object
          | .fault k => .fault k
          | .fuel => .fuel
        | none => .fault (.pack .array_overrun)
    | _ => .fault .abort
  | _ => .fault .dead_object

/-- `rpc_dictionary_steal_value (dictionary, key, value)`, that is
`g_hash_table_insert`: a new key adds an entry; for a key that is present the
value is replaced and the old value is passed to the value destroy function,
`rpc_release_impl`. -/
def rpc_dictionary_steal_value (h : heap) (dictionary : Nat) (key : String) (value : Nat) :
    outcome heap :=
  match h[dictionary]? with
  | some (some o) =>
    match o.ro_value with
    | .dictionary kv =>
      match kv.find? (fun e => e.1 = key) with
      | some old =>
        let kv1 := kv.map (fun e => if e.1 = key then (e.1, value) else e)
        match rpc_release_impl (h.set dictionary (some { o with ro_value := .dictionary kv1 }))
            (some old.2) with
        | .ok (h1, _) => .ok h1
        | .fault k => .fault k
        | .fuel => .fuel
      | none => .ok (h.set dictionary (some { o with ro_value := .dictionary (kv ++ [(key, value)]) }))
    | _ => .fault .abort
  | _ => .fault .dead_object

/-- One entry of the variadic stream of `rpc_object_vpack`; an object is passed
as its address, NULL being `none`. -/
inductive pack_arg where
  | obj (object : Option Nat) : pack_arg
  | bool (b : Bool) : pack_arg
  | blob (bytes : List Nat) (copy : Bool) : pack_arg
  | fd (n : Int) : pack_arg
  | int64 (i : Int) : pack_arg
  | uint64 (u : Nat) : pack_arg
  | double (bits : Nat) : pack_arg
  | str (s : Option String) : pack_arg

/-- Local state of `rpc_object_vpack` with the heap: `stack` and `keys` are the
two queues listed from the tail, `container` is the head of `stack`, and
`current` keeps its value from one iteration to the next. -/
structure pack_state where
  h : heap
  stack : List Nat
  keys : List (Option String)
  type : Option String
  idx : Nat
  ap : List pack_arg
  current : Option Nat

/-- Outcome of `rpc_object_vpack` with the heap it leaves: the returned pointer
with `errno` untouched, NULL with `errno = EINVAL`, undefined behaviour, or an
exhausted step budget. -/
inductive vpack_result where
  | ret (h : heap) (current : Option Nat) : vpack_result
  | einval (h : heap) : vpack_result
  | fault (k : fault_kind) : vpack_result
  | fuel : vpack_result

/-- Outcome of a part of an iteration that can leave the loop: the call ends,
or control goes to the `error:` label with the state reached. -/
inductive exit where
  | done (r : vpack_result) : exit
  | error (st : pack_state) : exit

/-- The `error:` label (lines 832-838): `rpc_release (current)`; the two queues
are freed, `stack` with `g_queue_free`, which does not touch the containers it
lists; `errno = EINVAL`; NULL is returned. -/
def vpack_error (st : pack_state) : vpack_result :=
  match rpc_release st.h st.current with
  | .ok h1 => .einval h1
  | .fault k => .fault k
  | .fuel => .fuel

/-- `rpc_get_type (container) == RPC_TYPE_ARRAY`. -/
def is_array (h : heap) (container : Nat) : Option Bool :=
  match h[container]? with
  | some (some o) =>
    match o.ro_value with
    | .array _ => some true
    | _ => some false
  | _ => none

/-- `rpc_array_get_count (container)` on an array. -/
def rpc_array_get_count (h : heap) (array : Nat) : Nat :=
  match h[array]? with
  | some (some o) =>
    match o.ro_value with
    | .array xs => xs.length
    | _ => 0
  | _ => 0

/-- Lines 659-728, as in `librpc.vpack_lookahead` (a key from the stream is
copied by `g_strdup`), reading the tag and the count of the container from the
heap. -/
def vpack_lookahead (fmt : List Char) (container : Nat) (ptr : Nat) (st : pack_state) :
    Except exit (Char × Nat × pack_state) :=
  match is_array st.h container with
  | none => .error (.done (.fault .dead_object))
  | some arr =>
    match vpack_scan fmt (fmt.length + 2 - ptr) ptr none with
    | none => .error (.done (.fault (.pack .fmt_overrun)))
    | some (search_ptr, comma_ptr, colon_ptr) =>
      let st1 : Except exit pack_state :=
        if arr then
          match colon_ptr with
          | some cp =>
            let r := strtol (fmt.drop ptr)
            if ptr + r.2 ≠ cp then .error (.error st)
            else .ok { st with idx := (r.1 % 2 ^ 64).toNat }
          | none => .ok { st with idx := rpc_array_get_count st.h container }
        else
          match colon_ptr with
          | some cp => .ok { st with keys := some (g_strndup fmt ptr (cp - ptr)) :: st.keys }
          | none =>
            match st.ap with
            | .str k :: ap => .ok { st with keys := k.map c_str :: st.keys, ap := ap }
            | _ => .error (.done (.fault (.pack .va_arg)))
      match st1 with
      | .error e => .error e
      | .ok st2 =>
        let d := if arr then ']' else '}'
        let at_search := (fmt_at fmt search_ptr).getD (Char.ofNat 0)
        let before := (fmt_at fmt (search_ptr - 1)).getD (Char.ofNat 0)
        if comma_ptr = none ∧ at_search ≠ d then .ok (at_search, search_ptr, st2)
        else if comma_ptr = none ∧ at_search = d then .ok (before, search_ptr - 1, st2)
        else .ok (before, search_ptr, st2)

/-- Result of the `switch` of lines 730-801: `current` has been set, or the
loop continues behind `ptr`, or the call leaves the loop. -/
inductive token_result where
  | value (st : pack_state) : token_result
  | next (ptr : Nat) (st : pack_state) : token_result
  | leave (e : exit) : token_result

/-- A scalar case of the switch: `current` becomes a new object of count 1. -/
def vpack_create (st : pack_state) (val : rpc_value) (ap : List pack_arg) : pack_state :=
  let r := rpc_prim_create st.h val
  { st with h := r.1, current := some r.2, ap := ap }

/-- The `switch (ch)` of lines 730-801; the reads of the cases `b` and `B` are
undefined, as in `librpc.vpack_token`. -/
def vpack_token (fmt : List Char) (ch : Char) (ptr : Nat) (st : pack_state) : token_result :=
  if ch = 'v' then
    match st.ap with
    | .obj o :: ap => .value { st with current := o, ap := ap }
    | _ => .leave (.done (.fault (.pack .va_arg)))
  else if ch = 'n' then .value (vpack_create st .null st.ap)
  else if ch = 'b' then .leave (.done (.fault (.pack .va_arg)))
  else if ch = 'B' then .leave (.done (.fault (.pack .va_arg)))
  else if ch = 'f' then
    match st.ap with
    | .fd n :: ap => .value (vpack_create st (.fd n) ap)
    | _ => .leave (.done (.fault (.pack .va_arg)))
  else if ch = 'i' then
    match st.ap with
    | .int64 i :: ap => .value (vpack_create st (.int64 i) ap)
    | _ => .leave (.done (.fault (.pack .va_arg)))
  else if ch = 'u' then
    match st.ap with
    | .uint64 u :: ap => .value (vpack_create st (.uint64 u) ap)
    | _ => .leave (.done (.fault (.pack .va_arg)))
  else if ch = 'd' then
    match st.ap with
    | .double bits :: ap => .value (vpack_create st (.double bits) ap)
    | _ => .leave (.done (.fault (.pack .va_arg)))
  else if ch = 's' then
    match st.ap with
    | .str (some s) :: ap => .value (vpack_create st (.string (c_str s)) ap)
    | .str none :: ap => .value (vpack_create st .null ap)
    | _ => .leave (.done (.fault (.pack .va_arg)))
  else if ch = '<' then
    match vpack_skip_type fmt (fmt.length + 2 - ptr) ptr 1 with
    | none => .leave (.done (.fault (.pack .fmt_overrun)))
    | some p => .next p { st with type := some (g_strndup fmt (ptr + 1) (p - (ptr + 1))) }
  else if ch = '{' then
    let r := rpc_prim_create st.h (.dictionary [])
    .next ptr { st with h := r.1, stack := r.2 :: st.stack }
  else if ch = '[' then
    let r := rpc_prim_create st.h (.array [])
    .next ptr { st with h := r.1, stack := r.2 :: st.stack }
  else if ch = '}' ∨ ch = ']' then
    .value { st with current := st.stack.head?, stack := st.stack.tail }
  else .leave (.error st)

/-- Lines 803-810: with a type pending, `current = rpct_new (type, NULL,
current)`, and a NULL result goes to the `error:` label. -/
def vpack_typed (rpct_new : String → heap → Option Nat → heap × Option Nat)
    (st : pack_state) : Except exit pack_state :=
  match st.type with
  | some t =>
    let r := rpct_new t st.h st.current
    match r.2 with
    | none => .error (.error { st with h := r.1, current := none })
    | some o => .ok { st with h := r.1, current := some o, type := none }
  | none => .ok st

/-- Lines 812-830: steal `current` into the open container, under the key from
the tail of `keys` or at `idx`; with no container open, return `current`. -/
def vpack_put (st : pack_state) : Except exit pack_state :=
  match st.stack with
  | [] => .error (.done (.ret st.h st.current))
  | container :: _ =>
    match st.current with
    | none => .error (.done (.fault (.pack .null_element)))
    | some v =>
      match is_array st.h container with
      | none => .error (.done (.fault .dead_object))
      | some false =>
        match st.keys with
        | some key :: keys =>
          match rpc_dictionary_steal_value st.h container key v with
          | .ok h1 => .ok { st with h := h1, keys := keys }
          | .fault k => .error (.done (.fault k))
          | .fuel => .error (.done .fuel)
        | _ => .error (.done (.fault (.pack .null_key)))
      | some true =>
        match rpc_array_steal_value st.h container st.idx v with
        | .ok h1 => .ok { st with h := h1 }
        | .fault k => .error (.done (.fault k))
        | .fuel => .error (.done .fuel)

/-- Outcome of one iteration of the `for` loop. -/
inductive iter_result where
  | leave (e : exit) : iter_result
  | again (ptr : Nat) (st : pack_state) : iter_result

/-- One pass through the `for` loop of lines 649-830; at the terminator the
loop ends and control falls into the `error:` label. -/
def vpack_iter (rpct_new : String → heap → Option Nat → heap × Option Nat) (fmt : List Char)
    (ptr : Nat) (st : pack_state) : iter_result :=
  match fmt_at fmt ptr with
  | none => .leave (.done (.fault (.pack .fmt_overrun)))
  | some c =>
    if c = Char.ofNat 0 then .leave (.error st)
    else
      let sel : Except exit (Char × Nat × pack_state) :=
        match st.stack with
        | container :: _ =>
          match is_array st.h container with
          | none => .error (.done (.fault .dead_object))
          | some arr =>
            if c ≠ (if arr then ']' else '}') then vpack_lookahead fmt container ptr st
            else .ok (c, ptr, st)
        | [] => .ok (c, ptr, st)
      match sel with
      | .error e => .leave e
      | .ok (ch, ptr1, st1) =>
        match vpack_token fmt ch ptr1 st1 with
        | .leave e => .leave e
        | .next ptr2 st2 => .again (ptr2 + 1) st2
        | .value st2 =>
          match vpack_typed rpct_new st2 with
          | .error e => .leave e
          | .ok st3 =>
            match vpack_put st3 with
            | .error e => .leave e
            | .ok st4 => .again (ptr1 + 1) st4

/-- The `for` loop of lines 649-830 followed by the `error:` label, bounded by a
step budget. -/
def vpack_loop (rpct_new : String → heap → Option Nat → heap × Option Nat) (fmt : List Char) :
    Nat → Nat → pack_state → vpack_result
  | 0, _, _ => .fuel
  | fuel + 1, ptr, st =>
    match vpack_iter rpct_new fmt ptr st with
    | .leave (.done r) => r
    | .leave (.error st1) => vpack_error st1
    | .again ptr1 st1 => vpack_loop rpct_new fmt fuel ptr1 st1

/-- The entry point `rpc_object_vpack (fmt, ap)` run on the heap `h`. -/
def rpc_object_vpack (rpct_new : String → heap → Option Nat → heap × Option Nat)
    (h : heap) (fmt : List Char) (ap : List pack_arg) : vpack_result :=
  vpack_loop rpct_new fmt (fmt.length + 1) 0
    { h := h, stack := [], keys := [], type := none, idx := 0, ap := ap, current := none }

/-- An `rpct_new` that knows no type: it returns NULL and leaves the heap. -/
def rpct_none : String → heap → Option Nat → heap × Option Nat :=
  fun _ h _ => (h, none)

end mem

/-! ## Equality, dictionary accessors and the socket listener -/

/-- `rpc_equal` (lines 530-535): equality of the two hashes. -/
def rpc_equal (env : host) (o1 o2 : rpc_object) : Bool :=
  decide (rpc_hash env o1 = rpc_hash env o2)

/-- `rpc_array_get_count` on the element list. -/
def rpc_array_get_count (xs : List rpc_object) : Nat :=
  xs.length

/-- `rpc_dictionary_get_value` on the entries: `g_hash_table_lookup`. -/
def rpc_dictionary_get_value (kv : List (String × rpc_object)) (key : String) :
    Option rpc_object :=
  dict_lookup kv key

/-- The fields of a `SoupURI` that `socket_parse_uri` reads; a `char *` may be NULL. -/
structure SoupURI where
  scheme : Option String
  host : Option String
  port : Nat
  path : Option String

/-- A `GSocketAddress` as the call that made it. -/
inductive GSocketAddress where
  | inet (host : Option String) (port : Nat) : GSocketAddress
  | unix (path : Option String) : GSocketAddress

/-- The library calls of `socket_parse_uri`: `soup_uri_new` and the two address
constructors, each of which may return NULL. -/
structure gio where
  soup_uri_new : String → Option SoupURI
  g_inet_socket_address_new_from_string : Option String → Nat → Option GSocketAddress
  g_unix_socket_address_new : Option String → Option GSocketAddress

/-- What a function of return type `int` hands to its caller: a value; nothing,
when control reaches the closing brace without a `return`; or undefined
behaviour before that. -/
inductive int_result where
  | ret (n : Int) : int_result
  | no_return : int_result
  | fault : int_result

/-- `socket_parse_uri` (lines 71-91): the address for the schemes `tcp` and
`unix`, NULL for any other scheme; the outer `none` is the read of `uri->scheme`
through a NULL `uri`. -/
def socket_parse_uri (env : gio) (uri_string : String) : Option (Option GSocketAddress) :=
  match env.soup_uri_new uri_string with
  | none => none
  | some uri =>
    if uri.scheme = some "tcp" then
      some (env.g_inet_socket_address_new_from_string uri.host uri.port)
    else if uri.scheme = some "unix" then some (env.g_unix_socket_address_new uri.path)
    else some none

/-- `socket_connect` (lines 93-121), as far as its return value goes. -/
def socket_connect (env : gio) (uri : String) : int_result :=
  match socket_parse_uri env uri with
  | none => .fault
  | some none => .ret (-1)
  | some (some _) => .ret 0

/-- `socket_listen` (lines 123-141): `return (NULL)`, which is 0 as an `int`, when
no address is derived; after adding the address the function ends without a
`return` statement. -/
def socket_listen (env : gio) (uri : String) : int_result :=
  match socket_parse_uri env uri with
  | none => .fault
  | some none => .ret 0
  | some (some _) => .no_return

/-- Library calls for closed statements: the scheme of a URI is the text before
its first colon, the rest is host and path at once; every address is made. -/
def gio_plain : gio :=
  { soup_uri_new := fun s =>
      let scheme := s.toList.takeWhile (fun c => c ≠ ':')
      let rest := String.mk (s.toList.drop (scheme.length + 1))
      some { scheme := some (String.mk scheme), host := some rest, port := 0,
             path := some rest },
    g_inet_socket_address_new_from_string := fun h p => some (.inet h p),
    g_unix_socket_address_new := fun p => some (.unix p) }

/-! ## Descriptions -/

/-- The formatting that `rpc_create_description` leaves to libc and GLib: `%f` of
a double given as its bit pattern, `g_date_time_format (..., "%F %T")` of a date
given in seconds, and `strerror`. -/
structure printer where
  printf_f : Nat → String
  g_date_time_format : Int → String
  strerror : Int → String

/-- The conversion `%*s` with the empty string: the `unsigned` width is read as an
`int`, and a negative width pads to its absolute value. -/
def printf_pad (width : Nat) : String :=
  String.mk (List.replicate (to_int width).natAbs ' ')

/-- The conversions `%d` and `%PRId64`. -/
def printf_d (i : Int) : String :=
  if i < 0 then "-" ++ Nat.repr i.natAbs else Nat.repr i.toNat

/-- The conversion `%02x` of a byte. -/
def printf_02x (b : Nat) : String :=
  String.mk [Nat.digitChar (b / 16 % 16), Nat.digitChar (b % 16)]

/-- The names of `rpc_types` (lines 48-64). -/
def rpc_types (t : rpc_type_t) : String :=
  match t with
  | .RPC_TYPE_NULL => "null"
  | .RPC_TYPE_BOOL => "bool"
  | .RPC_TYPE_UINT64 => "uint64"
  | .RPC_TYPE_INT64 => "int64"
  | .RPC_TYPE_DOUBLE => "double"
  | .RPC_TYPE_DATE => "date"
  | .RPC_TYPE_STRING => "string"
  | .RPC_TYPE_BINARY => "binary"
  | .RPC_TYPE_FD => "fd"
  | .RPC_TYPE_DICTIONARY => "dictionary"
  | .RPC_TYPE_ARRAY => "array"
  | .RPC_TYPE_SHMEM => "shmem"
  | .RPC_TYPE_ERROR => "error"

/-- The text in front of the payload (lines 102-112): the indentation of an
object that is not nested, then the tag name in angle brackets and a blank. -/
def description_head (object : rpc_object) (indent_lvl : Nat) (nested : Bool) : String :=
  (if indent_lvl > 0 ∧ nested = false then printf_pad ((indent_lvl * 4) % 2 ^ 32) else "")
    ++ "<" ++ rpc_types (rpc_get_type object) ++ "> "

/-- The text behind the payload (lines 238-239). -/
def description_tail (nested : Bool) : String :=
  if nested then "" else "\n"

mutual
/-- The text that `rpc_create_description (description, object, indent_lvl,
nested)` appends for a non-NULL object (lines 93-240).  For the null object the
blank after the tag name is taken off again. -/
def rpc_create_description (env : printer) : rpc_object → Nat → Bool → String
  | .null, indent_lvl, nested =>
    (if indent_lvl > 0 ∧ nested = false then printf_pad ((indent_lvl * 4) % 2 ^ 32) else "")
      ++ "<null>" ++ description_tail nested
  | .bool b, indent_lvl, nested =>
    description_head (.bool b) indent_lvl nested ++ (if b then "true" else "false")
      ++ description_tail nested
  | .int64 i, indent_lvl, nested =>
    description_head (.int64 i) indent_lvl nested ++ printf_d i ++ description_tail nested
  | .fd n, indent_lvl, nested =>
    description_head (.fd n) indent_lvl nested ++ Nat.repr (n % 2 ^ 32).toNat
      ++ description_tail nested
  | .uint64 u, indent_lvl, nested =>
    description_head (.uint64 u) indent_lvl nested ++ Nat.repr u ++ description_tail nested
  | .double bits, indent_lvl, nested =>
    description_head (.double bits) indent_lvl nested ++ env.printf_f bits
      ++ description_tail nested
  | .date secs, indent_lvl, nested =>
    description_head (.date secs) indent_lvl nested ++ env.g_date_time_format secs
      ++ description_tail nested
  | .string s, indent_lvl, nested =>
    description_head (.string s) indent_lvl nested ++ "\"" ++ c_str s ++ "\""
      ++ description_tail nested
  | .binary bytes copy, indent_lvl, nested =>
    description_head (.binary bytes copy) indent_lvl nested
      ++ String.join ((bytes.take (min bytes.length 16)).map printf_02x)
      ++ (if min bytes.length 16 < bytes.length then "..." else "")
      ++ description_tail nested
  | .error code msg extra stack, indent_lvl, nested =>
    description_head (.error code msg extra stack) indent_lvl nested ++ "\x7b\n"
      ++ printf_pad (((indent_lvl + 1) % 2 ^ 32 * 4) % 2 ^ 32) ++ "code: " ++ printf_d code
      ++ " [" ++ env.strerror code ++ "]\n"
      ++ printf_pad (((indent_lvl + 1) % 2 ^ 32 * 4) % 2 ^ 32) ++ "message: \"" ++ c_str msg
      ++ "\"\n"
      ++ printf_pad (((indent_lvl + 1) % 2 ^ 32 * 4) % 2 ^ 32) ++ "extra: "
      ++ rpc_create_description env extra ((indent_lvl + 1) % 2 ^ 32) true ++ "\n"
      ++ printf_pad (((indent_lvl + 1) % 2 ^ 32 * 4) % 2 ^ 32) ++ "stack: "
      ++ rpc_create_description env stack ((indent_lvl + 1) % 2 ^ 32) true ++ "\n\x7d"
      ++ description_tail nested
  | .shmem fd off size, indent_lvl, nested =>
    description_head (.shmem fd off size) indent_lvl nested ++ "shared memory"
      ++ description_tail nested
  | .dictionary kv, indent_lvl, nested =>
    description_head (.dictionary kv) indent_lvl nested ++ "\x7b\n"
      ++ description_entries env kv ((indent_lvl + 1) % 2 ^ 32)
      ++ (if indent_lvl > 0 then printf_pad ((indent_lvl * 4) % 2 ^ 32) else "") ++ "\x7d"
      ++ description_tail nested
  | .array xs, indent_lvl, nested =>
    description_head (.array xs) indent_lvl nested ++ "[\n"
      ++ description_elements env xs 0 ((indent_lvl + 1) % 2 ^ 32)
      ++ (if indent_lvl > 0 then printf_pad ((indent_lvl * 4) % 2 ^ 32) else "") ++ "]"
      ++ description_tail nested
/-- The applier of lines 217-229 run over the elements from index `idx`. -/
def description_elements (env : printer) : List rpc_object → Nat → Nat → String
  | [], _, _ => ""
  | v :: vs, idx, local_indent_lvl =>
    printf_pad ((local_indent_lvl * 4) % 2 ^ 32) ++ Nat.repr (idx % 2 ^ 32) ++ ": "
      ++ rpc_create_description env v local_indent_lvl true ++ ",\n"
      ++ description_elements env vs (idx + 1) local_indent_lvl
/-- The applier of lines 198-205 run over the entries in iteration order. -/
def description_entries (env : printer) : List (String × rpc_object) → Nat → String
  | [], _ => ""
  | (k, v) :: rest, local_indent_lvl =>
    printf_pad ((local_indent_lvl * 4) % 2 ^ 32) ++ c_str k ++ ": "
      ++ rpc_create_description env v local_indent_lvl true ++ ",\n"
      ++ description_entries env rest local_indent_lvl
end

/-- `g_string_truncate (description, description->len - 1)`. -/
def truncate_last (s : String) : String :=
  String.mk s.toList.dropLast

/-- `rpc_copy_description` (lines 603-613): the description at indentation 0, not
nested, without its last character; a NULL object is described as `<null>`. -/
def rpc_copy_description (env : printer) (object : Option rpc_object) : String :=
  match object with
  | none => truncate_last "<null>\n"
  | some o => truncate_last (rpc_create_description env o 0 false)

/-- A printer for closed statements: no text for doubles, dates and error codes. -/
def printer_none : printer :=
  { printf_f := fun _ => "", g_date_time_format := fun _ => "", strerror := fun _ => "" }

/-! ## The reply state machine of a call record -/

/-- Modelled from the spec: a Value with its optional back-pointer to a type
instance, the instance being named by its canonical form string.  A `leaf` holds
a value that is neither an array nor a dictionary. -/
inductive typed_object where
  | leaf (typei : Option String) (o : rpc_object) : typed_object
  | array (typei : Option String) (xs : List typed_object) : typed_object
  | dictionary (typei : Option String) (kv : List (String × typed_object)) : typed_object

mutual
/-- The Value under the type annotations. -/
def typed_object.value : typed_object → rpc_object
  | .leaf _ o => o
  | .array _ xs => .array (typed_object.values xs)
  | .dictionary _ kv => .dictionary (typed_object.entry_values kv)
/-- The Values of a list of elements. -/
def typed_object.values : List typed_object → List rpc_object
  | [] => []
  | x :: xs => x.value :: typed_object.values xs
/-- The Values of a list of entries. -/
def typed_object.entry_values : List (String × typed_object) → List (String × rpc_object)
  | [] => []
  | (k, x) :: rest => (k, x.value) :: typed_object.entry_values rest
end

/-- The wrapper that serialisation puts around a typed Value: a dictionary with
the keys `RPCT_TYPE_FIELD` and `RPCT_VALUE_FIELD` of `typing.h`. -/
def rpct_wrap (typei : Option String) (payload : rpc_object) : rpc_object :=
  match typei with
  | some t => .dictionary [("%type", .string t), ("%value", payload)]
  | none => payload

mutual
/-- Modelled from the spec: `rpct_serialize`, declared in `include/rpc/typing.h`
and defined outside these sources: "every Value carrying a Type-Instance is
replaced by a DICT with two reserved keys: %type (canonical form string) and
%value (the original payload, recursed)". -/
def rpct_serialize : typed_object → rpc_object
  | .leaf typei o => rpct_wrap typei o
  | .array typei xs => rpct_wrap typei (.array (rpct_serialize_elements xs))
  | .dictionary typei kv => rpct_wrap typei (.dictionary (rpct_serialize_entries kv))
/-- The serialisation of the elements of an array. -/
def rpct_serialize_elements : List typed_object → List rpc_object
  | [] => []
  | x :: xs => rpct_serialize x :: rpct_serialize_elements xs
/-- The serialisation of the entries of a dictionary. -/
def rpct_serialize_entries : List (String × typed_object) → List (String × rpc_object)
  | [] => []
  | (k, x) :: rest => (k, rpct_serialize x) :: rpct_serialize_entries rest
end

/-- Attach a type instance to a Value. -/
def typed_object.attach (t : String) (x : typed_object) : typed_object :=
  match x with
  | .leaf _ o => .leaf (some t) o
  | .array _ xs => .array (some t) xs
  | .dictionary _ kv => .dictionary (some t) kv

/-- The value of a key among deserialised entries. -/
def typed_lookup (es : List (String × typed_object)) (key : String) : Option typed_object :=
  match es with
  | [] => none
  | (k, x) :: rest => if k = key then some x else typed_lookup rest key

/-- The step of deserialisation at a dictionary whose entries are deserialised:
without the key `%type` it is a plain dictionary; with it, the type is looked
up, and the Value under `%value` gets the type instance attached.  `none` is the
error result for a type that is missing or unknown. -/
def rpct_unwrap (registered : String → Bool) (es : List (String × typed_object)) :
    Option typed_object :=
  match typed_lookup es "%type" with
  | none => some (.dictionary none es)
  | some (.leaf none (.string t)) =>
    if registered t then
      match typed_lookup es "%value" with
      | some payload => some (payload.attach t)
      | none => none
    else none
  | some _ => none

mutual
/-- Modelled from the spec: `rpct_deserialize`, declared in
`include/rpc/typing.h` and defined outside these sources: it "inverts the
transform, looking up each %type string, constructing a Value of the payload,
attaching the Type-Instance. A missing or unknown %type causes a typed error
result" (`none`). -/
def rpct_deserialize (registered : String → Bool) : rpc_object → Option typed_object
  | .array xs =>
    match rpct_deserialize_elements registered xs with
    | none => none
    | some ys => some (.array none ys)
  | .dictionary kv =>
    match rpct_deserialize_entries registered kv with
    | none => none
    | some es => rpct_unwrap registered es
  | .null => some (.leaf none .null)
  | .bool b => some (.leaf none (.bool b))
  | .uint64 u => some (.leaf none (.uint64 u))
  | .int64 i => some (.leaf none (.int64 i))
  | .double bits => some (.leaf none (.double bits))
  | .date secs => some (.leaf none (.date secs))
  | .string s => some (.leaf none (.string s))
  | .binary bytes copy => some (.leaf none (.binary bytes copy))
  | .fd n => some (.leaf none (.fd n))
  | .shmem fd off size => some (.leaf none (.shmem fd off size))
  | .error code msg extra stack => some (.leaf none (.error code msg extra stack))
/-- The deserialisation of the elements of an array. -/
def rpct_deserialize_elements (registered : String → Bool) :
    List rpc_object → Option (List typed_object)
  | [] => some []
  | o :: os =>
    match rpct_deserialize registered o, rpct_deserialize_elements registered os with
    | some x, some xs => some (x :: xs)
    | _, _ => none
/-- The deserialisation of the entries of a dictionary. -/
def rpct_deserialize_entries (registered : String → Bool) :
    List (String × rpc_object) → Option (List (String × typed_object))
  | [] => some []
  | (k, o) :: rest =>
    match rpct_deserialize registered o, rpct_deserialize_entries registered rest with
    | some x, some xs => some ((k, x) :: xs)
    | _, _ => none
end

/-- Neither an array nor a dictionary. -/
def is_leaf_value (o : rpc_object) : Bool :=
  match o with
  | .array _ => false
  | .dictionary _ => false
  | _ => true

/-- An attached type instance is registered. -/
def typei_registered (registered : String → Bool) (typei : Option String) : Bool :=
  match typei with
  | some t => registered t
  | none => true

mutual
/-- The Values of the round trip: every attached type instance is registered, a
leaf is neither an array nor a dictionary, and no dictionary uses the reserved
key `%type`. -/
def serializable (registered : String → Bool) : typed_object → Bool
  | .leaf typei o => typei_registered registered typei && is_leaf_value o
  | .array typei xs => typei_registered registered typei && serializable_elements registered xs
  | .dictionary typei kv =>
    typei_registered registered typei && serializable_entries registered kv
/-- The elements of an array are serialisable. -/
def serializable_elements (registered : String → Bool) : List typed_object → Bool
  | [] => true
  | x :: xs => serializable registered x && serializable_elements registered xs
/-- The entries of a dictionary are serialisable and none has the key `%type`. -/
def serializable_entries (registered : String → Bool) : List (String × typed_object) → Bool
  | [] => true
  | (k, x) :: rest =>
    decide (k ≠ "%type") && serializable registered x && serializable_entries registered rest
end

/-! ## Sequences of retains and releases -/

namespace mem

/-- Apply `rpc_release_impl` once to each object of a list, in order. -/
def release_each : heap → List (Option Nat) → outcome heap
  | h, [] => .ok h
  | h, c :: cs =>
    match rpc_release_impl h c with
    | .ok r => release_each r.1 cs
    | .fault k => .fault k
    | .fuel => .fuel

/-- Call `rpc_retain (object)` `n` times. -/
def retain_times : Nat → heap → Nat → outcome heap
  | 0, h, _ => .ok h
  | n + 1, h, object =>
    match rpc_retain h object with
    | .ok h1 => retain_times n h1 object
    | .fault k => .fault k
    | .fuel => .fuel

/-- Call `rpc_release_impl (object)` `n` times. -/
def release_times : Nat → heap → Nat → outcome heap
  | 0, h, _ => .ok h
  | n + 1, h, object =>
    match rpc_release_impl h (some object) with
    | .ok r => release_times n r.1 object
    | .fault k => .fault k
    | .fuel => .fuel

/-- The steps a cell can still cost a release: none once it is freed or its
count is not positive. -/
def weight (c : Option rpc_object) : Nat :=
  match c with
  | some o => if 1 ≤ o.ro_refcnt then (contained o.ro_value).length + 2 else 0
  | none => 0

/-- The steps the heap can still cost a release. -/
def potential (h : heap) : Nat :=
  (h.map weight).sum

end mem

/-! ## Copies on the heap -/

namespace mem

/-- `rpc_string_create` on the heap: the null object for a NULL pointer. -/
def rpc_string_create (h : heap) (s : Option String) : heap × Nat :=
  match s with
  | none => rpc_prim_create h .null
  | some t => rpc_prim_create h (.string (c_str t))

/-- `rpc_error_create (code, msg, extra)` (lines 1206-1227): a NULL `extra` is
replaced by a new null object, another one is retained; the stack is a new
string made from the backtrace. -/
def rpc_error_create (env : host) (h : heap) (code : Int) (msg : String) (extra : Option Nat) :
    outcome (heap × Nat) :=
  let r1 : outcome (heap × Nat) :=
    match extra with
    | none => .ok (rpc_prim_create h .null)
    | some e =>
      match rpc_retain h e with
      | .ok h1 => .ok (h1, e)
      | .fault k => .fault k
      | .fuel => .fuel
  match r1 with
  | .ok r =>
    let r2 := rpc_string_create r.1 env.rpc_get_backtrace
    .ok (rpc_prim_create r2.1 (.error code (c_str msg) (some r.2) (some r2.2)))
  | .fault k => .fault k
  | .fuel => .fuel

/-- The applier of lines 511-514 run over the elements from index `idx`: each
copy is stolen into `tmp`. -/
def copy_elements (copy : heap → Nat → outcome (heap × Nat)) :
    List Nat → Nat → heap → Nat → outcome heap
  | [], _, h, _ => .ok h
  | v :: vs, idx, h, tmp =>
    match copy h v with
    | .ok r =>
      match rpc_array_steal_value r.1 tmp idx r.2 with
      | .ok h2 => copy_elements copy vs (idx + 1) h2 tmp
      | .fault k => .fault k
      | .fuel => .fuel
    | .fault k => .fault k
    | .fuel => .fuel

/-- The applier of lines 503-506 run over the entries: each copy is stolen into
`tmp` under the key. -/
def copy_entries (copy : heap → Nat → outcome (heap × Nat)) :
    List (String × Nat) → heap → Nat → outcome heap
  | [], h, _ => .ok h
  | (k, v) :: rest, h, tmp =>
    match copy h v with
    | .ok r =>
      match rpc_dictionary_steal_value r.1 tmp (c_str k) r.2 with
      | .ok h2 => copy_entries copy rest h2 tmp
      | .fault k1 => .fault k1
      | .fuel => .fuel
    | .fault k1 => .fault k1
    | .fuel => .fuel

/-- `rpc_copy` (lines 454-519) on the heap, the recursion bounded by a depth
budget: every case makes a new object with `rpc_prim_create`. -/
def rpc_copy (env : host) : Nat → heap → Nat → outcome (heap × Nat)
  | 0, _, _ => .fuel
  | fuel + 1, h, object =>
    match h[object]? with
    | some (some o) =>
      match o.ro_value with
      | .null => .ok (rpc_prim_create h .null)
      | .bool b => .ok (rpc_prim_create h (.bool b))
      | .int64 i => .ok (rpc_prim_create h (.int64 i))
      | .uint64 u => .ok (rpc_prim_create h (.uint64 u))
      | .date secs => .ok (rpc_prim_create h (.date secs))
      | .double bits => .ok (rpc_prim_create h (.double bits))
      | .fd n => .ok (rpc_prim_create h (.fd (env.dup n)))
      | .string s => .ok (rpc_prim_create h (.string (c_str s)))
      | .binary bytes _ => .ok (rpc_prim_create h (.binary bytes true))
      | .shmem fd off size => .ok (rpc_prim_create h (.shmem (env.dup fd) off size))
      | .error code msg extra _ =>
        match extra with
        | none => .fault .dead_object
        | some e =>
          match rpc_copy env fuel h e with
          | .ok r => rpc_error_create env r.1 code msg (some r.2)
          | .fault k => .fault k
          | .fuel => .fuel
      | .dictionary kv =>
        let r := rpc_prim_create h (.dictionary [])
        match copy_entries (rpc_copy env fuel) kv r.1 r.2 with
        | .ok h1 => .ok (h1, r.2)
        | .fault k => .fault k
        | .fuel => .fuel
      | .array xs =>
        let r := rpc_prim_create h (.array [])
        match copy_elements (rpc_copy env fuel) xs 0 r.1 r.2 with
        | .ok h1 => .ok (h1, r.2)
        | .fault k => .fault k
        | .fuel => .fuel
    | _ => .fault .dead_object

/-- From address `n` on, the live objects contain objects at address `n` or
later only. -/
def fresh_from (n : Nat) (h : heap) : Prop :=
  ∀ j o, n ≤ j → h[j]? = some (some o) → ∀ q, some q ∈ contained o.ro_value → n ≤ q

/-- The heap `h1` is not shorter than `h0`, has every cell below `n` as it is in
`h0`, and is `fresh_from n`. -/
def grows (n : Nat) (h0 h1 : heap) : Prop :=
  h0.length ≤ h1.length ∧ fresh_from n h1 ∧ ∀ j, j < n → h1[j]? = h0[j]?

/-- A pending step on an object at address `n` or later. -/
def work.above (n : Nat) : work → Prop
  | .release (some a) => n ≤ a
  | .release none => True
  | .free a => n ≤ a

/-- The object at `a` is live and so is what it contains, down to `depth`
levels; the keys of a dictionary are distinct as C strings, as the keys of a
`GHashTable` of C strings are, and an error holds its `extra`, which
`rpc_error_create` never leaves NULL. -/
def well_formed : Nat → heap → Nat → Bool
  | 0, _, _ => false
  | depth + 1, h, a =>
    match h[a]? with
    | some (some o) =>
      match o.ro_value with
      | .array xs => xs.all (fun x => well_formed depth h x)
      | .dictionary kv =>
        decide ((kv.map (fun e => c_str e.1)).Nodup) && kv.all (fun e => well_formed depth h e.2)
      | .error _ _ extra _ =>
        match extra with
        | some x => well_formed depth h x
        | none => false
      | _ => true
    | _ => false

end mem

/-! ## Array stores, appliers, typed getters and comparisons -/

/-- `rpc_array_remove_index` on the element list (lines 1357-1367): nothing for
an index behind the last element, else `g_ptr_array_remove_index (list,
(guint)index)`, which takes the element out and moves the following ones down
one place. -/
def rpc_array_remove_index (xs : List rpc_object) (index : Nat) : List rpc_object :=
  if index ≥ rpc_array_get_count xs then xs else xs.eraseIdx (index % 2 ^ 32)

/-- `rpc_array_set_value` on the element list (lines 1320-1329): a NULL value
removes the index, another value is stored as by `rpc_array_steal_value` (and
retained). -/
def rpc_array_set_value (xs : List rpc_object) (index : Nat) (value : Option rpc_object) :
    Option (List rpc_object) :=
  match value with
  | none => some (rpc_array_remove_index xs index)
  | some v => rpc_array_steal_value xs index v

/-- The loop of `rpc_array_apply` (lines 1415-1420) over the elements from index
`i` on.  The applier is a block: it gets the state it has captured, the index
and the element, and gives the new state and its return value.  The result is
the state at the end and `flag`. -/
def rpc_array_apply_from {σ : Type} (applier : σ → Nat → rpc_object → σ × Bool) :
    List rpc_object → Nat → σ → σ × Bool
  | [], _, s => (s, false)
  | v :: vs, i, s =>
    let r := applier s i v
    if r.2 then rpc_array_apply_from applier vs (i + 1) r.1 else (r.1, true)

/-- `rpc_array_apply` (lines 1409-1423). -/
def rpc_array_apply {σ : Type} (applier : σ → Nat → rpc_object → σ × Bool)
    (xs : List rpc_object) (s : σ) : σ × Bool :=
  rpc_array_apply_from applier xs 0 s

/-- The loop of `rpc_array_reverse_apply` (lines 1452-1459): `i` runs down to 1
and the applier is called on `idx = i - 1`; `none` is a read outside the array. -/
def rpc_array_reverse_apply_from {σ : Type} (applier : σ → Nat → rpc_object → σ × Bool)
    (xs : List rpc_object) : Nat → σ → Option (σ × Bool)
  | 0, s => some (s, false)
  | i + 1, s =>
    match xs[i]? with
    | some v =>
      let r := applier s i v
      if r.2 then rpc_array_reverse_apply_from applier xs i r.1 else some (r.1, true)
    | none => none

/-- `rpc_array_reverse_apply` (lines 1445-1462): the loop starts at the length. -/
def rpc_array_reverse_apply {σ : Type} (applier : σ → Nat → rpc_object → σ × Bool)
    (xs : List rpc_object) (s : σ) : Option (σ × Bool) :=
  rpc_array_reverse_apply_from applier xs xs.length s

/-- `rpc_array_contains` (lines 1425-1443): false unless `array` is an array
(`rpc_get_type` of NULL is `RPC_TYPE_NULL`); the block sets `match` and stops at
the first element that is `rpc_equal` to `value`. -/
def rpc_array_contains (env : host) (array : Option rpc_object) (value : rpc_object) : Bool :=
  match array with
  | some (.array xs) =>
    (rpc_array_apply
      (fun (m : Bool) (_ : Nat) (v : rpc_object) =>
        if rpc_equal env v value then (true, false) else (m, true)) xs false).1
  | _ => false

/-- `rpc_array_get_int64` (lines 1564-1572): 0 for an index that is not below
`rpc_array_get_count (array)`, which is 0 for an object that is not an array;
`none` is the read through a NULL pointer in `rpc_int64_get_value`. -/
def rpc_array_get_int64 (array : rpc_object) (index : Nat) : Option Int :=
  let count :=
    match array with
    | .array xs => rpc_array_get_count xs
    | _ => 0
  if index ≥ count then some 0
  else
    match rpc_array_get_value array index with
    | some xint => some (rpc_int64_get_value xint)
    | none => none

/-- `rpc_dictionary_get_int64` (lines 1827-1834) on the entries. -/
def rpc_dictionary_get_int64 (kv : List (String × rpc_object)) (key : String) : Int :=
  match rpc_dictionary_get_value kv key with
  | some xint => rpc_int64_get_value xint
  | none => 0

/-- The libc `memcpy (dst, src + off, n)` from a source of known extent into the
memory at `dst`, given as the bytes from `dst` on: `none` when a byte outside the
source is read. -/
def memcpy (dst : Nat → Nat) (src : List Nat) (off n : Nat) : Option (Nat → Nat) :=
  if off + n ≤ src.length then some (fun k => if k < n then src.getD (off + k) 0 else dst k)
  else none

/-- `rpc_data_get_bytes` (lines 1013-1030): the number of bytes copied and the
memory at `buffer` after the call. -/
def rpc_data_get_bytes (xdata : rpc_object) (buffer : Nat → Nat) (off length : Nat) :
    Option (Nat × (Nat → Nat)) :=
  match xdata with
  | .binary bytes _ =>
    let xdata_length := bytes.length
    if off > xdata_length then some (0, buffer)
    else
      let cpy_size := min length (xdata_length - off)
      match memcpy buffer bytes off cpy_size with
      | some b => some (cpy_size, b)
      | none => none
  | _ => some (0, buffer)

/-- `rpc_cmp` (lines 521-528): both hashes are converted to `int` and subtracted;
the subtraction is taken in 32 bits, two's complement. -/
def rpc_cmp (env : host) (o1 o2 : rpc_object) : Int :=
  let h1 := to_int (rpc_hash env o1)
  let h2 := to_int (rpc_hash env o2)
  to_int ((h1 - h2) % 2 ^ 32).toNat

/-- `rpc_string_create_len (string, length)` (lines 1044-1051): `g_string_new_len`
keeps the `length` bytes at `string`, NUL bytes included; the bytes are given as
the text `s` that they spell. -/
def rpc_string_create_len (s : String) : rpc_object :=
  .string s

/-- `rpc_string_get_length` (lines 1077-1085): the `len` of the `GString`. -/
def rpc_string_get_length (xstring : rpc_object) : Nat :=
  match xstring with
  | .string s => (string_bytes s).length
  | _ => 0

/-- The state that an applier has after the calls `cs`, each given as the index
and the element it is called on, from the state `s`. -/
def state_after {σ : Type} (applier : σ → Nat → rpc_object → σ × Bool)
    (cs : List (Nat × rpc_object)) (s : σ) : σ :=
  cs.foldl (fun t c => (applier t c.1 c.2).1) s

/-- The result `r` (final state and flag) comes from calling the applier on the
calls `cs` in their order, from the state `s`, and stopping after the first
call that returns false: `k` calls are made, each but the last returns true,
the flag is true when the last call returned false, and a false flag means that
every call was made and returned true. -/
def calls_in_order {σ : Type} (applier : σ → Nat → rpc_object → σ × Bool)
    (cs : List (Nat × rpc_object)) (s : σ) (r : σ × Bool) : Prop :=
  ∃ k, k ≤ cs.length ∧
    r.1 = state_after applier (cs.take k) s ∧
    (∀ j c, j + 1 < k → cs[j]? = some c →
      (applier (state_after applier (cs.take j) s) c.1 c.2).2 = true) ∧
    (r.2 = true → ∃ j c, j + 1 = k ∧ cs[j]? = some c ∧
      (applier (state_after applier (cs.take j) s) c.1 c.2).2 = false) ∧
    (r.2 = false → k = cs.length ∧ ∀ j c, cs[j]? = some c →
      (applier (state_after applier (cs.take j) s) c.1 c.2).2 = true)

/-! ## Stores into containers in memory -/

namespace mem

/-- `rpc_array_append_stolen_value` (lines 1378-1386): `g_ptr_array_add`; the
count of `value` is not touched. -/
def rpc_array_append_stolen_value (h : heap) (array value : Nat) : outcome heap :=
  match h[array]? with
  | some (some o) =>
    match o.ro_value with
    | .array xs => .ok (h.set array (some { o with ro_value := .array (xs ++ [value]) }))
    | _ => .fault .abort
  | _ => .fault .dead_object

/-- `rpc_array_append_value` (lines 1370-1376): the stolen append, then
`rpc_retain (value)`. -/
def rpc_array_append_value (h : heap) (array value : Nat) : outcome heap :=
  match rpc_array_append_stolen_value h array value with
  | .ok h1 => rpc_retain h1 value
  | .fault k => .fault k
  | .fuel => .fuel

/-- `rpc_array_remove_index` (lines 1357-1367): nothing for an index behind the
last element, else `g_ptr_array_remove_index (list, (guint)index)`, which
passes the element to the free function of the array, `rpc_release_impl`, and
moves the following elements down one place. -/
def rpc_array_remove_index (h : heap) (array index : Nat) : outcome heap :=
  match h[array]? with
  | some (some o) =>
    match o.ro_value with
    | .array xs =>
      if index ≥ xs.length then .ok h
      else
        match xs[index % 2 ^ 32]? with
        | some old =>
          match rpc_release_impl h (some old) with
          | .ok (h1, _) =>
            match h1[array]? with
            | some (some o1) =>
              match o1.ro_value with
              | .array zs =>
                .ok (h1.set array (some { o1 with ro_value := .array (zs.eraseIdx (index % 2 ^ 32)) }))
              | _ => .fault .dead_object
            | _ => .fault .dead_object
          | .fault k => .fault k
          | .fuel => .fuel
        | none => .fault (.pack .array_overrun)
    | _ => .fault .abort
  | _ => .fault .dead_object

/-- `rpc_array_set_value` (lines 1320-1329): a NULL value removes the index;
another value is stored by `rpc_array_steal_value` and then retained. -/
def rpc_array_set_value (h : heap) (array index : Nat) (value : Option Nat) : outcome heap :=
  match value with
  | none => rpc_array_remove_index h array index
  | some v =>
    match rpc_array_steal_value h array index v with
    | .ok h1 => rpc_retain h1 v
    | .fault k => .fault k
    | .fuel => .fuel

/-- `rpc_dictionary_remove_key` (lines 1704-1711): `g_hash_table_remove` takes
the entry out and passes its value to the value destroy function,
`rpc_release_impl`. -/
def rpc_dictionary_remove_key (h : heap) (dictionary : Nat) (key : String) : outcome heap :=
  match h[dictionary]? with
  | some (some o) =>
    match o.ro_value with
    | .dictionary kv =>
      match kv.find? (fun e => e.1 = key) with
      | some old =>
        let kv1 := kv.filter (fun e => e.1 ≠ key)
        match rpc_release_impl (h.set dictionary (some { o with ro_value := .dictionary kv1 }))
            (some old.2) with
        | .ok (h1, _) => .ok h1
        | .fault k => .fault k
        | .fuel => .fuel
      | none => .ok h
    | _ => .fault .abort
  | _ => .fault .dead_object

/-- `rpc_dictionary_set_value` (lines 1680-1690): a NULL value removes the key;
another value is stored by `rpc_dictionary_steal_value`, which releases the
value it replaces, and only then retained. -/
def rpc_dictionary_set_value (h : heap) (dictionary : Nat) (key : String)
    (value : Option Nat) : outcome heap :=
  match value with
  | none => rpc_dictionary_remove_key h dictionary key
  | some v =>
    match rpc_dictionary_steal_value h dictionary key v with
    | .ok h1 => rpc_retain h1 v
    | .fault k => .fault k
    | .fuel => .fuel

/-- `rpc_dictionary_get_value` (lines 1713-1720): `g_hash_table_lookup`, NULL for
a key that is absent.  `rv_dict` is read without a check of the type, so an
object that is not a dictionary gives no live `GHashTable`. -/
def rpc_dictionary_get_value (h : heap) (dictionary : Nat) (key : String) :
    outcome (Option Nat) :=
  match h[dictionary]? with
  | some (some o) =>
    match o.ro_value with
    | .dictionary kv => .ok ((kv.find? (fun e => e.1 = key)).map Prod.snd)
    | _ => .fault .dead_object
  | _ => .fault .dead_object

/-- `rpc_dictionary_get_count` (lines 1722-1727): `g_hash_table_size`. -/
def rpc_dictionary_get_count (h : heap) (dictionary : Nat) : outcome Nat :=
  match h[dictionary]? with
  | some (some o) =>
    match o.ro_value with
    | .dictionary kv => .ok kv.length
    | _ => .fault .dead_object
  | _ => .fault .dead_object

/-- `rpc_dictionary_has_key` (lines 1748-1753): the lookup is not NULL. -/
def rpc_dictionary_has_key (h : heap) (dictionary : Nat) (key : String) : outcome Bool :=
  match h[dictionary]? with
  | some (some o) =>
    match o.ro_value with
    | .dictionary kv => .ok (kv.find? (fun e => e.1 = key)).isSome
    | _ => .fault .dead_object
  | _ => .fault .dead_object

/-- The reference count of the object at `a`, `none` for a freed cell and for an
address outside the heap. -/
def count (h : heap) (a : Nat) : Option Int :=
  match h[a]? with
  | some (some o) => some o.ro_refcnt
  | _ => none

/-- The payload of the object at `a`, `none` for a freed cell and for an address
outside the heap. -/
def payload (h : heap) (a : Nat) : Option rpc_value :=
  match h[a]? with
  | some (some o) => some o.ro_value
  | _ => none

end mem

/-! ## Slices in memory -/

namespace mem

/-- `rpc_array_get_value` (lines 1388-1398): NULL unless `array` is an array and
`index` is in range. -/
def rpc_array_get_value (h : heap) (array index : Nat) : outcome (Option Nat) :=
  match h[array]? with
  | some (some o) =>
    match o.ro_value with
    | .array xs => if index ≥ xs.length then .ok none else .ok xs[index]?
    | _ => .ok none
  | _ => .fault .dead_object

/-- The loop of `rpc_array_slice` (lines 1489-1490) over the indices it visits:
the element is read from `array` and appended to `result` with
`rpc_array_append_value`; a NULL element is retained through a NULL pointer. -/
def slice_loop : List Nat → heap → Nat → Nat → outcome heap
  | [], h, _, _ => .ok h
  | i :: rest, h, array, result =>
    match rpc_array_get_value h array i with
    | .ok (some v) =>
      match rpc_array_append_value h result v with
      | .ok h1 => slice_loop rest h1 array result
      | .fault k => .fault k
      | .fuel => .fuel
    | .ok none => .fault .dead_object
    | .fault k => .fault k
    | .fuel => .fuel

/-- `rpc_array_slice` (lines 1475-1493): `end` is the length for `len = -1` and
`MIN (length, index + len)` otherwise, the sum taken in `size_t`; the result is
a new array to which the elements `index .. end - 1` are appended.  The length
is read from `rv_list` without a check of the type, so an object that is not an
array gives no live `GPtrArray`. -/
def rpc_array_slice (h : heap) (array index : Nat) (len : Int) : outcome (heap × Nat) :=
  match h[array]? with
  | some (some o) =>
    match o.ro_value with
    | .array xs =>
      let stop :=
        if len = -1 then xs.length else min xs.length (((index : Int) + len) % 2 ^ 64).toNat
      let r := rpc_prim_create h (.array [])
      match slice_loop (List.range' index (stop - index)) r.1 array r.2 with
      | .ok h1 => .ok (h1, r.2)
      | .fault k => .fault k
      | .fuel => .fuel
    | _ => .fault .dead_object
  | _ => .fault .dead_object

end mem

/-! ## Lemmas on the format buffer -/

theorem fmt_at_of_drop {fmt : List Char} {p : Nat} {c : Char} {suf : List Char}
    (h : fmt.drop p = c :: suf) : fmt_at fmt p = some c := by
  have hp : p < fmt.length := by
    by_contra hn
    rw [List.drop_eq_nil_of_le (by omega)] at h
    cases h
  have hget : fmt[p]? = some c := by
    have := @List.getElem?_drop _ fmt p 0
    rw [h] at this
    simpa using this.symm
  simp only [fmt_at, hp, if_true, hget]

theorem drop_succ_of_drop {fmt : List Char} {p : Nat} {c : Char} {suf : List Char}
    (h : fmt.drop p = c :: suf) : fmt.drop (p + 1) = suf := by
  have : fmt.drop (p + 1) = (fmt.drop p).drop 1 := by
    rw [List.drop_drop]
  rw [this, h]; rfl

theorem length_of_drop {fmt : List Char} {p : Nat} {suf : List Char}
    (h : fmt.drop p = suf) (hne : suf ≠ []) : p + suf.length = fmt.length := by
  have hl := congrArg List.length h
  rw [List.length_drop] at hl
  have : suf.length ≠ 0 := by
    intro h0; exact hne (List.length_eq_zero.mp h0)
  omega

theorem vpack_scan_word (w : List Char) : ∀ (fmt : List Char) (p : Nat) (c : Char)
    (suf : List Char) (fuel : Nat) (colon : Option Nat),
    fmt.drop p = w ++ c :: suf → (∀ a ∈ w, plain_char a = true) → stop_char c = true →
    w.length < fuel →
    vpack_scan fmt fuel p colon
      = some (p + w.length, if c = ',' then some (p + w.length) else none, colon) := by
  induction w with
  | nil =>
    intro fmt p c suf fuel colon h _ hc hf
    obtain ⟨k, rfl⟩ : ∃ k, fuel = k + 1 := ⟨fuel - 1, by simp at hf; omega⟩
    have hat := fmt_at_of_drop (by simpa using h : fmt.drop p = c :: suf)
    simp only [vpack_scan, hat]
    by_cases hcomma : c = ','
    · simp [hcomma]
    · have hcolon : c ≠ ':' := by
        intro hh; subst hh; simp [stop_char] at hc
      simp only [stop_char, Bool.or_eq_true, decide_eq_true_eq] at hc
      have hstop : c = '<' ∨ c = '[' ∨ c = ']' ∨ c = '{' ∨ c = '}' := by
        rcases hc with ((((h1 | h1) | h1) | h1) | h1) | h1
        · exact absurd h1 hcomma
        · exact Or.inl h1
        · exact Or.inr (Or.inl h1)
        · exact Or.inr (Or.inr (Or.inl h1))
        · exact Or.inr (Or.inr (Or.inr (Or.inl h1)))
        · exact Or.inr (Or.inr (Or.inr (Or.inr h1)))
      simp [hcomma, hcolon, hstop]
  | cons a w ih =>
    intro fmt p c suf fuel colon h hw hc hf
    obtain ⟨k, rfl⟩ : ∃ k, fuel = k + 1 := ⟨fuel - 1, by simp at hf; omega⟩
    have hat := fmt_at_of_drop (by simpa using h : fmt.drop p = a :: (w ++ c :: suf))
    have hnext := drop_succ_of_drop (by simpa using h : fmt.drop p = a :: (w ++ c :: suf))
    have ha := hw a (by simp)
    simp only [plain_char, stop_char, Bool.and_eq_true, Bool.not_eq_true', Bool.or_eq_false_iff,
      decide_eq_false_iff_not, decide_eq_true_eq] at ha
    obtain ⟨⟨⟨⟨⟨⟨h1, h2⟩, h3⟩, h4⟩, h5⟩, h6⟩, h7⟩ := ha
    have hrec := ih fmt (p + 1) c suf k colon hnext (fun x hx => hw x (by simp [hx])) hc
      (by simp at hf; omega)
    simp only [vpack_scan, hat, h1, h2, h3, h4, h5, h6, h7, ite_false, or_self, if_false]
    rw [hrec]
    simp [Nat.add_assoc, Nat.add_comm 1]

/-! ## Single iterations of the pack loop -/

theorem scalar_token_plain (t : scalar_token) : plain_char t.ch = true := by
  cases t <;> (dsimp only [scalar_token.ch]; decide)

theorem scalar_token_not_nul (t : scalar_token) : t.ch ≠ Char.ofNat 0 := by
  cases t <;> (dsimp only [scalar_token.ch]; decide)

theorem vpack_token_scalar (t : scalar_token) (fmt : List Char) (p : Nat)
    (stack : List rpc_object) (keys : List (Option String)) (ty : Option String) (idx : Nat)
    (ap : List pack_arg) :
    vpack_token fmt t.ch p ⟨stack, keys, ty, idx, t.args ++ ap⟩
      = .value (some t.value) ⟨stack, keys, ty, idx, ap⟩ := by
  cases t with
  | s v => cases v <;> simp [vpack_token, scalar_token.ch, scalar_token.args, scalar_token.value]
  | _ => simp [vpack_token, scalar_token.ch, scalar_token.args, scalar_token.value]

theorem rpc_array_steal_value_append (xs : List rpc_object) (v : rpc_object) :
    rpc_array_steal_value xs xs.length v = some (xs ++ [v]) := by
  have h : (xs.length + 2 ^ 64 - xs.length) % 2 ^ 64 = 0 := by
    rw [Nat.add_sub_cancel_left]; rfl
  simp [rpc_array_steal_value, h, to_int]

theorem vpack_iter_array_scalar_comma (rpct_new : String → Option rpc_object → Option rpc_object)
    (t : scalar_token) (fmt : List Char) (p : Nat) (suf : List Char)
    (xs : List rpc_object) (below : List rpc_object) (keys : List (Option String)) (idx : Nat)
    (ap : List pack_arg) (h : fmt.drop p = t.ch :: ',' :: suf) :
    vpack_iter rpct_new fmt p ⟨.array xs :: below, keys, none, idx, t.args ++ ap⟩
      = .again (p + 2) ⟨.array (xs ++ [t.value]) :: below, keys, none, xs.length, ap⟩ := by
  have hat := fmt_at_of_drop h
  have hat1 := fmt_at_of_drop (drop_succ_of_drop h)
  have hlen := length_of_drop h (by simp)
  have hscan := vpack_scan_word [t.ch] fmt p ',' suf (fmt.length + 2 - p) none (by simpa using h)
    (by simp [scalar_token_plain]) (by decide) (by simp at hlen ⊢; omega)
  have hne : t.ch ≠ ']' := by cases t <;> (dsimp only [scalar_token.ch]; decide)
  simp only [List.length_singleton, if_true] at hscan
  simp only [vpack_iter, hat, scalar_token_not_nul, if_false, delim_of, ne_eq, hne,
    not_false_eq_true, if_true, vpack_lookahead, hscan, hat1, Nat.add_sub_cancel, Option.getD_some]
  simp [vpack_token_scalar, vpack_store, vpack_typed, vpack_put, rpc_array_steal_value_append]

theorem vpack_iter_array_scalar_close (rpct_new : String → Option rpc_object → Option rpc_object)
    (t : scalar_token) (fmt : List Char) (p : Nat) (suf : List Char)
    (xs : List rpc_object) (below : List rpc_object) (keys : List (Option String)) (idx : Nat)
    (ap : List pack_arg) (h : fmt.drop p = t.ch :: ']' :: suf) :
    vpack_iter rpct_new fmt p ⟨.array xs :: below, keys, none, idx, t.args ++ ap⟩
      = .again (p + 1) ⟨.array (xs ++ [t.value]) :: below, keys, none, xs.length, ap⟩ := by
  have hat := fmt_at_of_drop h
  have hat1 := fmt_at_of_drop (drop_succ_of_drop h)
  have hlen := length_of_drop h (by simp)
  have hscan := vpack_scan_word [t.ch] fmt p ']' suf (fmt.length + 2 - p) none (by simpa using h)
    (by simp [scalar_token_plain]) (by decide) (by simp at hlen ⊢; omega)
  have hne : t.ch ≠ ']' := by cases t <;> (dsimp only [scalar_token.ch]; decide)
  have hcm : (']' : Char) ≠ ',' := by decide
  simp only [List.length_singleton, hcm, if_false] at hscan
  simp only [vpack_iter, hat, scalar_token_not_nul, if_false, delim_of, ne_eq, hne,
    not_false_eq_true, if_true, vpack_lookahead, hscan, hat1, Nat.add_sub_cancel, Option.getD_some]
  simp [vpack_token_scalar, vpack_store, vpack_typed, vpack_put, rpc_array_steal_value_append]

theorem vpack_iter_close_top (rpct_new : String → Option rpc_object → Option rpc_object)
    (fmt : List Char) (p : Nat) (suf : List Char) (top : rpc_object)
    (keys : List (Option String)) (idx : Nat) (ap : List pack_arg)
    (h : fmt.drop p = delim_of top :: suf) :
    vpack_iter rpct_new fmt p ⟨[top], keys, none, idx, ap⟩ = .done (.object top) := by
  have hat := fmt_at_of_drop h
  have hd : delim_of top = ']' ∨ delim_of top = '}' := by
    unfold delim_of; split <;> simp
  have hnul : delim_of top ≠ Char.ofNat 0 := by
    rcases hd with hd | hd <;> rw [hd] <;> decide
  simp only [vpack_iter, hat, hnul, if_false, ne_eq, not_true_eq_false]
  rcases hd with hd | hd <;> simp [hd, vpack_token, vpack_store, vpack_typed, vpack_put, vpack_typed, vpack_put]

theorem vpack_iter_open_top (rpct_new : String → Option rpc_object → Option rpc_object)
    (fmt : List Char) (p : Nat) (suf : List Char) (keys : List (Option String)) (idx : Nat)
    (ap : List pack_arg) :
    (fmt.drop p = '[' :: suf →
      vpack_iter rpct_new fmt p ⟨[], keys, none, idx, ap⟩
        = .again (p + 1) ⟨[.array []], keys, none, idx, ap⟩) ∧
    (fmt.drop p = '{' :: suf →
      vpack_iter rpct_new fmt p ⟨[], keys, none, idx, ap⟩
        = .again (p + 1) ⟨[.dictionary []], keys, none, idx, ap⟩) := by
  constructor <;> intro h <;> simp [vpack_iter, fmt_at_of_drop h, vpack_token]

theorem vpack_loop_succ (rpct_new : String → Option rpc_object → Option rpc_object)
    (fmt : List Char) (fuel p : Nat) (st : pack_state) :
    vpack_loop rpct_new fmt (fuel + 1) p st
      = match vpack_iter rpct_new fmt p st with
        | .done r => r
        | .again p1 st1 => vpack_loop rpct_new fmt fuel p1 st1 := rfl

theorem intersperse_length_ge (sep : Char) (l : List Char) :
    l.length ≤ (l.intersperse sep).length := by
  induction l with
  | nil => simp
  | cons a l ih =>
    cases l with
    | nil => simp
    | cons b l => simp at ih ⊢; omega

theorem vpack_loop_flat_array (rpct_new : String → Option rpc_object → Option rpc_object)
    (ts : List scalar_token) : ∀ (fmt : List Char) (p : Nat) (suf : List Char)
    (xs : List rpc_object) (keys : List (Option String)) (idx : Nat) (ap : List pack_arg)
    (fuel : Nat),
    fmt.drop p = (ts.map scalar_token.ch).intersperse ',' ++ ']' :: suf →
    ts.length + 1 ≤ fuel →
    vpack_loop rpct_new fmt fuel p ⟨[.array xs], keys, none, idx, ts.flatMap scalar_token.args ++ ap⟩
      = .object (.array (xs ++ ts.map scalar_token.value)) := by
  induction ts with
  | nil =>
    intro fmt p suf xs keys idx ap fuel h hf
    obtain ⟨k, rfl⟩ : ∃ k, fuel = k + 1 := ⟨fuel - 1, by omega⟩
    have h1 : fmt.drop p = delim_of (.array xs) :: suf := by simpa [delim_of] using h
    simp [vpack_loop, vpack_iter_close_top rpct_new fmt p suf _ keys idx ap h1]
  | cons t ts ih =>
    intro fmt p suf xs keys idx ap fuel h hf
    obtain ⟨k, rfl⟩ : ∃ k, fuel = k + 1 := ⟨fuel - 1, by omega⟩
    cases ts with
    | nil =>
      have h1 : fmt.drop p = t.ch :: ']' :: suf := by simpa using h
      have hstep := vpack_iter_array_scalar_close rpct_new t fmt p suf xs [] keys idx ap h1
      have hrec := ih fmt (p + 1) suf (xs ++ [t.value]) keys xs.length ap k
        (by simpa using drop_succ_of_drop h1) (by simpa using hf)
      simp only [List.flatMap_nil, List.nil_append, List.map_nil, List.append_nil] at hrec
      simp [vpack_loop, hstep, hrec]
    | cons t1 ts =>
      have h1 : fmt.drop p
          = t.ch :: ',' :: (((t1 :: ts).map scalar_token.ch).intersperse ',' ++ ']' :: suf) := by
        simpa using h
      have hstep := vpack_iter_array_scalar_comma rpct_new t fmt p _ xs [] keys idx
        ((t1 :: ts).flatMap scalar_token.args ++ ap) h1
      have hrec := ih fmt (p + 2) suf (xs ++ [t.value]) keys xs.length ap k
        (drop_succ_of_drop (drop_succ_of_drop h1)) (by simpa using hf)
      simp only [List.flatMap_cons, List.append_assoc] at hstep ⊢
      simp only [vpack_loop, hstep]
      simpa using hrec

/-- A flat array format of scalar tokens packs into the array of the values the
tokens build from the stream, in order; what follows in the stream is not read. -/
theorem vpack_flat_array (rpct_new : String → Option rpc_object → Option rpc_object)
    (ts : List scalar_token) (rest : List pack_arg) :
    rpc_object_vpack rpct_new (flat_array_fmt (ts.map scalar_token.ch))
        (ts.flatMap scalar_token.args ++ rest)
      = .object (.array (ts.map scalar_token.value)) := by
  have h0 : (flat_array_fmt (ts.map scalar_token.ch)).drop 0
      = '[' :: ((ts.map scalar_token.ch).intersperse ',' ++ ']' :: []) := by
    simp [flat_array_fmt]
  have hopen := (vpack_iter_open_top rpct_new _ 0 _ [] 0 (ts.flatMap scalar_token.args ++ rest)).1 h0
  have hloop := vpack_loop_flat_array rpct_new ts (flat_array_fmt (ts.map scalar_token.ch)) 1 []
    [] [] 0 rest ((flat_array_fmt (ts.map scalar_token.ch)).length)
    (drop_succ_of_drop h0)
    (by have := intersperse_length_ge ',' (ts.map scalar_token.ch)
        simp [flat_array_fmt] at this ⊢; omega)
  unfold rpc_object_vpack
  rw [vpack_loop_succ, hopen]
  exact hloop

/-! ## Dictionary iterations -/

theorem vpack_iter_dict_scalar_comma (rpct_new : String → Option rpc_object → Option rpc_object)
    (t : scalar_token) (key : String) (fmt : List Char) (p : Nat) (suf : List Char)
    (kv : List (String × rpc_object)) (below : List rpc_object) (keys : List (Option String))
    (idx : Nat) (ap : List pack_arg) (h : fmt.drop p = t.ch :: ',' :: suf) :
    vpack_iter rpct_new fmt p
        ⟨.dictionary kv :: below, keys, none, idx, .str (some key) :: (t.args ++ ap)⟩
      = .again (p + 2)
        ⟨.dictionary (rpc_dictionary_steal_value kv (c_str key) t.value) :: below, keys, none, idx, ap⟩ := by
  have hat := fmt_at_of_drop h
  have hat1 := fmt_at_of_drop (drop_succ_of_drop h)
  have hlen := length_of_drop h (by simp)
  have hscan := vpack_scan_word [t.ch] fmt p ',' suf (fmt.length + 2 - p) none (by simpa using h)
    (by simp [scalar_token_plain]) (by decide) (by simp at hlen ⊢; omega)
  have hne : t.ch ≠ '}' := by cases t <;> (dsimp only [scalar_token.ch]; decide)
  simp only [List.length_singleton, if_true] at hscan
  simp only [vpack_iter, hat, scalar_token_not_nul, if_false, delim_of, ne_eq, hne,
    not_false_eq_true, if_true, vpack_lookahead, hscan, hat1, Nat.add_sub_cancel, Option.getD_some]
  simp [vpack_token_scalar, vpack_store, vpack_typed, vpack_put, vpack_typed, vpack_put]

theorem vpack_iter_dict_scalar_close (rpct_new : String → Option rpc_object → Option rpc_object)
    (t : scalar_token) (key : String) (fmt : List Char) (p : Nat) (suf : List Char)
    (kv : List (String × rpc_object)) (below : List rpc_object) (keys : List (Option String))
    (idx : Nat) (ap : List pack_arg) (h : fmt.drop p = t.ch :: '}' :: suf) :
    vpack_iter rpct_new fmt p
        ⟨.dictionary kv :: below, keys, none, idx, .str (some key) :: (t.args ++ ap)⟩
      = .again (p + 1)
        ⟨.dictionary (rpc_dictionary_steal_value kv (c_str key) t.value) :: below, keys, none, idx, ap⟩ := by
  have hat := fmt_at_of_drop h
  have hat1 := fmt_at_of_drop (drop_succ_of_drop h)
  have hlen := length_of_drop h (by simp)
  have hscan := vpack_scan_word [t.ch] fmt p '}' suf (fmt.length + 2 - p) none (by simpa using h)
    (by simp [scalar_token_plain]) (by decide) (by simp at hlen ⊢; omega)
  have hne : t.ch ≠ '}' := by cases t <;> (dsimp only [scalar_token.ch]; decide)
  have hcm : ('}' : Char) ≠ ',' := by decide
  simp only [List.length_singleton, hcm, if_false] at hscan
  simp only [vpack_iter, hat, scalar_token_not_nul, if_false, delim_of, ne_eq, hne,
    not_false_eq_true, if_true, vpack_lookahead, hscan, hat1, Nat.add_sub_cancel, Option.getD_some]
  simp [vpack_token_scalar, vpack_store, vpack_typed, vpack_put, vpack_typed, vpack_put]

theorem vpack_loop_flat_dict (rpct_new : String → Option rpc_object → Option rpc_object)
    (es : List (String × scalar_token)) : ∀ (fmt : List Char) (p : Nat) (suf : List Char)
    (kv : List (String × rpc_object)) (keys : List (Option String)) (idx : Nat)
    (ap : List pack_arg) (fuel : Nat),
    fmt.drop p = (es.map (fun e => e.2.ch)).intersperse ',' ++ '}' :: suf →
    es.length + 1 ≤ fuel →
    vpack_loop rpct_new fmt fuel p
        ⟨[.dictionary kv], keys, none, idx,
          es.flatMap (fun e => .str (some e.1) :: e.2.args) ++ ap⟩
      = .object (.dictionary (dict_of_entries kv (es.map (fun e => (c_str e.1, e.2.value))))) := by
  induction es with
  | nil =>
    intro fmt p suf kv keys idx ap fuel h hf
    obtain ⟨k, rfl⟩ : ∃ k, fuel = k + 1 := ⟨fuel - 1, by omega⟩
    have h1 : fmt.drop p = delim_of (.dictionary kv) :: suf := by simpa [delim_of] using h
    simp [vpack_loop, vpack_iter_close_top rpct_new fmt p suf _ keys idx ap h1, dict_of_entries]
  | cons e es ih =>
    intro fmt p suf kv keys idx ap fuel h hf
    obtain ⟨k, rfl⟩ : ∃ k, fuel = k + 1 := ⟨fuel - 1, by omega⟩
    cases es with
    | nil =>
      have h1 : fmt.drop p = e.2.ch :: '}' :: suf := by simpa using h
      have hstep := vpack_iter_dict_scalar_close rpct_new e.2 e.1 fmt p suf kv [] keys idx ap h1
      have hrec := ih fmt (p + 1) suf (rpc_dictionary_steal_value kv (c_str e.1) e.2.value) keys idx ap k
        (by simpa using drop_succ_of_drop h1) (by simpa using hf)
      simp only [List.flatMap_nil, List.nil_append, List.map_nil] at hrec
      simp only [vpack_loop, List.flatMap_cons, List.flatMap_nil, List.append_nil,
        List.cons_append, hstep]
      simpa [dict_of_entries] using hrec
    | cons e1 es =>
      have h1 : fmt.drop p = e.2.ch :: ',' ::
          (((e1 :: es).map (fun e => e.2.ch)).intersperse ',' ++ '}' :: suf) := by
        simpa using h
      have hstep := vpack_iter_dict_scalar_comma rpct_new e.2 e.1 fmt p _ kv [] keys idx
        ((e1 :: es).flatMap (fun e => pack_arg.str (some e.1) :: e.2.args) ++ ap) h1
      have hrec := ih fmt (p + 2) suf (rpc_dictionary_steal_value kv (c_str e.1) e.2.value) keys idx ap k
        (drop_succ_of_drop (drop_succ_of_drop h1)) (by simpa using hf)
      simp only [List.flatMap_cons, List.append_assoc, List.cons_append] at hstep hrec ⊢
      simp only [vpack_loop, hstep]
      simpa [dict_of_entries] using hrec

theorem vpack_flat_dict (rpct_new : String → Option rpc_object → Option rpc_object)
    (es : List (String × scalar_token)) (rest : List pack_arg) :
    rpc_object_vpack rpct_new (flat_dict_fmt (es.map (fun e => e.2.ch)))
        (es.flatMap (fun e => .str (some e.1) :: e.2.args) ++ rest)
      = .object (.dictionary (dict_of_entries [] (es.map (fun e => (c_str e.1, e.2.value))))) := by
  have h0 : (flat_dict_fmt (es.map (fun e => e.2.ch))).drop 0
      = '{' :: ((es.map (fun e => e.2.ch)).intersperse ',' ++ '}' :: []) := by
    simp [flat_dict_fmt]
  have hopen := (vpack_iter_open_top rpct_new _ 0 _ [] 0
    (es.flatMap (fun e => pack_arg.str (some e.1) :: e.2.args) ++ rest)).2 h0
  have hloop := vpack_loop_flat_dict rpct_new es (flat_dict_fmt (es.map (fun e => e.2.ch))) 1 []
    [] [] 0 rest ((flat_dict_fmt (es.map (fun e => e.2.ch))).length)
    (drop_succ_of_drop h0)
    (by have := intersperse_length_ge ',' (es.map (fun e => e.2.ch))
        simp [flat_dict_fmt] at this ⊢; omega)
  unfold rpc_object_vpack
  rw [vpack_loop_succ, hopen]
  exact hloop

/-! ## Lookups in a dictionary built entry by entry -/

theorem dict_lookup_steal (kv : List (String × rpc_object)) (key k : String) (v : rpc_object) :
    dict_lookup (rpc_dictionary_steal_value kv key v) k
      = if key = k then some v else dict_lookup kv k := by
  induction kv with
  | nil => simp [rpc_dictionary_steal_value, dict_lookup]
  | cons e kv ih =>
    obtain ⟨k0, v0⟩ := e
    by_cases h0 : k0 = key
    · subst h0
      by_cases h1 : k0 = k <;> simp [rpc_dictionary_steal_value, dict_lookup, h1]
    · by_cases h1 : k0 = k
      · subst h1
        simp [rpc_dictionary_steal_value, dict_lookup, h0, Ne.symm h0]
      · simp [rpc_dictionary_steal_value, dict_lookup, h0, h1, ih]

theorem dict_lookup_of_entries (es : List (String × rpc_object)) :
    ∀ (kv : List (String × rpc_object)) (k : String),
    dict_lookup (dict_of_entries kv es) k
      = match es.reverse.find? (fun e => e.1 = k) with
        | some e => some e.2
        | none => dict_lookup kv k := by
  induction es with
  | nil => intro kv k; simp [dict_of_entries]
  | cons e es ih =>
    intro kv k
    have h := ih (rpc_dictionary_steal_value kv e.1 e.2) k
    simp only [dict_of_entries, List.foldl_cons] at h ⊢
    rw [h, List.reverse_cons, List.find?_append]
    cases hfind : es.reverse.find? (fun e => decide (e.1 = k)) with
    | some x => simp
    | none =>
      by_cases hk : e.1 = k <;> simp [dict_lookup_steal, hk]

/-! ## Literal key prefixes -/

theorem vpack_scan_key (key : List Char) : ∀ (fmt : List Char) (p : Nat) (t c : Char)
    (suf : List Char) (fuel : Nat) (colon : Option Nat),
    fmt.drop p = key ++ ':' :: t :: c :: suf → (∀ a ∈ key, plain_char a = true) →
    plain_char t = true → stop_char c = true → key.length + 2 < fuel →
    vpack_scan fmt fuel p colon
      = some (p + key.length + 2, if c = ',' then some (p + key.length + 2) else none,
          some (p + key.length)) := by
  induction key with
  | nil =>
    intro fmt p t c suf fuel colon h _ ht hc hf
    obtain ⟨k, rfl⟩ : ∃ k, fuel = k + 1 := ⟨fuel - 1, by simp at hf; omega⟩
    have h1 : fmt.drop p = ':' :: t :: c :: suf := by simpa using h
    have hat := fmt_at_of_drop h1
    have hw := vpack_scan_word [t] fmt (p + 1) c suf k (some p)
      (by simpa using drop_succ_of_drop h1) (by simpa using ht) hc (by simp at hf ⊢; omega)
    have e1 : (':' : Char) ≠ ',' := by decide
    have e2 : ¬ ((':' : Char) = '<' ∨ (':' : Char) = '[' ∨ (':' : Char) = ']'
        ∨ (':' : Char) = '{' ∨ (':' : Char) = '}') := by decide
    simp only [vpack_scan, hat, e1, if_false, if_true, e2, hw]
    simp [Nat.add_assoc]
  | cons a key ih =>
    intro fmt p t c suf fuel colon h hw ht hc hf
    obtain ⟨k, rfl⟩ : ∃ k, fuel = k + 1 := ⟨fuel - 1, by simp at hf; omega⟩
    have h1 : fmt.drop p = a :: (key ++ ':' :: t :: c :: suf) := by simpa using h
    have hat := fmt_at_of_drop h1
    have ha := hw a (by simp)
    simp only [plain_char, stop_char, Bool.and_eq_true, Bool.not_eq_true', Bool.or_eq_false_iff,
      decide_eq_false_iff_not, decide_eq_true_eq] at ha
    obtain ⟨⟨⟨⟨⟨⟨h1a, h2⟩, h3⟩, h4⟩, h5⟩, h6⟩, h7⟩ := ha
    have hrec := ih fmt (p + 1) t c suf k colon (drop_succ_of_drop h1)
      (fun x hx => hw x (by simp [hx])) ht hc (by simp at hf; omega)
    simp only [vpack_scan, hat, h1a, h2, h3, h4, h5, h6, h7, ite_false, or_self, if_false]
    rw [hrec]
    simp [Nat.add_assoc, Nat.add_comm 1, Nat.add_left_comm]

theorem g_strndup_key (key : List Char) (fmt : List Char) (p : Nat) (suf : List Char)
    (h : fmt.drop p = key ++ suf) (hnul : ∀ a ∈ key, a ≠ Char.ofNat 0) :
    g_strndup fmt p key.length = String.mk key := by
  have htw : key.takeWhile (fun c => decide (c ≠ Char.ofNat 0)) = key := by
    rw [List.takeWhile_eq_self_iff]
    intro a ha
    simpa using hnul a ha
  have htk : (fmt.drop p).take key.length = key := by rw [h]; simp
  simp only [g_strndup, htk, htw]

theorem fmt_at_add_of_drop (fmt : List Char) (p : Nat) (w : List Char) (c : Char)
    (suf : List Char) (h : fmt.drop p = w ++ c :: suf) : fmt_at fmt (p + w.length) = some c := by
  have h1 : fmt.drop (p + w.length) = c :: suf := by
    rw [← List.drop_drop, h]
    simp
  exact fmt_at_of_drop h1

theorem vpack_iter_dict_literal (rpct_new : String → Option rpc_object → Option rpc_object)
    (t : scalar_token) (key : List Char) (c : Char) (fmt : List Char) (p : Nat) (suf : List Char)
    (kv : List (String × rpc_object)) (below : List rpc_object) (keys : List (Option String))
    (idx : Nat) (ap : List pack_arg)
    (h : fmt.drop p = key ++ ':' :: t.ch :: c :: suf)
    (hkey : ∀ a ∈ key, plain_char a = true ∧ a ≠ Char.ofNat 0)
    (hc : c = ',' ∨ c = '}') :
    vpack_iter rpct_new fmt p ⟨.dictionary kv :: below, keys, none, idx, t.args ++ ap⟩
      = .again (if c = ',' then p + key.length + 3 else p + key.length + 2)
        ⟨.dictionary (rpc_dictionary_steal_value kv (String.mk key) t.value) :: below,
          keys, none, idx, ap⟩ := by
  have hstop : stop_char c = true := by rcases hc with hc | hc <;> rw [hc] <;> decide
  have hlen := length_of_drop h (by simp)
  have hscan := vpack_scan_key key fmt p t.ch c suf (fmt.length + 2 - p) none h
    (fun a ha => (hkey a ha).1) (scalar_token_plain t) hstop
    (by simp at hlen ⊢; omega)
  have hdup := g_strndup_key key fmt p _ h (fun a ha => (hkey a ha).2)
  have hatc : fmt_at fmt (p + key.length + 2) = some c := by
    have := fmt_at_add_of_drop fmt p (key ++ [':', t.ch]) c suf (by simpa using h)
    simpa [Nat.add_assoc] using this
  have hatt : fmt_at fmt (p + key.length + 1) = some t.ch := by
    have := fmt_at_add_of_drop fmt p (key ++ [':']) t.ch (c :: suf) (by simpa using h)
    simpa [Nat.add_assoc] using this
  obtain ⟨c0, rest0, hc0, hc0ne, hc0nul⟩ : ∃ c0 rest0, fmt.drop p = c0 :: rest0 ∧ c0 ≠ '}'
      ∧ c0 ≠ Char.ofNat 0 := by
    cases key with
    | nil => exact ⟨':', _, by simpa using h, by decide, by decide⟩
    | cons a key =>
      refine ⟨a, _, by simpa using h, ?_, (hkey a (by simp)).2⟩
      have := (hkey a (by simp)).1
      intro ha; subst ha
      simp [plain_char, stop_char] at this
  have hat := fmt_at_of_drop hc0
  simp only [vpack_iter, hat, hc0nul, if_false, delim_of, ne_eq, hc0ne, not_false_eq_true,
    if_true, vpack_lookahead, hscan, Nat.add_sub_cancel_left, hdup, hatc, Option.getD_some,
    Nat.add_sub_cancel, hatt]
  rcases hc with hc | hc
  · subst hc
    simp [hatt, vpack_token_scalar, vpack_store, vpack_typed, vpack_put, vpack_typed, vpack_put]
  · subst hc
    simp [hatt, vpack_token_scalar, vpack_store, vpack_typed, vpack_put, vpack_typed, vpack_put]

theorem intercalate_length_ge (sep : List Char) (l : List (List Char)) (n : Nat)
    (h : ∀ w ∈ l, n ≤ w.length) : n * l.length ≤ (List.intercalate sep l).length := by
  induction l with
  | nil => simp [List.intercalate]
  | cons a l ih =>
    have ha := h a (by simp)
    have hl := ih (fun w hw => h w (by simp [hw]))
    cases l with
    | nil => simp [List.intercalate]; omega
    | cons b l =>
      simp only [List.intercalate, List.intersperse, List.flatten, List.length_append,
        List.length_cons, Nat.mul_add, Nat.mul_one] at hl ⊢
      omega

theorem drop_add_of_drop (fmt : List Char) (p : Nat) (w : List Char) (suf : List Char)
    (h : fmt.drop p = w ++ suf) : fmt.drop (p + w.length) = suf := by
  rw [← List.drop_drop, h, List.drop_left]

theorem vpack_loop_literal_dict (rpct_new : String → Option rpc_object → Option rpc_object)
    (es : List (List Char × scalar_token)) : ∀ (fmt : List Char) (p : Nat) (suf : List Char)
    (kv : List (String × rpc_object)) (keys : List (Option String)) (idx : Nat)
    (ap : List pack_arg) (fuel : Nat),
    fmt.drop p = List.intercalate [','] (es.map (fun e => e.1 ++ [':', e.2.ch])) ++ '}' :: suf →
    (∀ e ∈ es, ∀ a ∈ e.1, plain_char a = true ∧ a ≠ Char.ofNat 0) →
    es.length + 1 ≤ fuel →
    vpack_loop rpct_new fmt fuel p
        ⟨[.dictionary kv], keys, none, idx, es.flatMap (fun e => e.2.args) ++ ap⟩
      = .object (.dictionary
          (dict_of_entries kv (es.map (fun e => (String.mk e.1, e.2.value))))) := by
  induction es with
  | nil =>
    intro fmt p suf kv keys idx ap fuel h _ hf
    obtain ⟨k, rfl⟩ : ∃ k, fuel = k + 1 := ⟨fuel - 1, by omega⟩
    have h1 : fmt.drop p = delim_of (.dictionary kv) :: suf := by
      simpa [delim_of, List.intercalate] using h
    simp [vpack_loop, vpack_iter_close_top rpct_new fmt p suf _ keys idx ap h1, dict_of_entries]
  | cons e es ih =>
    intro fmt p suf kv keys idx ap fuel h hk hf
    obtain ⟨k, rfl⟩ : ∃ k, fuel = k + 1 := ⟨fuel - 1, by omega⟩
    have hke := hk e (by simp)
    have hks : ∀ e1 ∈ es, ∀ a ∈ e1.1, plain_char a = true ∧ a ≠ Char.ofNat 0 :=
      fun e1 he1 => hk e1 (by simp [he1])
    cases es with
    | nil =>
      have h1 : fmt.drop p = e.1 ++ ':' :: e.2.ch :: '}' :: suf := by
        simpa [List.intercalate] using h
      have hstep := vpack_iter_dict_literal rpct_new e.2 e.1 '}' fmt p suf kv [] keys idx ap h1
        hke (Or.inr rfl)
      have hnext : fmt.drop (p + e.1.length + 2) = '}' :: suf := by
        have := drop_add_of_drop fmt p (e.1 ++ [':', e.2.ch]) ('}' :: suf) (by simpa using h1)
        simpa [Nat.add_assoc] using this
      have hrec := ih fmt (p + e.1.length + 2) suf
        (rpc_dictionary_steal_value kv (String.mk e.1) e.2.value) keys idx ap k
        (by simpa [List.intercalate] using hnext) hks (by simpa using hf)
      simp only [List.flatMap_nil, List.nil_append, List.map_nil] at hrec
      have hcm : ('}' : Char) ≠ ',' := by decide
      simp only [hcm, if_false] at hstep
      simp only [vpack_loop, List.flatMap_cons, List.flatMap_nil, List.append_nil, hstep]
      simpa [dict_of_entries] using hrec
    | cons e1 es =>
      have h1 : fmt.drop p = e.1 ++ ':' :: e.2.ch :: ',' ::
          (List.intercalate [','] ((e1 :: es).map (fun e => e.1 ++ [':', e.2.ch])) ++ '}' :: suf) := by
        simpa [List.intercalate] using h
      have hstep := vpack_iter_dict_literal rpct_new e.2 e.1 ',' fmt p _ kv [] keys idx
        ((e1 :: es).flatMap (fun e => e.2.args) ++ ap) h1 hke (Or.inl rfl)
      have hnext : fmt.drop (p + e.1.length + 3)
          = List.intercalate [','] ((e1 :: es).map (fun e => e.1 ++ [':', e.2.ch])) ++ '}' :: suf := by
        have := drop_add_of_drop fmt p (e.1 ++ [':', e.2.ch, ','])
          (List.intercalate [','] ((e1 :: es).map (fun e => e.1 ++ [':', e.2.ch])) ++ '}' :: suf)
          (by simpa using h1)
        simpa [Nat.add_assoc] using this
      have hrec := ih fmt (p + e.1.length + 3) suf
        (rpc_dictionary_steal_value kv (String.mk e.1) e.2.value) keys idx ap k hnext hks
        (by simpa using hf)
      simp only [if_true] at hstep
      simp only [List.flatMap_cons, List.append_assoc] at hstep hrec ⊢
      simp only [vpack_loop, hstep]
      simpa [dict_of_entries] using hrec

theorem vpack_literal_dict (rpct_new : String → Option rpc_object → Option rpc_object)
    (es : List (List Char × scalar_token)) (rest : List pack_arg)
    (hk : ∀ e ∈ es, ∀ a ∈ e.1, plain_char a = true ∧ a ≠ Char.ofNat 0) :
    rpc_object_vpack rpct_new (literal_dict_fmt (es.map (fun e => (e.1, e.2.ch))))
        (es.flatMap (fun e => e.2.args) ++ rest)
      = .object (.dictionary
          (dict_of_entries [] (es.map (fun e => (String.mk e.1, e.2.value))))) := by
  have hmap : (es.map (fun e => (e.1, e.2.ch))).map (fun e => e.1 ++ [':', e.2])
      = es.map (fun e => e.1 ++ [':', e.2.ch]) := by
    simp [List.map_map, Function.comp_def]
  have h0 : (literal_dict_fmt (es.map (fun e => (e.1, e.2.ch)))).drop 0
      = '{' :: (List.intercalate [','] (es.map (fun e => e.1 ++ [':', e.2.ch])) ++ '}' :: []) := by
    simp [literal_dict_fmt, hmap]
  have hopen := (vpack_iter_open_top rpct_new _ 0 _ [] 0
    (es.flatMap (fun e => e.2.args) ++ rest)).2 h0
  have hloop := vpack_loop_literal_dict rpct_new es
    (literal_dict_fmt (es.map (fun e => (e.1, e.2.ch)))) 1 []
    [] [] 0 rest ((literal_dict_fmt (es.map (fun e => (e.1, e.2.ch)))).length)
    (drop_succ_of_drop h0) hk
    (by have := intercalate_length_ge [','] (es.map (fun e => e.1 ++ [':', e.2.ch])) 2
          (by intro w hw; rw [List.mem_map] at hw; obtain ⟨e, _, rfl⟩ := hw; simp)
        simp [literal_dict_fmt, hmap] at this ⊢; omega)
  unfold rpc_object_vpack
  rw [vpack_loop_succ, hopen]
  exact hloop

/-! ## Opening and closing a nested container -/

theorem vpack_iter_open_in_array (rpct_new : String → Option rpc_object → Option rpc_object)
    (c : Char) (hc : c = '[' ∨ c = '{') (fmt : List Char) (p : Nat) (suf : List Char)
    (xs : List rpc_object) (below : List rpc_object) (keys : List (Option String)) (idx : Nat)
    (ap : List pack_arg) (h : fmt.drop p = c :: suf) :
    vpack_iter rpct_new fmt p ⟨.array xs :: below, keys, none, idx, ap⟩
      = .again (p + 1) ⟨new_container c :: .array xs :: below, keys, none, xs.length, ap⟩ := by
  have hat := fmt_at_of_drop h
  have hlen := length_of_drop h (by simp)
  have hstop : stop_char c = true := by rcases hc with hc | hc <;> rw [hc] <;> decide
  have hscan := vpack_scan_word [] fmt p c suf (fmt.length + 2 - p) none (by simpa using h)
    (by simp) hstop (by simp at hlen ⊢; omega)
  rcases hc with hc | hc <;> subst hc
  · have e1 : ('[' : Char) ≠ Char.ofNat 0 := by decide
    have e2 : ('[' : Char) ≠ ']' := by decide
    have e3 : ('[' : Char) ≠ ',' := by decide
    simp only [List.length_nil, Nat.add_zero, e3, if_false] at hscan
    simp only [vpack_iter, hat, e1, if_false, delim_of, ne_eq, e2, not_false_eq_true, if_true,
      vpack_lookahead, hscan, Option.getD_some]
    simp [vpack_token, new_container]
  · have e1 : ('{' : Char) ≠ Char.ofNat 0 := by decide
    have e2 : ('{' : Char) ≠ ']' := by decide
    have e3 : ('{' : Char) ≠ ',' := by decide
    simp only [List.length_nil, Nat.add_zero, e3, if_false] at hscan
    simp only [vpack_iter, hat, e1, if_false, delim_of, ne_eq, e2, not_false_eq_true, if_true,
      vpack_lookahead, hscan, Option.getD_some]
    simp [vpack_token, new_container]

theorem vpack_iter_open_in_dict (rpct_new : String → Option rpc_object → Option rpc_object)
    (c : Char) (hc : c = '[' ∨ c = '{') (fmt : List Char) (p : Nat) (suf : List Char)
    (kv : List (String × rpc_object)) (below : List rpc_object) (keys : List (Option String))
    (idx : Nat) (key : String) (ap : List pack_arg) (h : fmt.drop p = c :: suf) :
    vpack_iter rpct_new fmt p ⟨.dictionary kv :: below, keys, none, idx, .str (some key) :: ap⟩
      = .again (p + 1)
        ⟨new_container c :: .dictionary kv :: below, some (c_str key) :: keys, none, idx, ap⟩ := by
  have hat := fmt_at_of_drop h
  have hlen := length_of_drop h (by simp)
  have hstop : stop_char c = true := by rcases hc with hc | hc <;> rw [hc] <;> decide
  have hscan := vpack_scan_word [] fmt p c suf (fmt.length + 2 - p) none (by simpa using h)
    (by simp) hstop (by simp at hlen ⊢; omega)
  rcases hc with hc | hc <;> subst hc
  · have e1 : ('[' : Char) ≠ Char.ofNat 0 := by decide
    have e2 : ('[' : Char) ≠ '}' := by decide
    have e3 : ('[' : Char) ≠ ',' := by decide
    simp only [List.length_nil, Nat.add_zero, e3, if_false] at hscan
    simp only [vpack_iter, hat, e1, if_false, delim_of, ne_eq, e2, not_false_eq_true, if_true,
      vpack_lookahead, hscan, Option.getD_some]
    simp [vpack_token, new_container]
  · have e1 : ('{' : Char) ≠ Char.ofNat 0 := by decide
    have e2 : ('{' : Char) ≠ '}' := by decide
    have e3 : ('{' : Char) ≠ ',' := by decide
    simp only [List.length_nil, Nat.add_zero, e3, if_false] at hscan
    simp only [vpack_iter, hat, e1, if_false, delim_of, ne_eq, e2, not_false_eq_true, if_true,
      vpack_lookahead, hscan, Option.getD_some]
    simp [vpack_token, new_container]

theorem vpack_iter_close_in_array (rpct_new : String → Option rpc_object → Option rpc_object)
    (inner : rpc_object)
    (hin : (∃ ys, inner = .array ys) ∨ (∃ kv, inner = .dictionary kv))
    (fmt : List Char) (p : Nat) (suf : List Char)
    (xs : List rpc_object) (below : List rpc_object) (keys : List (Option String))
    (ap : List pack_arg) (h : fmt.drop p = delim_of inner :: suf) :
    vpack_iter rpct_new fmt p ⟨inner :: .array xs :: below, keys, none, xs.length, ap⟩
      = .again (p + 1) ⟨.array (xs ++ [inner]) :: below, keys, none, xs.length, ap⟩ := by
  have hat := fmt_at_of_drop h
  rcases hin with ⟨ys, rfl⟩ | ⟨kv, rfl⟩
  · have e1 : (']' : Char) ≠ Char.ofNat 0 := by decide
    simp only [delim_of] at hat
    simp only [vpack_iter, hat, e1, if_false, delim_of, ne_eq, not_true_eq_false]
    simp [vpack_token, vpack_store, vpack_typed, vpack_put, rpc_array_steal_value_append]
  · have e1 : ('}' : Char) ≠ Char.ofNat 0 := by decide
    simp only [delim_of] at hat
    simp only [vpack_iter, hat, e1, if_false, delim_of, ne_eq, not_true_eq_false]
    simp [vpack_token, vpack_store, vpack_typed, vpack_put, rpc_array_steal_value_append]

theorem vpack_iter_close_in_dict (rpct_new : String → Option rpc_object → Option rpc_object)
    (inner : rpc_object)
    (hin : (∃ ys, inner = .array ys) ∨ (∃ kv, inner = .dictionary kv))
    (fmt : List Char) (p : Nat) (suf : List Char)
    (kv : List (String × rpc_object)) (below : List rpc_object) (keys : List (Option String))
    (idx : Nat) (key : String) (ap : List pack_arg) (h : fmt.drop p = delim_of inner :: suf) :
    vpack_iter rpct_new fmt p ⟨inner :: .dictionary kv :: below, some key :: keys, none, idx, ap⟩
      = .again (p + 1)
        ⟨.dictionary (rpc_dictionary_steal_value kv key inner) :: below, keys, none, idx, ap⟩ := by
  have hat := fmt_at_of_drop h
  rcases hin with ⟨ys, rfl⟩ | ⟨kv1, rfl⟩
  · have e1 : (']' : Char) ≠ Char.ofNat 0 := by decide
    simp only [delim_of] at hat
    simp only [vpack_iter, hat, e1, if_false, delim_of, ne_eq, not_true_eq_false]
    simp [vpack_token, vpack_store, vpack_typed, vpack_put, vpack_typed, vpack_put]
  · have e1 : ('}' : Char) ≠ Char.ofNat 0 := by decide
    simp only [delim_of] at hat
    simp only [vpack_iter, hat, e1, if_false, delim_of, ne_eq, not_true_eq_false]
    simp [vpack_token, vpack_store, vpack_typed, vpack_put, vpack_typed, vpack_put]

theorem vpack_iter_scalar_top (rpct_new : String → Option rpc_object → Option rpc_object)
    (t : scalar_token) (fmt : List Char) (p : Nat) (suf : List Char)
    (keys : List (Option String)) (idx : Nat) (ap : List pack_arg)
    (h : fmt.drop p = t.ch :: suf) :
    vpack_iter rpct_new fmt p ⟨[], keys, none, idx, t.args ++ ap⟩ = .done (.object t.value) := by
  simp [vpack_iter, fmt_at_of_drop h, scalar_token_not_nul, vpack_token_scalar, vpack_store, vpack_typed, vpack_put, vpack_typed, vpack_put]

/-- Packing one element of a single-element container: in an empty array that is
closed right after it, and in a dictionary that is closed right after it. -/
theorem vpack_loop_nest (rpct_new : String → Option rpc_object → Option rpc_object) (g : nest) :
    (∀ (fmt : List Char) (p : Nat) (suf : List Char) (below : List rpc_object)
      (keys : List (Option String)) (idx : Nat) (ap : List pack_arg) (fuel : Nat),
      fmt.drop p = g.fmt ++ ']' :: suf →
      vpack_loop rpct_new fmt (fuel + g.steps) p
          ⟨.array [] :: below, keys, none, idx, g.pack_args ++ ap⟩
        = vpack_loop rpct_new fmt fuel (p + g.fmt.length)
          ⟨.array [g.value] :: below, keys, none, 0, ap⟩) ∧
    (∀ (fmt : List Char) (p : Nat) (suf : List Char) (kv : List (String × rpc_object))
      (below : List rpc_object) (keys : List (Option String)) (key : String)
      (ap : List pack_arg) (fuel : Nat),
      fmt.drop p = g.fmt ++ '}' :: suf →
      vpack_loop rpct_new fmt (fuel + g.steps) p
          ⟨.dictionary kv :: below, keys, none, 0, .str (some key) :: (g.pack_args ++ ap)⟩
        = vpack_loop rpct_new fmt fuel (p + g.fmt.length)
          ⟨.dictionary (rpc_dictionary_steal_value kv (c_str key) g.value) :: below, keys, none, 0, ap⟩) := by
  induction g with
  | tok t =>
    constructor
    · intro fmt p suf below keys idx ap fuel h
      have h1 : fmt.drop p = t.scalar.ch :: ']' :: suf := by simpa [nest.fmt] using h
      have hstep := vpack_iter_array_scalar_close rpct_new t.scalar fmt p suf [] below keys idx ap h1
      simp only [nest.steps, nest.pack_args, nest.fmt, nest.value, List.length_singleton,
        vpack_loop_succ, hstep]
      simp
    · intro fmt p suf kv below keys key ap fuel h
      have h1 : fmt.drop p = t.scalar.ch :: '}' :: suf := by simpa [nest.fmt] using h
      have hstep := vpack_iter_dict_scalar_close rpct_new t.scalar key fmt p suf kv below keys 0 ap h1
      simp only [nest.steps, nest.pack_args, nest.fmt, nest.value, List.length_singleton,
        vpack_loop_succ, hstep]
  | arr0 =>
    constructor
    · intro fmt p suf below keys idx ap fuel h
      have h1 : fmt.drop p = '[' :: ']' :: ']' :: suf := by simpa [nest.fmt] using h
      have hopen := vpack_iter_open_in_array rpct_new '[' (Or.inl rfl) fmt p _ [] below keys idx ap h1
      have hclose := vpack_iter_close_in_array rpct_new (.array []) (Or.inl ⟨_, rfl⟩) fmt (p + 1)
        (']' :: suf) [] below keys ap (by simpa [delim_of] using drop_succ_of_drop h1)
      have e : fuel + nest.arr0.steps = (fuel + 1) + 1 := by simp [nest.steps]
      simp only [new_container, if_true, List.length_nil] at hopen hclose
      rw [e, vpack_loop_succ]
      simp only [nest.pack_args, List.nil_append, hopen]
      rw [vpack_loop_succ, hclose]
      simp [nest.fmt, nest.value, Nat.add_assoc]
    · intro fmt p suf kv below keys key ap fuel h
      have h1 : fmt.drop p = '[' :: ']' :: '}' :: suf := by simpa [nest.fmt] using h
      have hopen := vpack_iter_open_in_dict rpct_new '[' (Or.inl rfl) fmt p _ kv below keys 0 key ap h1
      have hclose := vpack_iter_close_in_dict rpct_new (.array []) (Or.inl ⟨_, rfl⟩) fmt (p + 1)
        ('}' :: suf) kv below keys 0 (c_str key) ap (by simpa [delim_of] using drop_succ_of_drop h1)
      have e : fuel + nest.arr0.steps = (fuel + 1) + 1 := by simp [nest.steps]
      simp only [new_container, if_true] at hopen hclose
      rw [e, vpack_loop_succ]
      simp only [nest.pack_args, List.nil_append, hopen]
      rw [vpack_loop_succ, hclose]
      simp [nest.fmt, nest.value, Nat.add_assoc]
  | dict0 =>
    constructor
    · intro fmt p suf below keys idx ap fuel h
      have h1 : fmt.drop p = '{' :: '}' :: ']' :: suf := by simpa [nest.fmt] using h
      have hopen := vpack_iter_open_in_array rpct_new '{' (Or.inr rfl) fmt p _ [] below keys idx ap h1
      have hclose := vpack_iter_close_in_array rpct_new (.dictionary []) (Or.inr ⟨_, rfl⟩) fmt (p + 1)
        (']' :: suf) [] below keys ap (by simpa [delim_of] using drop_succ_of_drop h1)
      have e : fuel + nest.dict0.steps = (fuel + 1) + 1 := by simp [nest.steps]
      have e2 : ('{' : Char) ≠ '[' := by decide
      simp only [new_container, e2, if_false, List.length_nil] at hopen hclose
      rw [e, vpack_loop_succ]
      simp only [nest.pack_args, List.nil_append, hopen]
      rw [vpack_loop_succ, hclose]
      simp [nest.fmt, nest.value, Nat.add_assoc]
    · intro fmt p suf kv below keys key ap fuel h
      have h1 : fmt.drop p = '{' :: '}' :: '}' :: suf := by simpa [nest.fmt] using h
      have hopen := vpack_iter_open_in_dict rpct_new '{' (Or.inr rfl) fmt p _ kv below keys 0 key ap h1
      have hclose := vpack_iter_close_in_dict rpct_new (.dictionary []) (Or.inr ⟨_, rfl⟩) fmt (p + 1)
        ('}' :: suf) kv below keys 0 (c_str key) ap (by simpa [delim_of] using drop_succ_of_drop h1)
      have e : fuel + nest.dict0.steps = (fuel + 1) + 1 := by simp [nest.steps]
      have e2 : ('{' : Char) ≠ '[' := by decide
      simp only [new_container, e2, if_false] at hopen hclose
      rw [e, vpack_loop_succ]
      simp only [nest.pack_args, List.nil_append, hopen]
      rw [vpack_loop_succ, hclose]
      simp [nest.fmt, nest.value, Nat.add_assoc]
  | arr e ih =>
    constructor
    · intro fmt p suf below keys idx ap fuel h
      have h1 : fmt.drop p = '[' :: (e.fmt ++ ']' :: ']' :: suf) := by simpa [nest.fmt] using h
      have hopen := vpack_iter_open_in_array rpct_new '[' (Or.inl rfl) fmt p _ [] below keys idx
        (e.pack_args ++ ap) h1
      have hin := ih.1 fmt (p + 1) (']' :: suf) (.array [] :: below) keys 0 ap (fuel + 1)
        (drop_succ_of_drop h1)
      have hclose := vpack_iter_close_in_array rpct_new (.array [e.value]) (Or.inl ⟨_, rfl⟩) fmt
        (p + 1 + e.fmt.length) (']' :: suf) [] below keys ap
        (by simpa [delim_of] using drop_add_of_drop fmt (p + 1) e.fmt _ (drop_succ_of_drop h1))
      have e1 : fuel + (nest.arr e).steps = (fuel + 1 + e.steps) + 1 := by
        simp [nest.steps]; omega
      simp only [new_container, if_true, List.length_nil] at hopen hclose
      rw [e1, vpack_loop_succ]
      simp only [nest.pack_args, hopen]
      rw [hin, vpack_loop_succ, hclose]
      simp [nest.fmt, nest.value, Nat.add_assoc, Nat.add_comm 1]
    · intro fmt p suf kv below keys key ap fuel h
      have h1 : fmt.drop p = '[' :: (e.fmt ++ ']' :: '}' :: suf) := by simpa [nest.fmt] using h
      have hopen := vpack_iter_open_in_dict rpct_new '[' (Or.inl rfl) fmt p _ kv below keys 0 key
        (e.pack_args ++ ap) h1
      have hin := ih.1 fmt (p + 1) ('}' :: suf) (.dictionary kv :: below) (some (c_str key) :: keys) 0 ap
        (fuel + 1) (drop_succ_of_drop h1)
      have hclose := vpack_iter_close_in_dict rpct_new (.array [e.value]) (Or.inl ⟨_, rfl⟩) fmt
        (p + 1 + e.fmt.length) ('}' :: suf) kv below keys 0 (c_str key) ap
        (by simpa [delim_of] using drop_add_of_drop fmt (p + 1) e.fmt _ (drop_succ_of_drop h1))
      have e1 : fuel + (nest.arr e).steps = (fuel + 1 + e.steps) + 1 := by
        simp [nest.steps]; omega
      simp only [new_container, if_true] at hopen hclose
      rw [e1, vpack_loop_succ]
      simp only [nest.pack_args, hopen]
      rw [hin, vpack_loop_succ, hclose]
      simp [nest.fmt, nest.value, Nat.add_assoc, Nat.add_comm 1]
  | dict k e ih =>
    have e2 : ('{' : Char) ≠ '[' := by decide
    constructor
    · intro fmt p suf below keys idx ap fuel h
      have h1 : fmt.drop p = '{' :: (e.fmt ++ '}' :: ']' :: suf) := by simpa [nest.fmt] using h
      have hopen := vpack_iter_open_in_array rpct_new '{' (Or.inr rfl) fmt p _ [] below keys idx
        (.str (some k) :: (e.pack_args ++ ap)) h1
      have hin := ih.2 fmt (p + 1) (']' :: suf) [] (.array [] :: below) keys k ap (fuel + 1)
        (drop_succ_of_drop h1)
      have hclose := vpack_iter_close_in_array rpct_new (.dictionary [(c_str k, e.value)])
        (Or.inr ⟨_, rfl⟩) fmt
        (p + 1 + e.fmt.length) (']' :: suf) [] below keys ap
        (by simpa [delim_of] using drop_add_of_drop fmt (p + 1) e.fmt _ (drop_succ_of_drop h1))
      have e1 : fuel + (nest.dict k e).steps = (fuel + 1 + e.steps) + 1 := by
        simp [nest.steps]; omega
      simp only [new_container, e2, if_false, List.length_nil] at hopen hclose
      simp only [rpc_dictionary_steal_value] at hin
      rw [e1, vpack_loop_succ]
      simp only [nest.pack_args, List.cons_append, hopen]
      rw [hin, vpack_loop_succ, hclose]
      simp [nest.fmt, nest.value, Nat.add_assoc, Nat.add_comm 1]
    · intro fmt p suf kv below keys key ap fuel h
      have h1 : fmt.drop p = '{' :: (e.fmt ++ '}' :: '}' :: suf) := by simpa [nest.fmt] using h
      have hopen := vpack_iter_open_in_dict rpct_new '{' (Or.inr rfl) fmt p _ kv below keys 0 key
        (.str (some k) :: (e.pack_args ++ ap)) h1
      have hin := ih.2 fmt (p + 1) ('}' :: suf) [] (.dictionary kv :: below) (some (c_str key) :: keys) k ap
        (fuel + 1) (drop_succ_of_drop h1)
      have hclose := vpack_iter_close_in_dict rpct_new (.dictionary [(c_str k, e.value)])
        (Or.inr ⟨_, rfl⟩) fmt
        (p + 1 + e.fmt.length) ('}' :: suf) kv below keys 0 (c_str key) ap
        (by simpa [delim_of] using drop_add_of_drop fmt (p + 1) e.fmt _ (drop_succ_of_drop h1))
      have e1 : fuel + (nest.dict k e).steps = (fuel + 1 + e.steps) + 1 := by
        simp [nest.steps]; omega
      simp only [new_container, e2, if_false] at hopen hclose
      simp only [rpc_dictionary_steal_value] at hin
      rw [e1, vpack_loop_succ]
      simp only [nest.pack_args, List.cons_append, hopen]
      rw [hin, vpack_loop_succ, hclose]
      simp [nest.fmt, nest.value, Nat.add_assoc, Nat.add_comm 1]

/-! ## Top-level packing of a single-element nest -/

theorem nest_steps_le_length (g : nest) : g.steps ≤ g.fmt.length := by
  induction g with
  | tok t => simp [nest.steps, nest.fmt]
  | arr0 => simp [nest.steps, nest.fmt]
  | dict0 => simp [nest.steps, nest.fmt]
  | arr e ih => simp [nest.steps, nest.fmt]; omega
  | dict k e ih => simp [nest.steps, nest.fmt]; omega

theorem nest_steps_pos (g : nest) : 1 ≤ g.steps := by
  cases g <;> simp [nest.steps]

theorem vpack_nest (rpct_new : String → Option rpc_object → Option rpc_object) (g : nest)
    (rest : List pack_arg) :
    rpc_object_vpack rpct_new g.fmt (g.pack_args ++ rest) = .object g.value := by
  unfold rpc_object_vpack
  cases g with
  | tok t =>
    have h := vpack_iter_scalar_top rpct_new t.scalar (nest.tok t).fmt 0 [] [] 0 rest
      (by simp [nest.fmt])
    simp only [nest.pack_args, nest.value]
    rw [vpack_loop_succ, h]
  | arr0 =>
    have hopen := (vpack_iter_open_top rpct_new nest.arr0.fmt 0 [']'] [] 0 rest).1
      (by simp [nest.fmt])
    have hclose := vpack_iter_close_top rpct_new nest.arr0.fmt 1 [] (.array []) [] 0 rest
      (by simp [nest.fmt, delim_of])
    simp only [nest.pack_args, nest.value, List.nil_append]
    have e1 : nest.arr0.fmt.length = 1 + 1 := rfl
    rw [vpack_loop_succ, hopen]
    simp only [Nat.zero_add]
    rw [e1, vpack_loop_succ, hclose]
  | dict0 =>
    have hopen := (vpack_iter_open_top rpct_new nest.dict0.fmt 0 ['}'] [] 0 rest).2
      (by simp [nest.fmt])
    have hclose := vpack_iter_close_top rpct_new nest.dict0.fmt 1 [] (.dictionary []) [] 0 rest
      (by simp [nest.fmt, delim_of])
    simp only [nest.pack_args, nest.value, List.nil_append]
    have e1 : nest.dict0.fmt.length = 1 + 1 := rfl
    rw [vpack_loop_succ, hopen]
    simp only [Nat.zero_add]
    rw [e1, vpack_loop_succ, hclose]
  | arr e =>
    have h0 : (nest.arr e).fmt.drop 0 = '[' :: (e.fmt ++ ']' :: []) := by simp [nest.fmt]
    have hopen := (vpack_iter_open_top rpct_new (nest.arr e).fmt 0 _ [] 0 (e.pack_args ++ rest)).1 h0
    have hin := (vpack_loop_nest rpct_new e).1 (nest.arr e).fmt 1 [] [] [] 0 rest
      (e.fmt.length - e.steps + 1 + 1) (drop_succ_of_drop h0)
    have hclose := vpack_iter_close_top rpct_new (nest.arr e).fmt (1 + e.fmt.length) []
      (.array [e.value]) [] 0 rest
      (by simpa [delim_of] using drop_add_of_drop _ 1 e.fmt _ (drop_succ_of_drop h0))
    have hle := nest_steps_le_length e
    have e1 : (nest.arr e).fmt.length = e.fmt.length - e.steps + 1 + 1 + e.steps := by
      simp only [nest.fmt, List.length_cons, List.length_append, List.length_nil]; omega
    simp only [nest.pack_args, nest.value]
    rw [vpack_loop_succ, hopen]
    simp only []
    rw [e1, hin, vpack_loop_succ, hclose]
  | dict k e =>
    have h0 : (nest.dict k e).fmt.drop 0 = '{' :: (e.fmt ++ '}' :: []) := by simp [nest.fmt]
    have hopen := (vpack_iter_open_top rpct_new (nest.dict k e).fmt 0 _ [] 0
      (.str (some k) :: (e.pack_args ++ rest))).2 h0
    have hin := (vpack_loop_nest rpct_new e).2 (nest.dict k e).fmt 1 [] [] [] [] k rest
      (e.fmt.length - e.steps + 1 + 1) (drop_succ_of_drop h0)
    have hclose := vpack_iter_close_top rpct_new (nest.dict k e).fmt (1 + e.fmt.length) []
      (.dictionary [(c_str k, e.value)]) [] 0 rest
      (by simpa [delim_of] using drop_add_of_drop _ 1 e.fmt _ (drop_succ_of_drop h0))
    have hle := nest_steps_le_length e
    have e1 : (nest.dict k e).fmt.length = e.fmt.length - e.steps + 1 + 1 + e.steps := by
      simp only [nest.fmt, List.length_cons, List.length_append, List.length_nil]; omega
    simp only [rpc_dictionary_steal_value] at hin
    simp only [nest.pack_args, nest.value, List.cons_append]
    rw [vpack_loop_succ, hopen]
    simp only []
    rw [e1, hin, vpack_loop_succ, hclose]

/-! ## Single iterations of the unpack loop -/

theorem unpack_bind_token (t : bind_token) :
    unpack_bind t.scalar.ch t.scalar.value = some t.out := by
  cases t with
  | s v => cases v <;> simp [unpack_bind, bind_token.scalar, scalar_token.ch, scalar_token.value,
      bind_token.out, rpc_string_get_string_ptr]
  | _ => simp [unpack_bind, bind_token.scalar, scalar_token.ch, scalar_token.value,
      bind_token.out, rpc_bool_get_value, rpc_int64_get_value, rpc_uint64_get_value,
      rpc_double_get_value, rpc_fd_get_value]

theorem bind_token_ch_ne (t : bind_token) :
    t.scalar.ch ≠ Char.ofNat 0 ∧ t.scalar.ch ≠ ']' ∧ t.scalar.ch ≠ '}' ∧ t.scalar.ch ≠ '*' := by
  cases t <;> (dsimp only [bind_token.scalar, scalar_token.ch]; decide)

theorem unpack_loop_bind_in_array (t : bind_token) (fmt : List Char) (p : Nat) (suf : List Char)
    (xs : List rpc_object) (idx : Nat) (cur : Option rpc_object) (cnt : Nat)
    (ap : List unpack_arg) (outs : List unpack_out) (fuel : Nat)
    (h : fmt.drop p = t.scalar.ch :: suf) (hget : xs[idx]? = some t.scalar.value) :
    unpack_loop fmt (fuel + 1) (some (.array xs)) none cur p idx cnt (.out :: ap) outs
      = unpack_loop fmt fuel (some (.array xs)) none (some t.scalar.value) (p + 1) (idx + 1)
          (cnt + 1) ap (outs ++ [t.out]) := by
  obtain ⟨h0, h1, h2, h3⟩ := bind_token_ch_ne t
  simp only [unpack_loop, unpack_iter, unpack_fetch, unpack_switch, fmt_at_of_drop h, h0, if_false, ne_eq, h1, not_false_eq_true, if_true,
    rpc_array_get_value, hget, h3, unpack_bind_token]

theorem unpack_loop_bind_in_dict (t : bind_token) (fmt : List Char) (p : Nat) (suf : List Char)
    (kv : List (String × rpc_object)) (key : String) (idx : Nat) (cur : Option rpc_object)
    (cnt : Nat) (ap : List unpack_arg) (outs : List unpack_out) (fuel : Nat)
    (h : fmt.drop p = t.scalar.ch :: suf) (hget : dict_lookup kv key = some t.scalar.value) :
    unpack_loop fmt (fuel + 1) none (some (.dictionary kv)) cur p idx cnt
        (.key (some key) :: .out :: ap) outs
      = unpack_loop fmt fuel none (some (.dictionary kv)) (some t.scalar.value) (p + 1) idx
          (cnt + 1) ap (outs ++ [t.out]) := by
  obtain ⟨h0, h1, h2, h3⟩ := bind_token_ch_ne t
  simp only [unpack_loop, unpack_iter, unpack_fetch, unpack_switch, fmt_at_of_drop h, h0, if_false, ne_eq, h2, not_false_eq_true, if_true,
    hget, h3, unpack_bind_token]

theorem unpack_loop_enter (c : Char) (hc : c = '[' ∨ c = '{') (fmt : List Char) (p : Nat)
    (suf : List Char) (cur : rpc_object) (idx cnt : Nat) (ap : List unpack_arg)
    (outs : List unpack_out) (fuel : Nat) (h : fmt.drop p = c :: suf) :
    unpack_loop fmt (fuel + 1) none none (some cur) p idx cnt ap outs
      = if c = '[' then unpack_loop fmt fuel (some cur) none (some cur) (p + 1) idx cnt ap outs
        else unpack_loop fmt fuel none (some cur) (some cur) (p + 1) idx cnt ap outs := by
  rcases hc with hc | hc <;> subst hc <;>
    simp [unpack_loop, unpack_iter, unpack_fetch, unpack_switch, fmt_at_of_drop h, unpack_bind]

theorem unpack_loop_close_array (fmt : List Char) (p : Nat) (suf : List Char)
    (a : rpc_object) (cur : rpc_object) (idx cnt : Nat) (ap : List unpack_arg)
    (outs : List unpack_out) (fuel : Nat) (h : fmt.drop p = ']' :: suf) :
    unpack_loop fmt (fuel + 1) (some a) none (some cur) p idx cnt ap outs
      = .ret p cnt ap outs := by
  simp [unpack_loop, unpack_iter, unpack_fetch, unpack_switch, fmt_at_of_drop h, unpack_bind]

theorem unpack_loop_close_dict (fmt : List Char) (p : Nat) (suf : List Char)
    (d : rpc_object) (cur : rpc_object) (idx cnt : Nat) (ap : List unpack_arg)
    (outs : List unpack_out) (fuel : Nat) (h : fmt.drop p = '}' :: suf) :
    unpack_loop fmt (fuel + 1) none (some d) (some cur) p idx cnt ap outs
      = .ret p cnt ap outs := by
  simp [unpack_loop, unpack_iter, unpack_fetch, unpack_switch, fmt_at_of_drop h, unpack_bind]

theorem unpack_loop_nested_in_array (c : Char) (hc : c = '[' ∨ c = '{') (fmt : List Char)
    (p : Nat) (suf : List Char) (xs : List rpc_object) (idx : Nat) (v : rpc_object)
    (cur : Option rpc_object) (cnt : Nat) (ap : List unpack_arg) (outs : List unpack_out)
    (fuel : Nat) (h : fmt.drop p = c :: suf) (hget : xs[idx]? = some v) :
    unpack_loop fmt (fuel + 1) (some (.array xs)) none cur p idx cnt ap outs
      = match unpack_loop fmt fuel none none (some v) p 0 cnt ap outs with
        | .ret i1 cnt1 ap1 outs1 =>
          unpack_loop fmt fuel (some (.array xs)) none (some v) (i1 + 1) (idx + 1) cnt1 ap1 outs1
        | r => r := by
  rcases hc with hc | hc <;> subst hc <;>
    simp [unpack_loop, unpack_iter, unpack_fetch, unpack_switch, fmt_at_of_drop h, unpack_bind, rpc_array_get_value, hget]

theorem unpack_loop_nested_in_dict (c : Char) (hc : c = '[' ∨ c = '{') (fmt : List Char)
    (p : Nat) (suf : List Char) (kv : List (String × rpc_object)) (key : String) (idx : Nat)
    (v : rpc_object) (cur : Option rpc_object) (cnt : Nat) (ap : List unpack_arg)
    (outs : List unpack_out) (fuel : Nat) (h : fmt.drop p = c :: suf)
    (hget : dict_lookup kv key = some v) :
    unpack_loop fmt (fuel + 1) none (some (.dictionary kv)) cur p idx cnt
        (.key (some key) :: ap) outs
      = match unpack_loop fmt fuel none none (some v) p 0 cnt ap outs with
        | .ret i1 cnt1 ap1 outs1 =>
          unpack_loop fmt fuel none (some (.dictionary kv)) (some v) (i1 + 1) idx cnt1 ap1 outs1
        | r => r := by
  rcases hc with hc | hc <;> subst hc <;>
    simp [unpack_loop, unpack_iter, unpack_fetch, unpack_switch, fmt_at_of_drop h, unpack_bind, hget]

/-! ## Unpacking a single-element nest -/

theorem elem_ok_tok (t : bind_token) :
    elem_in_array_ok (.tok t) ∧ elem_in_dict_ok (.tok t) := by
  constructor
  · intro fmt p suf xs idx cur cnt ap outs fuel h hget _
    have h1 : fmt.drop p = t.scalar.ch :: suf := by simpa [nest.fmt] using h
    simpa [nest.fmt, nest.unpack_args, nest.outs, nest.value] using
      unpack_loop_bind_in_array t fmt p suf xs idx cur cnt ap outs fuel h1 hget
  · intro fmt p suf kv key idx cur cnt ap outs fuel h hget _
    have h1 : fmt.drop p = t.scalar.ch :: suf := by simpa [nest.fmt] using h
    simpa [nest.fmt, nest.unpack_args, nest.outs, nest.value] using
      unpack_loop_bind_in_dict t fmt p suf kv key idx cur cnt ap outs fuel h1 hget

theorem elem_ok_of_layer (g : nest) (c : Char) (inner : List Char) (hc : c = '[' ∨ c = '{')
    (hfmt : g.fmt = c :: inner) (hL : layer_ok g) :
    elem_in_array_ok g ∧ elem_in_dict_ok g := by
  have hlen : 1 ≤ g.fmt.length := by rw [hfmt]; simp
  constructor
  · intro fmt p suf xs idx cur cnt ap outs fuel h hget hf
    have h1 : fmt.drop p = c :: (inner ++ suf) := by simpa [hfmt] using h
    have hl := hL fmt p suf cnt ap outs (fuel - g.steps) h
    have e : fuel - g.steps + g.steps = fuel := by omega
    rw [e] at hl
    rw [unpack_loop_nested_in_array c hc fmt p _ xs idx g.value cur cnt _ outs fuel h1 hget, hl]
    have e2 : p + g.fmt.length - 1 + 1 = p + g.fmt.length := by omega
    simp only [e2]
  · intro fmt p suf kv key idx cur cnt ap outs fuel h hget hf
    have h1 : fmt.drop p = c :: (inner ++ suf) := by simpa [hfmt] using h
    have hl := hL fmt p suf cnt ap outs (fuel - g.steps) h
    have e : fuel - g.steps + g.steps = fuel := by omega
    rw [e] at hl
    rw [unpack_loop_nested_in_dict c hc fmt p _ kv key idx g.value cur cnt _ outs fuel h1 hget, hl]
    have e2 : p + g.fmt.length - 1 + 1 = p + g.fmt.length := by omega
    simp only [e2]

theorem layer_ok_arr0 : layer_ok .arr0 := by
  intro fmt p suf cnt ap outs fuel h
  have h1 : fmt.drop p = '[' :: ']' :: suf := by simpa [nest.fmt] using h
  have e : fuel + nest.arr0.steps = (fuel + 1) + 1 := by simp [nest.steps]
  rw [e, unpack_loop_enter '[' (Or.inl rfl) fmt p _ _ 0 cnt _ outs (fuel + 1) h1]
  simp only [if_true]
  rw [unpack_loop_close_array fmt (p + 1) suf _ _ 0 cnt _ outs fuel (drop_succ_of_drop h1)]
  simp [nest.fmt, nest.unpack_args, nest.outs]

theorem layer_ok_dict0 : layer_ok .dict0 := by
  intro fmt p suf cnt ap outs fuel h
  have h1 : fmt.drop p = '{' :: '}' :: suf := by simpa [nest.fmt] using h
  have e : fuel + nest.dict0.steps = (fuel + 1) + 1 := by simp [nest.steps]
  have e2 : ('{' : Char) ≠ '[' := by decide
  rw [e, unpack_loop_enter '{' (Or.inr rfl) fmt p _ _ 0 cnt _ outs (fuel + 1) h1]
  simp only [e2, if_false]
  rw [unpack_loop_close_dict fmt (p + 1) suf _ _ 0 cnt _ outs fuel (drop_succ_of_drop h1)]
  simp [nest.fmt, nest.unpack_args, nest.outs]

theorem layer_ok_arr (e : nest) (he : elem_in_array_ok e) : layer_ok (.arr e) := by
  intro fmt p suf cnt ap outs fuel h
  have h1 : fmt.drop p = '[' :: (e.fmt ++ ']' :: suf) := by simpa [nest.fmt] using h
  have hpos := nest_steps_pos e
  have e1 : fuel + (nest.arr e).steps = (fuel + e.steps + 1) + 1 := by simp [nest.steps]; omega
  have hin := he fmt (p + 1) (']' :: suf) [e.value] 0 (some (.array [e.value])) cnt ap outs
    (fuel + e.steps) (drop_succ_of_drop h1) (by simp) (by omega)
  have hnext := drop_add_of_drop fmt (p + 1) e.fmt _ (drop_succ_of_drop h1)
  have e2 : fuel + e.steps = (fuel + e.steps - 1) + 1 := by omega
  rw [e1, unpack_loop_enter '[' (Or.inl rfl) fmt p _ _ 0 cnt _ outs (fuel + e.steps + 1) h1]
  simp only [if_true, nest.value, nest.unpack_args]
  rw [hin, e2, unpack_loop_close_array fmt (p + 1 + e.fmt.length) suf _ _ _ _ _ _ _ hnext]
  simp [nest.fmt, nest.outs, Nat.add_assoc, Nat.add_comm 1]

theorem layer_ok_dict (k : String) (e : nest) (hk : c_str k = k) (he : elem_in_dict_ok e) :
    layer_ok (.dict k e) := by
  intro fmt p suf cnt ap outs fuel h
  have h1 : fmt.drop p = '{' :: (e.fmt ++ '}' :: suf) := by simpa [nest.fmt] using h
  have hpos := nest_steps_pos e
  have e1 : fuel + (nest.dict k e).steps = (fuel + e.steps + 1) + 1 := by simp [nest.steps]; omega
  have hin := he fmt (p + 1) ('}' :: suf) [(k, e.value)] k 0 (some (.dictionary [(k, e.value)]))
    cnt ap outs (fuel + e.steps) (drop_succ_of_drop h1) (by simp [dict_lookup]) (by omega)
  have hnext := drop_add_of_drop fmt (p + 1) e.fmt _ (drop_succ_of_drop h1)
  have e2 : fuel + e.steps = (fuel + e.steps - 1) + 1 := by omega
  have e3 : ('{' : Char) ≠ '[' := by decide
  rw [e1, unpack_loop_enter '{' (Or.inr rfl) fmt p _ _ 0 cnt _ outs (fuel + e.steps + 1) h1]
  simp only [e3, if_false, nest.value, nest.unpack_args, List.cons_append, hk]
  rw [hin, e2, unpack_loop_close_dict fmt (p + 1 + e.fmt.length) suf _ _ _ _ _ _ _ hnext]
  simp [nest.fmt, nest.outs, Nat.add_assoc, Nat.add_comm 1]

theorem c_keys_dict {k : String} {e : nest} (h : (nest.dict k e).c_keys = true) :
    c_str k = k ∧ e.c_keys = true := by
  simpa [nest.c_keys] using h

theorem elem_ok_all (g : nest) (hg : g.c_keys = true) :
    elem_in_array_ok g ∧ elem_in_dict_ok g := by
  induction g with
  | tok t => exact elem_ok_tok t
  | arr0 => exact elem_ok_of_layer _ '[' _ (Or.inl rfl) rfl layer_ok_arr0
  | dict0 => exact elem_ok_of_layer _ '{' _ (Or.inr rfl) rfl layer_ok_dict0
  | arr e ih => exact elem_ok_of_layer _ '[' _ (Or.inl rfl) rfl (layer_ok_arr e (ih hg).1)
  | dict k e ih =>
    obtain ⟨hk, he⟩ := c_keys_dict hg
    exact elem_ok_of_layer _ '{' _ (Or.inr rfl) rfl (layer_ok_dict k e hk (ih he).2)

theorem vunpack_nest (g : nest) (hg : g.c_keys = true) (rest : List unpack_arg) :
    rpc_object_vunpack (some g.value) g.fmt (g.unpack_args ++ rest)
      = .count g.outs.length g.outs := by
  have hle := nest_steps_le_length g
  have hcont : 2 ≤ g.fmt.length → layer_ok g →
      rpc_object_vunpack (some g.value) g.fmt (g.unpack_args ++ rest)
        = .count g.outs.length g.outs := by
    intro hlen hL
    have hl := hL g.fmt 0 [] 0 rest [] (3 * g.fmt.length + 3 - g.steps) (by simp)
    have e : 3 * g.fmt.length + 3 - g.steps + g.steps = 3 * g.fmt.length + 3 := by omega
    rw [e] at hl
    have hpos : g.fmt.length - 1 > 0 := by omega
    simp only [rpc_object_vunpack, rpc_object_unpack_layer, hl, Nat.zero_add,
      List.nil_append, hpos, if_true]
  cases g with
  | tok t =>
    have h0 : (nest.tok t).fmt.drop 0 = t.scalar.ch :: [] := by simp [nest.fmt]
    obtain ⟨c0, c1, c2, c3⟩ := bind_token_ch_ne t
    have hend : fmt_at (nest.tok t).fmt 1 = some (Char.ofNat 0) := by simp [fmt_at, nest.fmt]
    simp only [rpc_object_vunpack, rpc_object_unpack_layer, nest.fmt, List.length_singleton,
      nest.value, nest.unpack_args, nest.outs]
    simp only [nest.fmt] at h0 hend
    simp [unpack_loop, unpack_iter, unpack_fetch, unpack_switch, fmt_at_of_drop h0, c0, c3, unpack_bind_token, hend]
  | arr0 => exact hcont (by simp [nest.fmt]) layer_ok_arr0
  | dict0 => exact hcont (by simp [nest.fmt]) layer_ok_dict0
  | arr e => exact hcont (by simp [nest.fmt]) (layer_ok_arr e (elem_ok_all e hg).1)
  | dict k e =>
    obtain ⟨hk, he⟩ := c_keys_dict hg
    exact hcont (by simp [nest.fmt]) (layer_ok_dict k e hk (elem_ok_all e he).2)

/-! ## The step budget of the pack loop is never exhausted -/

theorem fmt_at_lt_of_ne_nul {fmt : List Char} {p : Nat} {c : Char}
    (h : fmt_at fmt p = some c) (hc : c ≠ Char.ofNat 0) : p < fmt.length := by
  unfold fmt_at at h
  by_cases h1 : p < fmt.length
  · exact h1
  · by_cases h2 : p = fmt.length
    · simp [h1, h2] at h
      exact absurd h.symm hc
    · simp [h1, h2] at h

theorem vpack_scan_bounds (fmt : List Char) : ∀ (fuel sp : Nat) (colon : Option Nat)
    (r : Nat × Option Nat × Option Nat), vpack_scan fmt fuel sp colon = some r →
    sp ≤ r.1 ∧ r.1 < fmt.length ∧
    (r.2.1 = none → ∃ c, fmt_at fmt r.1 = some c ∧ stop_char c = true ∧ c ≠ ',') := by
  intro fuel
  induction fuel with
  | zero => intro sp colon r h; simp [vpack_scan] at h
  | succ k ih =>
    intro sp colon r h
    simp only [vpack_scan] at h
    cases hat : fmt_at fmt sp with
    | none => simp [hat] at h
    | some c =>
      simp only [hat] at h
      by_cases hcomma : c = ','
      · simp only [hcomma, if_true, Option.some.injEq] at h
        subst h
        have hlt := fmt_at_lt_of_ne_nul hat (by rw [hcomma]; decide)
        exact ⟨Nat.le_refl _, hlt, by simp⟩
      · simp only [hcomma, if_false] at h
        by_cases hstop : c = '<' ∨ c = '[' ∨ c = ']' ∨ c = '{' ∨ c = '}'
        · simp only [hstop, if_true, Option.some.injEq] at h
          subst h
          have hnul : c ≠ Char.ofNat 0 := by
            rcases hstop with h1 | h1 | h1 | h1 | h1 <;> rw [h1] <;> decide
          have hs : stop_char c = true := by
            rcases hstop with h1 | h1 | h1 | h1 | h1 <;> rw [h1] <;> decide
          exact ⟨Nat.le_refl _, fmt_at_lt_of_ne_nul hat hnul, fun _ => ⟨c, hat, hs, hcomma⟩⟩
        · simp only [hstop, if_false] at h
          obtain ⟨h1, h2, h3⟩ := ih _ _ r h
          exact ⟨by omega, h2, h3⟩

theorem vpack_skip_type_bounds (fmt : List Char) : ∀ (fuel ptr nesting p : Nat),
    nesting ≠ 0 → vpack_skip_type fmt fuel ptr nesting = some p →
    ptr < p ∧ p < fmt.length := by
  intro fuel
  induction fuel with
  | zero => intro ptr nesting p _ h; simp [vpack_skip_type] at h
  | succ k ih =>
    intro ptr nesting p hn h
    simp only [vpack_skip_type] at h
    cases hat : fmt_at fmt (ptr + 1) with
    | none => simp [hat] at h
    | some c =>
      simp only [hat] at h
      by_cases hz : (if c = '>' then ((if c = '<' then (nesting + 1) % 2 ^ 32 else nesting)
          + 2 ^ 32 - 1) % 2 ^ 32 else (if c = '<' then (nesting + 1) % 2 ^ 32 else nesting)) = 0
      · simp only [hz, if_true, Option.some.injEq] at h
        subst h
        have hnul : c ≠ Char.ofNat 0 := by
          intro h0
          subst h0
          have e1 : ¬ (Char.ofNat 0 = '>') := by decide
          have e2 : ¬ (Char.ofNat 0 = '<') := by decide
          simp only [e1, e2, if_false] at hz
          exact hn hz
        exact ⟨by omega, fmt_at_lt_of_ne_nul hat hnul⟩
      · simp only [hz, if_false] at h
        obtain ⟨h1, h2⟩ := ih _ _ p hz h
        exact ⟨by omega, h2⟩

theorem vpack_lookahead_bounds (fmt : List Char) (container : rpc_object) (ptr : Nat)
    (st : pack_state) (c ch : Char) (ptr1 : Nat) (st1 : pack_state)
    (hat : fmt_at fmt ptr = some c) (hc : c ≠ delim_of container)
    (h : vpack_lookahead fmt container ptr st = .ok (ch, ptr1, st1)) :
    ptr ≤ ptr1 ∧ ptr1 < fmt.length := by
  unfold vpack_lookahead at h
  cases hscan : vpack_scan fmt (fmt.length + 2 - ptr) ptr none with
  | none => simp [hscan] at h
  | some r =>
    obtain ⟨sp, cm, cl⟩ := r
    obtain ⟨hb1, hb2, hb3⟩ := vpack_scan_bounds fmt _ _ _ _ hscan
    simp only [hscan] at h
    split at h
    · simp at h
    · rename_i st2 _
      simp only at hb1 hb2 hb3
      split at h
      · simp only [Except.ok.injEq, Prod.mk.injEq] at h
        obtain ⟨_, h2, _⟩ := h
        omega
      · split at h
        · rename_i hcase
          simp only [Except.ok.injEq, Prod.mk.injEq] at h
          obtain ⟨_, h2, _⟩ := h
          obtain ⟨hcm, hd⟩ := hcase
          have hne : sp ≠ ptr := by
            intro he
            subst he
            obtain ⟨c1, hc1, _, _⟩ := hb3 hcm
            rw [hat] at hc1
            simp only [hat, Option.getD_some] at hd
            exact hc hd
          omega
        · simp only [Except.ok.injEq, Prod.mk.injEq] at h
          obtain ⟨_, h2, _⟩ := h
          omega

theorem vpack_token_shape (fmt : List Char) (ch : Char) (ptr : Nat) (st : pack_state) :
    (∃ cur st1, vpack_token fmt ch ptr st = .value cur st1) ∨
    (∃ st1, vpack_token fmt ch ptr st = .next ptr st1) ∨
    (∃ p st1, vpack_skip_type fmt (fmt.length + 2 - ptr) ptr 1 = some p ∧
      vpack_token fmt ch ptr st = .next p st1) ∨
    (∃ k, vpack_token fmt ch ptr st = .error (.fault k)) ∨
    vpack_token fmt ch ptr st = .error .einval := by
  unfold vpack_token
  by_cases h1 : ch = 'v'
  · rw [if_pos h1]; split <;> simp
  rw [if_neg h1]
  by_cases h2 : ch = 'n'
  · rw [if_pos h2]; simp
  rw [if_neg h2]
  by_cases h3 : ch = 'b'
  · rw [if_pos h3]; simp
  rw [if_neg h3]
  by_cases h4 : ch = 'B'
  · rw [if_pos h4]; simp
  rw [if_neg h4]
  by_cases h5 : ch = 'f'
  · rw [if_pos h5]; split <;> simp
  rw [if_neg h5]
  by_cases h6 : ch = 'i'
  · rw [if_pos h6]; split <;> simp
  rw [if_neg h6]
  by_cases h7 : ch = 'u'
  · rw [if_pos h7]; split <;> simp
  rw [if_neg h7]
  by_cases h8 : ch = 'd'
  · rw [if_pos h8]; split <;> simp
  rw [if_neg h8]
  by_cases h9 : ch = 's'
  · rw [if_pos h9]; split <;> simp
  rw [if_neg h9]
  by_cases h10 : ch = '<'
  · rw [if_pos h10]
    cases hs : vpack_skip_type fmt (fmt.length + 2 - ptr) ptr 1 with
    | none => simp
    | some p => simp
  rw [if_neg h10]
  by_cases h11 : ch = '{'
  · rw [if_pos h11]; simp
  rw [if_neg h11]
  by_cases h12 : ch = '['
  · rw [if_pos h12]; simp
  rw [if_neg h12]
  by_cases h13 : ch = '}' ∨ ch = ']'
  · rw [if_pos h13]; simp
  rw [if_neg h13]
  simp

theorem vpack_put_not_fuel (current : Option rpc_object) (st : pack_state) :
    vpack_put current st ≠ .done .fuel := by
  unfold vpack_put
  cases st.stack with
  | nil => cases current <;> simp
  | cons c below =>
    cases current with
    | none => simp
    | some v =>
      cases c <;> simp only []
      all_goals first
        | (intro h; cases h)
        | (split <;> (intro h; cases h))

theorem vpack_store_not_fuel (rpct_new : String → Option rpc_object → Option rpc_object)
    (current : Option rpc_object) (st : pack_state) :
    vpack_store rpct_new current st ≠ .done .fuel := by
  unfold vpack_store
  cases vpack_typed rpct_new current st with
  | none => simp
  | some r => exact vpack_put_not_fuel r.1 r.2

theorem vpack_lookahead_not_fuel (fmt : List Char) (container : rpc_object) (ptr : Nat)
    (st : pack_state) : vpack_lookahead fmt container ptr st ≠ .error .fuel := by
  unfold vpack_lookahead
  cases vpack_scan fmt (fmt.length + 2 - ptr) ptr none with
  | none => simp
  | some r =>
    obtain ⟨sp, cm, cl⟩ := r
    simp only []
    have hst : ∀ x : Except vpack_result pack_state, x ≠ .error .fuel →
        (match x with
          | .error e => (Except.error e : Except vpack_result (Char × Nat × pack_state))
          | .ok st2 =>
            if cm = none ∧ (fmt_at fmt sp).getD (Char.ofNat 0) ≠ delim_of container then
              .ok ((fmt_at fmt sp).getD (Char.ofNat 0), sp, st2)
            else if cm = none ∧ (fmt_at fmt sp).getD (Char.ofNat 0) = delim_of container then
              .ok ((fmt_at fmt (sp - 1)).getD (Char.ofNat 0), sp - 1, st2)
            else .ok ((fmt_at fmt (sp - 1)).getD (Char.ofNat 0), sp, st2)) ≠ .error .fuel := by
      intro x hx
      cases x with
      | error e =>
        simp only []
        intro h
        injection h with h1
        exact hx (by rw [h1])
      | ok st2 =>
        simp only []
        split_ifs <;> (intro h; cases h)
    apply hst
    cases container with
    | array xs =>
      cases cl with
      | none => simp
      | some cp =>
        simp only []
        split_ifs <;> (intro h; cases h)
    | _ =>
      cases cl with
      | some cp => simp
      | none =>
        simp only []
        split <;> (intro h; cases h)

/-- An iteration of the pack loop ends the call with an outcome other than an
exhausted budget, or moves `ptr` forward without leaving the format string. -/
theorem vpack_iter_progress (rpct_new : String → Option rpc_object → Option rpc_object)
    (fmt : List Char) (ptr : Nat) (st : pack_state) :
    (∃ r, vpack_iter rpct_new fmt ptr st = .done r ∧ r ≠ .fuel) ∨
    (∃ p1 st1, vpack_iter rpct_new fmt ptr st = .again p1 st1 ∧ ptr < p1 ∧ p1 ≤ fmt.length) := by
  unfold vpack_iter
  cases hat : fmt_at fmt ptr with
  | none => exact Or.inl ⟨_, rfl, by simp⟩
  | some c =>
    simp only []
    by_cases hnul : c = Char.ofNat 0
    · rw [if_pos hnul]; exact Or.inl ⟨_, rfl, by simp⟩
    rw [if_neg hnul]
    have hp := fmt_at_lt_of_ne_nul hat hnul
    have key : ∀ (ch : Char) (ptr1 : Nat) (st1 : pack_state), ptr ≤ ptr1 → ptr1 < fmt.length →
        (∃ r, (match vpack_token fmt ch ptr1 st1 with
            | .error e => iter_result.done e
            | .next ptr2 st2 => .again (ptr2 + 1) st2
            | .value current st2 =>
              match vpack_store rpct_new current st2 with
              | .done r => .done r
              | .stored st3 => .again (ptr1 + 1) st3) = .done r ∧ r ≠ .fuel) ∨
        (∃ p1 st2, (match vpack_token fmt ch ptr1 st1 with
            | .error e => iter_result.done e
            | .next ptr2 st2 => .again (ptr2 + 1) st2
            | .value current st2 =>
              match vpack_store rpct_new current st2 with
              | .done r => .done r
              | .stored st3 => .again (ptr1 + 1) st3) = .again p1 st2 ∧ ptr < p1
            ∧ p1 ≤ fmt.length) := by
      intro ch ptr1 st1 hle hlt
      rcases vpack_token_shape fmt ch ptr1 st1 with ⟨cur, st2, h⟩ | ⟨st2, h⟩ | ⟨p, st2, hs, h⟩ |
          ⟨k, h⟩ | h
      · rw [h]
        simp only []
        cases hst : vpack_store rpct_new cur st2 with
        | done r =>
          refine Or.inl ⟨r, rfl, ?_⟩
          intro hr
          exact vpack_store_not_fuel rpct_new cur st2 (by rw [hst, hr])
        | stored st3 => exact Or.inr ⟨_, _, rfl, by omega, by omega⟩
      · rw [h]; exact Or.inr ⟨_, _, rfl, by omega, by omega⟩
      · rw [h]
        obtain ⟨h3, h4⟩ := vpack_skip_type_bounds fmt _ _ 1 _ (by decide) hs
        exact Or.inr ⟨_, _, rfl, by omega, by omega⟩
      · rw [h]; exact Or.inl ⟨_, rfl, by simp⟩
      · rw [h]; exact Or.inl ⟨_, rfl, by simp⟩
    cases hstack : st.stack with
    | nil => exact key c ptr st (Nat.le_refl _) hp
    | cons container below =>
      simp only []
      by_cases hd : c ≠ delim_of container
      · rw [if_pos hd]
        cases hla : vpack_lookahead fmt container ptr st with
        | error e =>
          refine Or.inl ⟨e, rfl, ?_⟩
          intro he
          exact vpack_lookahead_not_fuel fmt container ptr st (by rw [hla, he])
        | ok r =>
          obtain ⟨ch, ptr1, st1⟩ := r
          obtain ⟨hb1, hb2⟩ := vpack_lookahead_bounds fmt container ptr st c ch ptr1 st1 hat hd hla
          exact key ch ptr1 st1 hb1 hb2
      · rw [if_neg hd]
        exact key c ptr st (Nat.le_refl _) hp

theorem vpack_loop_not_fuel (rpct_new : String → Option rpc_object → Option rpc_object)
    (fmt : List Char) : ∀ (fuel ptr : Nat) (st : pack_state),
    ptr ≤ fmt.length → fmt.length + 1 ≤ fuel + ptr →
    vpack_loop rpct_new fmt fuel ptr st ≠ .fuel := by
  intro fuel
  induction fuel with
  | zero => intro ptr st h1 h2; omega
  | succ k ih =>
    intro ptr st h1 h2
    rw [vpack_loop_succ]
    rcases vpack_iter_progress rpct_new fmt ptr st with ⟨r, h, hr⟩ | ⟨p1, st1, h, h3, h4⟩
    · rw [h]; exact hr
    · rw [h]; exact ih p1 st1 h4 (by omega)

/-- The budget of `rpc_object_vpack` is never exhausted: every call ends with an
object, NULL, EINVAL or a fault. -/
theorem rpc_object_vpack_total (rpct_new : String → Option rpc_object → Option rpc_object)
    (fmt : List Char) (ap : List pack_arg) : rpc_object_vpack rpct_new fmt ap ≠ .fuel :=
  vpack_loop_not_fuel rpct_new fmt _ 0 _ (Nat.zero_le _) (by omega)

/-! ## The step budget of the unpack loop is never exhausted -/

theorem layer_failed_fail (b : Bool) : layer_failed (.fail b) := Or.inl ⟨b, rfl⟩

theorem layer_failed_fault (k : fault_kind) : layer_failed (.fault k) := Or.inr ⟨k, rfl⟩

theorem layer_ended_at_not_fuel {i : Nat} {r : layer_result} (h : layer_ended_at i r) :
    r ≠ .fuel := by
  rcases h with (⟨b, rfl⟩ | ⟨k, rfl⟩) | ⟨c, a, o, rfl⟩ <;> simp

theorem layer_ended_at_ret {i i1 cnt : Nat} {ap : List unpack_arg} {outs : List unpack_out}
    (h : layer_ended_at i (.ret i1 cnt ap outs)) : i1 = i := by
  rcases h with (⟨b, h⟩ | ⟨k, h⟩) | ⟨c, a, o, h⟩
  · cases h
  · cases h
  · injection h

theorem unpack_fetch_failed (array dictionary current : Option rpc_object) (ch : Char)
    (idx : Nat) (ap : List unpack_arg) (e : layer_result)
    (h : unpack_fetch array dictionary current ch idx ap = .error e) : layer_failed e := by
  revert h
  unfold unpack_fetch
  simp only []
  have hst : ∀ (x : Except layer_result (Option rpc_object × List unpack_arg)) (n : Nat),
      (∀ e1, x = .error e1 → layer_failed e1) →
      (match x with
        | .error e => (Except.error e : Except layer_result (rpc_object × Nat × List unpack_arg))
        | .ok (none, _) => .error (.fail false)
        | .ok (some cur, ap2) => .ok (cur, n, ap2)) = .error e → layer_failed e := by
    intro x n hx
    cases x with
    | error e1 =>
      simp only []
      intro h
      injection h with h1
      subst h1
      exact hx _ rfl
    | ok r =>
      obtain ⟨o, ap2⟩ := r
      cases o with
      | none =>
        simp only []
        intro h
        injection h with h1
        subst h1
        exact layer_failed_fail _
      | some cur => simp
  apply hst
  intro e1
  cases dictionary with
  | none => simp
  | some d =>
    simp only []
    by_cases hc : ch ≠ '}'
    · rw [if_pos hc]
      cases ap with
      | nil =>
        simp only []
        intro h; injection h with h1; subst h1; exact layer_failed_fault _
      | cons a ap1 =>
        cases a with
        | out =>
          simp only []
          intro h; injection h with h1; subst h1; exact layer_failed_fault _
        | key k =>
          simp only []
          cases d <;> cases k <;> simp only [] <;>
            first
              | (intro h; injection h with h1; subst h1; exact layer_failed_fault _)
              | (intro h; cases h)
    · rw [if_neg hc]; simp

theorem unpack_switch_shape (ch : Char) (cur : rpc_object) (array dictionary : Option rpc_object)
    (i idx cnt : Nat) (ap : List unpack_arg) (outs : List unpack_out) :
    (∃ r, unpack_switch ch cur array dictionary i idx cnt ap outs = .done r ∧
      layer_ended_at i r) ∨
    (∃ a d c idx1 cnt1 ap1 outs1,
      unpack_switch ch cur array dictionary i idx cnt ap outs
        = .again a d c (i + 1) idx1 cnt1 ap1 outs1) ∨
    ((ch = '[' ∨ ch = '{') ∧
      unpack_switch ch cur array dictionary i idx cnt ap outs
        = .nested cur array dictionary i idx cnt ap outs) := by
  have hfault : ∀ k, layer_ended_at i (.fault k) := fun k => Or.inl (layer_failed_fault k)
  have hfail : ∀ b, layer_ended_at i (.fail b) := fun b => Or.inl (layer_failed_fail b)
  unfold unpack_switch
  by_cases h1 : ch = '*'
  · rw [if_pos h1]; exact Or.inr (Or.inl ⟨_, _, _, _, _, _, _, rfl⟩)
  rw [if_neg h1]
  cases hb : unpack_bind ch cur with
  | some o =>
    simp only []
    cases ap with
    | nil => exact Or.inl ⟨_, rfl, hfault _⟩
    | cons a ap1 =>
      cases a with
      | key k => exact Or.inl ⟨_, rfl, hfault _⟩
      | out => exact Or.inr (Or.inl ⟨_, _, _, _, _, _, _, rfl⟩)
  | none =>
    simp only []
    by_cases h2 : ch = 'R'
    · rw [if_pos h2]
      cases array with
      | none => exact Or.inl ⟨_, rfl, hfail _⟩
      | some a =>
        simp only []
        cases ap with
        | nil => exact Or.inl ⟨_, rfl, hfault _⟩
        | cons x ap1 =>
          cases x with
          | key k => exact Or.inl ⟨_, rfl, hfault _⟩
          | out => exact Or.inr (Or.inl ⟨_, _, _, _, _, _, _, rfl⟩)
    rw [if_neg h2]
    by_cases h3 : ch = '[' ∨ ch = '{'
    · rw [if_pos h3]
      cases array with
      | none =>
        cases dictionary with
        | none =>
          simp only []
          by_cases h4 : ch = '['
          · rw [if_pos h4]; exact Or.inr (Or.inl ⟨_, _, _, _, _, _, _, rfl⟩)
          · rw [if_neg h4]; exact Or.inr (Or.inl ⟨_, _, _, _, _, _, _, rfl⟩)
        | some d => exact Or.inr (Or.inr ⟨h3, rfl⟩)
      | some a => exact Or.inr (Or.inr ⟨h3, rfl⟩)
    rw [if_neg h3]
    by_cases h5 : ch = ']' ∨ ch = '}'
    · rw [if_pos h5]; exact Or.inl ⟨_, rfl, Or.inr ⟨_, _, _, rfl⟩⟩
    rw [if_neg h5]
    exact Or.inl ⟨_, rfl, hfail _⟩

/-- One iteration of the unpack loop returns (at its own index when it returns
one), or goes on at `i + 1` inside the format string, or calls a nested layer at
a bracket. -/
theorem unpack_iter_shape (fmt : List Char) (array dictionary current : Option rpc_object)
    (i idx cnt : Nat) (ap : List unpack_arg) (outs : List unpack_out) :
    (∃ r, unpack_iter fmt array dictionary current i idx cnt ap outs = .done r ∧
      layer_ended_at i r) ∨
    (i < fmt.length ∧ ∃ a d c idx1 cnt1 ap1 outs1,
      unpack_iter fmt array dictionary current i idx cnt ap outs
        = .again a d c (i + 1) idx1 cnt1 ap1 outs1) ∨
    (i < fmt.length ∧ (fmt_at fmt i = some '[' ∨ fmt_at fmt i = some '{') ∧
      ∃ cur a d idx1 cnt1 ap1 outs1,
      unpack_iter fmt array dictionary current i idx cnt ap outs
        = .nested cur a d i idx1 cnt1 ap1 outs1) := by
  unfold unpack_iter
  cases hat : fmt_at fmt i with
  | none => exact Or.inl ⟨_, rfl, Or.inl (layer_failed_fault _)⟩
  | some ch =>
    simp only []
    by_cases hnul : ch = Char.ofNat 0
    · rw [if_pos hnul]; exact Or.inl ⟨_, rfl, Or.inr ⟨_, _, _, rfl⟩⟩
    rw [if_neg hnul]
    have hlt := fmt_at_lt_of_ne_nul hat hnul
    cases hf : unpack_fetch array dictionary current ch idx ap with
    | error e =>
      exact Or.inl ⟨e, rfl, Or.inl (unpack_fetch_failed _ _ _ _ _ _ _ hf)⟩
    | ok r =>
      obtain ⟨cur, idx1, ap1⟩ := r
      simp only []
      rcases unpack_switch_shape ch cur array dictionary i idx1 cnt ap1 outs with
        ⟨r, h, hr⟩ | ⟨a, d, c, idx2, cnt1, ap2, outs1, h⟩ | ⟨hc, h⟩
      · exact Or.inl ⟨r, h, hr⟩
      · exact Or.inr (Or.inl ⟨hlt, a, d, c, idx2, cnt1, ap2, outs1, h⟩)
      · refine Or.inr (Or.inr ⟨hlt, ?_, cur, array, dictionary, idx1, cnt, ap1, outs, h⟩)
        rcases hc with hc | hc
        · exact Or.inl (by rw [hc])
        · exact Or.inr (by rw [hc])

theorem unpack_iter_enter (fmt : List Char) (cur : rpc_object) (i idx cnt : Nat)
    (ap : List unpack_arg) (outs : List unpack_out)
    (h : fmt_at fmt i = some '[' ∨ fmt_at fmt i = some '{') :
    ∃ a d, unpack_iter fmt none none (some cur) i idx cnt ap outs
      = .again a d (some cur) (i + 1) idx cnt ap outs := by
  rcases h with h | h
  · exact ⟨some cur, none, by simp [unpack_iter, h, unpack_fetch, unpack_switch, unpack_bind]⟩
  · exact ⟨none, some cur, by simp [unpack_iter, h, unpack_fetch, unpack_switch, unpack_bind]⟩

theorem unpack_loop_succ (fmt : List Char) (fuel : Nat) (array dictionary current : Option rpc_object)
    (i idx cnt : Nat) (ap : List unpack_arg) (outs : List unpack_out) :
    unpack_loop fmt (fuel + 1) array dictionary current i idx cnt ap outs
      = match unpack_iter fmt array dictionary current i idx cnt ap outs with
        | .done r => r
        | .again array1 dictionary1 current1 i1 idx1 cnt1 ap1 outs1 =>
          unpack_loop fmt fuel array1 dictionary1 current1 i1 idx1 cnt1 ap1 outs1
        | .nested cur array1 dictionary1 i1 idx1 cnt1 ap1 outs1 =>
          match unpack_loop fmt fuel none none (some cur) i1 0 cnt1 ap1 outs1 with
          | .ret i2 cnt2 ap2 outs2 =>
            unpack_loop fmt fuel array1 dictionary1 (some cur) (i2 + 1) idx1 cnt2 ap2 outs2
          | r => r := rfl

/-- A layer never returns an index before the one it started at. -/
theorem unpack_loop_ret_ge (fmt : List Char) : ∀ (fuel : Nat)
    (array dictionary current : Option rpc_object) (i idx cnt : Nat) (ap : List unpack_arg)
    (outs : List unpack_out) (i1 cnt1 : Nat) (ap1 : List unpack_arg) (outs1 : List unpack_out),
    unpack_loop fmt fuel array dictionary current i idx cnt ap outs = .ret i1 cnt1 ap1 outs1 →
    i ≤ i1 := by
  intro fuel
  induction fuel with
  | zero => intro a d c i idx cnt ap outs i1 cnt1 ap1 outs1 h; simp [unpack_loop] at h
  | succ k ih =>
    intro a d c i idx cnt ap outs i1 cnt1 ap1 outs1 h
    rw [unpack_loop_succ] at h
    rcases unpack_iter_shape fmt a d c i idx cnt ap outs with ⟨r, hh, hr⟩ |
      ⟨_, a2, d2, c2, idx2, cnt3, ap3, outs3, hh⟩ |
      ⟨_, _, cur, a2, d2, idx2, cnt3, ap3, outs3, hh⟩
    · rw [hh] at h
      simp only [] at h
      subst h
      have := layer_ended_at_ret hr
      omega
    · rw [hh] at h
      simp only [] at h
      have := ih _ _ _ _ _ _ _ _ _ _ _ _ h
      omega
    · rw [hh] at h
      simp only [] at h
      cases hin : unpack_loop fmt k none none (some cur) i 0 cnt3 ap3 outs3 with
      | ret i3 cnt4 ap4 outs4 =>
        rw [hin] at h
        simp only [] at h
        have h1 := ih _ _ _ _ _ _ _ _ _ _ _ _ hin
        have h2 := ih _ _ _ _ _ _ _ _ _ _ _ _ h
        omega
      | fail e => rw [hin] at h; cases h
      | fault e => rw [hin] at h; cases h
      | fuel => rw [hin] at h; cases h

/-- With two steps for every character still ahead (and the terminator) and one
more, the unpack loop does not run out of budget; a layer that starts at its
opening bracket needs one step less. -/
theorem unpack_loop_not_fuel (fmt : List Char) : ∀ (fuel : Nat),
    (∀ (array dictionary current : Option rpc_object) (i idx cnt : Nat) (ap : List unpack_arg)
      (outs : List unpack_out), 2 * (fmt.length + 1 - i) + 1 ≤ fuel →
      unpack_loop fmt fuel array dictionary current i idx cnt ap outs ≠ .fuel) ∧
    (∀ (cur : rpc_object) (i idx cnt : Nat) (ap : List unpack_arg) (outs : List unpack_out),
      (fmt_at fmt i = some '[' ∨ fmt_at fmt i = some '{') → i < fmt.length →
      2 * (fmt.length + 1 - i) ≤ fuel →
      unpack_loop fmt fuel none none (some cur) i idx cnt ap outs ≠ .fuel) := by
  intro fuel
  induction fuel with
  | zero =>
    constructor
    · intro a d c i idx cnt ap outs h; omega
    · intro cur i idx cnt ap outs _ hlt h; omega
  | succ k ih =>
    constructor
    · intro a d c i idx cnt ap outs hf
      rw [unpack_loop_succ]
      rcases unpack_iter_shape fmt a d c i idx cnt ap outs with ⟨r, hh, hr⟩ |
        ⟨hlt, a2, d2, c2, idx2, cnt3, ap3, outs3, hh⟩ |
        ⟨hlt, hbr, cur, a2, d2, idx2, cnt3, ap3, outs3, hh⟩
      · rw [hh]; exact layer_ended_at_not_fuel hr
      · rw [hh]; exact ih.1 _ _ _ _ _ _ _ _ (by omega)
      · rw [hh]
        simp only []
        cases hin : unpack_loop fmt k none none (some cur) i 0 cnt3 ap3 outs3 with
        | ret i3 cnt4 ap4 outs4 =>
          simp only []
          have hge := unpack_loop_ret_ge fmt _ _ _ _ _ _ _ _ _ _ _ _ _ hin
          exact ih.1 _ _ _ _ _ _ _ _ (by omega)
        | fail e => simp
        | fault e => simp
        | fuel => exact absurd hin (ih.2 cur i 0 cnt3 ap3 outs3 hbr hlt (by omega))
    · intro cur i idx cnt ap outs hbr hlt hf
      rw [unpack_loop_succ]
      obtain ⟨a, d, hh⟩ := unpack_iter_enter fmt cur i idx cnt ap outs hbr
      rw [hh]
      exact ih.1 _ _ _ _ _ _ _ _ (by omega)

/-- The budget of `rpc_object_vunpack` is never exhausted: every call ends with
a count, -1 or a fault. -/
theorem rpc_object_vunpack_total (obj : Option rpc_object) (fmt : List Char)
    (ap : List unpack_arg) : rpc_object_vunpack obj fmt ap ≠ .fuel := by
  unfold rpc_object_vunpack rpc_object_unpack_layer
  cases obj with
  | none => simp
  | some b =>
    simp only []
    have h := (unpack_loop_not_fuel fmt (3 * fmt.length + 3)).1 none none (some b) 0 0 0 ap []
      (by omega)
    cases hl : unpack_loop fmt (3 * fmt.length + 3) none none (some b) 0 0 0 ap [] with
    | ret i cnt ap1 outs => simp only []; split_ifs <;> simp
    | fail e => simp
    | fault k => simp
    | fuel => exact absurd hl h

/-! ## Characters outside the token alphabet -/

theorem vpack_token_outside (fmt : List Char) (ch : Char) (ptr : Nat) (st : pack_state)
    (h : token_alphabet ch = false) : vpack_token fmt ch ptr st = .error .einval := by
  simp only [token_alphabet, Bool.or_eq_false_iff, decide_eq_false_iff_not] at h
  obtain ⟨⟨⟨⟨⟨⟨⟨⟨⟨⟨⟨⟨⟨h1, h2⟩, h3⟩, h4⟩, h5⟩, h6⟩, h7⟩, h8⟩, h9⟩, h10⟩, h11⟩, h12⟩, h13⟩, h14⟩ := h
  simp only [vpack_token, h1, h2, h3, h4, h5, h6, h7, h8, h9, h10, h11, h12, h13, h14,
    if_false, or_self]

/-- The empty format leaves the loop at once and falls into the error label. -/
theorem vpack_empty_format (rpct_new : String → Option rpc_object → Option rpc_object)
    (ap : List pack_arg) : rpc_object_vpack rpct_new [] ap = .einval := by
  rfl

/-- A format whose first character has no case in the `switch` gives EINVAL. -/
theorem vpack_bad_first_char (rpct_new : String → Option rpc_object → Option rpc_object)
    (c : Char) (fmt : List Char) (ap : List pack_arg) (h : token_alphabet c = false) :
    rpc_object_vpack rpct_new (c :: fmt) ap = .einval := by
  unfold rpc_object_vpack
  have hat : fmt_at (c :: fmt) 0 = some c := by simp [fmt_at]
  rw [List.length_cons, vpack_loop_succ]
  by_cases hnul : c = Char.ofNat 0
  · subst hnul
    simp [vpack_iter, fmt_at]
  · simp [vpack_iter, hat, hnul, vpack_token_outside _ c _ _ h]

/-- Inside an array, a first element without prefix whose token character (the
one just before the `,` or `]`) has no case in the `switch` gives EINVAL. -/
theorem vpack_bad_token_in_array (rpct_new : String → Option rpc_object → Option rpc_object)
    (w : List Char) (x c : Char) (rest : List Char) (ap : List pack_arg)
    (hw : ∀ a ∈ w, plain_char a = true ∧ a ≠ Char.ofNat 0)
    (hx : plain_char x = true ∧ x ≠ Char.ofNat 0) (hbad : token_alphabet x = false)
    (hc : c = ',' ∨ c = ']') :
    rpc_object_vpack rpct_new ('[' :: (w ++ x :: c :: rest)) ap = .einval := by
  unfold rpc_object_vpack
  have h0 : ('[' :: (w ++ x :: c :: rest)).drop 0 = '[' :: (w ++ x :: c :: rest) := rfl
  have hopen := (vpack_iter_open_top rpct_new _ 0 _ [] 0 ap).1 h0
  have h1 := drop_succ_of_drop h0
  have hstop : stop_char c = true := by rcases hc with hc | hc <;> rw [hc] <;> decide
  have hscan := vpack_scan_word (w ++ [x]) ('[' :: (w ++ x :: c :: rest)) 1 c rest
    (('[' :: (w ++ x :: c :: rest)).length + 2 - 1) none (by simp)
    (by
      intro a ha
      rw [List.mem_append] at ha
      rcases ha with ha | ha
      · exact (hw a ha).1
      · rw [List.mem_singleton] at ha; rw [ha]; exact hx.1)
    hstop (by simp; omega)
  have hatx : fmt_at ('[' :: (w ++ x :: c :: rest)) (1 + w.length) = some x :=
    fmt_at_add_of_drop _ 1 w x (c :: rest) h1
  have hatc : fmt_at ('[' :: (w ++ x :: c :: rest)) (1 + (w.length + 1)) = some c := by
    have := fmt_at_add_of_drop ('[' :: (w ++ x :: c :: rest)) 1 (w ++ [x]) c rest
      (by simp)
    simpa using this
  obtain ⟨c0, rest0, hc0, hc0ne, hc0nul⟩ : ∃ c0 rest0,
      ('[' :: (w ++ x :: c :: rest)).drop 1 = c0 :: rest0 ∧ c0 ≠ ']' ∧ c0 ≠ Char.ofNat 0 := by
    cases w with
    | nil =>
      refine ⟨x, c :: rest, by simp, ?_, hx.2⟩
      intro hh; rw [hh] at hx; exact absurd hx.1 (by decide)
    | cons a w =>
      refine ⟨a, w ++ x :: c :: rest, by simp, ?_, (hw a (by simp)).2⟩
      intro hh
      have := (hw a (by simp)).1
      rw [hh] at this
      exact absurd this (by decide)
  have hat := fmt_at_of_drop hc0
  rw [vpack_loop_succ, hopen]
  simp only [Nat.zero_add]
  rw [List.length_cons, vpack_loop_succ]
  simp only [List.length_append, List.length_singleton] at hscan
  simp only [vpack_iter, hat, hc0nul, if_false, delim_of, ne_eq, hc0ne, not_false_eq_true,
    if_true, vpack_lookahead, hscan, hatc, Option.getD_some, Nat.add_sub_cancel]
  have hsub : 1 + (w.length + 1) - 1 = 1 + w.length := by omega
  rcases hc with hc | hc <;> subst hc <;>
    simp [hsub, hatx, vpack_token_outside _ x _ _ hbad]

/-! ## Decimal index prefixes -/

theorem digitChar_facts (r : Nat) (h : r < 10) :
    (Nat.digitChar r).isDigit = true ∧ (Nat.digitChar r).toNat - 48 = r ∧
    plain_char (Nat.digitChar r) = true ∧ Nat.digitChar r ≠ Char.ofNat 0 ∧
    isspace (Nat.digitChar r) = false ∧ Nat.digitChar r ≠ '-' ∧ Nat.digitChar r ≠ '+' := by
  interval_cases r <;> decide

theorem strtol_digits_cons_digit (c : Char) (cs : List Char) (acc n : Nat)
    (h : c.isDigit = true) :
    strtol_digits (c :: cs) acc n = strtol_digits cs (acc * 10 + (c.toNat - 48)) (n + 1) := by
  simp only [strtol_digits, h, if_true]

theorem strtol_digits_cons_other (c : Char) (cs : List Char) (acc n : Nat)
    (h : c.isDigit = false) : strtol_digits (c :: cs) acc n = (acc, n) := by
  simp [strtol_digits, h]

/-- Characters of a decimal numeral, as `strtol` and the lookahead see them. -/
theorem toDigitsCore_spec : ∀ (n fuel : Nat) (ds : List Char), n < fuel →
    ∃ w, Nat.toDigitsCore 10 fuel n ds = w ++ ds ∧ w ≠ [] ∧
      (∀ c ∈ w, plain_char c = true ∧ c ≠ Char.ofNat 0 ∧ isspace c = false ∧ c ≠ '-' ∧ c ≠ '+') ∧
      ∀ (acc k : Nat) (tail : List Char),
        strtol_digits (w ++ tail) acc k = strtol_digits tail (acc * 10 ^ w.length + n) (k + w.length) := by
  intro n
  induction n using Nat.strong_induction_on with
  | _ n ih =>
    intro fuel ds hf
    obtain ⟨f, rfl⟩ : ∃ f, fuel = f + 1 := ⟨fuel - 1, by omega⟩
    obtain ⟨d1, d2, d3, d4, d5, d6, d7⟩ := digitChar_facts (n % 10) (Nat.mod_lt _ (by decide))
    by_cases hz : n / 10 = 0
    · refine ⟨[Nat.digitChar (n % 10)], by simp [Nat.toDigitsCore, hz], by simp, ?_, ?_⟩
      · intro c hc
        rw [List.mem_singleton] at hc
        rw [hc]
        exact ⟨d3, d4, d5, d6, d7⟩
      · intro acc k tail
        have hn : n % 10 = n := by omega
        rw [List.singleton_append, strtol_digits_cons_digit _ _ _ _ d1, d2, List.length_singleton,
          pow_one, hn]
    · have hlt : n / 10 < n := by omega
      obtain ⟨w, hw1, hw2, hw3, hw4⟩ := ih (n / 10) hlt f (Nat.digitChar (n % 10) :: ds) (by omega)
      refine ⟨w ++ [Nat.digitChar (n % 10)], ?_, by simp, ?_, ?_⟩
      · simp [Nat.toDigitsCore, hz, hw1]
      · intro c hc
        rw [List.mem_append, List.mem_singleton] at hc
        rcases hc with hc | hc
        · exact hw3 c hc
        · rw [hc]; exact ⟨d3, d4, d5, d6, d7⟩
      · intro acc k tail
        have e : w ++ [Nat.digitChar (n % 10)] ++ tail = w ++ (Nat.digitChar (n % 10) :: tail) := by
          simp
        rw [e, hw4, strtol_digits_cons_digit _ _ _ _ d1, d2, List.length_append,
          List.length_singleton]
        have hv : (acc * 10 ^ w.length + n / 10) * 10 + n % 10 = acc * 10 ^ (w.length + 1) + n := by
          rw [pow_succ]
          have := Nat.div_add_mod n 10
          nlinarith [this]
        rw [hv, Nat.add_assoc]

theorem strtol_decimal (m : Nat) (hm : m < 2 ^ 63) (c : Char) (rest : List Char)
    (hc : c.isDigit = false) :
    strtol (Nat.toDigits 10 m ++ c :: rest) = ((m : Int), (Nat.toDigits 10 m).length) := by
  obtain ⟨w, hw1, hw2, hw3, hw4⟩ := toDigitsCore_spec m (m + 1) [] (by omega)
  have hw : Nat.toDigits 10 m = w := by simpa [Nat.toDigits] using hw1
  rw [hw]
  obtain ⟨a, w1, rfl⟩ : ∃ a w1, w = a :: w1 := by
    cases w with
    | nil => exact absurd rfl hw2
    | cons a w1 => exact ⟨a, w1, rfl⟩
  obtain ⟨_, _, ha3, ha4, ha5⟩ := hw3 a (by simp)
  have hd : strtol_digits (a :: w1 ++ c :: rest) 0 0 = (m, (a :: w1).length) := by
    rw [hw4 0 0 (c :: rest), strtol_digits_cons_other _ _ _ _ hc]
    simp
  have hnot : ¬ (2 ^ 63 ≤ m) := by omega
  have htw : (a :: w1 ++ c :: rest).takeWhile isspace = [] := by
    simp [List.takeWhile, ha3]
  unfold strtol
  simp only [htw, List.length_nil, List.drop_zero]
  have hsign : (match a :: w1 ++ c :: rest with
      | c :: _ => if c = '-' then (true, 1) else if c = '+' then (false, 1) else (false, 0)
      | [] => (false, 0)) = (false, 0) := by
    simp [ha4, ha5]
  rw [hsign]
  simp only [List.drop_zero, hd]
  simp
  intro h
  omega

theorem rpc_array_steal_value_gap (m : Nat) (hm : m < 2 ^ 31) (v : rpc_object) :
    rpc_array_steal_value [] m v = some (List.replicate m rpc_object.null ++ [v]) := by
  have h1 : (m + 2 ^ 64 - ([] : List rpc_object).length) % 2 ^ 64 = m := by
    simp only [List.length_nil, Nat.sub_zero]
    omega
  have h2 : to_int m = (m : Int) := by
    unfold to_int
    have : m % 2 ^ 32 = m := by omega
    simp only [this]
    rw [if_pos (by omega)]
  simp only [rpc_array_steal_value, h1, h2]
  simp

/-- An index prefix below `2 ^ 31` fixes the index and the gap is filled with
nulls: `[m:t]` packs into `m` null objects followed by the value of `t`. -/
theorem vpack_index_prefix (rpct_new : String → Option rpc_object → Option rpc_object)
    (m : Nat) (hm : m < 2 ^ 31) (t : scalar_token) (rest : List pack_arg) :
    rpc_object_vpack rpct_new ('[' :: (Nat.toDigits 10 m ++ [':', t.ch, ']'])) (t.args ++ rest)
      = .object (.array (List.replicate m rpc_object.null ++ [t.value])) := by
  obtain ⟨w, hw1, hw2, hw3, _⟩ := toDigitsCore_spec m (m + 1) [] (by omega)
  have hw : Nat.toDigits 10 m = w := by simpa [Nat.toDigits] using hw1
  have hstr := strtol_decimal m (by omega) ':' [t.ch, ']'] (by decide)
  rw [hw] at hstr ⊢
  generalize hfmt : '[' :: (w ++ [':', t.ch, ']']) = fmt
  have h0 : fmt.drop 0 = '[' :: (w ++ ':' :: t.ch :: ']' :: []) := by rw [← hfmt]; rfl
  have h1 := drop_succ_of_drop h0
  have hlenf : fmt.length = w.length + 4 := by rw [← hfmt]; simp
  have hopen := (vpack_iter_open_top rpct_new fmt 0 _ [] 0 (t.args ++ rest)).1 h0
  have hscan := vpack_scan_key w fmt 1 t.ch ']' [] (fmt.length + 2 - 1) none h1
    (fun a ha => (hw3 a ha).1) (scalar_token_plain t) (by decide) (by omega)
  obtain ⟨a, w1, hwa⟩ : ∃ a w1, w = a :: w1 := by
    cases w with
    | nil => exact absurd rfl hw2
    | cons a w1 => exact ⟨a, w1, rfl⟩
  have hat : fmt_at fmt 1 = some a := fmt_at_of_drop (by rw [h1, hwa]; rfl)
  obtain ⟨ha1, ha2, _, _, _⟩ := hw3 a (by rw [hwa]; simp)
  have hane : a ≠ ']' := by
    intro hh; rw [hh] at ha1; exact absurd ha1 (by decide)
  have hatc : fmt_at fmt (1 + w.length + 2) = some ']' := by
    have := fmt_at_add_of_drop fmt 1 (w ++ [':', t.ch]) ']' [] (by simpa using h1)
    simpa [Nat.add_assoc] using this
  have hatt : fmt_at fmt (1 + w.length + 1) = some t.ch := by
    have := fmt_at_add_of_drop fmt 1 (w ++ [':']) t.ch [']'] (by simpa using h1)
    simpa [Nat.add_assoc] using this
  have hclose0 : fmt.drop (1 + w.length + 2) = ']' :: [] := by
    have := drop_add_of_drop fmt 1 (w ++ [':', t.ch]) [']'] (by simpa using h1)
    simpa [Nat.add_assoc] using this
  have hclose := vpack_iter_close_top rpct_new fmt (1 + w.length + 2) []
    (.array (List.replicate m rpc_object.null ++ [t.value])) [] m rest
    (by simpa [delim_of] using hclose0)
  have hidx : ((m : Int) % 2 ^ 64).toNat = m := by
    have : (m : Int) % 2 ^ 64 = (m : Int) := Int.emod_eq_of_lt (by omega) (by omega)
    rw [this]; simp
  have hcm : (']' : Char) ≠ ',' := by decide
  have hsub : 1 + w.length + 2 - 1 = 1 + w.length + 1 := by omega
  unfold rpc_object_vpack
  rw [vpack_loop_succ, hopen]
  simp only [Nat.zero_add]
  have hfuel : fmt.length = (w.length + 2) + 1 + 1 := by omega
  rw [hfuel, vpack_loop_succ]
  have hiter : vpack_iter rpct_new fmt 1 ⟨[.array []], [], none, 0, t.args ++ rest⟩
      = .again (1 + w.length + 2)
          ⟨[.array (List.replicate m rpc_object.null ++ [t.value])], [], none, m, rest⟩ := by
    simp only [hcm, if_false] at hscan
    simp only [vpack_iter, hat, ha2, if_false, delim_of, ne_eq, hane, not_false_eq_true, if_true,
      vpack_lookahead, hscan, h1, hstr, hidx, hatc, Option.getD_some, hsub, hatt]
    simp [vpack_token_scalar, vpack_store, vpack_typed, vpack_put,
      rpc_array_steal_value_gap m hm]
  rw [hiter]
  simp only []
  rw [vpack_loop_succ, hclose]

/-! ## Unpacking a flat array -/

theorem unpack_bind_total (c : Char) (v : rpc_object) (h : is_bind_char c = true) :
    ∃ o, unpack_bind c v = some o := by
  unfold unpack_bind
  split_ifs <;> first
    | exact ⟨_, rfl⟩
    | (exfalso; simp [is_bind_char] at h; tauto)

theorem unpack_loop_token_in_array (c : Char) (fmt : List Char) (p : Nat) (suf : List Char)
    (xs : List rpc_object) (idx : Nat) (v : rpc_object) (cur : Option rpc_object) (cnt : Nat)
    (ap : List unpack_arg) (outs : List unpack_out) (fuel : Nat)
    (hc : c = '*' ∨ is_bind_char c = true)
    (h : fmt.drop p = c :: suf) (hget : xs[idx]? = some v) :
    unpack_loop fmt (fuel + 1) (some (.array xs)) none cur p idx cnt (token_args [c] ++ ap) outs
      = unpack_loop fmt fuel (some (.array xs)) none (some v) (p + 1) (idx + 1) (cnt + 1) ap
          (outs ++ token_outs [c] [v]) := by
  have hat := fmt_at_of_drop h
  rcases hc with hc | hc
  · subst hc
    have e0 : ('*' : Char) ≠ Char.ofNat 0 := by decide
    have e1 : ('*' : Char) ≠ ']' := by decide
    simp [unpack_loop, unpack_iter, unpack_fetch, unpack_switch, hat, e0, e1,
      rpc_array_get_value, hget, token_args, token_outs, unpack_bind]
  · obtain ⟨o, ho⟩ := unpack_bind_total c v hc
    have hne : c ≠ Char.ofNat 0 ∧ c ≠ ']' ∧ c ≠ '*' := by
      simp only [is_bind_char, Bool.or_eq_true, decide_eq_true_eq] at hc
      refine ⟨?_, ?_, ?_⟩ <;> (intro hh; subst hh; revert hc; decide)
    obtain ⟨h0, h1, h2⟩ := hne
    simp [unpack_loop, unpack_iter, unpack_fetch, unpack_switch, hat, h0, h1, h2,
      rpc_array_get_value, hget, token_args, token_outs, ho]

theorem token_args_cons (c : Char) (cs : List Char) :
    token_args (c :: cs) = token_args [c] ++ token_args cs := by
  simp [token_args]

theorem token_outs_cons (c : Char) (cs : List Char) (x : rpc_object) (xs : List rpc_object) :
    token_outs (c :: cs) (x :: xs) = token_outs [c] [x] ++ token_outs cs xs := by
  simp only [token_outs, List.zip_cons_cons, List.zip_nil_right, List.filterMap_cons,
    List.filterMap_nil]
  cases unpack_bind c x <;> simp

theorem array_token_ne (c : Char) (hc : c = '*' ∨ is_bind_char c = true) :
    c ≠ Char.ofNat 0 ∧ c ≠ ']' := by
  rcases hc with hc | hc
  · subst hc; decide
  · simp only [is_bind_char, Bool.or_eq_true, decide_eq_true_eq] at hc
    constructor <;> (intro hh; subst hh; revert hc; decide)

/-- Inside an array, a run of tokens `*`, `v b i u d f s` that the array has
elements for is consumed up to the closing bracket: every token counts, and
every token but `*` binds the element at its position. -/
theorem unpack_loop_array_tokens (toks : List Char) : ∀ (fmt : List Char) (p : Nat)
    (suf : List Char) (xs : List rpc_object) (idx : Nat) (cur : rpc_object) (cnt : Nat)
    (ap : List unpack_arg) (outs : List unpack_out) (fuel : Nat),
    fmt.drop p = toks ++ ']' :: suf →
    (∀ c ∈ toks, c = '*' ∨ is_bind_char c = true) →
    idx + toks.length ≤ xs.length →
    toks.length + 1 ≤ fuel →
    unpack_loop fmt fuel (some (.array xs)) none (some cur) p idx cnt (token_args toks ++ ap) outs
      = .ret (p + toks.length) (cnt + toks.length) ap (outs ++ token_outs toks (xs.drop idx)) := by
  induction toks with
  | nil =>
    intro fmt p suf xs idx cur cnt ap outs fuel h _ _ hf
    obtain ⟨k, rfl⟩ : ∃ k, fuel = k + 1 := ⟨fuel - 1, by simp at hf; omega⟩
    simp only [List.nil_append] at h
    rw [show token_args [] ++ ap = ap from rfl, unpack_loop_close_array fmt p suf _ cur idx cnt ap outs k h]
    simp [token_outs]
  | cons c cs ih =>
    intro fmt p suf xs idx cur cnt ap outs fuel h hall hlen hf
    obtain ⟨k, rfl⟩ : ∃ k, fuel = k + 1 := ⟨fuel - 1, by simp at hf; omega⟩
    simp only [List.length_cons] at hlen hf
    have hidx : idx < xs.length := by omega
    have hget : xs[idx]? = some xs[idx] := List.getElem?_eq_getElem hidx
    have hc := hall c (List.mem_cons_self _ _)
    simp only [List.cons_append] at h
    rw [token_args_cons, List.append_assoc,
      unpack_loop_token_in_array c fmt p _ xs idx xs[idx] (some cur) cnt _ outs k hc h hget,
      ih fmt (p + 1) suf xs (idx + 1) xs[idx] (cnt + 1) ap _ k (drop_succ_of_drop h)
        (fun c1 h1 => hall c1 (List.mem_cons_of_mem _ h1)) (by omega) (by omega)]
    have hd : xs.drop idx = xs[idx] :: xs.drop (idx + 1) := List.drop_eq_getElem_cons hidx
    rw [List.append_assoc, List.length_cons,
      show p + 1 + cs.length = p + (cs.length + 1) by omega,
      show cnt + 1 + cs.length = cnt + (cs.length + 1) by omega, hd,
      token_outs_cons c cs xs[idx] (xs.drop (idx + 1))]

/-- Inside an array, a run of tokens that is longer than the elements left ends
with -1 at the first token past the end. -/
theorem unpack_loop_array_short (toks : List Char) : ∀ (fmt : List Char) (p : Nat)
    (suf : List Char) (xs : List rpc_object) (idx : Nat) (cur : Option rpc_object) (cnt : Nat)
    (ap : List unpack_arg) (outs : List unpack_out) (fuel : Nat),
    fmt.drop p = toks ++ suf →
    (∀ c ∈ toks, c = '*' ∨ is_bind_char c = true) →
    idx ≤ xs.length → xs.length < idx + toks.length →
    toks.length ≤ fuel →
    unpack_loop fmt fuel (some (.array xs)) none cur p idx cnt (token_args toks ++ ap) outs
      = .fail false := by
  induction toks with
  | nil =>
    intro fmt p suf xs idx cur cnt ap outs fuel _ _ h1 h2 _
    simp at h2; omega
  | cons c cs ih =>
    intro fmt p suf xs idx cur cnt ap outs fuel h hall h1 h2 hf
    obtain ⟨k, rfl⟩ : ∃ k, fuel = k + 1 := ⟨fuel - 1, by simp at hf; omega⟩
    simp only [List.length_cons] at h2 hf
    have hc := hall c (List.mem_cons_self _ _)
    simp only [List.cons_append] at h
    by_cases hidx : idx < xs.length
    · have hget : xs[idx]? = some xs[idx] := List.getElem?_eq_getElem hidx
      rw [token_args_cons, List.append_assoc,
        unpack_loop_token_in_array c fmt p _ xs idx xs[idx] cur cnt _ outs k hc h hget]
      exact ih fmt (p + 1) suf xs (idx + 1) _ (cnt + 1) ap _ k (drop_succ_of_drop h)
        (fun c1 h1 => hall c1 (List.mem_cons_of_mem _ h1)) (by omega) (by omega) (by omega)
    · have hget : xs[idx]? = none := List.getElem?_eq_none (by omega)
      obtain ⟨h0, h3⟩ := array_token_ne c hc
      simp [unpack_loop, unpack_iter, unpack_fetch, fmt_at_of_drop h, h0, h3,
        rpc_array_get_value, hget]

/-- Unpacking an array with the flat format `[t1...tk]`: with at least `k`
elements the call returns `k`, the number of tokens, and binds every token but
`*`; with fewer it returns -1. -/
theorem vunpack_flat_array (toks : List Char) (xs : List rpc_object)
    (hall : ∀ c ∈ toks, c = '*' ∨ is_bind_char c = true) :
    rpc_object_vunpack (some (.array xs)) (flat_unpack_fmt toks) (token_args toks)
      = if toks.length ≤ xs.length then .count toks.length (token_outs toks xs)
        else .fail false := by
  have hd : (flat_unpack_fmt toks).drop 0 = '[' :: (toks ++ [']']) := rfl
  have hd1 : (flat_unpack_fmt toks).drop (0 + 1) = toks ++ ']' :: [] := drop_succ_of_drop hd
  have hlen : (flat_unpack_fmt toks).length = toks.length + 2 := by simp [flat_unpack_fmt]
  unfold rpc_object_vunpack rpc_object_unpack_layer
  simp only [hlen]
  rw [show 3 * (toks.length + 2) + 3 = (3 * toks.length + 8) + 1 by ring,
    unpack_loop_enter '[' (Or.inl rfl) _ 0 _ (.array xs) 0 0 _ [] _ hd, if_pos rfl]
  by_cases hk : toks.length ≤ xs.length
  · have := unpack_loop_array_tokens toks (flat_unpack_fmt toks) (0 + 1) [] xs 0 (.array xs) 0 []
      [] (3 * toks.length + 8) hd1 hall (by omega) (by omega)
    rw [List.append_nil] at this
    rw [this, if_pos hk]
    simp
  · have := unpack_loop_array_short toks (flat_unpack_fmt toks) (0 + 1) [']'] xs 0
      (some (.array xs)) 0 [] [] (3 * toks.length + 8) hd1 hall (by omega) (by omega) (by omega)
    rw [List.append_nil] at this
    rw [this, if_neg hk]

theorem token_args_replicate_i (k : Nat) :
    token_args (List.replicate k 'i') = List.replicate k unpack_arg.out := by
  induction k with
  | zero => rfl
  | succ k ih =>
    rw [List.replicate_succ, token_args_cons, ih]
    rfl

theorem token_outs_replicate_i (k : Nat) : ∀ (vals : List Int), k ≤ vals.length →
    token_outs (List.replicate k 'i') (vals.map rpc_object.int64)
      = (vals.take k).map unpack_out.int64 := by
  induction k with
  | zero => intro vals _; rfl
  | succ k ih =>
    intro vals h
    cases vals with
    | nil => simp at h
    | cons v vs =>
      simp only [List.length_cons, Nat.add_le_add_iff_right] at h
      rw [List.replicate_succ, List.map_cons, token_outs_cons, ih vs h]
      rfl

theorem token_count_split (toks : List Char)
    (hall : ∀ c ∈ toks, c = '*' ∨ is_bind_char c = true) :
    toks.length = (toks.filter is_bind_char).length + toks.count '*' := by
  induction toks with
  | nil => rfl
  | cons c cs ih =>
    have ih1 := ih (fun c1 h1 => hall c1 (List.mem_cons_of_mem _ h1))
    rcases hall c (List.mem_cons_self _ _) with hc | hc
    · subst hc
      have : is_bind_char '*' = false := by decide
      simp [List.filter_cons, this, ih1]
      omega
    · have hne : c ≠ '*' := by
        intro hh; subst hh; revert hc; decide
      simp only [List.filter_cons, hc, if_true, List.length_cons]
      rw [List.count_cons_of_ne (Ne.symm hne)]
      omega

theorem token_outs_length (toks : List Char) : ∀ (xs : List rpc_object),
    (∀ c ∈ toks, c = '*' ∨ is_bind_char c = true) → toks.length ≤ xs.length →
    (token_outs toks xs).length = (toks.filter is_bind_char).length := by
  induction toks with
  | nil => intro xs _ _; rfl
  | cons c cs ih =>
    intro xs hall h
    cases xs with
    | nil => simp at h
    | cons x xs =>
      simp only [List.length_cons, Nat.add_le_add_iff_right] at h
      have ih1 := ih xs (fun c1 h1 => hall c1 (List.mem_cons_of_mem _ h1)) h
      rw [token_outs_cons, List.length_append, ih1]
      rcases hall c (List.mem_cons_self _ _) with hc | hc
      · subst hc
        have : is_bind_char '*' = false := by decide
        simp [List.filter_cons, this, token_outs, unpack_bind]
      · obtain ⟨o, ho⟩ := unpack_bind_total c x hc
        simp [List.filter_cons, hc, token_outs, ho]
        omega

theorem unpack_bind_mismatch (c : Char) (v : rpc_object) (t : rpc_type_t)
    (hc : getter_type c = some t) (hne : rpc_get_type v ≠ t) :
    unpack_bind c v = some (getter_default c) := by
  unfold getter_type at hc
  unfold unpack_bind getter_default
  by_cases hb : c = 'b'
  · subst hb
    simp only [show ('b' : Char) = 'b' from rfl, if_true, Option.some.injEq] at hc
    subst hc
    cases v <;> first | rfl | exact absurd rfl hne
  by_cases hi : c = 'i'
  · subst hi
    simp only [show ¬ ('i' : Char) = 'b' by decide, if_false, if_true, Option.some.injEq] at hc
    subst hc
    cases v <;> first | rfl | exact absurd rfl hne
  by_cases hu : c = 'u'
  · subst hu
    simp only [show ¬ ('u' : Char) = 'b' by decide, show ¬ ('u' : Char) = 'i' by decide,
      if_false, if_true, Option.some.injEq] at hc
    subst hc
    cases v <;> first | rfl | exact absurd rfl hne
  by_cases hd : c = 'd'
  · subst hd
    simp only [show ¬ ('d' : Char) = 'b' by decide, show ¬ ('d' : Char) = 'i' by decide,
      show ¬ ('d' : Char) = 'u' by decide, if_false, if_true, Option.some.injEq] at hc
    subst hc
    cases v <;> first | rfl | exact absurd rfl hne
  by_cases hf : c = 'f'
  · subst hf
    simp only [show ¬ ('f' : Char) = 'b' by decide, show ¬ ('f' : Char) = 'i' by decide,
      show ¬ ('f' : Char) = 'u' by decide, show ¬ ('f' : Char) = 'd' by decide,
      if_false, if_true, Option.some.injEq] at hc
    subst hc
    cases v <;> first | rfl | exact absurd rfl hne
  by_cases hs : c = 's'
  · subst hs
    simp only [show ¬ ('s' : Char) = 'b' by decide, show ¬ ('s' : Char) = 'i' by decide,
      show ¬ ('s' : Char) = 'u' by decide, show ¬ ('s' : Char) = 'd' by decide,
      show ¬ ('s' : Char) = 'f' by decide, if_false, if_true, Option.some.injEq] at hc
    subst hc
    cases v <;> first | rfl | exact absurd rfl hne
  simp [hb, hi, hu, hd, hf, hs] at hc

theorem getter_type_bind (c : Char) (t : rpc_type_t) (hc : getter_type c = some t) :
    is_bind_char c = true ∧ c ≠ 'v' := by
  unfold getter_type at hc
  by_cases hb : c = 'b'
  · subst hb; decide
  by_cases hi : c = 'i'
  · subst hi; decide
  by_cases hu : c = 'u'
  · subst hu; decide
  by_cases hd : c = 'd'
  · subst hd; decide
  by_cases hf : c = 'f'
  · subst hf; decide
  by_cases hs : c = 's'
  · subst hs; decide
  simp [hb, hi, hu, hd, hf, hs] at hc

/-- A scalar token alone as the format, on any object: the getter's value is
bound and the call returns 1. -/
theorem vunpack_single_token (c : Char) (v : rpc_object) (o : unpack_out)
    (hc : is_bind_char c = true) (ho : unpack_bind c v = some o) :
    rpc_object_vunpack (some v) [c] [.out] = .count 1 [o] := by
  have hne : c ≠ Char.ofNat 0 ∧ c ≠ ']' ∧ c ≠ '*' ∧ c ≠ '}' := by
    simp only [is_bind_char, Bool.or_eq_true, decide_eq_true_eq] at hc
    refine ⟨?_, ?_, ?_, ?_⟩ <;> (intro hh; subst hh; revert hc; decide)
  obtain ⟨h0, h1, h2, h3⟩ := hne
  have hat0 : fmt_at [c] 0 = some c := by simp [fmt_at]
  have hat1 : fmt_at [c] 1 = some (Char.ofNat 0) := by simp [fmt_at]
  simp [rpc_object_vunpack, rpc_object_unpack_layer, unpack_loop, unpack_iter, unpack_fetch,
    unpack_switch, hat0, hat1, h0, h2, ho]

theorem token_outs_split (toks : List Char) (xs : List rpc_object) (j : Nat)
    (h1 : j ≤ toks.length) (h2 : j ≤ xs.length) :
    token_outs toks xs
      = token_outs (toks.take j) (xs.take j) ++ token_outs (toks.drop j) (xs.drop j) := by
  unfold token_outs
  rw [← List.filterMap_append, ← List.zip_append (by simp [h1, h2]),
    List.take_append_drop, List.take_append_drop]

/-- In a flat array format, the output bound by the token at position `j` sits
behind the outputs of the binding tokens before it. -/
theorem token_outs_at (toks : List Char) (xs : List rpc_object) (j : Nat) (c : Char)
    (v : rpc_object) (o : unpack_out)
    (hall : ∀ c ∈ toks, c = '*' ∨ is_bind_char c = true)
    (hj : toks[j]? = some c) (hv : xs[j]? = some v) (ho : unpack_bind c v = some o) :
    (token_outs toks xs)[((toks.take j).filter is_bind_char).length]? = some o := by
  obtain ⟨hjl, hjc⟩ := List.getElem?_eq_some_iff.mp hj
  obtain ⟨hvl, hvc⟩ := List.getElem?_eq_some_iff.mp hv
  have hA := token_outs_length (toks.take j) (xs.take j)
    (fun c1 h1 => hall c1 (List.mem_of_mem_take h1)) (by simp; omega)
  rw [token_outs_split toks xs j (by omega) (by omega),
    List.getElem?_append_right (by omega), hA, Nat.sub_self,
    List.drop_eq_getElem_cons hjl, List.drop_eq_getElem_cons hvl, hjc, hvc, token_outs_cons]
  simp [token_outs, ho]

/-- Inside an array, a run of tokens that the array has elements for is
consumed and the loop goes on behind it. -/
theorem unpack_loop_array_run (toks : List Char) : ∀ (fmt : List Char) (p : Nat)
    (suf : List Char) (xs : List rpc_object) (idx : Nat) (cur : rpc_object) (cnt : Nat)
    (ap : List unpack_arg) (outs : List unpack_out) (k : Nat),
    fmt.drop p = toks ++ suf →
    (∀ c ∈ toks, c = '*' ∨ is_bind_char c = true) →
    idx + toks.length ≤ xs.length →
    ∃ cur1, unpack_loop fmt (toks.length + k) (some (.array xs)) none (some cur) p idx cnt
        (token_args toks ++ ap) outs
      = unpack_loop fmt k (some (.array xs)) none (some cur1) (p + toks.length)
          (idx + toks.length) (cnt + toks.length) ap (outs ++ token_outs toks (xs.drop idx)) := by
  induction toks with
  | nil =>
    intro fmt p suf xs idx cur cnt ap outs k _ _ _
    exact ⟨cur, by simp [token_args, token_outs]⟩
  | cons c cs ih =>
    intro fmt p suf xs idx cur cnt ap outs k h hall hlen
    simp only [List.length_cons] at hlen
    have hidx : idx < xs.length := by omega
    have hget : xs[idx]? = some xs[idx] := List.getElem?_eq_getElem hidx
    have hc := hall c (List.mem_cons_self _ _)
    simp only [List.cons_append] at h
    obtain ⟨cur1, h1⟩ := ih fmt (p + 1) suf xs (idx + 1) xs[idx] (cnt + 1) ap
      (outs ++ token_outs [c] [xs[idx]]) k (drop_succ_of_drop h)
      (fun c1 h1 => hall c1 (List.mem_cons_of_mem _ h1)) (by omega)
    refine ⟨cur1, ?_⟩
    have hd : xs.drop idx = xs[idx] :: xs.drop (idx + 1) := List.drop_eq_getElem_cons hidx
    rw [List.length_cons, show cs.length + 1 + k = (cs.length + k) + 1 by omega,
      token_args_cons, List.append_assoc,
      unpack_loop_token_in_array c fmt p _ xs idx xs[idx] (some cur) cnt _ outs _ hc h hget, h1,
      List.append_assoc, hd, token_outs_cons c cs xs[idx] (xs.drop (idx + 1)),
      show p + 1 + cs.length = p + (cs.length + 1) by omega,
      show idx + 1 + cs.length = idx + (cs.length + 1) by omega,
      show cnt + 1 + cs.length = cnt + (cs.length + 1) by omega]

theorem rpc_array_slice_to_end (xs : List rpc_object) (index : Nat) :
    rpc_array_slice xs index (-1) = xs.drop index := by
  simp [rpc_array_slice]

/-- The token `R` inside an array: the next element is fetched like for any
token, and the slice bound starts two places behind the elements consumed
before `R`. -/
theorem unpack_loop_tail_in_array (fmt : List Char) (p : Nat) (suf : List Char)
    (xs : List rpc_object) (idx : Nat) (v : rpc_object) (cur : Option rpc_object) (cnt : Nat)
    (ap : List unpack_arg) (outs : List unpack_out) (fuel : Nat)
    (h : fmt.drop p = 'R' :: suf) (hget : xs[idx]? = some v) :
    unpack_loop fmt (fuel + 1) (some (.array xs)) none cur p idx cnt (.out :: ap) outs
      = unpack_loop fmt fuel (some (.array xs)) none (some v) (p + 1) (idx + 1) (cnt + 1) ap
          (outs ++ [.obj (.array (xs.drop (idx + 2)))]) := by
  have hat := fmt_at_of_drop h
  simp [unpack_loop, unpack_iter, unpack_fetch, unpack_switch, hat, rpc_array_get_value, hget,
    unpack_bind, rpc_array_slice_to_end]

/-- Unpacking an array with `[`, `k` tokens, `R` and `]`: with more than `k`
elements the call returns `k + 1` and `R` receives the elements from index
`k + 2` on; with `k` elements or fewer it returns -1. -/
theorem vunpack_tail_slice (toks : List Char) (xs : List rpc_object)
    (hall : ∀ c ∈ toks, c = '*' ∨ is_bind_char c = true) :
    rpc_object_vunpack (some (.array xs)) ('[' :: (toks ++ ['R', ']'])) (token_args toks ++ [.out])
      = if toks.length < xs.length then
          .count (toks.length + 1)
            (token_outs toks xs ++ [.obj (.array (xs.drop (toks.length + 2)))])
        else .fail false := by
  have hd : ('[' :: (toks ++ ['R', ']'])).drop 0 = '[' :: (toks ++ ['R', ']']) := rfl
  have hd1 : ('[' :: (toks ++ ['R', ']'])).drop (0 + 1) = toks ++ ['R', ']'] :=
    drop_succ_of_drop hd
  have hlen : ('[' :: (toks ++ ['R', ']'])).length = toks.length + 3 := by simp
  unfold rpc_object_vunpack rpc_object_unpack_layer
  simp only [hlen]
  rw [show 3 * (toks.length + 3) + 3 = (toks.length + (2 * toks.length + 11)) + 1 by ring,
    unpack_loop_enter '[' (Or.inl rfl) _ 0 _ (.array xs) 0 0 _ [] _ hd, if_pos rfl]
  by_cases hk : toks.length ≤ xs.length
  · obtain ⟨cur1, h1⟩ := unpack_loop_array_run toks ('[' :: (toks ++ ['R', ']'])) (0 + 1)
      ['R', ']'] xs 0 (.array xs) 0 [.out] [] (2 * toks.length + 11) hd1 hall (by omega)
    have hR : ('[' :: (toks ++ ['R', ']'])).drop (0 + 1 + toks.length) = 'R' :: [']'] :=
      drop_add_of_drop _ _ _ _ hd1
    rw [h1]
    by_cases hk2 : toks.length < xs.length
    · have hget : xs[0 + toks.length]? = some xs[0 + toks.length] :=
        List.getElem?_eq_getElem (by omega)
      rw [show 2 * toks.length + 11 = (2 * toks.length + 9 + 1) + 1 by ring,
        unpack_loop_tail_in_array _ _ _ xs _ _ _ _ [] _ _ hR hget,
        unpack_loop_close_array _ _ [] _ _ _ _ _ _ _ (drop_succ_of_drop hR), if_pos hk2]
      simp
    · have hget : xs[toks.length]? = none := List.getElem?_eq_none (by omega)
      rw [show 2 * toks.length + 11 = (2 * toks.length + 10) + 1 by ring, if_neg hk2,
        unpack_loop_succ]
      simp [unpack_iter, unpack_fetch, fmt_at_of_drop hR, rpc_array_get_value, hget]
  · have := unpack_loop_array_short toks ('[' :: (toks ++ ['R', ']'])) (0 + 1) ['R', ']'] xs 0
      (some (.array xs)) 0 [.out] [] (toks.length + (2 * toks.length + 11)) hd1 hall
      (by omega) (by omega) (by omega)
    rw [this, if_neg (by omega)]

/-! ## Hashes -/

theorem xor_foldl_perm {l1 l2 : List Nat} (p : l1.Perm l2) :
    ∀ h : Nat, l1.foldl (fun x y => x ^^^ y) h = l2.foldl (fun x y => x ^^^ y) h := by
  induction p with
  | nil => intro h; rfl
  | cons x _ ih => intro h; exact ih (h ^^^ x)
  | swap x y l =>
    intro h
    simp only [List.foldl_cons]
    rw [Nat.xor_assoc, Nat.xor_comm y x, ← Nat.xor_assoc]
  | trans _ _ ih1 ih2 => intro h; rw [ih1 h, ih2 h]

theorem rpc_hash_elements_eq (env : host) (xs : List rpc_object) :
    ∀ h : Nat, rpc_hash_elements env xs h
      = (xs.map (rpc_hash env)).foldl (fun x y => x ^^^ y) h := by
  induction xs with
  | nil => intro h; simp [rpc_hash_elements]
  | cons v vs ih => intro h; simp [rpc_hash_elements, ih]

theorem rpc_hash_entries_eq (env : host) (kv : List (String × rpc_object)) :
    ∀ h : Nat, rpc_hash_entries env kv h
      = (kv.map (fun e => rpc_data_hash (string_bytes e.1) (strlen (string_bytes e.1))
          ^^^ rpc_hash env e.2)).foldl (fun x y => x ^^^ y) h := by
  induction kv with
  | nil => intro h; simp [rpc_hash_entries]
  | cons e rest ih =>
    intro h
    obtain ⟨k, v⟩ := e
    simp [rpc_hash_entries, ih, Nat.xor_assoc]

theorem rpc_data_hash_loop_eq (data : List Nat) : ∀ (length hash : Nat),
    length ≤ data.length →
    rpc_data_hash_loop data length hash
      = (data.take length).reverse.foldl (fun h b => (h * 33 + b) % 2 ^ 64) hash := by
  intro length
  induction length with
  | zero => intro hash _; simp [rpc_data_hash_loop]
  | succ n ih =>
    intro hash hle
    have hlt : n < data.length := hle
    rw [rpc_data_hash_loop, ih _ (by omega), List.take_succ, List.getElem?_eq_getElem hlt]
    have hd : data.getD n 0 = data[n] := by
      simp [List.getD, List.getElem?_eq_getElem hlt]
    have hstep : ((hash * 32) % 2 ^ 64 + hash + data[n]) % 2 ^ 64
        = (hash * 33 + data[n]) % 2 ^ 64 := by omega
    simp only [hd, hstep, Option.toList, List.reverse_append, List.reverse_cons,
      List.reverse_nil, List.nil_append, List.singleton_append, List.foldl_cons]

/-! ## Sparse stores, dictionary stores -/

theorem to_int_gap (i n : Nat) (h1 : i < n + 2 ^ 31) (h2 : n ≤ i + 2 ^ 31) :
    (to_int ((i + 2 ^ 64 - n) % 2 ^ 64)).toNat = i - n := by
  unfold to_int
  simp only []
  split_ifs <;> omega

/-- `rpc_array_steal_value` with the index less than 2^31 places away from the
end of the array: the gap is filled with null objects and the value is stored at
the index. -/
theorem rpc_array_steal_value_in_range (xs : List rpc_object) (i : Nat) (v : rpc_object)
    (h1 : i < xs.length + 2 ^ 31) (h2 : xs.length ≤ i + 2 ^ 31) :
    ∃ ys, rpc_array_steal_value xs i v = some ys ∧
      rpc_array_get_count ys = max xs.length (i + 1) ∧
      rpc_array_get_value (.array ys) i = some v ∧
      (∀ j, j < xs.length → j ≠ i → ys[j]? = xs[j]?) ∧
      (∀ j, xs.length ≤ j → j < i → ys[j]? = some .null) := by
  have hg := to_int_gap i xs.length h1 h2
  unfold rpc_array_steal_value
  simp only [hg, List.length_append, List.length_replicate]
  by_cases hi : i < xs.length
  · have e1 : i - xs.length = 0 := by omega
    rw [if_neg (by omega), if_pos (by omega)]
    refine ⟨_, rfl, ?_, ?_, ?_, ?_⟩
    · simp [rpc_array_get_count, e1]; omega
    · simp [rpc_array_get_value, e1, hi]
    · intro j hj hne
      simp [e1, List.getElem?_set, Ne.symm hne]
    · intro j hj hlt; omega
  · rw [if_pos (by omega)]
    refine ⟨_, rfl, ?_, ?_, ?_, ?_⟩
    · simp [rpc_array_get_count]; omega
    · have : (xs ++ List.replicate (i - xs.length) rpc_object.null).length = i := by
        simp; omega
      simp only [rpc_array_get_value]
      rw [List.getElem?_append_right (by omega), this]
      simp
    · intro j hj hne
      rw [List.append_assoc, List.getElem?_append_left hj]
    · intro j hj hlt
      have hl : j - xs.length < (List.replicate (i - xs.length) rpc_object.null ++ [v]).length := by
        simp; omega
      rw [List.append_assoc, List.getElem?_append_right hj, List.getElem?_eq_getElem hl]
      have hl2 : j - xs.length < (List.replicate (i - xs.length) rpc_object.null).length := by
        simp; omega
      rw [List.getElem_append_left hl2]
      simp

/-! ## The shape of a description -/

theorem printf_pad_small (n : Nat) (h : n < 2 ^ 31) :
    printf_pad (n % 2 ^ 32) = String.mk (List.replicate n ' ') := by
  have e : (to_int (n % 2 ^ 32)).natAbs = n := by
    unfold to_int
    simp only []
    split_ifs <;> omega
  rw [printf_pad, e]

theorem description_elements_eq (env : printer) (l : Nat) (xs : List rpc_object) :
    ∀ idx, idx + xs.length ≤ 2 ^ 32 →
    description_elements env xs idx l
      = (xs.enumFrom idx).foldr (fun p acc =>
          printf_pad ((l * 4) % 2 ^ 32) ++ Nat.repr p.1 ++ ": "
            ++ rpc_create_description env p.2 l true ++ ",\n" ++ acc) "" := by
  induction xs with
  | nil => intro idx _; simp [description_elements]
  | cons v vs ih =>
    intro idx h
    simp only [List.length_cons] at h
    have e : idx % 2 ^ 32 = idx := Nat.mod_eq_of_lt (by omega)
    rw [description_elements, ih (idx + 1) (by omega), e]
    simp [List.enumFrom_cons]

theorem description_entries_eq (env : printer) (l : Nat) (kv : List (String × rpc_object)) :
    description_entries env kv l
      = kv.foldr (fun e acc =>
          printf_pad ((l * 4) % 2 ^ 32) ++ c_str e.1 ++ ": "
            ++ rpc_create_description env e.2 l true ++ ",\n" ++ acc) "" := by
  induction kv with
  | nil => simp [description_entries]
  | cons e rest ih =>
    obtain ⟨k, v⟩ := e
    rw [description_entries, ih]
    simp

theorem truncate_last_newline (s : String) : truncate_last (s ++ "\n") = s := by
  simp [truncate_last, String.toList]

/-! ## Copies -/

mutual
theorem rpc_copy_some (env : host) : ∀ v : rpc_object, ∃ c, rpc_copy env v = some c
  | .null => ⟨_, by rw [rpc_copy]⟩
  | .bool _ => ⟨_, by rw [rpc_copy]⟩
  | .int64 _ => ⟨_, by rw [rpc_copy]⟩
  | .uint64 _ => ⟨_, by rw [rpc_copy]⟩
  | .date _ => ⟨_, by rw [rpc_copy]⟩
  | .double _ => ⟨_, by rw [rpc_copy]⟩
  | .fd _ => ⟨_, by rw [rpc_copy]⟩
  | .string _ => ⟨_, by rw [rpc_copy]⟩
  | .binary _ _ => ⟨_, by rw [rpc_copy]⟩
  | .shmem _ _ _ => ⟨_, by rw [rpc_copy]⟩
  | .error code msg extra stack => by
    obtain ⟨e, he⟩ := rpc_copy_some env extra
    exact ⟨_, by rw [rpc_copy, he]⟩
  | .dictionary kv => by
    obtain ⟨r, hr⟩ := rpc_copy_entries_some env kv []
    exact ⟨_, by rw [rpc_copy, hr]⟩
  | .array xs => by
    obtain ⟨r, hr⟩ := rpc_copy_elements_some env xs []
    exact ⟨_, by rw [rpc_copy]; rw [show (0 : Nat) = ([] : List rpc_object).length from rfl, hr]⟩
theorem rpc_copy_elements_some (env : host) : ∀ (xs tmp : List rpc_object),
    ∃ r, rpc_copy_elements env xs tmp.length tmp = some r
  | [], tmp => ⟨tmp, by rw [rpc_copy_elements]⟩
  | v :: vs, tmp => by
    obtain ⟨c, hc⟩ := rpc_copy_some env v
    obtain ⟨r, hr⟩ := rpc_copy_elements_some env vs (tmp ++ [c])
    refine ⟨r, ?_⟩
    rw [rpc_copy_elements, hc]
    simp only [rpc_array_steal_value_append]
    rw [← hr]
    simp
theorem rpc_copy_entries_some (env : host) : ∀ (kv tmp : List (String × rpc_object)),
    ∃ r, rpc_copy_entries env kv tmp = some r
  | [], tmp => ⟨tmp, by rw [rpc_copy_entries]⟩
  | (k, v) :: rest, tmp => by
    obtain ⟨c, hc⟩ := rpc_copy_some env v
    obtain ⟨r, hr⟩ := rpc_copy_entries_some env rest (rpc_dictionary_steal_value tmp (c_str k) c)
    exact ⟨r, by rw [rpc_copy_entries, hc]; exact hr⟩
end

theorem rpc_copy_type (env : host) (v c : rpc_object) (h : rpc_copy env v = some c) :
    rpc_get_type c = rpc_get_type v := by
  cases v <;> rw [rpc_copy] at h
  case error code msg extra stack =>
    obtain ⟨e, he⟩ := rpc_copy_some env extra
    rw [he] at h
    cases h; rfl
  case dictionary kv =>
    obtain ⟨r, hr⟩ := rpc_copy_entries_some env kv []
    rw [hr] at h
    cases h; rfl
  case array xs =>
    obtain ⟨r, hr⟩ := rpc_copy_elements_some env xs []
    rw [show (0 : Nat) = ([] : List rpc_object).length from rfl, hr] at h
    cases h; rfl
  all_goals (cases h; rfl)

/-- The copy loop over the elements appends the copy of each element, in order. -/
theorem rpc_copy_elements_eq (env : host) (xs : List rpc_object) : ∀ tmp : List rpc_object,
    ∃ ys, rpc_copy_elements env xs tmp.length tmp = some (tmp ++ ys) ∧
      List.Forall₂ (fun v c => rpc_copy env v = some c) xs ys := by
  induction xs with
  | nil => intro tmp; exact ⟨[], by rw [rpc_copy_elements]; simp, List.Forall₂.nil⟩
  | cons v vs ih =>
    intro tmp
    obtain ⟨c, hc⟩ := rpc_copy_some env v
    obtain ⟨ys, hys, hf⟩ := ih (tmp ++ [c])
    refine ⟨c :: ys, ?_, List.Forall₂.cons hc hf⟩
    rw [rpc_copy_elements, hc]
    simp only [rpc_array_steal_value_append]
    rw [show tmp.length + 1 = (tmp ++ [c]).length by simp, hys]
    simp

theorem steal_new_key (tmp : List (String × rpc_object)) (k : String) (c : rpc_object)
    (h : k ∉ tmp.map Prod.fst) :
    rpc_dictionary_steal_value tmp k c = tmp ++ [(k, c)] := by
  induction tmp with
  | nil => rfl
  | cons e rest ih =>
    obtain ⟨k0, v0⟩ := e
    simp only [List.map_cons, List.mem_cons, not_or] at h
    simp [rpc_dictionary_steal_value, Ne.symm h.1, ih h.2]

/-- The copy loop over the entries of a dictionary with distinct keys appends an
entry with the same key and the copy of the value for each entry, in order. -/
theorem rpc_copy_entries_eq (env : host) (kv : List (String × rpc_object)) :
    ∀ tmp : List (String × rpc_object),
    (kv.map Prod.fst).Nodup → (∀ e ∈ kv, c_str e.1 = e.1) →
    (∀ k ∈ kv.map Prod.fst, k ∉ tmp.map Prod.fst) →
    ∃ es, rpc_copy_entries env kv tmp = some (tmp ++ es) ∧
      List.Forall₂ (fun e e1 => e1.1 = e.1 ∧ rpc_copy env e.2 = some e1.2) kv es := by
  induction kv with
  | nil => intro tmp _ _ _; exact ⟨[], by rw [rpc_copy_entries]; simp, List.Forall₂.nil⟩
  | cons e rest ih =>
    intro tmp hnd hcs hdis
    obtain ⟨k, v⟩ := e
    obtain ⟨c, hc⟩ := rpc_copy_some env v
    have hk : c_str k = k := hcs (k, v) (List.mem_cons_self _ _)
    have hnew : k ∉ tmp.map Prod.fst := hdis k (by simp)
    simp only [List.map_cons, List.nodup_cons] at hnd
    obtain ⟨es, hes, hf⟩ := ih (tmp ++ [(k, c)]) hnd.2
      (fun e he => hcs e (List.mem_cons_of_mem _ he))
      (by
        intro k1 hk1
        simp only [List.map_append, List.map_cons, List.map_nil, List.mem_append,
          List.mem_singleton, not_or]
        refine ⟨hdis k1 (by simp [hk1]), ?_⟩
        intro h; subst h; exact hnd.1 hk1)
    refine ⟨(k, c) :: es, ?_, List.Forall₂.cons ⟨rfl, hc⟩ hf⟩
    rw [rpc_copy_entries, hc]
    simp only [hk, steal_new_key tmp k c hnew, hes]
    simp

theorem dict_lookup_forall₂ (env : host) (kv : List (String × rpc_object)) :
    ∀ (es : List (String × rpc_object)),
    List.Forall₂ (fun e e1 => e1.1 = e.1 ∧ rpc_copy env e.2 = some e1.2) kv es →
    ∀ (k : String) (v : rpc_object), dict_lookup kv k = some v →
    ∃ c, dict_lookup es k = some c ∧ rpc_copy env v = some c := by
  induction kv with
  | nil => intro es _ k v hv; simp [dict_lookup] at hv
  | cons e rest ih =>
    intro es h k v hv
    cases h with
    | cons hh ht =>
      rename_i e1 es1
      obtain ⟨k0, v0⟩ := e
      obtain ⟨k1, v1⟩ := e1
      simp only at hh
      obtain ⟨hk, hcp⟩ := hh
      subst hk
      by_cases h0 : k1 = k
      · simp only [dict_lookup, h0, if_true, Option.some.injEq] at hv ⊢
        subst hv
        exact ⟨v1, rfl, hcp⟩
      · simp only [dict_lookup, h0, if_false] at hv ⊢
        exact ih es1 ht k v hv

/-! ## Runs of the call state machine -/

theorem rpct_deserialize_leaf (registered : String → Bool) (o : rpc_object)
    (h : is_leaf_value o = true) : rpct_deserialize registered o = some (.leaf none o) := by
  cases o <;> first | (simp [is_leaf_value] at h; done) | (rw [rpct_deserialize])

theorem rpct_deserialize_wrapped (registered : String → Bool) (t : String) (p : rpc_object)
    (x : typed_object) (hp : rpct_deserialize registered p = some x)
    (ht : registered t = true) :
    rpct_deserialize registered (rpct_wrap (some t) p) = some (x.attach t) := by
  have hs : rpct_deserialize registered (.string t) = some (.leaf none (.string t)) := by
    rw [rpct_deserialize]
  have hne : ¬ ("%type" = "%value") := by decide
  rw [rpct_wrap, rpct_deserialize]
  simp only [rpct_deserialize_entries, hs, hp]
  simp [rpct_unwrap, typed_lookup, ht, hne]

theorem typed_lookup_reserved (registered : String → Bool) (kv : List (String × typed_object))
    (h : serializable_entries registered kv = true) : typed_lookup kv "%type" = none := by
  induction kv with
  | nil => rfl
  | cons e rest ih =>
    obtain ⟨k, x⟩ := e
    simp only [serializable_entries, Bool.and_eq_true, decide_eq_true_eq] at h
    simp [typed_lookup, h.1.1, ih h.2]

mutual
theorem rpct_round_trip (registered : String → Bool) : ∀ x : typed_object,
    serializable registered x = true → rpct_deserialize registered (rpct_serialize x) = some x
  | .leaf none o => by
    intro h
    simp only [serializable, typei_registered, Bool.true_and] at h
    rw [rpct_serialize, rpct_wrap, rpct_deserialize_leaf registered o h]
  | .leaf (some t) o => by
    intro h
    simp only [serializable, typei_registered, Bool.and_eq_true] at h
    rw [rpct_serialize, rpct_deserialize_wrapped registered t o _
      (rpct_deserialize_leaf registered o h.2) h.1]
    rfl
  | .array none xs => by
    intro h
    simp only [serializable, typei_registered, Bool.true_and] at h
    rw [rpct_serialize, rpct_wrap, rpct_deserialize, rpct_round_trip_elements registered xs h]
  | .array (some t) xs => by
    intro h
    simp only [serializable, typei_registered, Bool.and_eq_true] at h
    have hp : rpct_deserialize registered (.array (rpct_serialize_elements xs))
        = some (.array none xs) := by
      rw [rpct_deserialize, rpct_round_trip_elements registered xs h.2]
    rw [rpct_serialize, rpct_deserialize_wrapped registered t _ _ hp h.1]
    rfl
  | .dictionary none kv => by
    intro h
    simp only [serializable, typei_registered, Bool.true_and] at h
    rw [rpct_serialize, rpct_wrap, rpct_deserialize, rpct_round_trip_entries registered kv h]
    simp only [rpct_unwrap, typed_lookup_reserved registered kv h]
  | .dictionary (some t) kv => by
    intro h
    simp only [serializable, typei_registered, Bool.and_eq_true] at h
    have hp : rpct_deserialize registered (.dictionary (rpct_serialize_entries kv))
        = some (.dictionary none kv) := by
      rw [rpct_deserialize, rpct_round_trip_entries registered kv h.2]
      simp only [rpct_unwrap, typed_lookup_reserved registered kv h.2]
    rw [rpct_serialize, rpct_deserialize_wrapped registered t _ _ hp h.1]
    rfl
theorem rpct_round_trip_elements (registered : String → Bool) : ∀ xs : List typed_object,
    serializable_elements registered xs = true →
    rpct_deserialize_elements registered (rpct_serialize_elements xs) = some xs
  | [] => by intro _; rw [rpct_serialize_elements, rpct_deserialize_elements]
  | x :: xs => by
    intro h
    simp only [serializable_elements, Bool.and_eq_true] at h
    rw [rpct_serialize_elements, rpct_deserialize_elements, rpct_round_trip registered x h.1,
      rpct_round_trip_elements registered xs h.2]
theorem rpct_round_trip_entries (registered : String → Bool) :
    ∀ kv : List (String × typed_object),
    serializable_entries registered kv = true →
    rpct_deserialize_entries registered (rpct_serialize_entries kv) = some kv
  | [] => by intro _; rw [rpct_serialize_entries, rpct_deserialize_entries]
  | (k, x) :: rest => by
    intro h
    simp only [serializable_entries, Bool.and_eq_true] at h
    rw [rpct_serialize_entries, rpct_deserialize_entries, rpct_round_trip registered x h.1.2,
      rpct_round_trip_entries registered rest h.2]
end

/-! ## The release loop: step budget and sequencing -/

theorem sum_map_set {α : Type} (f : α → Nat) (l : List α) : ∀ (a : Nat) (c : α) (ha : a < l.length),
    ((l.set a c).map f).sum + f l[a] = (l.map f).sum + f c := by
  induction l with
  | nil => intro a c ha; simp at ha
  | cons x xs ih =>
    intro a c ha
    cases a with
    | zero => simp; omega
    | succ n =>
      simp only [List.length_cons, Nat.add_lt_add_iff_right] at ha
      have := ih n c ha
      simp only [List.set_cons_succ, List.map_cons, List.sum_cons, List.getElem_cons_succ]
      omega

theorem potential_set (h : mem.heap) (a : Nat) (c : Option mem.rpc_object) (ha : a < h.length) :
    mem.potential (h.set a c) + mem.weight h[a] = mem.potential h + mem.weight c :=
  sum_map_set mem.weight h a c ha

theorem potential_set_le (h : mem.heap) (a : Nat) (c : Option mem.rpc_object)
    (hc : mem.weight c = 0) : mem.potential (h.set a c) ≤ mem.potential h := by
  by_cases ha : a < h.length
  · have := potential_set h a c ha
    omega
  · rw [List.set_eq_of_length_le (by omega)]

theorem potential_le_budget (h : mem.heap) : mem.potential h + 2 ≤ mem.release_budget h := by
  unfold mem.potential mem.release_budget
  have : ∀ l : List (Option mem.rpc_object), (l.map mem.weight).sum
      ≤ (l.map (fun c => match c with
          | some o => (mem.contained o.ro_value).length + 2
          | none => 0)).sum := by
    intro l
    induction l with
    | nil => simp
    | cons c cs ih =>
      simp only [List.map_cons, List.sum_cons]
      have : mem.weight c ≤ (match c with
          | some o => (mem.contained o.ro_value).length + 2
          | none => 0) := by
        cases c with
        | none => simp [mem.weight]
        | some o => simp only [mem.weight]; split_ifs <;> omega
      omega
  have := this h
  omega

theorem release_loop_succ_release (fuel : Nat) (h : mem.heap) (a : Nat) (rest : List mem.work) :
    mem.release_loop (fuel + 1) h (.release (some a) :: rest)
      = match h[a]? with
        | some (some o) =>
          if o.ro_refcnt ≤ 0 then .fault .refcnt_assert
          else if o.ro_refcnt - 1 = 0 then
            mem.release_loop fuel (h.set a (some { o with ro_refcnt := 0 }))
              ((mem.contained o.ro_value).map mem.work.release ++ mem.work.free a :: rest)
          else mem.release_loop fuel (h.set a (some { o with ro_refcnt := o.ro_refcnt - 1 })) rest
        | _ => .fault .dead_object := by
  rw [mem.release_loop]

/-- The release loop never runs out of a budget above the potential of the heap
plus the number of pending steps. -/
theorem release_loop_enough : ∀ (fuel : Nat) (h : mem.heap) (w : List mem.work),
    mem.potential h + w.length < fuel → mem.release_loop fuel h w ≠ .fuel := by
  intro fuel
  induction fuel with
  | zero => intro h w hf; omega
  | succ f ih =>
    intro h w hf
    cases w with
    | nil => simp [mem.release_loop]
    | cons x rest =>
      simp only [List.length_cons] at hf
      cases x with
      | free a =>
        rw [mem.release_loop]
        exact ih _ _ (by have := potential_set_le h a none rfl; omega)
      | release p =>
        cases p with
        | none => rw [mem.release_loop]; exact ih _ _ (by omega)
        | some a =>
          rw [release_loop_succ_release]
          cases hc : h[a]? with
          | none => simp
          | some c =>
            cases c with
            | none => simp
            | some o =>
              obtain ⟨ha, hget⟩ := List.getElem?_eq_some_iff.mp hc
              simp only []
              by_cases h0 : o.ro_refcnt ≤ 0
              · rw [if_pos h0]; simp
              · rw [if_neg h0]
                by_cases h1 : o.ro_refcnt - 1 = 0
                · rw [if_pos h1]
                  apply ih
                  have := potential_set h a (some { o with ro_refcnt := 0 }) ha
                  have hw : mem.weight h[a] = (mem.contained o.ro_value).length + 2 := by
                    rw [hget]; simp only [mem.weight]; rw [if_pos (by omega)]
                  have hw2 : mem.weight (some { o with ro_refcnt := 0 }) = 0 := by
                    simp [mem.weight]
                  simp only [List.length_append, List.length_map, List.length_cons]
                  omega
                · rw [if_neg h1]
                  apply ih
                  have := potential_set h a (some { o with ro_refcnt := o.ro_refcnt - 1 }) ha
                  have hw : mem.weight h[a] = (mem.contained o.ro_value).length + 2 := by
                    rw [hget]; simp only [mem.weight]; rw [if_pos (by omega)]
                  have hw2 : mem.weight (some { o with ro_refcnt := o.ro_refcnt - 1 })
                      = (mem.contained o.ro_value).length + 2 := by
                    simp only [mem.weight]; rw [if_pos (by omega)]
                  omega

/-- More budget does not change a result of the release loop. -/
theorem release_loop_mono : ∀ (fuel : Nat) (h : mem.heap) (w : List mem.work),
    mem.release_loop fuel h w ≠ .fuel →
    mem.release_loop (fuel + 1) h w = mem.release_loop fuel h w := by
  intro fuel
  induction fuel with
  | zero => intro h w hne; simp [mem.release_loop] at hne
  | succ f ih =>
    intro h w hne
    cases w with
    | nil => simp [mem.release_loop]
    | cons x rest =>
      cases x with
      | free a =>
        rw [mem.release_loop] at hne
        rw [mem.release_loop, ih _ _ hne]
        conv_rhs => rw [mem.release_loop]
      | release p =>
        cases p with
        | none =>
          rw [mem.release_loop] at hne
          rw [mem.release_loop, ih _ _ hne]
          conv_rhs => rw [mem.release_loop]
        | some a =>
          rw [release_loop_succ_release] at hne
          rw [release_loop_succ_release, release_loop_succ_release]
          cases hc : h[a]? with
          | none => rfl
          | some c =>
            cases c with
            | none => rfl
            | some o =>
              simp only [hc] at hne ⊢
              by_cases h0 : o.ro_refcnt ≤ 0
              · rw [if_pos h0, if_pos h0]
              · rw [if_neg h0] at hne
                rw [if_neg h0, if_neg h0]
                by_cases h1 : o.ro_refcnt - 1 = 0
                · rw [if_pos h1] at hne
                  rw [if_pos h1, if_pos h1, ih _ _ hne]
                · rw [if_neg h1] at hne
                  rw [if_neg h1, if_neg h1, ih _ _ hne]

theorem release_loop_mono_add (k : Nat) : ∀ (fuel : Nat) (h : mem.heap) (w : List mem.work),
    mem.release_loop fuel h w ≠ .fuel →
    mem.release_loop (fuel + k) h w = mem.release_loop fuel h w := by
  induction k with
  | zero => intro fuel h w _; rfl
  | succ k ih =>
    intro fuel h w hne
    have e := ih fuel h w hne
    rw [← Nat.add_assoc, release_loop_mono _ _ _ (by rw [e]; exact hne), e]

/-- Two budgets that are both enough give the same result. -/
theorem release_loop_det (f1 f2 : Nat) (h : mem.heap) (w : List mem.work)
    (h1 : mem.release_loop f1 h w ≠ .fuel) (h2 : mem.release_loop f2 h w ≠ .fuel) :
    mem.release_loop f1 h w = mem.release_loop f2 h w := by
  rcases Nat.le_total f1 f2 with hle | hle
  · obtain ⟨k, rfl⟩ := Nat.exists_eq_add_of_le hle
    exact (release_loop_mono_add k f1 h w h1).symm
  · obtain ⟨k, rfl⟩ := Nat.exists_eq_add_of_le hle
    exact release_loop_mono_add k f2 h w h2

/-- Pending steps are worked off in order: a list `w1 ++ w2` is `w1` followed by
`w2` on the heap that `w1` leaves, or the fault of `w1`. -/
theorem release_loop_append : ∀ (fuel : Nat) (h : mem.heap) (w1 w2 : List mem.work),
    mem.release_loop fuel h (w1 ++ w2) ≠ .fuel →
    (∃ h1, mem.release_loop fuel h w1 = .ok h1 ∧
      mem.release_loop fuel h (w1 ++ w2) = mem.release_loop fuel h1 w2) ∨
    (∃ k, mem.release_loop fuel h w1 = .fault k ∧
      mem.release_loop fuel h (w1 ++ w2) = .fault k) := by
  intro fuel
  induction fuel with
  | zero => intro h w1 w2 hne; simp [mem.release_loop] at hne
  | succ f ih =>
    intro h w1 w2 hne
    have step : ∀ (h' : mem.heap) (w1' : List mem.work),
        mem.release_loop (f + 1) h (w1 ++ w2) = mem.release_loop f h' (w1' ++ w2) →
        mem.release_loop (f + 1) h w1 = mem.release_loop f h' w1' →
        (∃ h1, mem.release_loop (f + 1) h w1 = .ok h1 ∧
          mem.release_loop (f + 1) h (w1 ++ w2) = mem.release_loop (f + 1) h1 w2) ∨
        (∃ k, mem.release_loop (f + 1) h w1 = .fault k ∧
          mem.release_loop (f + 1) h (w1 ++ w2) = .fault k) := by
      intro h' w1' e1 e2
      rw [e1] at hne
      rcases ih h' w1' w2 hne with ⟨h1, a1, a2⟩ | ⟨k, a1, a2⟩
      · refine Or.inl ⟨h1, by rw [e2, a1], ?_⟩
        rw [e1, a2, release_loop_mono f h1 w2 (by rw [← a2]; exact hne)]
      · exact Or.inr ⟨k, by rw [e2, a1], by rw [e1, a2]⟩
    cases w1 with
    | nil => exact Or.inl ⟨h, by simp [mem.release_loop], rfl⟩
    | cons x rest =>
      cases x with
      | free a =>
        exact step (h.set a none) rest (by rw [List.cons_append, mem.release_loop])
          (by rw [mem.release_loop])
      | release p =>
        cases p with
        | none =>
          exact step h rest (by rw [List.cons_append, mem.release_loop])
            (by rw [mem.release_loop])
        | some a =>
          cases hc : h[a]? with
          | none =>
            exact Or.inr ⟨.dead_object, by rw [release_loop_succ_release, hc],
              by rw [List.cons_append, release_loop_succ_release, hc]⟩
          | some c =>
            cases c with
            | none =>
              exact Or.inr ⟨.dead_object, by rw [release_loop_succ_release, hc],
                by rw [List.cons_append, release_loop_succ_release, hc]⟩
            | some o =>
              by_cases h0 : o.ro_refcnt ≤ 0
              · exact Or.inr ⟨.refcnt_assert,
                  by rw [release_loop_succ_release, hc]; simp only []; rw [if_pos h0],
                  by rw [List.cons_append, release_loop_succ_release, hc]; simp only []
                     rw [if_pos h0]⟩
              · by_cases h1 : o.ro_refcnt - 1 = 0
                · exact step (h.set a (some { o with ro_refcnt := 0 }))
                    ((mem.contained o.ro_value).map mem.work.release ++ mem.work.free a :: rest)
                    (by rw [List.cons_append, release_loop_succ_release, hc]; simp only []
                        rw [if_neg h0, if_pos h1, List.append_assoc, List.cons_append])
                    (by rw [release_loop_succ_release, hc]; simp only []
                        rw [if_neg h0, if_pos h1])
                · exact step (h.set a (some { o with ro_refcnt := o.ro_refcnt - 1 })) rest
                    (by rw [List.cons_append, release_loop_succ_release, hc]; simp only []
                        rw [if_neg h0, if_neg h1])
                    (by rw [release_loop_succ_release, hc]; simp only []
                        rw [if_neg h0, if_neg h1])

theorem release_loop_budget (h : mem.heap) (p : Option Nat) :
    mem.release_loop (mem.release_budget h) h [.release p] ≠ .fuel :=
  release_loop_enough _ _ _ (by have := potential_le_budget h; simp; omega)

/-- `rpc_release_impl` never runs out of its step budget. -/
theorem rpc_release_impl_total (h : mem.heap) (p : Option Nat) :
    mem.rpc_release_impl h p ≠ .fuel := by
  cases p with
  | none => simp [mem.rpc_release_impl]
  | some a =>
    have := release_loop_budget h (some a)
    unfold mem.rpc_release_impl
    simp only []
    cases hr : mem.release_loop (mem.release_budget h) h [.release (some a)] with
    | ok h1 => simp only []; split <;> simp
    | fault k => simp
    | fuel => exact absurd hr this

/-- A run of the loop on a single release, on any budget that is enough, is the
call `rpc_release_impl`. -/
theorem rpc_release_impl_of_loop (fuel : Nat) (h : mem.heap) (p : Option Nat)
    (hne : mem.release_loop fuel h [.release p] ≠ .fuel) :
    (∃ h1 n, mem.release_loop fuel h [.release p] = .ok h1 ∧
      mem.rpc_release_impl h p = .ok (h1, n)) ∨
    (∃ k, mem.release_loop fuel h [.release p] = .fault k ∧
      mem.rpc_release_impl h p = .fault k) := by
  cases p with
  | none =>
    cases fuel with
    | zero => simp [mem.release_loop] at hne
    | succ f =>
      rw [mem.release_loop] at hne ⊢
      cases f with
      | zero => simp [mem.release_loop] at hne
      | succ f => exact Or.inl ⟨h, 0, by simp [mem.release_loop], rfl⟩
  | some a =>
    have e := release_loop_det _ _ h [.release (some a)] hne (release_loop_budget h (some a))
    unfold mem.rpc_release_impl
    simp only []
    rw [← e]
    cases hr : mem.release_loop fuel h [.release (some a)] with
    | ok h1 =>
      simp only []
      refine Or.inl ⟨h1, ?_⟩
      split
      · exact ⟨_, rfl, rfl⟩
      · exact ⟨_, rfl, rfl⟩
    | fault k => exact Or.inr ⟨k, rfl, rfl⟩
    | fuel => exact absurd hr hne

/-- A run of the loop on the releases of a list of objects is `rpc_release_impl`
applied once to each of them, in order. -/
theorem release_each_of_loop (cs : List (Option Nat)) : ∀ (fuel : Nat) (h : mem.heap),
    mem.release_loop fuel h (cs.map mem.work.release) ≠ .fuel →
    mem.release_loop fuel h (cs.map mem.work.release) = mem.release_each h cs := by
  induction cs with
  | nil =>
    intro fuel h hne
    cases fuel with
    | zero => simp [mem.release_loop] at hne
    | succ f => simp [mem.release_loop, mem.release_each]
  | cons c cs ih =>
    intro fuel h hne
    have hne2 : mem.release_loop fuel h ([.release c] ++ cs.map mem.work.release) ≠ .fuel := hne
    rw [List.map_cons, show mem.work.release c :: cs.map mem.work.release
      = [.release c] ++ cs.map mem.work.release from rfl]
    rcases release_loop_append fuel h [.release c] _ hne2 with ⟨h1, a1, a2⟩ | ⟨k, a1, a2⟩
    · have hne1 : mem.release_loop fuel h [.release c] ≠ .fuel := by rw [a1]; simp
      rcases rpc_release_impl_of_loop fuel h c hne1 with ⟨h2, n, b1, b2⟩ | ⟨k, b1, _⟩
      · rw [a1] at b1
        cases b1
        rw [a2, ih fuel h1 (by rw [← a2]; exact hne2), mem.release_each, b2]
      · rw [a1] at b1; cases b1
    · have hne1 : mem.release_loop fuel h [.release c] ≠ .fuel := by rw [a1]; simp
      rcases rpc_release_impl_of_loop fuel h c hne1 with ⟨h2, n, b1, _⟩ | ⟨k2, b1, b2⟩
      · rw [a1] at b1; cases b1
      · rw [a1] at b1
        cases b1
        rw [a2, mem.release_each, b2]

/-- A release that leaves the count positive changes the count of the object and
nothing else. -/
theorem rpc_release_impl_positive (h : mem.heap) (a : Nat) (o : mem.rpc_object)
    (ha : h[a]? = some (some o)) (hr : 2 ≤ o.ro_refcnt) :
    mem.rpc_release_impl h (some a)
      = .ok (h.set a (some { o with ro_refcnt := o.ro_refcnt - 1 }), o.ro_refcnt - 1) := by
  obtain ⟨hlt, _⟩ := List.getElem?_eq_some_iff.mp ha
  have hb := potential_le_budget h
  obtain ⟨b, hbe⟩ : ∃ b, mem.release_budget h = b + 2 := ⟨mem.release_budget h - 2, by omega⟩
  unfold mem.rpc_release_impl
  simp only []
  rw [hbe, release_loop_succ_release, ha]
  simp only []
  rw [if_neg (by omega), if_neg (by omega), mem.release_loop]
  simp [hlt]

/-- The release that takes the count from 1 to 0: `rpc_release_impl` is applied
once to each contained object, in order, and then the cell is freed. -/
theorem rpc_release_impl_last (h : mem.heap) (a : Nat) (o : mem.rpc_object)
    (ha : h[a]? = some (some o)) (hr : o.ro_refcnt = 1) :
    mem.rpc_release_impl h (some a)
      = match mem.release_each (h.set a (some { o with ro_refcnt := 0 }))
          (mem.contained o.ro_value) with
        | .ok h1 => .ok (h1.set a none, 0)
        | .fault k => .fault k
        | .fuel => .fuel := by
  have hne := release_loop_budget h (some a)
  have hb := potential_le_budget h
  obtain ⟨b, hbe⟩ : ∃ b, mem.release_budget h = b + 1 := ⟨mem.release_budget h - 1, by omega⟩
  unfold mem.rpc_release_impl
  simp only []
  rw [hbe] at hne ⊢
  rw [release_loop_succ_release, ha] at hne ⊢
  simp only [] at hne ⊢
  rw [if_neg (by omega), if_pos (by omega)] at hne ⊢
  rcases release_loop_append b _ _ _ hne with ⟨h1, a1, a2⟩ | ⟨k, a1, a2⟩
  · rw [a2] at hne ⊢
    rw [← release_each_of_loop _ b _ (by rw [a1]; simp), a1]
    cases b with
    | zero => simp [mem.release_loop] at hne
    | succ b1 =>
      rw [mem.release_loop] at hne ⊢
      cases b1 with
      | zero => simp [mem.release_loop] at hne
      | succ b2 =>
        rw [mem.release_loop]
        simp only []
        by_cases hl : a < h1.length
        · simp [hl]
        · simp [List.getElem?_eq_none (show (h1.set a none).length ≤ a by simp; omega)]
  · rw [a2, ← release_each_of_loop _ b _ (by rw [a1]; simp), a1]

theorem release_loop_length : ∀ (fuel : Nat) (h : mem.heap) (w : List mem.work) (h1 : mem.heap),
    mem.release_loop fuel h w = .ok h1 → h1.length = h.length := by
  intro fuel
  induction fuel with
  | zero => intro h w h1 e; simp [mem.release_loop] at e
  | succ f ih =>
    intro h w h1 e
    cases w with
    | nil => simp only [mem.release_loop, mem.outcome.ok.injEq] at e; rw [← e]
    | cons x rest =>
      cases x with
      | free a =>
        rw [mem.release_loop] at e
        rw [ih _ _ _ e, List.length_set]
      | release p =>
        cases p with
        | none => rw [mem.release_loop] at e; exact ih _ _ _ e
        | some a =>
          rw [release_loop_succ_release] at e
          cases hc : h[a]? with
          | none => simp [hc] at e
          | some c =>
            cases c with
            | none => simp [hc] at e
            | some o =>
              simp only [hc] at e
              by_cases h0 : o.ro_refcnt ≤ 0
              · rw [if_pos h0] at e; cases e
              · rw [if_neg h0] at e
                by_cases h1c : o.ro_refcnt - 1 = 0
                · rw [if_pos h1c] at e
                  rw [ih _ _ _ e, List.length_set]
                · rw [if_neg h1c] at e
                  rw [ih _ _ _ e, List.length_set]

theorem rpc_release_impl_length (h : mem.heap) (p : Option Nat) (h1 : mem.heap) (n : Int)
    (e : mem.rpc_release_impl h p = .ok (h1, n)) : h1.length = h.length := by
  cases p with
  | none => simp only [mem.rpc_release_impl, mem.outcome.ok.injEq, Prod.mk.injEq] at e; rw [← e.1]
  | some a =>
    unfold mem.rpc_release_impl at e
    simp only [] at e
    cases hr : mem.release_loop (mem.release_budget h) h [.release (some a)] with
    | ok h2 =>
      rw [hr] at e
      simp only [] at e
      have hl := release_loop_length _ _ _ _ hr
      split at e <;> (simp only [mem.outcome.ok.injEq, Prod.mk.injEq] at e; rw [← e.1, hl])
    | fault k => rw [hr] at e; cases e
    | fuel => rw [hr] at e; cases e

theorem release_each_length (cs : List (Option Nat)) : ∀ (h h1 : mem.heap),
    mem.release_each h cs = .ok h1 → h1.length = h.length := by
  induction cs with
  | nil => intro h h1 e; simp only [mem.release_each, mem.outcome.ok.injEq] at e; rw [← e]
  | cons c cs ih =>
    intro h h1 e
    rw [mem.release_each] at e
    cases hr : mem.rpc_release_impl h c with
    | ok r =>
      rw [hr] at e
      simp only [] at e
      rw [ih _ _ e, rpc_release_impl_length h c r.1 r.2 hr]
    | fault k => rw [hr] at e; cases e
    | fuel => rw [hr] at e; cases e

/-- Releasing each of a list of distinct objects whose counts are at least 2
decrements the count of each by one and changes no other cell. -/
theorem release_each_decrements (cs : List Nat) : ∀ (h : mem.heap), cs.Nodup →
    (∀ c ∈ cs, ∃ oc, h[c]? = some (some oc) ∧ 2 ≤ oc.ro_refcnt) →
    ∃ h1, mem.release_each h (cs.map some) = .ok h1 ∧
      (∀ c ∈ cs, ∀ oc, h[c]? = some (some oc) →
        h1[c]? = some (some { oc with ro_refcnt := oc.ro_refcnt - 1 })) ∧
      (∀ j, j ∉ cs → h1[j]? = h[j]?) := by
  induction cs with
  | nil => intro h _ _; exact ⟨h, rfl, by simp, fun _ _ => rfl⟩
  | cons c cs ih =>
    intro h hnd hall
    simp only [List.nodup_cons] at hnd
    obtain ⟨oc, hoc, hr⟩ := hall c (List.mem_cons_self _ _)
    obtain ⟨hlt, _⟩ := List.getElem?_eq_some_iff.mp hoc
    have hother : ∀ j, j ≠ c →
        (h.set c (some { oc with ro_refcnt := oc.ro_refcnt - 1 }))[j]? = h[j]? := by
      intro j hj
      rw [List.getElem?_set, if_neg (Ne.symm hj)]
    obtain ⟨h1, e1, p1, p2⟩ := ih (h.set c (some { oc with ro_refcnt := oc.ro_refcnt - 1 }))
      hnd.2 (by
        intro c1 hc1
        obtain ⟨o1, ho1, hr1⟩ := hall c1 (List.mem_cons_of_mem _ hc1)
        refine ⟨o1, ?_, hr1⟩
        rw [hother c1 (by intro hh; subst hh; exact hnd.1 hc1), ho1])
    refine ⟨h1, ?_, ?_, ?_⟩
    · rw [List.map_cons, mem.release_each, rpc_release_impl_positive h c oc hoc hr]
      exact e1
    · intro c1 hc1 o1 ho1
      rcases List.mem_cons.mp hc1 with hh | hh
      · subst hh
        rw [hoc] at ho1
        cases ho1
        rw [p2 c1 hnd.1, List.getElem?_set, if_pos rfl, if_pos hlt]
      · exact p1 c1 hh o1 (by
          rw [hother c1 (by intro hh2; subst hh2; exact hnd.1 hh), ho1])
    · intro j hj
      simp only [List.mem_cons, not_or] at hj
      rw [p2 j hj.2, hother j hj.1]

theorem set_getElem_same {α : Type} (l : List α) (a : Nat) (ha : a < l.length) :
    l.set a l[a] = l := by
  apply List.ext_getElem?
  intro j
  rw [List.getElem?_set]
  by_cases hj : a = j
  · subst hj
    rw [if_pos rfl, if_pos ha, List.getElem?_eq_getElem ha]
  · rw [if_neg hj]

theorem to_int_refcnt (r : Int) (h0 : 0 ≤ r) (h1 : r < 2 ^ 31) :
    to_int (r % 2 ^ 32).toNat = r := by
  unfold to_int
  simp only []
  split_ifs <;> omega

theorem rpc_retain_live (h : mem.heap) (a : Nat) (o : mem.rpc_object)
    (ha : h[a]? = some (some o)) (h0 : 0 ≤ o.ro_refcnt + 1) (h1 : o.ro_refcnt + 1 < 2 ^ 31) :
    mem.rpc_retain h a = .ok (h.set a (some { o with ro_refcnt := o.ro_refcnt + 1 })) := by
  simp only [mem.rpc_retain, ha, to_int_refcnt _ h0 h1]

theorem retain_times_eq (n : Nat) : ∀ (h : mem.heap) (a : Nat) (o : mem.rpc_object),
    h[a]? = some (some o) → 0 ≤ o.ro_refcnt → o.ro_refcnt + n < 2 ^ 31 →
    mem.retain_times n h a
      = .ok (h.set a (some { o with ro_refcnt := o.ro_refcnt + n })) := by
  induction n with
  | zero =>
    intro h a o ha _ _
    obtain ⟨hlt, hget⟩ := List.getElem?_eq_some_iff.mp ha
    simp only [mem.retain_times, Nat.cast_zero, Int.add_zero, mem.outcome.ok.injEq]
    rw [← hget, set_getElem_same h a hlt]
  | succ n ih =>
    intro h a o ha h0 h1
    obtain ⟨hlt, _⟩ := List.getElem?_eq_some_iff.mp ha
    push_cast at h1
    rw [mem.retain_times, rpc_retain_live h a o ha (by omega) (by omega)]
    simp only []
    rw [ih _ a { o with ro_refcnt := o.ro_refcnt + 1 } (by simp [hlt]) (by simp; omega)
      (by simp; omega), List.set_set]
    simp only [Nat.cast_add, Nat.cast_one]
    congr 4
    omega

theorem release_times_eq (n : Nat) : ∀ (h : mem.heap) (a : Nat) (o : mem.rpc_object),
    h[a]? = some (some o) → (n : Int) + 1 ≤ o.ro_refcnt →
    mem.release_times n h a
      = .ok (h.set a (some { o with ro_refcnt := o.ro_refcnt - n })) := by
  induction n with
  | zero =>
    intro h a o ha _
    obtain ⟨hlt, hget⟩ := List.getElem?_eq_some_iff.mp ha
    simp only [mem.release_times, Nat.cast_zero, Int.sub_zero, mem.outcome.ok.injEq]
    rw [← hget, set_getElem_same h a hlt]
  | succ n ih =>
    intro h a o ha h1
    obtain ⟨hlt, _⟩ := List.getElem?_eq_some_iff.mp ha
    push_cast at h1
    rw [mem.release_times, rpc_release_impl_positive h a o ha (by omega)]
    simp only []
    rw [ih _ a { o with ro_refcnt := o.ro_refcnt - 1 } (by simp [hlt]) (by simp; omega),
      List.set_set]
    simp only [Nat.cast_add, Nat.cast_one]
    congr 4
    omega

/-- The release that takes the count from 1 to 0 returns 0 with the object
freed, unless the release of a contained object is undefined. -/
theorem rpc_release_impl_destroys (h : mem.heap) (a : Nat) (o : mem.rpc_object)
    (ha : h[a]? = some (some o)) (hr : o.ro_refcnt = 1) :
    (∃ h1, mem.rpc_release_impl h (some a) = .ok (h1, 0) ∧ h1[a]? = some none) ∨
    (∃ k, mem.rpc_release_impl h (some a) = .fault k) := by
  obtain ⟨hlt, _⟩ := List.getElem?_eq_some_iff.mp ha
  have hne := rpc_release_impl_total h (some a)
  rw [rpc_release_impl_last h a o ha hr] at hne ⊢
  cases he : mem.release_each (h.set a (some { o with ro_refcnt := 0 }))
      (mem.contained o.ro_value) with
  | ok h1 =>
    have hl := release_each_length _ _ _ he
    rw [List.length_set] at hl
    exact Or.inl ⟨h1.set a none, rfl, by rw [List.getElem?_set, if_pos rfl, if_pos (by omega)]⟩
  | fault k => exact Or.inr ⟨k, rfl⟩
  | fuel => rw [he] at hne; exact absurd rfl hne

theorem rpc_release_impl_leaf (h : mem.heap) (a : Nat) (o : mem.rpc_object)
    (ha : h[a]? = some (some o)) (hr : o.ro_refcnt = 1) (hc : mem.contained o.ro_value = []) :
    mem.rpc_release_impl h (some a) = .ok (h.set a none, 0) := by
  rw [rpc_release_impl_last h a o ha hr, hc]
  simp [mem.release_each, List.set_set]

theorem rpc_prim_create_live (h : mem.heap) (val : mem.rpc_value) :
    (mem.rpc_prim_create h val).1[(mem.rpc_prim_create h val).2]?
      = some (some { ro_refcnt := 1, ro_value := val }) := by
  simp [mem.rpc_prim_create]

/-! ## Copies on the heap are new objects -/

theorem grows_refl (n : Nat) (h : mem.heap) (f : mem.fresh_from n h) : mem.grows n h h :=
  ⟨le_refl _, f, fun _ _ => rfl⟩

theorem grows_trans {n : Nat} {h0 h1 h2 : mem.heap} (a : mem.grows n h0 h1)
    (b : mem.grows n h1 h2) : mem.grows n h0 h2 :=
  ⟨le_trans a.1 b.1, b.2.1, fun j hj => by rw [b.2.2 j hj, a.2.2 j hj]⟩

/-- A new cell whose contained objects lie at `n` or later. -/
theorem grows_create (n : Nat) (h : mem.heap) (val : mem.rpc_value) (f : mem.fresh_from n h)
    (hn : n ≤ h.length) (hv : ∀ q, some q ∈ mem.contained val → n ≤ q) :
    mem.grows n h (mem.rpc_prim_create h val).1 := by
  refine ⟨by simp [mem.rpc_prim_create], ?_, ?_⟩
  · intro j o hj e q hq
    simp only [mem.rpc_prim_create] at e
    by_cases hjl : j < h.length
    · rw [List.getElem?_append_left hjl] at e
      exact f j o hj e q hq
    · rw [List.getElem?_append_right (by omega)] at e
      by_cases hj0 : j - h.length = 0
      · rw [hj0] at e
        simp only [List.getElem?_cons_zero, Option.some.injEq] at e
        subst e
        exact hv q hq
      · obtain ⟨k, hk⟩ : ∃ k, j - h.length = k + 1 := ⟨j - h.length - 1, by omega⟩
        rw [hk] at e
        simp at e
  · intro j hj
    simp only [mem.rpc_prim_create]
    rw [List.getElem?_append_left (by omega)]

/-- A store into the cell `j`, at `n` or later, of a payload whose contained
objects lie at `n` or later. -/
theorem grows_set (n : Nat) (h : mem.heap) (j : Nat) (o1 : mem.rpc_object)
    (f : mem.fresh_from n h) (hj : n ≤ j)
    (hv : ∀ q, some q ∈ mem.contained o1.ro_value → n ≤ q) :
    mem.grows n h (h.set j (some o1)) := by
  refine ⟨by simp, ?_, ?_⟩
  · intro i o hi e q hq
    rw [List.getElem?_set] at e
    by_cases hij : j = i
    · subst hij
      rw [if_pos rfl] at e
      split at e
      · simp only [Option.some.injEq] at e
        subst e
        exact hv q hq
      · cases e
    · rw [if_neg hij] at e
      exact f i o hi e q hq
  · intro i hi
    rw [List.getElem?_set, if_neg (by omega)]

/-- A change of the count of a live cell at `n` or later. -/
theorem grows_count (n : Nat) (h : mem.heap) (j : Nat) (o o1 : mem.rpc_object)
    (f : mem.fresh_from n h) (hn : n ≤ j)
    (hj : h[j]? = some (some o)) (hv : o1.ro_value = o.ro_value) :
    mem.grows n h (h.set j (some o1)) :=
  grows_set n h j o1 f hn (fun q hq => f j o hn hj q (by rw [← hv]; exact hq))

/-- The `g_free` of a cell at `n` or later. -/
theorem grows_free (n : Nat) (h : mem.heap) (j : Nat) (f : mem.fresh_from n h) (hn : n ≤ j) :
    mem.grows n h (h.set j none) := by
  refine ⟨by simp, ?_, ?_⟩
  · intro i o2 hi e q hq
    rw [List.getElem?_set] at e
    by_cases hij : j = i
    · subst hij
      rw [if_pos rfl] at e
      split at e <;> cases e
    · rw [if_neg hij] at e
      exact f i o2 hi e q hq
  · intro i hi
    rw [List.getElem?_set, if_neg (by omega)]

/-- A release that starts at objects at `n` or later stays there. -/
theorem release_loop_grows (n : Nat) : ∀ (fuel : Nat) (h : mem.heap) (w : List mem.work)
    (h1 : mem.heap), mem.fresh_from n h → (∀ x ∈ w, mem.work.above n x) →
    mem.release_loop fuel h w = .ok h1 → mem.grows n h h1 := by
  intro fuel
  induction fuel with
  | zero => intro h w h1 _ _ e; simp [mem.release_loop] at e
  | succ fu ih =>
    intro h w h1 f hw e
    cases w with
    | nil =>
      simp only [mem.release_loop, mem.outcome.ok.injEq] at e
      rw [← e]; exact grows_refl n h f
    | cons x rest =>
      have hrest : ∀ x ∈ rest, mem.work.above n x :=
        fun y hy => hw y (List.mem_cons_of_mem _ hy)
      have hx := hw x (List.mem_cons_self _ _)
      cases x with
      | free a =>
        rw [mem.release_loop] at e
        have g := grows_free n h a f hx
        exact grows_trans g (ih _ _ _ g.2.1 hrest e)
      | release p =>
        cases p with
        | none => rw [mem.release_loop] at e; exact ih _ _ _ f hrest e
        | some a =>
          have ha : n ≤ a := hx
          rw [release_loop_succ_release] at e
          cases hc : h[a]? with
          | none => simp [hc] at e
          | some c =>
            cases c with
            | none => simp [hc] at e
            | some o =>
              simp only [hc] at e
              by_cases h0 : o.ro_refcnt ≤ 0
              · rw [if_pos h0] at e; cases e
              · rw [if_neg h0] at e
                by_cases h1c : o.ro_refcnt - 1 = 0
                · rw [if_pos h1c] at e
                  have g := grows_count n h a o { o with ro_refcnt := 0 } f ha hc rfl
                  refine grows_trans g (ih _ _ _ g.2.1 ?_ e)
                  intro y hy
                  rcases List.mem_append.mp hy with hh | hh
                  · obtain ⟨p, hp, rfl⟩ := List.mem_map.mp hh
                    cases p with
                    | none => trivial
                    | some q => exact f a o ha hc q hp
                  · rcases List.mem_cons.mp hh with hh | hh
                    · rw [hh]; exact ha
                    · exact hrest y hh
                · rw [if_neg h1c] at e
                  have g := grows_count n h a o { o with ro_refcnt := o.ro_refcnt - 1 } f ha
                    hc rfl
                  exact grows_trans g (ih _ _ _ g.2.1 hrest e)

theorem rpc_release_impl_grows (n : Nat) (h : mem.heap) (a : Nat) (h1 : mem.heap)
    (r : Int) (f : mem.fresh_from n h) (ha : n ≤ a)
    (e : mem.rpc_release_impl h (some a) = .ok (h1, r)) : mem.grows n h h1 := by
  unfold mem.rpc_release_impl at e
  simp only [] at e
  cases hr : mem.release_loop (mem.release_budget h) h [.release (some a)] with
  | ok h2 =>
    rw [hr] at e
    simp only [] at e
    have hg := release_loop_grows n _ _ _ _ f
      (by intro x hx; rw [List.mem_singleton.mp hx]; exact ha) hr
    split at e <;> (simp only [mem.outcome.ok.injEq, Prod.mk.injEq] at e; rw [← e.1]; exact hg)
  | fault k => rw [hr] at e; cases e
  | fuel => rw [hr] at e; cases e

theorem rpc_retain_grows (n : Nat) (h : mem.heap) (a : Nat) (h1 : mem.heap)
    (f : mem.fresh_from n h) (ha : n ≤ a)
    (e : mem.rpc_retain h a = .ok h1) : mem.grows n h h1 := by
  unfold mem.rpc_retain at e
  cases hc : h[a]? with
  | none => simp [hc] at e
  | some c =>
    cases c with
    | none => simp [hc] at e
    | some o =>
      simp only [hc, mem.outcome.ok.injEq] at e
      rw [← e]
      exact grows_count n h a o
        { o with ro_refcnt := to_int ((o.ro_refcnt + 1) % 2 ^ 32).toNat } f ha hc rfl

theorem fill_nulls_grows (n : Nat) (k : Nat) : ∀ (h : mem.heap) (xs : List Nat),
    mem.fresh_from n h → n ≤ h.length →
    mem.grows n h (mem.fill_nulls k h xs).1 ∧
    (∀ j, j < h.length → (mem.fill_nulls k h xs).1[j]? = h[j]?) ∧
    (∀ q ∈ (mem.fill_nulls k h xs).2, q ∈ xs ∨ h.length ≤ q) := by
  induction k with
  | zero =>
    intro h xs f _
    exact ⟨grows_refl n h f, fun _ _ => rfl, fun q hq => Or.inl hq⟩
  | succ k ih =>
    intro h xs f hn
    have hl : (mem.rpc_prim_create h .null).1.length = h.length + 1 := by
      simp [mem.rpc_prim_create]
    have g0 := grows_create n h .null f hn (by intro q hq; simp [mem.contained] at hq)
    obtain ⟨g, u, p⟩ := ih (mem.rpc_prim_create h .null).1 (xs ++ [(mem.rpc_prim_create h .null).2])
      g0.2.1 (by omega)
    refine ⟨?_, ?_, ?_⟩
    · rw [mem.fill_nulls]
      exact grows_trans g0 g
    · intro j hj
      rw [mem.fill_nulls, u j (by omega)]
      simp only [mem.rpc_prim_create]
      rw [List.getElem?_append_left hj]
    · intro q hq
      rw [mem.fill_nulls] at hq
      rcases p q hq with hh | hh
      · simp only [List.mem_append, List.mem_singleton] at hh
        rcases hh with hh | hh
        · exact Or.inl hh
        · right; rw [hh]; simp [mem.rpc_prim_create]
      · right; omega

theorem mem_contained_array (q : Nat) (xs : List Nat) :
    some q ∈ mem.contained (.array xs) ↔ q ∈ xs := by
  simp [mem.contained]

theorem mem_contained_dictionary (q : Nat) (kv : List (String × Nat)) :
    some q ∈ mem.contained (.dictionary kv) ↔ ∃ e ∈ kv, e.2 = q := by
  simp [mem.contained]

/-- `rpc_array_steal_value` into an array at `n` or later, of a value at `n` or
later. -/
theorem rpc_array_steal_value_grows (n : Nat) (h : mem.heap) (tmp idx c : Nat)
    (h2 : mem.heap) (f : mem.fresh_from n h)
    (e : mem.rpc_array_steal_value h tmp idx c = .ok h2)
    (hm : n ≤ tmp) (hn : n ≤ c) : mem.grows n h h2 := by
  unfold mem.rpc_array_steal_value at e
  cases hc : h[tmp]? with
  | none => simp [hc] at e
  | some cell =>
    cases cell with
    | none => simp [hc] at e
    | some o =>
      obtain ⟨hlt, _⟩ := List.getElem?_eq_some_iff.mp hc
      simp only [hc] at e
      cases hv : o.ro_value with
      | array xs =>
        simp only [hv] at e
        obtain ⟨g, u, p⟩ := fill_nulls_grows n
          (to_int ((idx + 2 ^ 64 - xs.length) % 2 ^ 64)).toNat h xs f (by omega)
        have htmp := u tmp hlt
        rw [hc] at htmp
        have hys : ∀ q ∈ (mem.fill_nulls
              (to_int ((idx + 2 ^ 64 - xs.length) % 2 ^ 64)).toNat h xs).2, n ≤ q := by
          intro q hq
          rcases p q hq with hh | hh
          · exact f tmp o hm hc q (by rw [hv]; exact (mem_contained_array q xs).mpr hh)
          · omega
        split at e
        · simp only [mem.outcome.ok.injEq] at e
          rw [← e]
          refine grows_trans g (grows_set n _ tmp _ g.2.1 hm ?_)
          intro q hq
          rw [mem_contained_array] at hq
          rcases List.mem_append.mp hq with hh | hh
          · exact hys q hh
          · simp only [List.mem_singleton] at hh; omega
        · split at e
          · rename_i old hold
            have hold2 : n ≤ old := hys old (List.mem_iff_getElem?.mpr ⟨idx, hold⟩)
            have g1 := grows_set n _ tmp
              { o with ro_value := .array (mem.fill_nulls
                (to_int ((idx + 2 ^ 64 - xs.length) % 2 ^ 64)).toNat h xs).2 } g.2.1 hm
              (by intro q hq; rw [mem_contained_array] at hq; exact hys q hq)
            split at e
            · rename_i h1 r hrel
              have g2 := rpc_release_impl_grows n _ _ _ _ g1.2.1 hold2 hrel
              split at e
              · rename_i o1 ho1
                split at e
                · rename_i zs hzs
                  simp only [mem.outcome.ok.injEq] at e
                  rw [← e]
                  refine grows_trans g (grows_trans g1
                    (grows_trans g2 (grows_set n _ tmp _ g2.2.1 hm ?_)))
                  intro q hq
                  rw [mem_contained_array] at hq
                  rcases List.mem_or_eq_of_mem_set hq with hh | hh
                  · exact g2.2.1 tmp o1 hm ho1 q
                      (by rw [hzs]; exact (mem_contained_array q zs).mpr hh)
                  · omega
                · cases e
              · cases e
            · cases e
            · cases e
          · cases e
      | _ => simp [hv] at e

/-- `rpc_dictionary_steal_value` into a dictionary at `n` or later, of a value at
`n` or later. -/
theorem rpc_dictionary_steal_value_grows (n : Nat) (h : mem.heap) (tmp : Nat) (key : String)
    (c : Nat) (h2 : mem.heap) (f : mem.fresh_from n h)
    (e : mem.rpc_dictionary_steal_value h tmp key c = .ok h2)
    (hm : n ≤ tmp) (hn : n ≤ c) : mem.grows n h h2 := by
  unfold mem.rpc_dictionary_steal_value at e
  cases hc : h[tmp]? with
  | none => simp [hc] at e
  | some cell =>
    cases cell with
    | none => simp [hc] at e
    | some o =>
      simp only [hc] at e
      cases hv : o.ro_value with
      | dictionary kv =>
        simp only [hv] at e
        have hkv : ∀ e1 ∈ kv, n ≤ e1.2 := by
          intro e1 he1
          exact f tmp o hm hc e1.2
            (by rw [hv]; exact (mem_contained_dictionary _ kv).mpr ⟨e1, he1, rfl⟩)
        split at e
        · rename_i old hold
          have g1 := grows_set n h tmp
            { o with
              ro_value := mem.rpc_value.dictionary
                (kv.map (fun e => if e.1 = key then (e.1, c) else e)) } f hm
            (by
              intro q hq
              rw [mem_contained_dictionary] at hq
              obtain ⟨e1, he1, hq1⟩ := hq
              obtain ⟨e0, he0, hmap⟩ := List.mem_map.mp he1
              by_cases hk : e0.1 = key
              · rw [if_pos hk] at hmap
                rw [← hq1, ← hmap]
                exact hn
              · rw [if_neg hk] at hmap
                rw [← hq1, ← hmap]
                exact hkv e0 he0)
          split at e
          · rename_i h1 r hrel
            simp only [mem.outcome.ok.injEq] at e
            rw [← e]
            exact grows_trans g1 (rpc_release_impl_grows n _ _ _ _ g1.2.1
              (hkv old (List.mem_of_find?_eq_some hold)) hrel)
          · cases e
          · cases e
        · simp only [mem.outcome.ok.injEq] at e
          rw [← e]
          refine grows_set n _ tmp _ f hm ?_
          intro q hq
          rw [mem_contained_dictionary] at hq
          obtain ⟨e1, he1, hq1⟩ := hq
          rcases List.mem_append.mp he1 with hh | hh
          · rw [← hq1]; exact hkv e1 hh
          · simp only [List.mem_singleton] at hh
            rw [← hq1, hh]
            exact hn
      | _ => simp [hv] at e

/-- `rpc_error_create` with an `extra` at `n` or later. -/
theorem rpc_error_create_grows (env : host) (n : Nat) (h : mem.heap) (code : Int)
    (msg : String) (x : Nat) (h1 : mem.heap) (c : Nat) (f : mem.fresh_from n h)
    (hn : n ≤ h.length) (hx : n ≤ x)
    (e : mem.rpc_error_create env h code msg (some x) = .ok (h1, c)) :
    h.length ≤ c ∧ mem.grows n h h1 := by
  unfold mem.rpc_error_create at e
  simp only [] at e
  cases hr : mem.rpc_retain h x with
  | ok h2 =>
    rw [hr] at e
    simp only [mem.outcome.ok.injEq, Prod.mk.injEq] at e
    have g1 := rpc_retain_grows n h x h2 f hx hr
    have g2 : mem.grows n h2 (mem.rpc_string_create h2 env.rpc_get_backtrace).1 := by
      unfold mem.rpc_string_create
      have hl2 : n ≤ h2.length := le_trans hn g1.1
      cases env.rpc_get_backtrace with
      | none =>
        exact grows_create n h2 .null g1.2.1 hl2 (by intro q hq; simp [mem.contained] at hq)
      | some t =>
        exact grows_create n h2 (.string (c_str t)) g1.2.1 hl2
          (by intro q hq; simp [mem.contained] at hq)
    have l2 : (mem.rpc_string_create h2 env.rpc_get_backtrace).2 = h2.length := by
      unfold mem.rpc_string_create
      cases env.rpc_get_backtrace <;> rfl
    have g3 := grows_create n (mem.rpc_string_create h2 env.rpc_get_backtrace).1
      (.error code (c_str msg) (some x) (some (mem.rpc_string_create h2 env.rpc_get_backtrace).2))
      g2.2.1 (by have := g1.1; have := g2.1; omega)
      (by
        intro q hq
        simp only [mem.contained, List.mem_cons, Option.some.injEq, List.mem_nil_iff,
          or_false] at hq
        rcases hq with hq | hq
        · omega
        · rw [hq, l2]; have := g1.1; omega)
    rw [e] at g3
    refine ⟨?_, grows_trans g1 (grows_trans g2 g3)⟩
    have e2 := congrArg Prod.snd e
    simp only [mem.rpc_prim_create] at e2
    have := g1.1
    have := g2.1
    omega
  | fault k => rw [hr] at e; cases e
  | fuel => rw [hr] at e; cases e

theorem copy_elements_grows (n : Nat) (copy : mem.heap → Nat → mem.outcome (mem.heap × Nat))
    (hcopy : ∀ h a h1 c, mem.fresh_from n h → n ≤ h.length → copy h a = .ok (h1, c) →
      h.length ≤ c ∧ mem.grows n h h1) :
    ∀ (vs : List Nat) (idx : Nat) (h : mem.heap) (tmp : Nat) (h2 : mem.heap),
      mem.fresh_from n h → n ≤ h.length → n ≤ tmp →
      mem.copy_elements copy vs idx h tmp = .ok h2 → mem.grows n h h2 := by
  intro vs
  induction vs with
  | nil =>
    intro idx h tmp h2 f _ _ e
    simp only [mem.copy_elements, mem.outcome.ok.injEq] at e
    rw [← e]; exact grows_refl n h f
  | cons v vs ih =>
    intro idx h tmp h2 f hn ht e
    rw [mem.copy_elements] at e
    cases hc : copy h v with
    | ok r =>
      obtain ⟨h1, c⟩ := r
      rw [hc] at e
      simp only [] at e
      obtain ⟨hl, g1⟩ := hcopy h v h1 c f hn hc
      cases hs : mem.rpc_array_steal_value h1 tmp idx c with
      | ok h3 =>
        rw [hs] at e
        simp only [] at e
        have g2 := rpc_array_steal_value_grows n h1 tmp idx c h3 g1.2.1 hs ht (by omega)
        have g3 := ih (idx + 1) h3 tmp h2 g2.2.1 (by have := g1.1; have := g2.1; omega) ht e
        exact grows_trans g1 (grows_trans g2 g3)
      | fault k => rw [hs] at e; cases e
      | fuel => rw [hs] at e; cases e
    | fault k => rw [hc] at e; cases e
    | fuel => rw [hc] at e; cases e

theorem copy_entries_grows (n : Nat) (copy : mem.heap → Nat → mem.outcome (mem.heap × Nat))
    (hcopy : ∀ h a h1 c, mem.fresh_from n h → n ≤ h.length → copy h a = .ok (h1, c) →
      h.length ≤ c ∧ mem.grows n h h1) :
    ∀ (kv : List (String × Nat)) (h : mem.heap) (tmp : Nat) (h2 : mem.heap),
      mem.fresh_from n h → n ≤ h.length → n ≤ tmp →
      mem.copy_entries copy kv h tmp = .ok h2 → mem.grows n h h2 := by
  intro kv
  induction kv with
  | nil =>
    intro h tmp h2 f _ _ e
    simp only [mem.copy_entries, mem.outcome.ok.injEq] at e
    rw [← e]; exact grows_refl n h f
  | cons x rest ih =>
    intro h tmp h2 f hn ht e
    obtain ⟨k, v⟩ := x
    rw [mem.copy_entries] at e
    cases hc : copy h v with
    | ok r =>
      obtain ⟨h1, c⟩ := r
      rw [hc] at e
      simp only [] at e
      obtain ⟨hl, g1⟩ := hcopy h v h1 c f hn hc
      cases hs : mem.rpc_dictionary_steal_value h1 tmp (c_str k) c with
      | ok h3 =>
        rw [hs] at e
        simp only [] at e
        have g2 := rpc_dictionary_steal_value_grows n h1 tmp (c_str k) c h3 g1.2.1 hs ht
          (by omega)
        have g3 := ih h3 tmp h2 g2.2.1 (by have := g1.1; have := g2.1; omega) ht e
        exact grows_trans g1 (grows_trans g2 g3)
      | fault k1 => rw [hs] at e; cases e
      | fuel => rw [hs] at e; cases e
    | fault k1 => rw [hc] at e; cases e
    | fuel => rw [hc] at e; cases e

/-- What `rpc_copy` returns is a new address, and the heap it leaves has every
old cell as it was and holds, from the old length on, objects that contain new
objects only. -/
theorem rpc_copy_grows (env : host) (n : Nat) : ∀ (fuel : Nat) (h : mem.heap) (a : Nat)
    (h1 : mem.heap) (c : Nat), mem.fresh_from n h → n ≤ h.length →
    mem.rpc_copy env fuel h a = .ok (h1, c) → h.length ≤ c ∧ mem.grows n h h1 := by
  intro fuel
  induction fuel with
  | zero => intro h a h1 c _ _ e; simp [mem.rpc_copy] at e
  | succ fu ih =>
    intro h a h1 c f hn e
    have leaf : ∀ val, (∀ q, some q ∈ mem.contained val → n ≤ q) →
        mem.outcome.ok (mem.rpc_prim_create h val) = .ok (h1, c) →
        h.length ≤ c ∧ mem.grows n h h1 := by
      intro val hv e1
      simp only [mem.outcome.ok.injEq] at e1
      have g := grows_create n h val f hn hv
      rw [e1] at g
      refine ⟨?_, g⟩
      have : (mem.rpc_prim_create h val).2 = c := by rw [e1]
      rw [← this]; simp [mem.rpc_prim_create]
    rw [mem.rpc_copy] at e
    cases hc : h[a]? with
    | none => simp [hc] at e
    | some cell =>
      cases cell with
      | none => simp [hc] at e
      | some o =>
        simp only [hc] at e
        cases hv : o.ro_value with
        | error code msg extra stack =>
          simp only [hv] at e
          cases extra with
          | none => cases e
          | some x =>
            simp only [] at e
            cases hx : mem.rpc_copy env fu h x with
            | ok r =>
              obtain ⟨h2, c2⟩ := r
              rw [hx] at e
              simp only [] at e
              obtain ⟨hl, g1⟩ := ih h x h2 c2 f hn hx
              obtain ⟨hl2, g2⟩ := rpc_error_create_grows env n h2 code msg c2 h1 c g1.2.1
                (by have := g1.1; omega) (by omega) e
              exact ⟨by have := g1.1; omega, grows_trans g1 g2⟩
            | fault k => rw [hx] at e; cases e
            | fuel => rw [hx] at e; cases e
        | dictionary kv =>
          simp only [hv] at e
          have g0 := grows_create n h (.dictionary []) f hn
            (by intro q hq; simp [mem.contained] at hq)
          cases hx : mem.copy_entries (mem.rpc_copy env fu) kv
              (mem.rpc_prim_create h (.dictionary [])).1
              (mem.rpc_prim_create h (.dictionary [])).2 with
          | ok h2 =>
            rw [hx] at e
            simp only [mem.outcome.ok.injEq, Prod.mk.injEq] at e
            have g1 := copy_entries_grows n (mem.rpc_copy env fu) ih kv _ _ h2 g0.2.1
              (by have := g0.1; omega) (by simp [mem.rpc_prim_create]; exact hn) hx
            rw [← e.1, ← e.2]
            exact ⟨by simp [mem.rpc_prim_create], grows_trans g0 g1⟩
          | fault k => rw [hx] at e; cases e
          | fuel => rw [hx] at e; cases e
        | array xs =>
          simp only [hv] at e
          have g0 := grows_create n h (.array []) f hn
            (by intro q hq; simp [mem.contained] at hq)
          cases hx : mem.copy_elements (mem.rpc_copy env fu) xs 0
              (mem.rpc_prim_create h (.array [])).1
              (mem.rpc_prim_create h (.array [])).2 with
          | ok h2 =>
            rw [hx] at e
            simp only [mem.outcome.ok.injEq, Prod.mk.injEq] at e
            have g1 := copy_elements_grows n (mem.rpc_copy env fu) ih xs 0 _ _ h2 g0.2.1
              (by have := g0.1; omega) (by simp [mem.rpc_prim_create]; exact hn) hx
            rw [← e.1, ← e.2]
            exact ⟨by simp [mem.rpc_prim_create], grows_trans g0 g1⟩
          | fault k => rw [hx] at e; cases e
          | fuel => rw [hx] at e; cases e
        | _ =>
          simp only [hv] at e
          exact leaf _ (by intro q hq; simp [mem.contained] at hq) e

theorem fresh_from_length (h : mem.heap) : mem.fresh_from h.length h := by
  intro j o hj e
  obtain ⟨hlt, _⟩ := List.getElem?_eq_some_iff.mp e
  omega

/-- What `rpc_copy` returns is a new address; the old cells are as they were, and
the objects in the new cells contain objects in new cells only. -/
theorem rpc_copy_keeps (env : host) (fuel : Nat) (h : mem.heap) (a : Nat) (h1 : mem.heap)
    (c : Nat) (e : mem.rpc_copy env fuel h a = .ok (h1, c)) :
    h.length ≤ c ∧ h.length ≤ h1.length ∧ mem.fresh_from h.length h1 ∧
      ∀ j, j < h.length → h1[j]? = h[j]? := by
  obtain ⟨hl, g⟩ := rpc_copy_grows env h.length fuel h a h1 c (fresh_from_length h) (le_refl _) e
  exact ⟨hl, g.1, g.2.1, g.2.2⟩

theorem well_formed_same_cells : ∀ (depth : Nat) (h0 h : mem.heap) (a : Nat),
    (∀ j, j < h0.length → h[j]? = h0[j]?) → mem.well_formed depth h0 a = true →
    mem.well_formed depth h a = true := by
  intro depth
  induction depth with
  | zero => intro h0 h a _ hw; simp [mem.well_formed] at hw
  | succ d ih =>
    intro h0 h a hp hw
    rw [mem.well_formed] at hw ⊢
    cases hc : h0[a]? with
    | none => simp [hc] at hw
    | some cell =>
      cases cell with
      | none => simp [hc] at hw
      | some o =>
        obtain ⟨hlt, _⟩ := List.getElem?_eq_some_iff.mp hc
        rw [hp a hlt, hc]
        simp only [hc] at hw
        simp only []
        cases hv : o.ro_value with
        | array xs =>
          simp only [hv, List.all_eq_true] at hw ⊢
          exact fun x hx => ih h0 h x hp (hw x hx)
        | dictionary kv =>
          simp only [hv, Bool.and_eq_true, List.all_eq_true] at hw ⊢
          exact ⟨hw.1, fun x hx => ih h0 h x.2 hp (hw.2 x hx)⟩
        | error code msg extra stack =>
          simp only [hv] at hw ⊢
          cases extra with
          | none => simp at hw
          | some x => exact ih h0 h x hp hw
        | _ => rfl

theorem well_formed_succ : ∀ (depth : Nat) (h : mem.heap) (a : Nat),
    mem.well_formed depth h a = true → mem.well_formed (depth + 1) h a = true := by
  intro depth
  induction depth with
  | zero => intro h a hw; simp [mem.well_formed] at hw
  | succ d ih =>
    intro h a hw
    rw [mem.well_formed] at hw ⊢
    cases hc : h[a]? with
    | none => simp [hc] at hw
    | some cell =>
      cases cell with
      | none => simp [hc] at hw
      | some o =>
        simp only [hc] at hw ⊢
        cases hv : o.ro_value with
        | array xs =>
          simp only [hv, List.all_eq_true] at hw ⊢
          exact fun x hx => ih h x (hw x hx)
        | dictionary kv =>
          simp only [hv, Bool.and_eq_true, List.all_eq_true] at hw ⊢
          exact ⟨hw.1, fun x hx => ih h x.2 (hw.2 x hx)⟩
        | error code msg extra stack =>
          simp only [hv] at hw ⊢
          cases extra with
          | none => simp at hw
          | some x => exact ih h x hw
        | _ => rfl

theorem well_formed_mono (depth fuel : Nat) (h : mem.heap) (a : Nat) (hd : depth ≤ fuel)
    (hw : mem.well_formed depth h a = true) : mem.well_formed fuel h a = true := by
  induction hd with
  | refl => exact hw
  | step _ ih => exact well_formed_succ _ h a ih

/-- `rpc_array_steal_value` at the index behind the last element appends. -/
theorem mem_steal_append (h : mem.heap) (tmp : Nat) (o : mem.rpc_object) (ys : List Nat)
    (c : Nat) (hc : h[tmp]? = some (some o)) (hv : o.ro_value = .array ys) :
    mem.rpc_array_steal_value h tmp ys.length c
      = .ok (h.set tmp (some { o with ro_value := .array (ys ++ [c]) })) := by
  have e0 : (ys.length + 2 ^ 64 - ys.length) % 2 ^ 64 = 0 := by
    rw [Nat.add_sub_cancel_left]; exact Nat.mod_self _
  have t0 : (to_int 0).toNat = 0 := by decide
  unfold mem.rpc_array_steal_value
  simp only [hc, hv, e0, t0, mem.fill_nulls, if_true]

/-- `rpc_dictionary_steal_value` under a key that is not present adds an entry. -/
theorem mem_steal_new_key (h : mem.heap) (tmp : Nat) (o : mem.rpc_object)
    (es : List (String × Nat)) (key : String) (c : Nat) (hc : h[tmp]? = some (some o))
    (hv : o.ro_value = .dictionary es) (hk : key ∉ es.map Prod.fst) :
    mem.rpc_dictionary_steal_value h tmp key c
      = .ok (h.set tmp (some { o with ro_value := .dictionary (es ++ [(key, c)]) })) := by
  have e0 : es.find? (fun e => e.1 = key) = none := by
    rw [List.find?_eq_none]
    intro x hx hxk
    simp only [decide_eq_true_eq] at hxk
    exact hk (List.mem_map.mpr ⟨x, hx, hxk⟩)
  unfold mem.rpc_dictionary_steal_value
  simp only [hc, hv, e0]

theorem copy_elements_total (depth : Nat)
    (copy : mem.heap → Nat → mem.outcome (mem.heap × Nat))
    (hok : ∀ h a, mem.well_formed depth h a = true → ∃ h1 c, copy h a = .ok (h1, c))
    (hkeep : ∀ h a h1 c, copy h a = .ok (h1, c) →
      h.length ≤ h1.length ∧ ∀ j, j < h.length → h1[j]? = h[j]?)
    (h0 : mem.heap) :
    ∀ (vs ys : List Nat) (h : mem.heap) (tmp : Nat) (o : mem.rpc_object),
      (∀ x ∈ vs, mem.well_formed depth h0 x = true) →
      (∀ j, j < h0.length → h[j]? = h0[j]?) → h0.length ≤ tmp →
      h[tmp]? = some (some o) → o.ro_value = .array ys →
      ∃ h2 zs, mem.copy_elements copy vs ys.length h tmp = .ok h2 ∧
        h2[tmp]? = some (some { o with ro_value := .array zs }) ∧
        zs.length = ys.length + vs.length := by
  intro vs
  induction vs with
  | nil =>
    intro ys h tmp o _ _ _ hc hv
    refine ⟨h, ys, rfl, ?_, rfl⟩
    rw [hc, ← hv]
  | cons v vs ih =>
    intro ys h tmp o hw hp ht hc hv
    obtain ⟨hlt, _⟩ := List.getElem?_eq_some_iff.mp hc
    obtain ⟨h1, c, e1⟩ := hok h v
      (well_formed_same_cells depth h0 h v hp (hw v (List.mem_cons_self _ _)))
    obtain ⟨hl1, hk1⟩ := hkeep h v h1 c e1
    have hc1 : h1[tmp]? = some (some o) := by rw [hk1 tmp hlt, hc]
    have e2 := mem_steal_append h1 tmp o ys c hc1 hv
    obtain ⟨h2, zs, e3, hz, hzl⟩ := ih (ys ++ [c])
      (h1.set tmp (some { o with ro_value := .array (ys ++ [c]) })) tmp
      { o with ro_value := .array (ys ++ [c]) }
      (fun x hx => hw x (List.mem_cons_of_mem _ hx))
      (by
        intro j hj
        rw [List.getElem?_set, if_neg (by omega), hk1 j (by omega), hp j hj])
      ht
      (by
        rw [List.getElem?_set, if_pos rfl]
        have : tmp < h1.length := by omega
        simp [this])
      rfl
    refine ⟨h2, zs, ?_, hz, ?_⟩
    · rw [mem.copy_elements, e1]
      simp only [e2]
      rw [List.length_append] at e3
      exact e3
    · rw [hzl]
      simp only [List.length_append, List.length_cons, List.length_nil]
      omega

theorem copy_entries_total (depth : Nat)
    (copy : mem.heap → Nat → mem.outcome (mem.heap × Nat))
    (hok : ∀ h a, mem.well_formed depth h a = true → ∃ h1 c, copy h a = .ok (h1, c))
    (hkeep : ∀ h a h1 c, copy h a = .ok (h1, c) →
      h.length ≤ h1.length ∧ ∀ j, j < h.length → h1[j]? = h[j]?)
    (h0 : mem.heap) :
    ∀ (kv es : List (String × Nat)) (h : mem.heap) (tmp : Nat) (o : mem.rpc_object),
      (∀ e ∈ kv, mem.well_formed depth h0 e.2 = true) →
      (es.map Prod.fst ++ kv.map (fun e => c_str e.1)).Nodup →
      (∀ j, j < h0.length → h[j]? = h0[j]?) → h0.length ≤ tmp →
      h[tmp]? = some (some o) → o.ro_value = .dictionary es →
      ∃ h2 zs, mem.copy_entries copy kv h tmp = .ok h2 ∧
        h2[tmp]? = some (some { o with ro_value := .dictionary zs }) ∧
        zs.map Prod.fst = es.map Prod.fst ++ kv.map (fun e => c_str e.1) := by
  intro kv
  induction kv with
  | nil =>
    intro es h tmp o _ _ _ _ hc hv
    refine ⟨h, es, rfl, ?_, by simp⟩
    rw [hc, ← hv]
  | cons x rest ih =>
    intro es h tmp o hw hnd hp ht hc hv
    obtain ⟨k, v⟩ := x
    obtain ⟨hlt, _⟩ := List.getElem?_eq_some_iff.mp hc
    obtain ⟨h1, c, e1⟩ := hok h v
      (well_formed_same_cells depth h0 h v hp (hw (k, v) (List.mem_cons_self _ _)))
    obtain ⟨hl1, hk1⟩ := hkeep h v h1 c e1
    have hc1 : h1[tmp]? = some (some o) := by rw [hk1 tmp hlt, hc]
    have hnew : c_str k ∉ es.map Prod.fst := by
      intro hin
      rw [List.nodup_append] at hnd
      exact hnd.2.2 hin (by simp)
    have e2 := mem_steal_new_key h1 tmp o es (c_str k) c hc1 hv hnew
    obtain ⟨h2, zs, e3, hz, hzk⟩ := ih (es ++ [(c_str k, c)])
      (h1.set tmp (some { o with ro_value := .dictionary (es ++ [(c_str k, c)]) })) tmp
      { o with ro_value := .dictionary (es ++ [(c_str k, c)]) }
      (fun x hx => hw x (List.mem_cons_of_mem _ hx))
      (by simpa using hnd)
      (by
        intro j hj
        rw [List.getElem?_set, if_neg (by omega), hk1 j (by omega), hp j hj])
      ht
      (by
        rw [List.getElem?_set, if_pos rfl]
        have : tmp < h1.length := by omega
        simp [this])
      rfl
    refine ⟨h2, zs, ?_, hz, ?_⟩
    · rw [mem.copy_entries, e1]
      simp only [e2]
      exact e3
    · rw [hzk]; simp

/-- On a well-formed object `rpc_copy` returns: the result is a live object with
the count 1, an array of as many elements for an array, a dictionary of the same
keys for a dictionary. -/
theorem rpc_copy_total (env : host) : ∀ (depth : Nat) (h : mem.heap) (a : Nat),
    mem.well_formed depth h a = true →
    ∃ h1 c o1, mem.rpc_copy env depth h a = .ok (h1, c) ∧ h1[c]? = some (some o1) ∧
      o1.ro_refcnt = 1 ∧
      (∀ o xs, h[a]? = some (some o) → o.ro_value = .array xs →
        ∃ ys, o1.ro_value = .array ys ∧ ys.length = xs.length) ∧
      (∀ o kv, h[a]? = some (some o) → o.ro_value = .dictionary kv →
        ∃ es, o1.ro_value = .dictionary es ∧
          es.map Prod.fst = kv.map (fun e => c_str e.1)) := by
  intro depth
  induction depth with
  | zero => intro h a hw; simp [mem.well_formed] at hw
  | succ d ih =>
    intro h a hw
    have hok : ∀ h a, mem.well_formed d h a = true →
        ∃ h1 c, mem.rpc_copy env d h a = .ok (h1, c) := by
      intro h a hw
      obtain ⟨h1, c, _, e, _⟩ := ih h a hw
      exact ⟨h1, c, e⟩
    have hkeep : ∀ h a h1 c, mem.rpc_copy env d h a = .ok (h1, c) →
        h.length ≤ h1.length ∧ ∀ j, j < h.length → h1[j]? = h[j]? := by
      intro h a h1 c e
      obtain ⟨_, hl, _, hk⟩ := rpc_copy_keeps env d h a h1 c e
      exact ⟨hl, hk⟩
    have hpre : ∀ val j, j < h.length → (mem.rpc_prim_create h val).1[j]? = h[j]? := by
      intro val j hj
      simp only [mem.rpc_prim_create]
      rw [List.getElem?_append_left hj]
    rw [mem.well_formed] at hw
    rw [mem.rpc_copy]
    cases hc : h[a]? with
    | none => simp [hc] at hw
    | some cell =>
      cases cell with
      | none => simp [hc] at hw
      | some o =>
        simp only [hc] at hw ⊢
        cases hv : o.ro_value with
        | array xs =>
          simp only [hv, List.all_eq_true] at hw ⊢
          obtain ⟨h2, zs, e, hz, hzl⟩ := copy_elements_total d (mem.rpc_copy env d) hok hkeep h
            xs [] (mem.rpc_prim_create h (.array [])).1 (mem.rpc_prim_create h (.array [])).2
            { ro_refcnt := 1, ro_value := .array [] } hw (hpre _) (le_refl _)
            (rpc_prim_create_live h _) rfl
          simp only [List.length_nil] at e hzl
          rw [e]
          refine ⟨h2, _, _, rfl, hz, rfl, ?_, ?_⟩
          · intro o2 xs2 ho2 hv2
            simp only [Option.some.injEq] at ho2
            rw [← ho2, hv] at hv2
            cases hv2
            exact ⟨zs, rfl, by omega⟩
          · intro o2 kv2 ho2 hv2
            simp only [Option.some.injEq] at ho2
            rw [← ho2, hv] at hv2
            cases hv2
        | dictionary kv =>
          simp only [hv, Bool.and_eq_true, List.all_eq_true, decide_eq_true_eq] at hw ⊢
          obtain ⟨h2, zs, e, hz, hzk⟩ := copy_entries_total d (mem.rpc_copy env d) hok hkeep h
            kv [] (mem.rpc_prim_create h (.dictionary [])).1
            (mem.rpc_prim_create h (.dictionary [])).2
            { ro_refcnt := 1, ro_value := .dictionary [] } hw.2 (by simpa using hw.1)
            (hpre _) (le_refl _) (rpc_prim_create_live h _) rfl
          rw [e]
          refine ⟨h2, _, _, rfl, hz, rfl, ?_, ?_⟩
          · intro o2 xs2 ho2 hv2
            simp only [Option.some.injEq] at ho2
            rw [← ho2, hv] at hv2
            cases hv2
          · intro o2 kv2 ho2 hv2
            simp only [Option.some.injEq] at ho2
            rw [← ho2, hv] at hv2
            cases hv2
            exact ⟨zs, rfl, by simpa using hzk⟩
        | error code msg extra stack =>
          simp only [hv] at hw ⊢
          cases extra with
          | none => simp at hw
          | some x =>
            obtain ⟨h2, c2, o2, e, hlive, _, _⟩ := ih h x hw
            simp only [e, mem.rpc_error_create, mem.rpc_retain, hlive]
            refine ⟨_, _, _, rfl, rpc_prim_create_live _ _, rfl, ?_, ?_⟩
            · intro o3 xs3 ho3 hv3
              simp only [Option.some.injEq] at ho3
              rw [← ho3, hv] at hv3
              cases hv3
            · intro o3 kv3 ho3 hv3
              simp only [Option.some.injEq] at ho3
              rw [← ho3, hv] at hv3
              cases hv3
        | _ =>
          simp only [hv]
          refine ⟨_, _, _, rfl, rpc_prim_create_live _ _, rfl, ?_, ?_⟩
          · intro o3 xs3 ho3 hv3
            simp only [Option.some.injEq] at ho3
            rw [← ho3, hv] at hv3
            cases hv3
          · intro o3 kv3 ho3 hv3
            simp only [Option.some.injEq] at ho3
            rw [← ho3, hv] at hv3
            cases hv3

/-! ## Appliers -/

theorem calls_in_order_nil {σ : Type} (applier : σ → Nat → rpc_object → σ × Bool) (s : σ) :
    calls_in_order applier [] s (s, false) := by
  refine ⟨0, le_refl _, rfl, ?_, ?_, ?_⟩
  · intro j c hj; omega
  · intro h; cases h
  · intro _; exact ⟨rfl, by intro j c hc; simp at hc⟩

theorem calls_in_order_stop {σ : Type} (applier : σ → Nat → rpc_object → σ × Bool) (s : σ)
    (c : Nat × rpc_object) (cs : List (Nat × rpc_object))
    (h : (applier s c.1 c.2).2 = false) :
    calls_in_order applier (c :: cs) s ((applier s c.1 c.2).1, true) := by
  refine ⟨1, by simp, by simp [state_after], ?_, ?_, ?_⟩
  · intro j c1 hj; omega
  · intro _
    exact ⟨0, c, rfl, List.getElem?_cons_zero, by simpa [state_after] using h⟩
  · intro h1; cases h1

theorem calls_in_order_go {σ : Type} (applier : σ → Nat → rpc_object → σ × Bool) (s : σ)
    (c : Nat × rpc_object) (cs : List (Nat × rpc_object)) (r : σ × Bool)
    (h : (applier s c.1 c.2).2 = true)
    (hr : calls_in_order applier cs (applier s c.1 c.2).1 r) :
    calls_in_order applier (c :: cs) s r := by
  obtain ⟨k, hk, hs, hmid, htrue, hfalse⟩ := hr
  have step : ∀ j, state_after applier ((c :: cs).take (j + 1)) s
      = state_after applier (cs.take j) (applier s c.1 c.2).1 := by
    intro j; simp [state_after]
  refine ⟨k + 1, by simp; omega, by rw [step]; exact hs, ?_, ?_, ?_⟩
  · intro j c1 hj hc
    cases j with
    | zero =>
      simp only [List.getElem?_cons_zero, Option.some.injEq] at hc
      subst hc
      simpa [state_after] using h
    | succ j =>
      rw [List.getElem?_cons_succ] at hc
      rw [step]
      exact hmid j c1 (by omega) hc
  · intro ht
    obtain ⟨j, c1, hj, hc, hv⟩ := htrue ht
    refine ⟨j + 1, c1, by omega, by rw [List.getElem?_cons_succ]; exact hc, ?_⟩
    rw [step]; exact hv
  · intro hf
    obtain ⟨hk1, hall⟩ := hfalse hf
    refine ⟨by simp; omega, ?_⟩
    intro j c1 hc
    cases j with
    | zero =>
      simp only [List.getElem?_cons_zero, Option.some.injEq] at hc
      subst hc
      simpa [state_after] using h
    | succ j =>
      rw [List.getElem?_cons_succ] at hc
      rw [step]
      exact hall j c1 hc

theorem rpc_array_apply_from_order {σ : Type} (applier : σ → Nat → rpc_object → σ × Bool) :
    ∀ (xs : List rpc_object) (i : Nat) (s : σ),
      calls_in_order applier (xs.enumFrom i) s (rpc_array_apply_from applier xs i s) := by
  intro xs
  induction xs with
  | nil => intro i s; exact calls_in_order_nil applier s
  | cons v vs ih =>
    intro i s
    rw [rpc_array_apply_from, List.enumFrom_cons]
    by_cases h : (applier s i v).2 = true
    · simp only [h, if_true]
      exact calls_in_order_go applier s (i, v) _ _ h (ih (i + 1) _)
    · simp only [h]
      exact calls_in_order_stop applier s (i, v) _ (by simpa using h)

theorem rpc_array_reverse_apply_from_order {σ : Type}
    (applier : σ → Nat → rpc_object → σ × Bool) (xs : List rpc_object) :
    ∀ (i : Nat) (s : σ), i ≤ xs.length →
      ∃ r, rpc_array_reverse_apply_from applier xs i s = some r ∧
        calls_in_order applier ((xs.take i).enum.reverse) s r := by
  intro i
  induction i with
  | zero =>
    intro s _
    exact ⟨(s, false), rfl, by simpa using calls_in_order_nil applier s⟩
  | succ i ih =>
    intro s hi
    have hlt : i < xs.length := by omega
    have hx : xs[i]? = some xs[i] := List.getElem?_eq_getElem hlt
    have hcalls : ((xs.take (i + 1)).enum.reverse) = (i, xs[i]) :: ((xs.take i).enum.reverse) := by
      rw [List.take_succ, hx]
      simp only [Option.toList_some, List.enum_append, List.reverse_append, List.length_take]
      simp [List.enumFrom, Nat.min_eq_left (le_of_lt hlt)]
    rw [rpc_array_reverse_apply_from, hx, hcalls]
    by_cases h : (applier s i xs[i]).2 = true
    · simp only [h, if_true]
      obtain ⟨r, hr, hc⟩ := ih (applier s i xs[i]).1 (by omega)
      exact ⟨r, hr, calls_in_order_go applier s (i, xs[i]) _ _ h hc⟩
    · simp only [h]
      exact ⟨_, rfl, calls_in_order_stop applier s (i, xs[i]) _ (by simpa using h)⟩

theorem rpc_array_contains_any (env : host) (value : rpc_object) :
    ∀ (xs : List rpc_object) (i : Nat) (m : Bool),
      (rpc_array_apply_from
        (fun (m : Bool) (_ : Nat) (v : rpc_object) =>
          if rpc_equal env v value then (true, false) else (m, true)) xs i m).1
        = (m || xs.any (fun e => rpc_equal env e value)) := by
  intro xs
  induction xs with
  | nil => intro i m; simp [rpc_array_apply_from]
  | cons v vs ih =>
    intro i m
    rw [rpc_array_apply_from]
    by_cases h : rpc_equal env v value = true
    · simp [h]
    · simp only [h]
      simp only [Bool.false_eq_true, if_false, if_true]
      rw [ih]
      simp [h]

/-! ## Slices and C strings -/

theorem take_drop_getElem? {α : Type} (xs : List α) (i stop j : Nat) :
    ((xs.take stop).drop i)[j]? = if i + j < stop then xs[i + j]? else none := by
  rw [List.getElem?_drop, List.getElem?_take]

theorem take_stop_length {α : Type} (xs : List α) (i : Nat) (len : Int) (h0 : 0 ≤ len)
    (hu : len < 2 ^ 63) (hn : xs.length < 2 ^ 32) :
    (xs.take (min xs.length (((i : Int) + len) % 2 ^ 64).toNat)).drop i
      = (xs.take (min xs.length (i + len.toNat))).drop i := by
  by_cases hw : (i : Int) + len < 2 ^ 64
  · have e : (((i : Int) + len) % 2 ^ 64).toNat = i + len.toNat := by
      rw [Int.emod_eq_of_lt (by omega) hw]
      omega
    rw [e]
  · have e : (((i : Int) + len) % 2 ^ 64).toNat < i := by
      have h1 : 0 ≤ ((i : Int) + len) % 2 ^ 64 := Int.emod_nonneg _ (by norm_num)
      have h2 : ((i : Int) + len) % 2 ^ 64 < 2 ^ 64 := Int.emod_lt_of_pos _ (by norm_num)
      omega
    rw [List.drop_eq_nil_of_le (by rw [List.length_take]; omega),
      List.drop_eq_nil_of_le (by rw [List.length_take]; omega)]

theorem rpc_array_slice_length (xs : List rpc_object) (i : Nat) (len : Int) (h0 : 0 ≤ len)
    (hu : len < 2 ^ 63) (hn : xs.length < 2 ^ 32) :
    rpc_array_slice xs i len = (xs.take (min xs.length (i + len.toNat))).drop i := by
  have hne : len ≠ -1 := by omega
  simp only [rpc_array_slice, hne, if_false]
  exact take_stop_length xs i len h0 hu hn

/-- A length below -1 is added to the index as the `size_t` it converts to: the
slice runs to the end of the array when the sum wraps around, and is empty
otherwise. -/
theorem rpc_array_slice_negative (xs : List rpc_object) (i : Nat) (len : Int)
    (hi : i < 2 ^ 64) (hl : -(2 ^ 63) ≤ len) (h1 : len < -1) (hn : xs.length < 2 ^ 32) :
    ((i : Int) + len < 0 → rpc_array_slice xs i len = xs.drop i) ∧
    (0 ≤ (i : Int) + len → rpc_array_slice xs i len = []) := by
  have hne : len ≠ -1 := by omega
  simp only [rpc_array_slice, hne, if_false]
  refine ⟨?_, ?_⟩
  · intro hneg
    have e : (((i : Int) + len) % 2 ^ 64).toNat ≥ xs.length := by
      have : ((i : Int) + len) % 2 ^ 64 = (i : Int) + len + 2 ^ 64 := by omega
      omega
    rw [Nat.min_eq_left e, List.take_length]
  · intro hpos
    have e : (((i : Int) + len) % 2 ^ 64).toNat < i := by
      rw [Int.emod_eq_of_lt hpos (by omega)]
      omega
    rw [List.drop_eq_nil_of_le (by rw [List.length_take]; omega)]

theorem utf8_bytes_nul : utf8_bytes (Char.ofNat 0) = [0] := by decide

theorem utf8_bytes_ne_zero (c : Char) (hc : c ≠ Char.ofNat 0) : ∀ b ∈ utf8_bytes c, b ≠ 0 := by
  have h0 : c.toNat ≠ 0 := by
    intro h
    apply hc
    apply Char.ext
    apply UInt32.ext
    simpa [Char.toNat] using h
  intro b hb
  unfold utf8_bytes at hb
  simp only [] at hb
  split_ifs at hb <;> simp at hb <;> omega

theorem string_bytes_takeWhile (l : List Char) :
    (l.takeWhile (fun c => c ≠ Char.ofNat 0)).flatMap utf8_bytes
      = (l.flatMap utf8_bytes).takeWhile (fun b => b ≠ 0) := by
  induction l with
  | nil => rfl
  | cons c l ih =>
    by_cases hc : c = Char.ofNat 0
    · subst hc
      simp [List.takeWhile, utf8_bytes_nul]
    · have hall := utf8_bytes_ne_zero c hc
      rw [List.takeWhile_cons_of_pos (by simpa using hc)]
      simp only [List.flatMap_cons]
      rw [ih, List.takeWhile_append_of_pos (by simpa using hall)]

theorem string_bytes_c_str (s : String) :
    string_bytes (c_str s) = (string_bytes s).takeWhile (fun b => b ≠ 0) := by
  simp only [string_bytes, c_str]
  exact string_bytes_takeWhile s.toList

theorem takeWhile_eq_take_length {α : Type} (p : α → Bool) (l : List α) :
    l.takeWhile p = l.take (l.takeWhile p).length := by
  induction l with
  | nil => rfl
  | cons a l ih =>
    by_cases h : p a = true
    · rw [List.takeWhile_cons_of_pos h]
      simp only [List.length_cons, List.take_succ_cons]
      rw [← ih]
    · rw [List.takeWhile_cons_of_neg h]
      rfl

theorem strlen_spec (bytes : List Nat) :
    strlen bytes ≤ bytes.length ∧
    (∀ j, j < strlen bytes → ∃ b, bytes[j]? = some b ∧ b ≠ 0) ∧
    (strlen bytes < bytes.length → bytes[strlen bytes]? = some 0) := by
  induction bytes with
  | nil => simp [strlen]
  | cons a l ih =>
    by_cases h : a = 0
    · subst h
      simp [strlen]
    · have e : strlen (a :: l) = strlen l + 1 := by
        simp [strlen, h]
      rw [e]
      obtain ⟨h1, h2, h3⟩ := ih
      refine ⟨by simp; omega, ?_, ?_⟩
      · intro j hj
        cases j with
        | zero => exact ⟨a, List.getElem?_cons_zero, h⟩
        | succ j =>
          rw [List.getElem?_cons_succ]
          exact h2 j (by omega)
      · intro hlt
        rw [List.getElem?_cons_succ]
        exact h3 (by simpa using hlt)

/-! ## Counts and payloads under stores -/

theorem count_cell (h : mem.heap) (a : Nat) (r : Int) (e : mem.count h a = some r) :
    ∃ o, h[a]? = some (some o) ∧ o.ro_refcnt = r := by
  unfold mem.count at e
  split at e
  · rename_i o ho
    exact ⟨o, ho, by simpa using e⟩
  · cases e

theorem payload_cell (h : mem.heap) (a : Nat) (val : mem.rpc_value)
    (e : mem.payload h a = some val) : ∃ o, h[a]? = some (some o) ∧ o.ro_value = val := by
  unfold mem.payload at e
  split at e
  · rename_i o ho
    exact ⟨o, ho, by simpa using e⟩
  · cases e

theorem count_of_cell (h : mem.heap) (a : Nat) (o : mem.rpc_object)
    (e : h[a]? = some (some o)) : mem.count h a = some o.ro_refcnt := by
  simp only [mem.count, e]

theorem payload_of_cell (h : mem.heap) (a : Nat) (o : mem.rpc_object)
    (e : h[a]? = some (some o)) : mem.payload h a = some o.ro_value := by
  simp only [mem.payload, e]

theorem getElem?_set_cell (h : mem.heap) (a b : Nat) (x : Option mem.rpc_object) (o : mem.rpc_object)
    (e : h[a]? = some (some o)) :
    (h.set a x)[b]? = if a = b then some x else h[b]? := by
  obtain ⟨hlt, _⟩ := List.getElem?_eq_some_iff.mp e
  rw [List.getElem?_set]
  by_cases hab : a = b
  · subst hab; simp [hlt]
  · simp [hab]

/-- A change of the payload of a live object changes no count. -/
theorem count_set_payload (h : mem.heap) (a : Nat) (o : mem.rpc_object) (val : mem.rpc_value)
    (e : h[a]? = some (some o)) (b : Nat) :
    mem.count (h.set a (some { o with ro_value := val })) b = mem.count h b := by
  unfold mem.count
  rw [getElem?_set_cell h a b _ o e]
  by_cases hab : a = b
  · subst hab; simp [e]
  · simp [hab]

theorem payload_set_payload (h : mem.heap) (a : Nat) (o : mem.rpc_object) (val : mem.rpc_value)
    (e : h[a]? = some (some o)) (b : Nat) :
    mem.payload (h.set a (some { o with ro_value := val })) b
      = if a = b then some val else mem.payload h b := by
  unfold mem.payload
  rw [getElem?_set_cell h a b _ o e]
  by_cases hab : a = b
  · subst hab; simp
  · simp [hab]

/-- A change of the count of a live object changes no payload and no other count. -/
theorem payload_set_count (h : mem.heap) (a : Nat) (o : mem.rpc_object) (c : Int)
    (e : h[a]? = some (some o)) (b : Nat) :
    mem.payload (h.set a (some { o with ro_refcnt := c })) b = mem.payload h b := by
  unfold mem.payload
  rw [getElem?_set_cell h a b _ o e]
  by_cases hab : a = b
  · subst hab; simp [e]
  · simp [hab]

theorem count_set_count (h : mem.heap) (a : Nat) (o : mem.rpc_object) (c : Int)
    (e : h[a]? = some (some o)) (b : Nat) :
    mem.count (h.set a (some { o with ro_refcnt := c })) b
      = if a = b then some c else mem.count h b := by
  unfold mem.count
  rw [getElem?_set_cell h a b _ o e]
  by_cases hab : a = b
  · subst hab; simp
  · simp [hab]

/-- `rpc_retain` in terms of counts and payloads. -/
theorem rpc_retain_effect (h : mem.heap) (v : Nat) (r : Int) (hv : mem.count h v = some r)
    (h0 : 0 ≤ r + 1) (h1 : r + 1 < 2 ^ 31) :
    ∃ h1, mem.rpc_retain h v = .ok h1 ∧ mem.count h1 v = some (r + 1) ∧
      (∀ b, b ≠ v → mem.count h1 b = mem.count h b) ∧
      (∀ b, mem.payload h1 b = mem.payload h b) := by
  obtain ⟨o, ho, hr⟩ := count_cell h v r hv
  subst hr
  refine ⟨_, rpc_retain_live h v o ho h0 h1, ?_, ?_, ?_⟩
  · rw [count_set_count h v o _ ho, if_pos rfl]
  · intro b hb
    rw [count_set_count h v o _ ho, if_neg (Ne.symm hb)]
  · intro b
    exact payload_set_count h v o _ ho b

/-- A release of an object whose count is at least 2, in terms of counts and
payloads. -/
theorem rpc_release_impl_effect (h : mem.heap) (old : Nat) (c : Int)
    (hc : mem.count h old = some c) (h2 : 2 ≤ c) :
    ∃ h1, mem.rpc_release_impl h (some old) = .ok (h1, c - 1) ∧
      mem.count h1 old = some (c - 1) ∧
      (∀ b, b ≠ old → mem.count h1 b = mem.count h b) ∧
      (∀ b, mem.payload h1 b = mem.payload h b) := by
  obtain ⟨o, ho, hr⟩ := count_cell h old c hc
  subst hr
  refine ⟨_, rpc_release_impl_positive h old o ho h2, ?_, ?_, ?_⟩
  · rw [count_set_count h old o _ ho, if_pos rfl]
  · intro b hb
    rw [count_set_count h old o _ ho, if_neg (Ne.symm hb)]
  · intro b
    exact payload_set_count h old o _ ho b

/-- The null objects that fill a gap are new cells behind the heap. -/
theorem fill_nulls_eq (k : Nat) : ∀ (h : mem.heap) (xs : List Nat),
    mem.fill_nulls k h xs
      = (h ++ List.replicate k (some { ro_refcnt := 1, ro_value := .null }),
         xs ++ List.range' h.length k) := by
  induction k with
  | zero => intro h xs; simp [mem.fill_nulls]
  | succ k ih =>
    intro h xs
    rw [mem.fill_nulls]
    simp only [mem.rpc_prim_create]
    rw [ih]
    simp [List.replicate_succ, List.range'_succ]

theorem count_append (h t : mem.heap) (b : Nat) (hb : b < h.length) :
    mem.count (h ++ t) b = mem.count h b := by
  unfold mem.count
  rw [List.getElem?_append_left hb]

theorem payload_append (h t : mem.heap) (b : Nat) (hb : b < h.length) :
    mem.payload (h ++ t) b = mem.payload h b := by
  unfold mem.payload
  rw [List.getElem?_append_left hb]

theorem set_same_cell (h : mem.heap) (a : Nat) (x : Option mem.rpc_object)
    (e : h[a]? = some x) : h.set a x = h := by
  obtain ⟨hlt, hx⟩ := List.getElem?_eq_some_iff.mp e
  rw [← hx]
  exact set_getElem_same h a hlt

theorem same_payload_cell (o : mem.rpc_object) (val : mem.rpc_value) (hv : o.ro_value = val) :
    ({ o with ro_value := val } : mem.rpc_object) = o := by
  cases o
  simp only [] at hv
  subst hv
  rfl

/-- `rpc_array_append_stolen_value` changes no count. -/
theorem append_stolen_effect (h : mem.heap) (a v : Nat) (xs : List Nat)
    (hp : mem.payload h a = some (.array xs)) :
    ∃ h1, mem.rpc_array_append_stolen_value h a v = .ok h1 ∧
      (∀ b, mem.count h1 b = mem.count h b) ∧
      mem.payload h1 a = some (.array (xs ++ [v])) ∧
      (∀ b, b ≠ a → mem.payload h1 b = mem.payload h b) := by
  obtain ⟨o, ho, hv⟩ := payload_cell h a _ hp
  refine ⟨h.set a (some { o with ro_value := .array (xs ++ [v]) }), ?_, ?_, ?_, ?_⟩
  · simp only [mem.rpc_array_append_stolen_value, ho, hv]
  · intro b; exact count_set_payload h a o _ ho b
  · rw [payload_set_payload h a o _ ho, if_pos rfl]
  · intro b hb
    rw [payload_set_payload h a o _ ho, if_neg (Ne.symm hb)]

/-- `rpc_array_steal_value` at an index that is not below the length: the gap is
filled with new null objects and no count of an old object changes. -/
theorem steal_behind_effect (h : mem.heap) (a v : Nat) (xs : List Nat) (i : Nat)
    (hp : mem.payload h a = some (.array xs)) (h1 : xs.length ≤ i) (h2 : i < xs.length + 2 ^ 31) :
    ∃ h1, mem.rpc_array_steal_value h a i v = .ok h1 ∧
      (∀ b, b < h.length → mem.count h1 b = mem.count h b) ∧
      mem.payload h1 a
        = some (.array (xs ++ List.range' h.length (i - xs.length) ++ [v])) ∧
      (∀ b, b < h.length → b ≠ a → mem.payload h1 b = mem.payload h b) ∧
      (∀ b, h.length ≤ b → b < h.length + (i - xs.length) →
        mem.count h1 b = some 1 ∧ mem.payload h1 b = some .null) := by
  obtain ⟨o, ho, hv⟩ := payload_cell h a _ hp
  obtain ⟨hlt, _⟩ := List.getElem?_eq_some_iff.mp ho
  have ho2 : (h ++ List.replicate (i - xs.length)
      (some ({ ro_refcnt := 1, ro_value := .null } : mem.rpc_object)))[a]? = some (some o) := by
    rw [List.getElem?_append_left hlt, ho]
  refine ⟨(h ++ List.replicate (i - xs.length)
      (some ({ ro_refcnt := 1, ro_value := .null } : mem.rpc_object))).set a
    (some { o with ro_value := .array (xs ++ List.range' h.length (i - xs.length) ++ [v]) }),
    ?_, ?_, ?_, ?_, ?_⟩
  · unfold mem.rpc_array_steal_value
    simp only [ho, hv, to_int_gap i xs.length h2 (by omega), fill_nulls_eq]
    rw [if_pos (by simp; omega)]
  · intro b hb
    rw [count_set_payload _ a o _ ho2, count_append h _ b hb]
  · rw [payload_set_payload _ a o _ ho2, if_pos rfl]
  · intro b hb hba
    rw [payload_set_payload _ a o _ ho2, if_neg (Ne.symm hba), payload_append h _ b hb]
  · intro b hb1 hb2
    have hcell : (h ++ List.replicate (i - xs.length)
        (some ({ ro_refcnt := 1, ro_value := .null } : mem.rpc_object)))[b]?
          = some (some { ro_refcnt := 1, ro_value := .null }) := by
      rw [List.getElem?_append_right hb1, List.getElem?_replicate, if_pos (by omega)]
    have hba : a ≠ b := by omega
    constructor
    · rw [count_set_payload _ a o _ ho2, count_of_cell _ _ _ hcell]
    · rw [payload_set_payload _ a o _ ho2, if_neg hba, payload_of_cell _ _ _ hcell]

/-- `rpc_array_steal_value` over an element whose count is at least 2: that
count goes down by one, no other count changes, and the slot holds the value. -/
theorem steal_overwrite_effect (h : mem.heap) (a v : Nat) (xs : List Nat) (i old : Nat) (c : Int)
    (hp : mem.payload h a = some (.array xs)) (hl : xs.length < 2 ^ 31)
    (hi : xs[i]? = some old) (hc : mem.count h old = some c) (h2 : 2 ≤ c) :
    ∃ h1, mem.rpc_array_steal_value h a i v = .ok h1 ∧
      mem.count h1 old = some (c - 1) ∧
      (∀ b, b ≠ old → mem.count h1 b = mem.count h b) ∧
      mem.payload h1 a = some (.array (xs.set i v)) ∧
      (∀ b, b ≠ a → mem.payload h1 b = mem.payload h b) := by
  obtain ⟨o, ho, hv⟩ := payload_cell h a _ hp
  obtain ⟨hilt, _⟩ := List.getElem?_eq_some_iff.mp hi
  obtain ⟨hr, er, hr1, hr2, hr3⟩ := rpc_release_impl_effect h old c hc h2
  obtain ⟨o1, ho1, hv1⟩ := payload_cell hr a (.array xs) (by rw [hr3, hp])
  refine ⟨hr.set a (some { o1 with ro_value := .array (xs.set i v) }), ?_, ?_, ?_, ?_, ?_⟩
  · unfold mem.rpc_array_steal_value
    have hg : (to_int ((i + 2 ^ 64 - xs.length) % 2 ^ 64)).toNat = 0 := by
      rw [to_int_gap i xs.length (by omega) (by omega)]; omega
    simp only [ho, hv, hg, fill_nulls_eq, List.replicate_zero, List.append_nil,
      List.range'_zero]
    rw [if_neg (by omega)]
    simp only [hi]
    rw [← hv, same_payload_cell o o.ro_value rfl, set_same_cell h a _ ho, er]
    simp only [ho1, hv1]
  · rw [count_set_payload hr a o1 _ ho1, hr1]
  · intro b hb
    rw [count_set_payload hr a o1 _ ho1, hr2 b hb]
  · rw [payload_set_payload hr a o1 _ ho1, if_pos rfl]
  · intro b hb
    rw [payload_set_payload hr a o1 _ ho1, if_neg (Ne.symm hb), hr3]

/-- `rpc_dictionary_steal_value` under a new key changes no count. -/
theorem dict_steal_new_effect (h : mem.heap) (a v : Nat) (kv : List (String × Nat))
    (key : String) (hp : mem.payload h a = some (.dictionary kv))
    (hk : key ∉ kv.map Prod.fst) :
    ∃ h1, mem.rpc_dictionary_steal_value h a key v = .ok h1 ∧
      (∀ b, mem.count h1 b = mem.count h b) ∧
      mem.payload h1 a = some (.dictionary (kv ++ [(key, v)])) ∧
      (∀ b, b ≠ a → mem.payload h1 b = mem.payload h b) := by
  obtain ⟨o, ho, hv⟩ := payload_cell h a _ hp
  refine ⟨_, mem_steal_new_key h a o kv key v ho hv hk, ?_, ?_, ?_⟩
  · intro b; exact count_set_payload h a o _ ho b
  · rw [payload_set_payload h a o _ ho, if_pos rfl]
  · intro b hb
    rw [payload_set_payload h a o _ ho, if_neg (Ne.symm hb)]

/-- `rpc_dictionary_steal_value` over a value whose count is at least 2: that
count goes down by one, no other count changes, and the key holds the value. -/
theorem dict_steal_replace_effect (h : mem.heap) (a v : Nat) (kv : List (String × Nat))
    (key : String) (old : String × Nat) (c : Int)
    (hp : mem.payload h a = some (.dictionary kv))
    (hf : kv.find? (fun e => e.1 = key) = some old)
    (hc : mem.count h old.2 = some c) (h2 : 2 ≤ c) :
    ∃ h1, mem.rpc_dictionary_steal_value h a key v = .ok h1 ∧
      mem.count h1 old.2 = some (c - 1) ∧
      (∀ b, b ≠ old.2 → mem.count h1 b = mem.count h b) ∧
      mem.payload h1 a
        = some (.dictionary (kv.map (fun e => if e.1 = key then (e.1, v) else e))) ∧
      (∀ b, b ≠ a → mem.payload h1 b = mem.payload h b) := by
  obtain ⟨o, ho, hv⟩ := payload_cell h a _ hp
  have hc1 : mem.count (h.set a (some { o with
      ro_value := mem.rpc_value.dictionary
        (kv.map (fun e => if e.1 = key then (e.1, v) else e)) })) old.2 = some c := by
    rw [count_set_payload h a o _ ho, hc]
  obtain ⟨hr, er, hr1, hr2, hr3⟩ := rpc_release_impl_effect _ old.2 c hc1 h2
  refine ⟨hr, ?_, hr1, ?_, ?_, ?_⟩
  · unfold mem.rpc_dictionary_steal_value
    simp only [ho, hv, hf, er]
  · intro b hb
    rw [hr2 b hb, count_set_payload h a o _ ho]
  · rw [hr3, payload_set_payload h a o _ ho, if_pos rfl]
  · intro b hb
    rw [hr3, payload_set_payload h a o _ ho, if_neg (Ne.symm hb)]

/-! ## A release next to an object that stays live -/

/-- While the loop runs, a freed cell stays freed, and a live cell keeps its
payload and its count does not grow, until it is freed. -/
theorem release_loop_cell : ∀ (fuel : Nat) (h : mem.heap) (w : List mem.work) (h2 : mem.heap),
    mem.release_loop fuel h w = .ok h2 → ∀ d : Nat,
    (h[d]? = some none → h2[d]? = some none) ∧
    (∀ x, h[d]? = some (some x) → h2[d]? = some none ∨
      ∃ o2, h2[d]? = some (some o2) ∧ o2.ro_value = x.ro_value ∧ o2.ro_refcnt ≤ x.ro_refcnt) := by
  intro fuel
  induction fuel with
  | zero => intro h w h2 e; simp [mem.release_loop] at e
  | succ f ih =>
    intro h w h2 e d
    have key : ∀ (a : Nat) (c : Option mem.rpc_object) (w1 : List mem.work),
        mem.release_loop f (h.set a c) w1 = .ok h2 →
        (a = d → ∀ x, h[d]? = some (some x) → c = none ∨
          ∃ o, c = some o ∧ o.ro_value = x.ro_value ∧ o.ro_refcnt ≤ x.ro_refcnt) →
        (a = d → h[d]? = some none → c = none) →
        (h[d]? = some none → h2[d]? = some none) ∧
        (∀ x, h[d]? = some (some x) → h2[d]? = some none ∨
          ∃ o2, h2[d]? = some (some o2) ∧ o2.ro_value = x.ro_value ∧
            o2.ro_refcnt ≤ x.ro_refcnt) := by
      intro a c w1 e1 hc1 hc2
      have ihd := ih _ _ _ e1 d
      by_cases had : a = d
      · subst had
        constructor
        · intro hn
          obtain ⟨hlt, _⟩ := List.getElem?_eq_some_iff.mp hn
          have := hc2 rfl hn
          subst this
          exact ihd.1 (by rw [List.getElem?_set_self hlt])
        · intro x hx
          obtain ⟨hlt, _⟩ := List.getElem?_eq_some_iff.mp hx
          rcases hc1 rfl x hx with hcn | ⟨o, hco, hov, hor⟩
          · subst hcn
            exact Or.inl (ihd.1 (by rw [List.getElem?_set_self hlt]))
          · subst hco
            rcases ihd.2 o (by rw [List.getElem?_set_self hlt]) with hh | ⟨o2, h21, h22, h23⟩
            · exact Or.inl hh
            · exact Or.inr ⟨o2, h21, by rw [h22, hov], by omega⟩
      · have hget : (h.set a c)[d]? = h[d]? := by
          rw [List.getElem?_set_ne had]
        rw [hget] at ihd
        exact ihd
    cases w with
    | nil =>
      simp only [mem.release_loop, mem.outcome.ok.injEq] at e
      subst e
      exact ⟨fun hn => hn, fun x hx => Or.inr ⟨x, hx, rfl, le_refl _⟩⟩
    | cons y rest =>
      cases y with
      | free a =>
        rw [mem.release_loop] at e
        exact key a none rest e (fun _ _ _ => Or.inl rfl) (fun _ _ => rfl)
      | release p =>
        cases p with
        | none =>
          rw [mem.release_loop] at e
          exact ih _ _ _ e d
        | some a =>
          rw [release_loop_succ_release] at e
          cases hc : h[a]? with
          | none => simp [hc] at e
          | some c =>
            cases c with
            | none => simp [hc] at e
            | some o =>
              simp only [hc] at e
              by_cases h0 : o.ro_refcnt ≤ 0
              · rw [if_pos h0] at e; cases e
              · rw [if_neg h0] at e
                by_cases h1c : o.ro_refcnt - 1 = 0
                · rw [if_pos h1c] at e
                  refine key a _ _ e ?_ ?_
                  · intro had x hx
                    subst had
                    rw [hc] at hx
                    cases hx
                    exact Or.inr ⟨_, rfl, rfl, by simp only []; omega⟩
                  · intro had hn
                    subst had
                    rw [hc] at hn
                    cases hn
                · rw [if_neg h1c] at e
                  refine key a _ _ e ?_ ?_
                  · intro had x hx
                    subst had
                    rw [hc] at hx
                    cases hx
                    exact Or.inr ⟨_, rfl, rfl, by simp only []; omega⟩
                  · intro had hn
                    subst had
                    rw [hc] at hn
                    cases hn

/-- A cell whose `g_free` is pending is not live when the loop has ended. -/
theorem release_loop_pending_free : ∀ (fuel : Nat) (h : mem.heap) (w : List mem.work)
    (h2 : mem.heap), mem.release_loop fuel h w = .ok h2 → ∀ d : Nat,
    mem.work.free d ∈ w → mem.count h2 d = none := by
  intro fuel
  induction fuel with
  | zero => intro h w h2 e; simp [mem.release_loop] at e
  | succ f ih =>
    intro h w h2 e d hd
    cases w with
    | nil => simp at hd
    | cons y rest =>
      cases y with
      | free a =>
        rw [mem.release_loop] at e
        by_cases had : a = d
        · subst had
          unfold mem.count
          by_cases hlt : a < h.length
          · have := (release_loop_cell _ _ _ _ e a).1 (by rw [List.getElem?_set_self hlt])
            rw [this]
          · have hl := release_loop_length _ _ _ _ e
            rw [List.length_set] at hl
            rw [List.getElem?_eq_none (by omega)]
        · have hd1 : mem.work.free d ∈ rest := by
            rcases List.mem_cons.mp hd with h1 | h1
            · cases h1; exact absurd rfl had
            · exact h1
          exact ih _ _ _ e d hd1
      | release p =>
        have hd1 : mem.work.free d ∈ rest := by
          rcases List.mem_cons.mp hd with h1 | h1
          · cases h1
          · exact h1
        cases p with
        | none =>
          rw [mem.release_loop] at e
          exact ih _ _ _ e d hd1
        | some a =>
          rw [release_loop_succ_release] at e
          cases hc : h[a]? with
          | none => simp [hc] at e
          | some c =>
            cases c with
            | none => simp [hc] at e
            | some o =>
              simp only [hc] at e
              by_cases h0 : o.ro_refcnt ≤ 0
              · rw [if_pos h0] at e; cases e
              · rw [if_neg h0] at e
                by_cases h1c : o.ro_refcnt - 1 = 0
                · rw [if_pos h1c] at e
                  exact ih _ _ _ e d (by
                    simp only [List.mem_append, List.mem_cons]
                    exact Or.inr (Or.inr hd1))
                · rw [if_neg h1c] at e
                  exact ih _ _ _ e d hd1

/-- A release that leaves the object at `d` live never reads the payload of `d`:
run on the heap in which `d` has another payload, it makes the same steps. -/
theorem release_loop_frame (d : Nat) (val : mem.rpc_value) : ∀ (fuel : Nat) (h : mem.heap)
    (w : List mem.work) (h2 : mem.heap) (x o2 : mem.rpc_object),
    mem.release_loop fuel h w = .ok h2 → h[d]? = some (some x) → h2[d]? = some (some o2) →
    mem.release_loop fuel (h.set d (some { x with ro_value := val })) w
      = .ok (h2.set d (some { o2 with ro_value := val })) := by
  intro fuel
  induction fuel with
  | zero => intro h w h2 x o2 e; simp [mem.release_loop] at e
  | succ f ih =>
    intro h w h2 x o2 e hx h2x
    obtain ⟨hdlt, _⟩ := List.getElem?_eq_some_iff.mp hx
    cases w with
    | nil =>
      simp only [mem.release_loop, mem.outcome.ok.injEq] at e
      subst e
      rw [hx] at h2x
      cases h2x
      simp [mem.release_loop]
    | cons y rest =>
      cases y with
      | free a =>
        rw [mem.release_loop] at e ⊢
        by_cases had : a = d
        · subst had
          have := (release_loop_cell _ _ _ _ e a).1 (by rw [List.getElem?_set_self hdlt])
          rw [this] at h2x
          cases h2x
        · rw [List.set_comm _ _ _ (Ne.symm had)]
          exact ih _ _ _ x o2 e (by rw [List.getElem?_set_ne had, hx]) h2x
      | release p =>
        cases p with
        | none =>
          rw [mem.release_loop] at e ⊢
          exact ih _ _ _ x o2 e hx h2x
        | some a =>
          rw [release_loop_succ_release] at e ⊢
          by_cases had : a = d
          · subst had
            rw [List.getElem?_set_self hdlt]
            simp only [hx] at e ⊢
            by_cases h0 : x.ro_refcnt ≤ 0
            · rw [if_pos h0] at e; cases e
            · rw [if_neg h0] at e ⊢
              by_cases h1c : x.ro_refcnt - 1 = 0
              · rw [if_pos h1c] at e
                have := release_loop_pending_free _ _ _ _ e a (by simp)
                rw [count_of_cell _ _ _ h2x] at this
                cases this
              · rw [if_neg h1c] at e ⊢
                rw [List.set_set]
                have := ih _ _ _ { x with ro_refcnt := x.ro_refcnt - 1 } o2 e
                  (by rw [List.getElem?_set_self hdlt]) h2x
                rw [List.set_set] at this
                exact this
          · rw [List.getElem?_set_ne (Ne.symm had)]
            cases hc : h[a]? with
            | none => simp [hc] at e
            | some c =>
              cases c with
              | none => simp [hc] at e
              | some o =>
                simp only [hc] at e ⊢
                by_cases h0 : o.ro_refcnt ≤ 0
                · rw [if_pos h0] at e; cases e
                · rw [if_neg h0] at e ⊢
                  by_cases h1c : o.ro_refcnt - 1 = 0
                  · rw [if_pos h1c] at e ⊢
                    rw [List.set_comm _ _ _ (Ne.symm had)]
                    exact ih _ _ _ x o2 e (by rw [List.getElem?_set_ne had, hx]) h2x
                  · rw [if_neg h1c] at e ⊢
                    rw [List.set_comm _ _ _ (Ne.symm had)]
                    exact ih _ _ _ x o2 e (by rw [List.getElem?_set_ne had, hx]) h2x

/-- `rpc_release_impl` that leaves the object at `d` live gives the same result
on the heap in which `d` has another payload. -/
theorem rpc_release_impl_frame (h : mem.heap) (old d : Nat) (val : mem.rpc_value)
    (h2 : mem.heap) (n : Int) (x o2 : mem.rpc_object)
    (e : mem.rpc_release_impl h (some old) = .ok (h2, n))
    (hx : h[d]? = some (some x)) (h2x : h2[d]? = some (some o2)) :
    mem.rpc_release_impl (h.set d (some { x with ro_value := val })) (some old)
      = .ok (h2.set d (some { o2 with ro_value := val }), n) := by
  obtain ⟨hdlt, _⟩ := List.getElem?_eq_some_iff.mp h2x
  unfold mem.rpc_release_impl at e
  simp only [] at e
  cases hr : mem.release_loop (mem.release_budget h) h [.release (some old)] with
  | fuel => simp [hr] at e
  | fault k => simp [hr] at e
  | ok h1 =>
    simp only [hr] at e
    have eh : h1 = h2 ∧ mem.count h1 old = (if (mem.count h1 old).isSome then some n else none)
        ∧ ((mem.count h1 old) = none → n = 0) := by
      unfold mem.count
      cases hc : h1[old]? with
      | none => simp [hc] at e; simp [e.1, e.2.symm]
      | some c =>
        cases c with
        | none => simp [hc] at e; simp [e.1, e.2.symm]
        | some o => simp [hc] at e; simp [e.1, e.2]
    obtain ⟨eh1, eh2, eh3⟩ := eh
    subst eh1
    have hf := release_loop_frame d val _ _ _ _ x o2 hr hx h2x
    have hdet := release_loop_det (mem.release_budget h)
      (mem.release_budget (h.set d (some { x with ro_value := val })))
      (h.set d (some { x with ro_value := val })) [.release (some old)]
      (by rw [hf]; simp) (release_loop_budget _ _)
    rw [hf] at hdet
    unfold mem.rpc_release_impl
    simp only [← hdet]
    by_cases hod : old = d
    · subst hod
      rw [List.getElem?_set_self hdlt]
      simp only [mem.count, h2x, Option.isSome_some, if_true, Option.some.injEq] at eh2
      simp [eh2]
    · rw [List.getElem?_set_ne (Ne.symm hod)]
      cases hc : h1[old]? with
      | none =>
        have := eh3 (by simp [mem.count, hc])
        simp [this]
      | some c =>
        cases c with
        | none =>
          have := eh3 (by simp [mem.count, hc])
          simp [this]
        | some o =>
          simp only [mem.count, hc, Option.isSome_some, if_true, Option.some.injEq] at eh2
          simp [eh2]

/-- An object that is live after a release was live before it, with the same
payload. -/
theorem rpc_release_impl_live (h : mem.heap) (old : Nat) (h2 : mem.heap) (n : Int) (a : Nat)
    (e : mem.rpc_release_impl h (some old) = .ok (h2, n)) (hl : mem.count h2 a ≠ none) :
    ∃ x o2, h[a]? = some (some x) ∧ h2[a]? = some (some o2) ∧ o2.ro_value = x.ro_value := by
  have hlen := rpc_release_impl_length h (some old) h2 n e
  unfold mem.rpc_release_impl at e
  simp only [] at e
  cases hr : mem.release_loop (mem.release_budget h) h [.release (some old)] with
  | fuel => simp [hr] at e
  | fault k => simp [hr] at e
  | ok h1 =>
    simp only [hr] at e
    have eh : h1 = h2 := by
      cases hc : h1[old]? with
      | none => simp [hc] at e; exact e.1
      | some c =>
        cases c with
        | none => simp [hc] at e; exact e.1
        | some o => simp [hc] at e; exact e.1
    subst eh
    have hcell := release_loop_cell _ _ _ _ hr a
    cases hc2 : h1[a]? with
    | none => simp [mem.count, hc2] at hl
    | some c2 =>
      cases c2 with
      | none => simp [mem.count, hc2] at hl
      | some o2 =>
        obtain ⟨halt, _⟩ := List.getElem?_eq_some_iff.mp hc2
        cases hc : h[a]? with
        | none =>
          have := List.getElem?_eq_none_iff.mp hc
          omega
        | some c =>
          cases c with
          | none =>
            have := hcell.1 hc
            rw [hc2] at this
            cases this
          | some x =>
            rcases hcell.2 x hc with hh | ⟨o3, h31, h32, _⟩
            · rw [hc2] at hh; cases hh
            · rw [hc2] at h31
              cases h31
              exact ⟨x, o2, rfl, rfl, h32⟩

/-- `rpc_array_steal_value` over an element: the element is released once, and
if the array is live after that release, the slot holds the value, no count is
changed by the store itself and no other payload changes. -/
theorem steal_overwrite_general (h : mem.heap) (a v : Nat) (xs : List Nat) (i old : Nat)
    (h2 : mem.heap) (n : Int)
    (hp : mem.payload h a = some (.array xs)) (hl : xs.length < 2 ^ 31)
    (hi : xs[i]? = some old) (er : mem.rpc_release_impl h (some old) = .ok (h2, n))
    (hlive : mem.count h2 a ≠ none) :
    ∃ h1, mem.rpc_array_steal_value h a i v = .ok h1 ∧
      (∀ b, mem.count h1 b = mem.count h2 b) ∧
      mem.payload h1 a = some (.array (xs.set i v)) ∧
      (∀ b, b ≠ a → mem.payload h1 b = mem.payload h2 b) := by
  obtain ⟨o, ho, hv⟩ := payload_cell h a _ hp
  obtain ⟨hilt, _⟩ := List.getElem?_eq_some_iff.mp hi
  obtain ⟨x, o1, hx, ho1, hv1⟩ := rpc_release_impl_live h old h2 n a er hlive
  rw [ho] at hx
  cases hx
  rw [hv] at hv1
  refine ⟨h2.set a (some { o1 with ro_value := .array (xs.set i v) }), ?_, ?_, ?_, ?_⟩
  · unfold mem.rpc_array_steal_value
    have hg : (to_int ((i + 2 ^ 64 - xs.length) % 2 ^ 64)).toNat = 0 := by
      rw [to_int_gap i xs.length (by omega) (by omega)]; omega
    simp only [ho, hv, hg, fill_nulls_eq, List.replicate_zero, List.append_nil,
      List.range'_zero]
    rw [if_neg (by omega)]
    simp only [hi]
    rw [← hv, same_payload_cell o o.ro_value rfl, set_same_cell h a _ ho, er]
    simp only [ho1, hv1]
  · intro b
    exact count_set_payload h2 a o1 _ ho1 b
  · rw [payload_set_payload h2 a o1 _ ho1, if_pos rfl]
  · intro b hb
    rw [payload_set_payload h2 a o1 _ ho1, if_neg (Ne.symm hb)]

/-- `rpc_dictionary_steal_value` over the value of a key that is present: the
old value is released once, and if the dictionary is live after that release,
the key holds the value, no count is changed by the store itself and no other
payload changes. -/
theorem dict_steal_replace_general (h : mem.heap) (a v : Nat) (kv : List (String × Nat))
    (key : String) (old : String × Nat) (h2 : mem.heap) (n : Int)
    (hp : mem.payload h a = some (.dictionary kv))
    (hf : kv.find? (fun e => e.1 = key) = some old)
    (er : mem.rpc_release_impl h (some old.2) = .ok (h2, n))
    (hlive : mem.count h2 a ≠ none) :
    ∃ h1, mem.rpc_dictionary_steal_value h a key v = .ok h1 ∧
      (∀ b, mem.count h1 b = mem.count h2 b) ∧
      mem.payload h1 a
        = some (.dictionary (kv.map (fun e => if e.1 = key then (e.1, v) else e))) ∧
      (∀ b, b ≠ a → mem.payload h1 b = mem.payload h2 b) := by
  obtain ⟨o, ho, hv⟩ := payload_cell h a _ hp
  obtain ⟨x, o1, hx, ho1, hv1⟩ := rpc_release_impl_live h old.2 h2 n a er hlive
  rw [ho] at hx
  cases hx
  have hfr := rpc_release_impl_frame h old.2 a
    (.dictionary (kv.map (fun e => if e.1 = key then (e.1, v) else e))) h2 n o o1 er ho ho1
  refine ⟨h2.set a (some { o1 with
    ro_value := mem.rpc_value.dictionary
      (kv.map (fun e => if e.1 = key then (e.1, v) else e)) }), ?_, ?_, ?_, ?_⟩
  · unfold mem.rpc_dictionary_steal_value
    simp only [ho, hv, hf, hfr]
  · intro b
    exact count_set_payload h2 a o1 _ ho1 b
  · rw [payload_set_payload h2 a o1 _ ho1, if_pos rfl]
  · intro b hb
    rw [payload_set_payload h2 a o1 _ ho1, if_neg (Ne.symm hb)]


/-! ## Lookups in a dictionary in memory -/

theorem mem_get_value_payload (h : mem.heap) (d : Nat) (key : String) (r : Option Nat)
    (e : mem.rpc_dictionary_get_value h d key = .ok r) :
    ∃ kv, mem.payload h d = some (.dictionary kv) ∧
      r = (kv.find? (fun e => e.1 = key)).map Prod.snd := by
  unfold mem.rpc_dictionary_get_value at e
  unfold mem.payload
  cases hc : h[d]? with
  | none => simp [hc] at e
  | some c =>
    cases c with
    | none => simp [hc] at e
    | some o =>
      simp only [hc] at e ⊢
      cases hv : o.ro_value with
      | dictionary kv =>
        simp only [hv, mem.outcome.ok.injEq] at e
        exact ⟨kv, rfl, e.symm⟩
      | _ => simp [hv] at e

theorem mem_getters_of_payload (h : mem.heap) (d : Nat) (kv : List (String × Nat))
    (hp : mem.payload h d = some (.dictionary kv)) :
    (∀ key, mem.rpc_dictionary_get_value h d key
      = .ok ((kv.find? (fun e => e.1 = key)).map Prod.snd)) ∧
    (∀ key, mem.rpc_dictionary_has_key h d key
      = .ok (kv.find? (fun e => e.1 = key)).isSome) ∧
    mem.rpc_dictionary_get_count h d = .ok kv.length := by
  obtain ⟨o, ho, hv⟩ := payload_cell h d _ hp
  refine ⟨?_, ?_, ?_⟩
  · intro key; simp only [mem.rpc_dictionary_get_value, ho, hv]
  · intro key; simp only [mem.rpc_dictionary_has_key, ho, hv]
  · simp only [mem.rpc_dictionary_get_count, ho, hv]

theorem find_replaced_same (kv : List (String × Nat)) (key : String) (v : Nat)
    (old : String × Nat) (hf : kv.find? (fun e => e.1 = key) = some old) :
    ((kv.map (fun e => if e.1 = key then (e.1, v) else e)).find? (fun e => e.1 = key)).map
      Prod.snd = some v := by
  induction kv with
  | nil => simp at hf
  | cons e kv ih =>
    by_cases he : e.1 = key
    · simp [List.find?_cons, he]
    · have hf1 : kv.find? (fun e => e.1 = key) = some old := by
        simpa [List.find?_cons, he] using hf
      simpa [List.find?_cons, he] using ih hf1

theorem find_replaced_other (kv : List (String × Nat)) (key k1 : String) (v : Nat)
    (hk : k1 ≠ key) :
    ((kv.map (fun e => if e.1 = key then (e.1, v) else e)).find? (fun e => e.1 = k1)).map
      Prod.snd = (kv.find? (fun e => e.1 = k1)).map Prod.snd := by
  induction kv with
  | nil => rfl
  | cons e kv ih =>
    by_cases he : e.1 = key
    · have hne : ¬ e.1 = k1 := by rw [he]; exact Ne.symm hk
      simpa [List.find?_cons, he, hne, Ne.symm hk] using ih
    · rw [List.map_cons, if_neg he]
      by_cases h1 : e.1 = k1
      · rw [List.find?_cons_of_pos _ (by simpa using h1),
          List.find?_cons_of_pos _ (by simpa using h1)]
      · rw [List.find?_cons_of_neg _ (by simpa using h1),
          List.find?_cons_of_neg _ (by simpa using h1)]
        exact ih

/-- `rpc_retain` of a live object changes no payload. -/
theorem rpc_retain_payload (h : mem.heap) (v : Nat) (hv : mem.count h v ≠ none) :
    ∃ h1, mem.rpc_retain h v = .ok h1 ∧ ∀ b, mem.payload h1 b = mem.payload h b := by
  unfold mem.count at hv
  cases hc : h[v]? with
  | none => simp [hc] at hv
  | some c =>
    cases c with
    | none => simp [hc] at hv
    | some o =>
      refine ⟨h.set v (some { o with
        ro_refcnt := to_int ((o.ro_refcnt + 1) % 2 ^ 32).toNat }),
        by simp only [mem.rpc_retain, hc], ?_⟩
      intro b
      exact payload_set_count h v o _ hc b

/-- What the claim says of the dictionary follows from its payload after the store. -/
theorem mem_stored_of_payload (h h1 : mem.heap) (d v : Nat) (kv : List (String × Nat))
    (key : String) (hp : mem.payload h d = some (.dictionary kv)) :
    (kv.find? (fun e => e.1 = key) = none →
      mem.payload h1 d = some (.dictionary (kv ++ [(key, v)])) →
      mem.rpc_dictionary_get_value h1 d key = .ok (some v) ∧
      mem.rpc_dictionary_has_key h1 d key = .ok true ∧
      (∀ k1, k1 ≠ key →
        mem.rpc_dictionary_get_value h1 d k1 = mem.rpc_dictionary_get_value h d k1) ∧
      mem.rpc_dictionary_get_count h1 d = .ok (kv.length + 1)) ∧
    (∀ old, kv.find? (fun e => e.1 = key) = some old →
      mem.payload h1 d
        = some (.dictionary (kv.map (fun e => if e.1 = key then (e.1, v) else e))) →
      mem.rpc_dictionary_get_value h1 d key = .ok (some v) ∧
      mem.rpc_dictionary_has_key h1 d key = .ok true ∧
      (∀ k1, k1 ≠ key →
        mem.rpc_dictionary_get_value h1 d k1 = mem.rpc_dictionary_get_value h d k1) ∧
      mem.rpc_dictionary_get_count h1 d = .ok kv.length) := by
  obtain ⟨g0, _, _⟩ := mem_getters_of_payload h d kv hp
  constructor
  · intro hf hp1
    obtain ⟨g1, g2, g3⟩ := mem_getters_of_payload h1 d _ hp1
    refine ⟨?_, ?_, ?_, ?_⟩
    · rw [g1]; simp [List.find?_append, hf]
    · rw [g2]; simp [List.find?_append, hf]
    · intro k1 hk
      rw [g1, g0]
      simp [List.find?_append, Ne.symm hk]
    · rw [g3]; simp
  · intro old hf hp1
    obtain ⟨g1, g2, g3⟩ := mem_getters_of_payload h1 d _ hp1
    have hsame := find_replaced_same kv key v old hf
    refine ⟨?_, ?_, ?_, ?_⟩
    · rw [g1, hsame]
    · rw [g2]
      cases hx : (kv.map (fun e => if e.1 = key then (e.1, v) else e)).find?
          (fun e => e.1 = key) with
      | none => rw [hx] at hsame; cases hsame
      | some y => rfl
    · intro k1 hk
      rw [g1, g0, find_replaced_other kv key k1 v hk]
    · rw [g3]; simp

/-! ## Slices in memory -/

theorem range'_filterMap_getElem? {α : Type} (xs : List α) : ∀ (k index : Nat),
    index + k ≤ xs.length →
    (List.range' index k).filterMap (fun i => xs[i]?) = (xs.drop index).take k := by
  intro k
  induction k with
  | zero => intro index _; simp
  | succ k ih =>
    intro index hk
    have hlt : index < xs.length := by omega
    rw [List.range'_succ, List.filterMap_cons, List.getElem?_eq_getElem hlt]
    simp only []
    rw [ih (index + 1) (by omega)]
    rw [List.drop_eq_getElem_cons hlt, List.take_succ_cons]

/-- `rpc_array_append_value` of a live value: the payload of the array gets the
value at its end and no other payload changes. -/
theorem append_value_payload (h : mem.heap) (a v : Nat) (xs : List Nat) (val : mem.rpc_value)
    (hp : mem.payload h a = some (.array xs)) (hv : mem.payload h v = some val) :
    ∃ h1, mem.rpc_array_append_value h a v = .ok h1 ∧
      mem.payload h1 a = some (.array (xs ++ [v])) ∧
      (∀ b, b ≠ a → mem.payload h1 b = mem.payload h b) ∧ h1.length = h.length := by
  obtain ⟨g, e, hc, hpa, hpb⟩ := append_stolen_effect h a v xs hp
  have hgl : g.length = h.length := by
    obtain ⟨o, ho, hov⟩ := payload_cell h a _ hp
    simp only [mem.rpc_array_append_stolen_value, ho, hov, mem.outcome.ok.injEq] at e
    rw [← e, List.length_set]
  have hlive : ∃ val1, mem.payload g v = some val1 := by
    by_cases hva : v = a
    · subst hva; exact ⟨_, hpa⟩
    · exact ⟨val, by rw [hpb v hva, hv]⟩
  obtain ⟨val1, hv1⟩ := hlive
  obtain ⟨o, ho, _⟩ := payload_cell g v _ hv1
  refine ⟨g.set v (some { o with ro_refcnt := to_int ((o.ro_refcnt + 1) % 2 ^ 32).toNat }),
    ?_, ?_, ?_, ?_⟩
  · simp only [mem.rpc_array_append_value, e, mem.rpc_retain, ho]
  · rw [payload_set_count g v o _ ho, hpa]
  · intro b hb
    rw [payload_set_count g v o _ ho, hpb b hb]
  · rw [List.length_set, hgl]

theorem slice_loop_payload (a res : Nat) (xs : List Nat) (hne : res ≠ a) :
    ∀ (idxs : List Nat) (h : mem.heap) (acc : List Nat),
      (∀ i ∈ idxs, i < xs.length) →
      mem.payload h a = some (.array xs) → mem.payload h res = some (.array acc) →
      (∀ x ∈ xs, ∃ val, mem.payload h x = some val) →
      ∃ h1, mem.slice_loop idxs h a res = .ok h1 ∧
        mem.payload h1 res = some (.array (acc ++ idxs.filterMap (fun i => xs[i]?))) ∧
        (∀ b, b ≠ res → mem.payload h1 b = mem.payload h b) ∧ h1.length = h.length := by
  intro idxs
  induction idxs with
  | nil =>
    intro h acc _ _ hr _
    exact ⟨h, rfl, by simpa using hr, fun _ _ => rfl, rfl⟩
  | cons i rest ih =>
    intro h acc hidx hp hr hlive
    have hi : i < xs.length := hidx i (List.mem_cons_self _ _)
    obtain ⟨oa, hoa, hva⟩ := payload_cell h a _ hp
    obtain ⟨val, hval⟩ := hlive xs[i] (List.getElem_mem _)
    obtain ⟨h1, e1, hp1, hb1, hl1⟩ := append_value_payload h res xs[i] acc val hr hval
    have hget : mem.rpc_array_get_value h a i = .ok (some xs[i]) := by
      simp only [mem.rpc_array_get_value, hoa, hva]
      rw [if_neg (by omega), List.getElem?_eq_getElem hi]
    obtain ⟨h2, e2, hp2, hb2, hl2⟩ := ih h1 (acc ++ [xs[i]])
      (fun j hj => hidx j (List.mem_cons_of_mem _ hj))
      (by rw [hb1 a (Ne.symm hne), hp]) hp1
      (by
        intro x hx
        by_cases hxr : x = res
        · subst hxr; exact ⟨_, hp1⟩
        · obtain ⟨val2, hv2⟩ := hlive x hx
          exact ⟨val2, by rw [hb1 x hxr, hv2]⟩)
    refine ⟨h2, ?_, ?_, ?_, ?_⟩
    · rw [mem.slice_loop, hget]
      simp only [e1]
      exact e2
    · rw [hp2, List.filterMap_cons, List.getElem?_eq_getElem hi]
      simp
    · intro b hb
      rw [hb2 b hb, hb1 b hb]
    · rw [hl2, hl1]

/-- `rpc_array_slice` in memory: the result is a new array, made behind the
objects of the heap, that holds the elements `index .. end - 1` of the array as
they are; no payload of an object of the heap changes. -/
theorem rpc_array_slice_payload (h : mem.heap) (a : Nat) (xs : List Nat) (index : Nat)
    (len : Int) (hp : mem.payload h a = some (.array xs))
    (hlive : ∀ x ∈ xs, ∃ val, mem.payload h x = some val) :
    ∃ h1, mem.rpc_array_slice h a index len = .ok (h1, h.length) ∧
      h1.length = h.length + 1 ∧
      mem.payload h1 h.length
        = some (.array ((xs.take (if len = -1 then xs.length
            else min xs.length (((index : Int) + len) % 2 ^ 64).toNat)).drop index)) ∧
      (∀ b, b < h.length → mem.payload h1 b = mem.payload h b) := by
  obtain ⟨oa, hoa, hva⟩ := payload_cell h a _ hp
  obtain ⟨halt, _⟩ := List.getElem?_eq_some_iff.mp hoa
  generalize hstop : (if len = -1 then xs.length
    else min xs.length (((index : Int) + len) % 2 ^ 64).toNat) = stop
  have hsl : stop ≤ xs.length := by
    rw [← hstop]; split_ifs <;> omega
  have hcell := rpc_prim_create_live h (.array [])
  have hres : (mem.rpc_prim_create h (.array [])).2 = h.length := rfl
  have hlen : (mem.rpc_prim_create h (.array [])).1.length = h.length + 1 := by
    simp [mem.rpc_prim_create]
  have hsame : ∀ b, b < h.length →
      mem.payload (mem.rpc_prim_create h (.array [])).1 b = mem.payload h b := by
    intro b hb
    simp only [mem.rpc_prim_create]
    exact payload_append h _ b hb
  obtain ⟨h1, e1, hp1, hb1, hl1⟩ := slice_loop_payload a h.length xs (by omega)
    (List.range' index (stop - index)) (mem.rpc_prim_create h (.array [])).1 []
    (by
      intro i hi
      rw [List.mem_range'_1] at hi
      omega)
    (by rw [hsame a halt, hp])
    (by rw [← hres]; exact payload_of_cell _ _ _ hcell)
    (by
      intro x hx
      obtain ⟨val, hv⟩ := hlive x hx
      obtain ⟨_, hox, _⟩ := payload_cell h x _ hv
      obtain ⟨hxlt, _⟩ := List.getElem?_eq_some_iff.mp hox
      exact ⟨val, by rw [hsame x hxlt, hv]⟩)
  refine ⟨h1, ?_, by rw [hl1, hlen], ?_, ?_⟩
  · unfold mem.rpc_array_slice
    simp only [hoa, hva, hstop, hres, e1]
  · rw [hp1, List.nil_append]
    by_cases hle : index ≤ stop
    · rw [range'_filterMap_getElem? xs (stop - index) index (by omega), List.drop_take]
    · have e0 : stop - index = 0 := by omega
      rw [e0, List.drop_eq_nil_of_le (by rw [List.length_take]; omega)]
      rfl
  · intro b hb
    rw [hb1 b (by omega), hsame b hb]

/-! ## What follows the first complete value of a format is not read -/

theorem fmt_at_append (fmt rest : List Char) (i : Nat) (hi : i < fmt.length) :
    fmt_at (fmt ++ rest) i = fmt_at fmt i := by
  unfold fmt_at
  rw [if_pos (by rw [List.length_append]; omega), if_pos hi, List.getElem?_append_left hi]

theorem vpack_scan_append (fmt rest : List Char) : ∀ (fuel sp : Nat) (colon : Option Nat)
    (r : Nat × Option Nat × Option Nat), vpack_scan fmt fuel sp colon = some r →
    ∀ fuel1, fuel ≤ fuel1 → vpack_scan (fmt ++ rest) fuel1 sp colon = some r := by
  intro fuel
  induction fuel with
  | zero => intro sp colon r h; simp [vpack_scan] at h
  | succ k ih =>
    intro sp colon r h fuel1 hf
    obtain ⟨k1, rfl⟩ : ∃ k1, fuel1 = k1 + 1 := ⟨fuel1 - 1, by omega⟩
    obtain ⟨hb1, hb2, _⟩ := vpack_scan_bounds fmt _ _ _ _ h
    have hsp : sp < fmt.length := by omega
    simp only [vpack_scan] at h ⊢
    rw [fmt_at_append fmt rest sp hsp]
    cases hat : fmt_at fmt sp with
    | none => simp [hat] at h
    | some c =>
      simp only [hat] at h ⊢
      by_cases hcomma : c = ','
      · simp only [hcomma, if_true] at h ⊢
        exact h
      · simp only [hcomma, if_false] at h ⊢
        by_cases hstop : c = '<' ∨ c = '[' ∨ c = ']' ∨ c = '{' ∨ c = '}'
        · simp only [hstop, if_true] at h ⊢
          exact h
        · simp only [hstop, if_false] at h ⊢
          exact ih _ _ r h k1 (by omega)

/-- The colon that the lookahead reports is a colon of the format, not before
the start of the scan. -/
theorem vpack_scan_colon (fmt : List Char) : ∀ (fuel sp : Nat) (colon : Option Nat)
    (r : Nat × Option Nat × Option Nat), vpack_scan fmt fuel sp colon = some r →
    r.2.2 = colon ∨ ∃ cp, r.2.2 = some cp ∧ sp ≤ cp ∧ cp ≤ r.1 ∧ fmt_at fmt cp = some ':' := by
  intro fuel
  induction fuel with
  | zero => intro sp colon r h; simp [vpack_scan] at h
  | succ k ih =>
    intro sp colon r h
    simp only [vpack_scan] at h
    cases hat : fmt_at fmt sp with
    | none => simp [hat] at h
    | some c =>
      simp only [hat] at h
      by_cases hcomma : c = ','
      · simp only [hcomma, if_true, Option.some.injEq] at h
        subst h
        exact Or.inl rfl
      · simp only [hcomma, if_false] at h
        by_cases hstop : c = '<' ∨ c = '[' ∨ c = ']' ∨ c = '{' ∨ c = '}'
        · simp only [hstop, if_true, Option.some.injEq] at h
          subst h
          by_cases hcol : c = ':'
          · rcases hstop with h1 | h1 | h1 | h1 | h1 <;> (rw [hcol] at h1; exact absurd h1 (by decide))
          · simp only [hcol, if_false]
            exact Or.inl trivial
        · simp only [hstop, if_false] at h
          obtain ⟨hb1, _, _⟩ := vpack_scan_bounds fmt _ _ _ _ h
          rcases ih _ _ r h with h1 | ⟨cp, h1, h2, h3, h4⟩
          · by_cases hcol : c = ':'
            · simp only [hcol, if_true] at h1
              exact Or.inr ⟨sp, h1, le_refl _, by omega, by rw [hat, hcol]⟩
            · simp only [hcol, if_false] at h1
              exact Or.inl h1
          · exact Or.inr ⟨cp, h1, by omega, h3, h4⟩

theorem vpack_skip_type_append (fmt rest : List Char) : ∀ (fuel ptr nesting p : Nat),
    nesting ≠ 0 → vpack_skip_type fmt fuel ptr nesting = some p →
    ∀ fuel1, fuel ≤ fuel1 → vpack_skip_type (fmt ++ rest) fuel1 ptr nesting = some p := by
  intro fuel
  induction fuel with
  | zero => intro ptr nesting p _ h; simp [vpack_skip_type] at h
  | succ k ih =>
    intro ptr nesting p hn h fuel1 hf
    obtain ⟨k1, rfl⟩ : ∃ k1, fuel1 = k1 + 1 := ⟨fuel1 - 1, by omega⟩
    obtain ⟨hb1, hb2⟩ := vpack_skip_type_bounds fmt _ _ _ _ hn h
    simp only [vpack_skip_type] at h ⊢
    rw [fmt_at_append fmt rest (ptr + 1) (by omega)]
    cases hat : fmt_at fmt (ptr + 1) with
    | none => simp [hat] at h
    | some c =>
      simp only [hat] at h ⊢
      by_cases hz : (if c = '>' then ((if c = '<' then (nesting + 1) % 2 ^ 32 else nesting)
          + 2 ^ 32 - 1) % 2 ^ 32 else (if c = '<' then (nesting + 1) % 2 ^ 32 else nesting)) = 0
      · simp only [hz, if_true] at h ⊢
        exact h
      · simp only [hz, if_false] at h ⊢
        exact ih _ _ p hz h k1 (by omega)

theorem g_strndup_append (fmt rest : List Char) (p n : Nat) (h : p + n ≤ fmt.length) :
    g_strndup (fmt ++ rest) p n = g_strndup fmt p n := by
  unfold g_strndup
  rw [List.drop_append_of_le_length (by omega), List.take_append_of_le_length (by simp; omega)]

theorem takeWhile_append_stop {α : Type} (p : α → Bool) (a : List α) (c : α) (t : List α)
    (hc : p c = false) : (a ++ c :: t).takeWhile p = a.takeWhile p := by
  induction a with
  | nil => simp [List.takeWhile, hc]
  | cons x a ih =>
    by_cases hx : p x = true
    · simp [List.takeWhile, hx, ih]
    · simp [List.takeWhile, hx]

theorem strtol_digits_append_stop (c : Char) (t : List Char) (hc : c.isDigit = false) :
    ∀ (d : List Char) (acc n : Nat),
      strtol_digits (d ++ c :: t) acc n = strtol_digits d acc n := by
  intro d
  induction d with
  | nil => intro acc n; simp [strtol_digits, hc]
  | cons x d ih =>
    intro acc n
    by_cases hx : x.isDigit = true
    · simp [strtol_digits, hx, ih]
    · simp [strtol_digits, hx]

theorem takeWhile_append_drop {α : Type} (p : α → Bool) (l : List α) :
    l.takeWhile p ++ l.drop (l.takeWhile p).length = l := by
  induction l with
  | nil => rfl
  | cons x l ih =>
    by_cases hx : p x = true
    · simp [List.takeWhile, hx, ih]
    · simp [List.takeWhile, hx]

/-- `strtol` does not read behind a colon. -/
theorem strtol_colon (a t : List Char) : strtol (a ++ ':' :: t) = strtol (a ++ [':']) := by
  have hsp : isspace ':' = false := by decide
  have hdg : (':' : Char).isDigit = false := by decide
  have key : ∀ t1 : List Char, strtol (a ++ ':' :: t1)
      = strtol (a.takeWhile isspace ++ (a.drop (a.takeWhile isspace).length ++ [':'])) := by
    intro t1
    have hws : (a.takeWhile isspace).length ≤ a.length := by
      have := List.takeWhile_sublist (p := isspace) (l := a)
      exact this.length_le
    unfold strtol
    simp only [takeWhile_append_stop isspace a ':' t1 hsp]
    have hw2 : ((a.takeWhile isspace ++ (a.drop (a.takeWhile isspace).length ++ [':'])).takeWhile
        isspace) = a.takeWhile isspace := by
      have e : a.takeWhile isspace ++ (a.drop (a.takeWhile isspace).length ++ [':'])
          = a ++ ':' :: [] := by
        rw [← List.append_assoc]
        congr 1
        exact takeWhile_append_drop isspace a
      rw [e, takeWhile_append_stop isspace a ':' [] hsp]
    rw [hw2]
    rw [List.drop_append_of_le_length hws]
    rw [List.drop_left]
    cases hd : a.drop (a.takeWhile isspace).length with
    | nil => simp [strtol_digits, hdg]
    | cons x a2 =>
      simp only [List.cons_append]
      by_cases h1 : x = '-'
      · subst h1
        simp only [if_true, List.drop_succ_cons, List.drop_zero,
          strtol_digits_append_stop ':' t1 hdg, strtol_digits_append_stop ':' [] hdg]
      · by_cases h2 : x = '+'
        · subst h2
          simp only [show ¬ (('+' : Char) = '-') from by decide, if_true, if_false,
            List.drop_succ_cons, List.drop_zero,
            strtol_digits_append_stop ':' t1 hdg, strtol_digits_append_stop ':' [] hdg]
        · simp only [h1, h2, if_false, List.drop_zero]
          rw [show x :: (a2 ++ ':' :: t1) = (x :: a2) ++ ':' :: t1 from rfl,
            show x :: (a2 ++ [':']) = (x :: a2) ++ ':' :: [] from rfl,
            strtol_digits_append_stop ':' t1 hdg, strtol_digits_append_stop ':' [] hdg]
  rw [key t, key []]

theorem drop_split_at {α : Type} (l : List α) (p cp : Nat) (c : α) (hp : p ≤ cp)
    (hc : l[cp]? = some c) : l.drop p = (l.take cp).drop p ++ c :: l.drop (cp + 1) := by
  obtain ⟨hlt, hget⟩ := List.getElem?_eq_some_iff.mp hc
  have e : l = l.take cp ++ c :: l.drop (cp + 1) := by
    rw [← hget, ← List.drop_eq_getElem_cons hlt, List.take_append_drop]
  conv_lhs => rw [e]
  rw [List.drop_append_of_le_length (by rw [List.length_take]; omega)]

theorem strtol_append (fmt rest : List Char) (ptr cp : Nat) (hp : ptr ≤ cp)
    (hc : fmt_at fmt cp = some ':') :
    strtol ((fmt ++ rest).drop ptr) = strtol (fmt.drop ptr) := by
  have hlt : cp < fmt.length := fmt_at_lt_of_ne_nul hc (by decide)
  have hget : fmt[cp]? = some ':' := by
    unfold fmt_at at hc
    rw [if_pos hlt] at hc
    exact hc
  rw [List.drop_append_of_le_length (by omega), drop_split_at fmt ptr cp ':' hp hget,
    List.append_assoc, List.cons_append, strtol_colon, strtol_colon _ (fmt.drop (cp + 1))]

theorem vpack_lookahead_append (fmt rest : List Char) (container : rpc_object) (ptr : Nat)
    (st : pack_state) (r : Nat × Option Nat × Option Nat)
    (hscan : vpack_scan fmt (fmt.length + 2 - ptr) ptr none = some r) :
    vpack_lookahead (fmt ++ rest) container ptr st = vpack_lookahead fmt container ptr st := by
  obtain ⟨sp, cm, cl⟩ := r
  obtain ⟨hb1, hb2, _⟩ := vpack_scan_bounds fmt _ _ _ _ hscan
  have hcol := vpack_scan_colon fmt _ _ _ _ hscan
  have hs2 := vpack_scan_append fmt rest _ _ _ _ hscan ((fmt ++ rest).length + 2 - ptr)
    (by simp; omega)
  simp only at hb1 hb2 hcol
  unfold vpack_lookahead
  rw [hs2, hscan]
  simp only []
  rw [fmt_at_append fmt rest sp hb2, fmt_at_append fmt rest (sp - 1) (by omega)]
  rcases hcol with h0 | ⟨cp, h1, h2, h3, h4⟩
  · subst h0
    rfl
  · subst h1
    simp only []
    rw [strtol_append fmt rest ptr cp h2 h4,
      g_strndup_append fmt rest ptr (cp - ptr) (by omega)]

theorem vpack_token_append (fmt rest : List Char) (ch : Char) (ptr : Nat) (st : pack_state) :
    vpack_token (fmt ++ rest) ch ptr st = vpack_token fmt ch ptr st ∨
    vpack_token fmt ch ptr st = .error (.fault .fmt_overrun) := by
  by_cases hlt : ch = '<'
  · subst hlt
    cases hskip : vpack_skip_type fmt (fmt.length + 2 - ptr) ptr 1 with
    | none =>
      right
      simp [vpack_token, hskip]
    | some p =>
      left
      obtain ⟨hb1, hb2⟩ := vpack_skip_type_bounds fmt _ _ _ _ (by decide) hskip
      have hs2 := vpack_skip_type_append fmt rest _ _ _ _ (by decide) hskip
        ((fmt ++ rest).length + 2 - ptr) (by simp; omega)
      rw [List.length_append] at hs2
      simp [vpack_token, hskip, hs2, g_strndup_append fmt rest (ptr + 1) (p - (ptr + 1))
        (by omega)]
  · left
    unfold vpack_token
    simp only [hlt, if_false]

theorem vpack_iter_append (rpct_new : String → Option rpc_object → Option rpc_object)
    (fmt rest : List Char) (ptr : Nat) (st : pack_state) :
    vpack_iter rpct_new (fmt ++ rest) ptr st = vpack_iter rpct_new fmt ptr st ∨
    vpack_iter rpct_new fmt ptr st = .done (.fault .fmt_overrun) ∨
    vpack_iter rpct_new fmt ptr st = .done .einval := by
  have tail : ∀ (ch : Char) (ptr1 : Nat) (st1 : pack_state),
      (match vpack_token (fmt ++ rest) ch ptr1 st1 with
        | .error e => iter_result.done e
        | .next ptr2 st2 => .again (ptr2 + 1) st2
        | .value current st2 =>
          match vpack_store rpct_new current st2 with
          | .done r => .done r
          | .stored st3 => .again (ptr1 + 1) st3)
      = (match vpack_token fmt ch ptr1 st1 with
        | .error e => iter_result.done e
        | .next ptr2 st2 => .again (ptr2 + 1) st2
        | .value current st2 =>
          match vpack_store rpct_new current st2 with
          | .done r => .done r
          | .stored st3 => .again (ptr1 + 1) st3) ∨
      (match vpack_token fmt ch ptr1 st1 with
        | .error e => iter_result.done e
        | .next ptr2 st2 => .again (ptr2 + 1) st2
        | .value current st2 =>
          match vpack_store rpct_new current st2 with
          | .done r => .done r
          | .stored st3 => .again (ptr1 + 1) st3) = .done (.fault .fmt_overrun) := by
    intro ch ptr1 st1
    rcases vpack_token_append fmt rest ch ptr1 st1 with h | h
    · left; rw [h]
    · right; rw [h]
  unfold vpack_iter
  cases hat : fmt_at fmt ptr with
  | none => right; left; rfl
  | some c =>
    by_cases hnul : c = Char.ofNat 0
    · right; right
      simp only [hnul, if_true]
    · have hp := fmt_at_lt_of_ne_nul hat hnul
      rw [fmt_at_append fmt rest ptr hp, hat]
      simp only [hnul, if_false]
      cases hstack : st.stack with
      | nil =>
        simp only []
        rcases tail c ptr st with h | h
        · left; exact h
        · right; left; exact h
      | cons container below =>
        simp only []
        by_cases hd : c = delim_of container
        · simp only [hd, ne_eq, not_true_eq_false, if_false]
          rcases tail (delim_of container) ptr st with h | h
          · left; exact h
          · right; left; exact h
        · simp only [ne_eq, hd, not_false_eq_true, if_true]
          cases hscan : vpack_scan fmt (fmt.length + 2 - ptr) ptr none with
          | none =>
            right; left
            simp only [vpack_lookahead, hscan]
          | some r =>
            rw [vpack_lookahead_append fmt rest container ptr st r hscan]
            cases hsel : vpack_lookahead fmt container ptr st with
            | error e => left; rfl
            | ok x =>
              obtain ⟨ch, ptr1, st1⟩ := x
              simp only []
              rcases tail ch ptr1 st1 with h | h
              · left; exact h
              · right; left; exact h

theorem vpack_loop_append (rpct_new : String → Option rpc_object → Option rpc_object)
    (fmt rest : List Char) : ∀ (fuel ptr : Nat) (st : pack_state) (o : rpc_object),
    vpack_loop rpct_new fmt fuel ptr st = .object o →
    ∀ fuel1, fuel ≤ fuel1 → vpack_loop rpct_new (fmt ++ rest) fuel1 ptr st = .object o := by
  intro fuel
  induction fuel with
  | zero => intro ptr st o h; simp [vpack_loop] at h
  | succ k ih =>
    intro ptr st o h fuel1 hf
    obtain ⟨k1, rfl⟩ : ∃ k1, fuel1 = k1 + 1 := ⟨fuel1 - 1, by omega⟩
    rw [vpack_loop_succ] at h ⊢
    rcases vpack_iter_append rpct_new fmt rest ptr st with e | e | e
    · rw [e]
      cases hi : vpack_iter rpct_new fmt ptr st with
      | done r =>
        rw [hi] at h
        exact h
      | again p st1 =>
        rw [hi] at h
        exact ih p st1 o h k1 (by omega)
    · rw [e] at h; cases h
    · rw [e] at h; cases h

/-- Characters behind a format that packs to an object do not change the result. -/
theorem rpc_object_vpack_append (rpct_new : String → Option rpc_object → Option rpc_object)
    (fmt rest : List Char) (ap : List pack_arg) (o : rpc_object)
    (h : rpc_object_vpack rpct_new fmt ap = .object o) :
    rpc_object_vpack rpct_new (fmt ++ rest) ap = .object o := by
  unfold rpc_object_vpack at h ⊢
  exact vpack_loop_append rpct_new fmt rest _ _ _ o h _ (by simp)

/-! ## The claims -/

/-- C1, as stated, fails: with the format `{s:i,s:[i,i,i]}` each `s:` is
a literal key prefix, so the first `i` reads the stream entry `"n"`, which is not
an `int64` slot, and the result is not the dictionary `{n: 3, xs: [1, 2, 3]}`;
on a stream of four integers the same format gives the single key `s`. -/
theorem C1_counterexample :
    rpc_object_vpack rpct_none "\x7bs:i,s:[i,i,i]\x7d".toList scenario_stream
        = .fault .va_arg ∧
    rpc_object_vpack rpct_none "\x7bs:i,s:[i,i,i]\x7d".toList scenario_stream
        ≠ .object scenario_dict ∧
    rpc_object_vpack rpct_none "\x7bs:i,s:[i,i,i]\x7d".toList
        [.int64 3, .int64 1, .int64 2, .int64 3]
        = .object (.dictionary [("s", .array [.int64 1, .int64 2, .int64 3])]) := by
  have h : rpc_object_vpack rpct_none "\x7bs:i,s:[i,i,i]\x7d".toList scenario_stream
      = .fault .va_arg := by rfl
  refine ⟨h, ?_, by rfl⟩
  rw [h]
  intro hh
  cases hh

/-- C1, amended: with the format `{i,[i,i,i]}`, whose keys come from the
stream, and the argument stream `("n", 3, "xs", 1, 2, 3)`, `rpc_object_vpack`
returns the dictionary with exactly the two keys `n`, mapped to INT64 3, and
`xs`, mapped to the array `[1, 2, 3]`. -/
theorem C1_pack_scenario (rpct_new : String → Option rpc_object → Option rpc_object) :
    rpc_object_vpack rpct_new "\x7bi,[i,i,i]\x7d".toList scenario_stream
      = .object (.dictionary [("n", .int64 3), ("xs", .array [.int64 1, .int64 2, .int64 3])]) := by
  rfl

/-- C2, as stated, fails: with the format `{s:i,s:[i,i,i]}` and four out-pointers
the first token asks the stream for a key and finds an out-pointer; with the two
keys supplied the call still returns -1, at the `:` that unpack does not know. -/
theorem C2_counterexample :
    rpc_object_vunpack (some scenario_dict) "\x7bs:i,s:[i,i,i]\x7d".toList
        [.out, .out, .out, .out] = .fault .va_arg ∧
    rpc_object_vunpack (some scenario_dict) "\x7bs:i,s:[i,i,i]\x7d".toList
        [.out, .out, .out, .out] ≠ .count 4 [.int64 3, .int64 1, .int64 2, .int64 3] ∧
    rpc_object_vunpack (some scenario_dict) "\x7bs:i,s:[i,i,i]\x7d".toList
        [.key (some "n"), .out, .key (some "xs"), .out, .out, .out] = .fail false := by
  have h : rpc_object_vunpack (some scenario_dict) "\x7bs:i,s:[i,i,i]\x7d".toList
      [.out, .out, .out, .out] = .fault .va_arg := by rfl
  refine ⟨h, ?_, by rfl⟩
  rw [h]
  intro hh
  cases hh

/-- C2, amended: given the dictionary `{n: 3, xs: [1, 2, 3]}`, `rpc_object_vunpack`
with the format `{i[iii]}` (no separators, no key prefixes) and the stream
`("n", &a, "xs", &b, &c, &d)` returns 4 and binds the four outputs to
`(3, 1, 2, 3)`. -/
theorem C2_unpack_scenario :
    rpc_object_vunpack (some scenario_dict) "\x7bi[iii]\x7d".toList
        [.key (some "n"), .out, .key (some "xs"), .out, .out, .out]
      = .count 4 [.int64 3, .int64 1, .int64 2, .int64 3] := by
  rfl

/-- C3, as stated, fails: the format `[ii]` packs `(1, 2)` into the one-element
array `[1]`, on which unpacking with `[ii]` returns -1; the format `[i,i]` packs
`[1, 2]`, on which unpacking with `[i,i]` returns -1 at the comma. -/
theorem C3_counterexample :
    rpc_object_vpack rpct_none "[ii]".toList [.int64 1, .int64 2]
        = .object (.array [.int64 1]) ∧
    rpc_object_vunpack (some (.array [.int64 1])) "[ii]".toList [.out, .out] = .fail false ∧
    rpc_object_vpack rpct_none "[i,i]".toList [.int64 1, .int64 2]
        = .object (.array [.int64 1, .int64 2]) ∧
    rpc_object_vunpack (some (.array [.int64 1, .int64 2])) "[i,i]".toList [.out, .out]
        = .fail false := by
  refine ⟨by rfl, by rfl, by rfl, by rfl⟩

/-- C3, amended: for every format that is one of the scalar tokens `i u d s f`,
or one container `[ ]` or `{ }` holding nothing or one such format, with a
key string for every dictionary element in both argument streams (a C string,
so without NUL), `rpc_object_vpack` returns an object on which
`rpc_object_vunpack` with the same format succeeds, returns the number of
scalars and binds the out-pointers, in order, to the packed arguments, a string
argument being the text up to its terminator.  The token `b` is left out: pack
reads it with `va_arg (ap, bool)`, which is undefined. -/
theorem C3_round_trip_single_element (rpct_new : String → Option rpc_object → Option rpc_object)
    (g : nest) (rest : List pack_arg) (urest : List unpack_arg) (hg : g.c_keys = true) :
    ∃ o, rpc_object_vpack rpct_new g.fmt (g.pack_args ++ rest) = .object o ∧
      rpc_object_vunpack (some o) g.fmt (g.unpack_args ++ urest)
        = .count g.outs.length g.outs :=
  ⟨g.value, vpack_nest rpct_new g rest, vunpack_nest g hg urest⟩

/-- C3 at the format `{[s]}` with the key `k` and the string `a`: the packed
object is `{k: ["a"]}`, and unpacking it returns 1 and binds the out-pointer to
`a`. -/
theorem C3_round_trip_single_element_witness :
    (nest.dict "k" (.arr (.tok (.s (some "a"))))).c_keys = true ∧
    (nest.dict "k" (.arr (.tok (.s (some "a"))))).fmt = "\x7b[s]\x7d".toList ∧
    (nest.dict "k" (.arr (.tok (.s (some "a"))))).outs = [.str (some "a")] ∧
    ∃ o, rpc_object_vpack rpct_none "\x7b[s]\x7d".toList [.str (some "k"), .str (some "a")]
          = .object o ∧
      rpc_object_vunpack (some o) "\x7b[s]\x7d".toList [.key (some "k"), .out]
        = .count 1 [.str (some "a")] :=
  ⟨by rfl, by rfl, by rfl,
    C3_round_trip_single_element rpct_none (nest.dict "k" (.arr (.tok (.s (some "a"))))) [] []
      (by rfl)⟩

/-- C4 fails on the code for the token `b`: `va_arg (ap, bool)` (line 740) names
a type that the default argument promotions never deliver, so the read of
`pack("[b]", true)` is undefined whatever the stream holds, and no array
`[true]` is returned.  For the other scalar tokens the claim holds: a flat array
format `[t1,...,tn]` of tokens `n i u d s f` packs into an array of exactly `n`
elements whose element `k` is the value token `t(k+1)` builds from the next
unread arguments of the stream. -/
theorem C4_flat_array_bool_token (rpct_new : String → Option rpc_object → Option rpc_object) :
    (∀ ap : List pack_arg, rpc_object_vpack rpct_new "[b]".toList ap = .fault .va_arg) ∧
    ∀ (ts : List scalar_token) (rest : List pack_arg),
      ∃ xs, rpc_object_vpack rpct_new (flat_array_fmt (ts.map scalar_token.ch))
          (ts.flatMap scalar_token.args ++ rest) = .object (.array xs) ∧
        xs.length = ts.length ∧
        ∀ k (hk : k < ts.length), xs[k]? = some (ts.get ⟨k, hk⟩).value := by
  refine ⟨fun ap => by rfl, ?_⟩
  intro ts rest
  refine ⟨ts.map scalar_token.value, vpack_flat_array rpct_new ts rest, by simp, ?_⟩
  intro k hk
  simp [List.getElem?_eq_getElem, hk]

/-- C5 fails on the code for the token `b`: after the key has been read from
the stream, `va_arg (ap, bool)` (line 740) is undefined, so `pack("{b}", "k",
true)` returns no dictionary.  For the other scalar tokens the claim holds: a
flat dictionary format `{t1,...,tn}` of tokens `n i u d s f` without key prefix
reads, for each token in order, a key string and then the value of the token
from the stream, and returns a dictionary in which every key (the text up to
its terminator) has the value of its last occurrence and no other key is
present. -/
theorem C5_flat_dict_bool_token (rpct_new : String → Option rpc_object → Option rpc_object) :
    (∀ (key : Option String) (ap : List pack_arg),
      rpc_object_vpack rpct_new "\x7bb\x7d".toList (.str key :: ap) = .fault .va_arg) ∧
    ∀ (es : List (String × scalar_token)) (rest : List pack_arg),
      ∃ d, rpc_object_vpack rpct_new (flat_dict_fmt (es.map (fun e => e.2.ch)))
            (es.flatMap (fun e => .str (some e.1) :: e.2.args) ++ rest)
          = .object (.dictionary d) ∧
        ∀ k, dict_lookup d k
          = (es.reverse.find? (fun e => c_str e.1 = k)).map (fun e => e.2.value) := by
  refine ⟨fun key ap => by rfl, ?_⟩
  intro es rest
  refine ⟨_, vpack_flat_dict rpct_new es rest, ?_⟩
  intro k
  rw [dict_lookup_of_entries, ← List.map_reverse, List.find?_map]
  have hcomp : ((fun e : String × rpc_object => decide (e.1 = k)) ∘
      fun e : String × scalar_token => (c_str e.1, e.2.value))
      = fun e => decide (c_str e.1 = k) := rfl
  rw [hcomp]
  cases es.reverse.find? (fun e => decide (c_str e.1 = k)) <;> simp [dict_lookup]

/-- C6 fails on the code: the nested array is stored at the index left over from
its own last element, and a comma after its closing bracket closes the parent
as well.  `pack("[[i,i],i]", 1, 2, 3)` is `[null, [1, 2]]`, not `[[1, 2], 3]`,
and `pack("[i,[i,i,i]]", 1, 2, 3, 4)` is `[1, null, [2, 3, 4]]`, not
`[1, [2, 3, 4]]`. -/
theorem C6_nested_array_misplaced (rpct_new : String → Option rpc_object → Option rpc_object) :
    rpc_object_vpack rpct_new "[[i,i],i]".toList [.int64 1, .int64 2, .int64 3]
        = .object (.array [.null, .array [.int64 1, .int64 2]]) ∧
    rpc_object_vpack rpct_new "[i,[i,i,i]]".toList [.int64 1, .int64 2, .int64 3, .int64 4]
        = .object (.array [.int64 1, .null, .array [.int64 2, .int64 3, .int64 4]]) :=
  ⟨by rfl, by rfl⟩

/-- C7 fails on the code: the empty index prefix of `[:i]` is not a decimal number,
yet `strtol` consumes nothing, its end pointer equals the colon pointer, and the
call returns the array `[7]` instead of NULL; for the index `2147483648` the gap
counter `(int)(index - len)` is negative, no NULL is appended and the store goes
outside the array.  For a small index the gap is filled: `[2:i]` gives
`[null, null, 7]`. -/
theorem C7_index_prefix (rpct_new : String → Option rpc_object → Option rpc_object) :
    rpc_object_vpack rpct_new "[:i]".toList [.int64 7] = .object (.array [.int64 7]) ∧
    rpc_object_vpack rpct_new "[2147483648:i]".toList [.int64 7] = .fault .array_overrun ∧
    rpc_object_vpack rpct_new "[2:i]".toList [.int64 7]
        = .object (.array [.null, .null, .int64 7]) :=
  ⟨by rfl, by rfl, by rfl⟩

/-- C8 fails on the code for the token `b`: with a literal key no key is read
from the stream, but `va_arg (ap, bool)` (line 740) is undefined, so
`pack("{k:b}", true)` returns no dictionary.  For the other scalar tokens the
claim holds: a dictionary format `{k1:t1,...,kn:tn}` of tokens `n i u d s f`
whose literal keys contain none of `, : < [ ] { }` (and, being part of a C
string, no NUL) packs into the dictionary that stores each literal `ki` with
the value of `ti`, a later entry replacing an earlier one of the same key; the
stream holds the token values only, so no key is read from it, as for
`pack("{n:i,xs:s}", 3, "a")`, the dictionary `{n: 3, xs: "a"}`. -/
theorem C8_literal_keys_bool_token
    (rpct_new : String → Option rpc_object → Option rpc_object) :
    (∀ ap : List pack_arg,
      rpc_object_vpack rpct_new "\x7bk:b\x7d".toList ap = .fault .va_arg) ∧
    (∀ (es : List (List Char × scalar_token)) (rest : List pack_arg),
      (∀ e ∈ es, ∀ a ∈ e.1, plain_char a = true ∧ a ≠ Char.ofNat 0) →
      rpc_object_vpack rpct_new (literal_dict_fmt (es.map (fun e => (e.1, e.2.ch))))
          (es.flatMap (fun e => e.2.args) ++ rest)
        = .object (.dictionary
            (dict_of_entries [] (es.map (fun e => (String.mk e.1, e.2.value))))) ∧
      ∀ k, dict_lookup (dict_of_entries [] (es.map (fun e => (String.mk e.1, e.2.value)))) k
        = (es.reverse.find? (fun e => String.mk e.1 = k)).map (fun e => e.2.value)) ∧
    rpc_object_vpack rpct_new "\x7bn:i,xs:s\x7d".toList [.int64 3, .str (some "a")]
      = .object (.dictionary [("n", .int64 3), ("xs", .string "a")]) := by
  refine ⟨fun ap => by rfl, ?_, by rfl⟩
  intro es rest hk
  refine ⟨vpack_literal_dict rpct_new es rest hk, ?_⟩
  intro k
  rw [dict_lookup_of_entries, ← List.map_reverse, List.find?_map]
  have hcomp : ((fun e : String × rpc_object => decide (e.1 = k)) ∘
      fun e : List Char × scalar_token => (String.mk e.1, e.2.value))
      = fun e => decide (String.mk e.1 = k) := rfl
  rw [hcomp]
  cases es.reverse.find? (fun e => decide (String.mk e.1 = k)) <;> simp [dict_lookup]

/-- C9 fails on the code: in `[[i],x]` the character `x` stands at a token position
of the outer array, but the comma after the inner `]` dispatches that bracket a
second time, which closes the outer array, and `pack("[[i],x]", 1)` returns
`[[1]]` without ever reading `x`.  Reached directly, a character outside the
alphabet gives EINVAL, as for `[i,x]`. -/
theorem C9_bad_token_not_reached (rpct_new : String → Option rpc_object → Option rpc_object) :
    rpc_object_vpack rpct_new "[[i],x]".toList [.int64 1]
        = .object (.array [.array [.int64 1]]) ∧
    rpc_object_vpack rpct_new "[i,x]".toList [.int64 1] = .einval :=
  ⟨by rfl, by rfl⟩

/-- C10 fails on the code: on `[i`, `{i` and `<T` the scans of lines 663-688 and
771-779 have no test for the terminator and read the format string past its
end, instead of stopping there and returning NULL with EINVAL. -/
theorem C10_unclosed_overrun (rpct_new : String → Option rpc_object → Option rpc_object) :
    rpc_object_vpack rpct_new "[i".toList [.int64 1] = .fault .fmt_overrun ∧
    rpc_object_vpack rpct_new "\x7bi".toList [.str (some "k"), .int64 1] = .fault .fmt_overrun ∧
    rpc_object_vpack rpct_new "<T".toList [] = .fault .fmt_overrun :=
  ⟨by rfl, by rfl, by rfl⟩


/-- C12, as stated, fails: unpacking the STRING `"x"` with the format `i` does
not fail; it returns 1 and binds -1, the value `rpc_int64_get_value` returns for
a value of another tag.  The same happens one level down, with the format `[i]`
on the array `["x"]`. -/
theorem C12_counterexample :
    rpc_object_vunpack (some (.string "x")) "i".toList [.out] = .count 1 [.int64 (-1)] ∧
    rpc_object_vunpack (some (.array [.string "x"])) "[i]".toList [.out]
      = .count 1 [.int64 (-1)] := by
  constructor <;> rfl

/-- C12, amended: a scalar token `b i u d f s` that meets a value whose tag
differs from the tag its getter tests for does not make `rpc_object_vunpack`
fail.  In every flat array format `[t1...tk]` on an array of at least `k`
elements the call returns `k`, and the token at a position `j` where the tags
differ binds the getter's default (`false`, `-1`, `0`, `0.0`, `-1`, NULL); with
the token alone as the format the call returns 1 and binds that default. -/
theorem C12_mismatch_binds_default (toks : List Char) (xs : List rpc_object) (j : Nat)
    (c : Char) (v : rpc_object) (t : rpc_type_t)
    (hall : ∀ c ∈ toks, c = '*' ∨ is_bind_char c = true)
    (hlen : toks.length ≤ xs.length)
    (hj : toks[j]? = some c) (hv : xs[j]? = some v)
    (hc : getter_type c = some t) (hne : rpc_get_type v ≠ t) :
    rpc_object_vunpack (some (.array xs)) (flat_unpack_fmt toks) (token_args toks)
      = .count toks.length (token_outs toks xs) ∧
    (token_outs toks xs)[((toks.take j).filter is_bind_char).length]? = some (getter_default c) ∧
    rpc_object_vunpack (some v) [c] [.out] = .count 1 [getter_default c] := by
  have hb := (getter_type_bind c t hc).1
  have ho := unpack_bind_mismatch c v t hc hne
  refine ⟨?_, token_outs_at toks xs j c v _ hall hj hv ho, vunpack_single_token c v _ hb ho⟩
  rw [vunpack_flat_array toks xs hall, if_pos hlen]

/-- C12, amended, at the format `[i]` on the array `["x"]` and the format `i` on
the STRING `"x"`. -/
theorem C12_mismatch_binds_default_witness :
    (∀ c ∈ ['i'], c = '*' ∨ is_bind_char c = true) ∧
    ['i'].length ≤ [rpc_object.string "x"].length ∧
    ['i'][0]? = some 'i' ∧ [rpc_object.string "x"][0]? = some (rpc_object.string "x") ∧
    getter_type 'i' = some .RPC_TYPE_INT64 ∧
    rpc_get_type (.string "x") ≠ .RPC_TYPE_INT64 ∧
    (rpc_object_vunpack (some (.array [.string "x"])) (flat_unpack_fmt ['i']) (token_args ['i'])
      = .count ['i'].length (token_outs ['i'] [.string "x"]) ∧
    (token_outs ['i'] [.string "x"])[((['i'].take 0).filter is_bind_char).length]?
      = some (getter_default 'i') ∧
    rpc_object_vunpack (some (.string "x")) ['i'] [.out] = .count 1 [getter_default 'i']) :=
  ⟨by decide, by decide, by rfl, by rfl, by decide, by decide,
    C12_mismatch_binds_default ['i'] [.string "x"] 0 'i' (.string "x") .RPC_TYPE_INT64
      (by decide) (by decide) (by rfl) (by rfl) (by decide) (by decide)⟩

/-- C13, as stated, fails: on the array `[1, 2]` the format `[*i]` has one binding
token and one skip token, makes one binding (the value 2) and returns 2, not 1. -/
theorem C13_counterexample :
    rpc_object_vunpack (some (.array [.int64 1, .int64 2])) "[*i]".toList [.out]
      = .count 2 [.int64 2] := by
  rfl

/-- C13, amended: for every array of at least `k + m` elements and every format
`[...]` made of `k` binding tokens (`v b i u d f s`) and `m` skip tokens `*`,
`rpc_object_vunpack` makes `k` bindings and returns `k + m`: a `*` consumes an
element, makes no binding and is counted in the return value. -/
theorem C13_count_includes_skips (toks : List Char) (xs : List rpc_object)
    (hall : ∀ c ∈ toks, c = '*' ∨ is_bind_char c = true)
    (hlen : toks.length ≤ xs.length) :
    rpc_object_vunpack (some (.array xs)) (flat_unpack_fmt toks) (token_args toks)
      = .count ((toks.filter is_bind_char).length + toks.count '*') (token_outs toks xs) ∧
    (token_outs toks xs).length = (toks.filter is_bind_char).length ∧
    (token_args toks).length = (toks.filter is_bind_char).length := by
  refine ⟨?_, token_outs_length toks xs hall hlen, ?_⟩
  · rw [vunpack_flat_array toks xs hall, if_pos hlen, ← token_count_split toks hall]
  · clear hlen
    induction toks with
    | nil => rfl
    | cons c cs ih =>
      have ih1 := ih (fun c1 h1 => hall c1 (List.mem_cons_of_mem _ h1))
      rw [token_args_cons, List.length_append, ih1]
      rcases hall c (List.mem_cons_self _ _) with hc | hc
      · subst hc
        have : is_bind_char '*' = false := by decide
        simp [List.filter_cons, this, token_args]
      · have hne : c ≠ '*' := by
          intro hh; subst hh; revert hc; decide
        simp [List.filter_cons, hc, token_args, hne]
        omega

/-- C13, amended, at the format `[*i]` and the array `[1, 2]`. -/
theorem C13_count_includes_skips_witness :
    (∀ c ∈ ['*', 'i'], c = '*' ∨ is_bind_char c = true) ∧
    ['*', 'i'].length ≤ [rpc_object.int64 1, rpc_object.int64 2].length ∧
    (rpc_object_vunpack (some (.array [.int64 1, .int64 2])) (flat_unpack_fmt ['*', 'i'])
        (token_args ['*', 'i'])
      = .count ((['*', 'i'].filter is_bind_char).length + ['*', 'i'].count '*')
          (token_outs ['*', 'i'] [.int64 1, .int64 2]) ∧
    (token_outs ['*', 'i'] [.int64 1, .int64 2]).length
      = (['*', 'i'].filter is_bind_char).length ∧
    (token_args ['*', 'i']).length = (['*', 'i'].filter is_bind_char).length) :=
  ⟨by decide, by decide,
    C13_count_includes_skips ['*', 'i'] [.int64 1, .int64 2] (by decide) (by decide)⟩

/-- C14: the code at the claim's inputs.  On `[1, 2, 3]` the format `[iR]` binds
`R` to the empty array, not to the tail `[2, 3]`; on `[1, 2, 3, 4]` it binds
`[4]`; on `[1]` (`k = n`) it returns -1 and binds no tail.  Outside an array `R`
returns -1 with `EINVAL`, as the claim says. -/
theorem C14_tail_slice_off :
    rpc_object_vunpack (some (.array [.int64 1, .int64 2, .int64 3])) "[iR]".toList
        [.out, .out] = .count 2 [.int64 1, .obj (.array [])] ∧
    rpc_object_vunpack (some (.array [.int64 1, .int64 2, .int64 3, .int64 4])) "[iR]".toList
        [.out, .out] = .count 2 [.int64 1, .obj (.array [.int64 4])] ∧
    rpc_object_vunpack (some (.array [.int64 1])) "[iR]".toList [.out, .out] = .fail false ∧
    rpc_object_vunpack (some (.int64 1)) "R".toList [.out] = .fail true := by
  refine ⟨?_, ?_, ?_, ?_⟩ <;> rfl

/-- C15: for every array of `n` INT64 values and the format `[` followed by `k`
tokens `i` and `]`, with `k` out-pointers, `rpc_object_vunpack` returns `k` and
binds output `j` to element `j` for every `j < k` when `k ≤ n`, and returns -1
when `k > n`. -/
theorem C15_auto_index (vals : List Int) (k : Nat) :
    rpc_object_vunpack (some (.array (vals.map .int64))) ('[' :: (List.replicate k 'i' ++ [']']))
        (List.replicate k .out)
      = if k ≤ vals.length then .count k ((vals.take k).map .int64) else .fail false := by
  have h := vunpack_flat_array (List.replicate k 'i') (vals.map .int64) (by
    intro c hc
    rw [List.eq_of_mem_replicate hc]
    exact Or.inr (by decide))
  rw [token_args_replicate_i, List.length_replicate, List.length_map] at h
  rw [show '[' :: (List.replicate k 'i' ++ [']']) = flat_unpack_fmt (List.replicate k 'i') from rfl,
    h]
  by_cases hk : k ≤ vals.length
  · rw [if_pos hk, if_pos hk, token_outs_replicate_i k vals hk]
  · rw [if_neg hk, if_neg hk]

/-- C16: the hash of an ARRAY is the XOR of the hashes of its elements, so two
arrays of which one is a reordering of the other have the same `rpc_hash`. -/
theorem C16_array_hash_perm (env : host) (a b : List rpc_object) (h : a.Perm b) :
    rpc_hash env (.array a) = (a.map (rpc_hash env)).foldl (fun x y => x ^^^ y) 0 ∧
    rpc_hash env (.array a) = rpc_hash env (.array b) := by
  have e : ∀ xs, rpc_hash env (.array xs) = (xs.map (rpc_hash env)).foldl (fun x y => x ^^^ y) 0 := by
    intro xs
    rw [rpc_hash, rpc_hash_elements_eq]
  exact ⟨e a, by rw [e a, e b]; exact xor_foldl_perm (h.map _) 0⟩

/-- C16 at the arrays `[1, 2]` and `[2, 1]`. -/
theorem C16_array_hash_perm_witness :
    [rpc_object.int64 1, rpc_object.int64 2].Perm [rpc_object.int64 2, rpc_object.int64 1] ∧
    rpc_hash host_none (.array [.int64 1, .int64 2])
      = ([rpc_object.int64 1, rpc_object.int64 2].map (rpc_hash host_none)).foldl
          (fun x y => x ^^^ y) 0 ∧
    rpc_hash host_none (.array [.int64 1, .int64 2])
      = rpc_hash host_none (.array [.int64 2, .int64 1]) :=
  ⟨List.Perm.swap _ _ _,
    C16_array_hash_perm host_none [.int64 1, .int64 2] [.int64 2, .int64 1]
      (List.Perm.swap _ _ _)⟩

/-- C17: the hash of a DICT is the XOR, over its entries, of
`rpc_data_hash` of the key bytes XOR `rpc_hash` of the value, so it is the same
for every order in which the entries are iterated: two dictionaries holding the
same key/value pairs have the same `rpc_hash`. -/
theorem C17_dict_hash_perm (env : host) (d e : List (String × rpc_object)) (h : d.Perm e) :
    rpc_hash env (.dictionary d)
      = (d.map (fun p => rpc_data_hash (string_bytes p.1) (strlen (string_bytes p.1))
          ^^^ rpc_hash env p.2)).foldl (fun x y => x ^^^ y) 0 ∧
    rpc_hash env (.dictionary d) = rpc_hash env (.dictionary e) := by
  have q : ∀ kv, rpc_hash env (.dictionary kv)
      = (kv.map (fun p => rpc_data_hash (string_bytes p.1) (strlen (string_bytes p.1))
          ^^^ rpc_hash env p.2)).foldl (fun x y => x ^^^ y) 0 := by
    intro kv
    rw [rpc_hash, rpc_hash_entries_eq]
  exact ⟨q d, by rw [q d, q e]; exact xor_foldl_perm (h.map _) 0⟩

/-- C17 at the dictionaries `{a: 1, b: 2}` and `{b: 2, a: 1}`. -/
theorem C17_dict_hash_perm_witness :
    [("a", rpc_object.int64 1), ("b", rpc_object.int64 2)].Perm
      [("b", rpc_object.int64 2), ("a", rpc_object.int64 1)] ∧
    rpc_hash host_none (.dictionary [("a", .int64 1), ("b", .int64 2)])
      = ([("a", rpc_object.int64 1), ("b", rpc_object.int64 2)].map
          (fun p => rpc_data_hash (string_bytes p.1) (strlen (string_bytes p.1))
            ^^^ rpc_hash host_none p.2)).foldl (fun x y => x ^^^ y) 0 ∧
    rpc_hash host_none (.dictionary [("a", .int64 1), ("b", .int64 2)])
      = rpc_hash host_none (.dictionary [("b", .int64 2), ("a", .int64 1)]) :=
  ⟨List.Perm.swap _ _ _,
    C17_dict_hash_perm host_none [("a", .int64 1), ("b", .int64 2)]
      [("b", .int64 2), ("a", .int64 1)] (List.Perm.swap _ _ _)⟩

/-- C18, as stated, fails: for the payload `[1, 2]` the code returns 5859976,
the result of taking byte 2 first and byte 1 second, while djb2 over the bytes
from the first to the last is 5859944. -/
theorem C18_counterexample :
    rpc_hash host_none (.binary [1, 2] true) = 5859976 ∧
    djb2_first_to_last [1, 2] = 5859944 ∧
    rpc_hash host_none (.binary [1, 2] true) ≠ djb2_first_to_last [1, 2] := by
  refine ⟨by rfl, by rfl, by decide⟩

/-- C18, amended: for every BINARY value with payload bytes `b0..b(n-1)`,
`rpc_hash` is the result of starting from 5381 and applying `h := h * 33 + b`
modulo 2^64 to the bytes from the last byte `b(n-1)` to the first byte `b0`. -/
theorem C18_binary_hash_last_to_first (env : host) (bytes : List Nat) (copy : Bool) :
    rpc_hash env (.binary bytes copy) = djb2_first_to_last bytes.reverse := by
  rw [rpc_hash, rpc_data_hash, rpc_data_hash_loop_eq bytes bytes.length 5381 (le_refl _),
    List.take_length]
  rfl

/-- C19: `rpc_hash` of NULL is 0, of BOOL `b` is 1 or 0, of an INT64 `i` is `i`
reinterpreted as an unsigned 64-bit number (`i` itself when it is not negative,
`i + 2^64` otherwise), of a UINT64 `u` is `u`, and of a DATE is its seconds
value, converted the same way. -/
theorem C19_scalar_hashes (env : host) (b : Bool) (i : Int) (u : Nat) (secs : Int)
    (hi : -2 ^ 63 ≤ i ∧ i < 2 ^ 63) (hu : u < 2 ^ 64)
    (hs : -2 ^ 63 ≤ secs ∧ secs < 2 ^ 63) :
    rpc_hash env .null = 0 ∧
    rpc_hash env (.bool b) = (if b then 1 else 0) ∧
    rpc_hash env (.int64 i) = (if 0 ≤ i then i.toNat else (i + 2 ^ 64).toNat) ∧
    (rpc_hash env (.int64 i) : Int) % 2 ^ 64 = i % 2 ^ 64 ∧
    rpc_hash env (.uint64 u) = u ∧
    rpc_hash env (.date secs) = (if 0 ≤ secs then secs.toNat else (secs + 2 ^ 64).toNat) := by
  have conv : ∀ x : Int, -2 ^ 63 ≤ x ∧ x < 2 ^ 63 →
      (x % 2 ^ 64).toNat = (if 0 ≤ x then x.toNat else (x + 2 ^ 64).toNat) := by
    intro x hx
    by_cases h0 : 0 ≤ x
    · rw [if_pos h0]; congr 1; omega
    · rw [if_neg h0]; congr 1; omega
  refine ⟨by rw [rpc_hash], by rw [rpc_hash], ?_, ?_, ?_, ?_⟩
  · rw [rpc_hash]; exact conv i hi
  · rw [rpc_hash]; omega
  · rw [rpc_hash]; omega
  · rw [rpc_hash]; exact conv secs hs

/-- C19 at `true`, the INT64 -1, the UINT64 5 and the date of 10 seconds. -/
theorem C19_scalar_hashes_witness :
    ((-2 ^ 63 : Int) ≤ -1 ∧ (-1 : Int) < 2 ^ 63) ∧ 5 < 2 ^ 64 ∧
    ((-2 ^ 63 : Int) ≤ 10 ∧ (10 : Int) < 2 ^ 63) ∧
    rpc_hash host_none .null = 0 ∧
    rpc_hash host_none (.bool true) = (if true = true then 1 else 0) ∧
    rpc_hash host_none (.int64 (-1))
      = (if (0 : Int) ≤ -1 then (-1 : Int).toNat else ((-1 : Int) + 2 ^ 64).toNat) ∧
    (rpc_hash host_none (.int64 (-1)) : Int) % 2 ^ 64 = (-1 : Int) % 2 ^ 64 ∧
    rpc_hash host_none (.uint64 5) = 5 ∧
    rpc_hash host_none (.date 10)
      = (if (0 : Int) ≤ 10 then (10 : Int).toNat else ((10 : Int) + 2 ^ 64).toNat) :=
  ⟨by decide, by decide, by decide,
    C19_scalar_hashes host_none true (-1) 5 10 (by decide) (by decide) (by decide)⟩

/-- C20: the code at a STRING with a NUL among its bytes.  The value that
`rpc_string_create_len ("a\0b", 3)` builds holds three bytes and hashes to
93315; `rpc_copy` reads it through its `char *`, so the copy is the string `a`,
which hashes to 97. -/
theorem C20_copy_changes_hash :
    rpc_copy host_none (.string "a\x00b") = some (.string "a") ∧
    rpc_hash host_none (.string "a\x00b") = 93315 ∧
    rpc_hash host_none (.string "a") = 97 := by
  refine ⟨by rfl, by rfl, by rfl⟩

/-- C11: the code at the claim's example.  Packing `[i,x]` with the argument 1
on an empty heap creates the array at address 0 and the INT64 at address 1 and
stores the INT64 into the array; at `x` the error path releases `current`, which
still is that INT64, and frees the queue without releasing the array.  The call
ends with `EINVAL`, the array live with count 1 and never released, and its
element freed under it.  With `[x]` nothing is released and the array stays
live as well. -/
theorem C11_error_path_releases_stored_value :
    mem.rpc_object_vpack mem.rpct_none [] "[i,x]".toList [.int64 1]
      = .einval [some { ro_refcnt := 1, ro_value := .array [1] }, none] ∧
    mem.rpc_object_vpack mem.rpct_none [] "[x]".toList []
      = .einval [some { ro_refcnt := 1, ro_value := .array [] }] := by
  constructor <;> rfl

/-- C24: the code at an index 2^31 places behind the end of the array.  On the
empty array `rpc_array_steal_value (a, 2147483648, v)` computes the gap counter
`(int)(index - len)` as a negative number, appends no null object and then
writes slot 2147483648 of an array without elements: the store is outside the
array. -/
theorem C24_sparse_set_gap_counter :
    rpc_array_steal_value [] 2147483648 (.int64 7) = none := by
  rfl

/-- C25 fails on the code when the value is the one already stored under the key
and the dictionary holds its only reference: `g_hash_table_insert` passes the
replaced value to `rpc_release_impl`, which frees it, and
`rpc_dictionary_set_value` retains the value only after that.  With `d = {k: v}`
and `v` of count 1, `rpc_dictionary_steal_value (d, "k", v)` leaves a freed
object under the key and `rpc_dictionary_set_value (d, "k", v)` goes on to read
it.  Otherwise the claim holds.  Under a key that is absent, and under a key
that is present when the dictionary is live after the release of the old value
(and, for `rpc_dictionary_set_value`, the value as well, which it is whenever
that release does not free it), the store returns,
`rpc_dictionary_get_value (d, k)` is `v`, `rpc_dictionary_has_key (d, k)` is
true, the lookup of every other key is unchanged, and
`rpc_dictionary_get_count` is one more for a key that was absent and unchanged
for one that was present. -/
theorem C25_dictionary_store_frees_value :
    mem.rpc_dictionary_steal_value
        [some { ro_refcnt := 1, ro_value := .dictionary [("k", 1)] },
         some { ro_refcnt := 1, ro_value := .int64 7 }] 0 "k" 1
      = .ok [some { ro_refcnt := 1, ro_value := .dictionary [("k", 1)] }, none] ∧
    mem.rpc_dictionary_set_value
        [some { ro_refcnt := 1, ro_value := .dictionary [("k", 1)] },
         some { ro_refcnt := 1, ro_value := .int64 7 }] 0 "k" (some 1)
      = .fault .dead_object ∧
    ∀ (h : mem.heap) (d v : Nat) (key : String),
      (mem.rpc_dictionary_get_value h d key = .ok none →
        ∃ n, mem.rpc_dictionary_get_count h d = .ok n ∧
          mem.rpc_dictionary_has_key h d key = .ok false ∧
          (∃ h1, mem.rpc_dictionary_steal_value h d key v = .ok h1 ∧
            mem.rpc_dictionary_get_value h1 d key = .ok (some v) ∧
            mem.rpc_dictionary_has_key h1 d key = .ok true ∧
            (∀ k1, k1 ≠ key →
              mem.rpc_dictionary_get_value h1 d k1 = mem.rpc_dictionary_get_value h d k1) ∧
            mem.rpc_dictionary_get_count h1 d = .ok (n + 1)) ∧
          (mem.count h v ≠ none →
            ∃ h1, mem.rpc_dictionary_set_value h d key (some v) = .ok h1 ∧
              mem.rpc_dictionary_get_value h1 d key = .ok (some v) ∧
              mem.rpc_dictionary_has_key h1 d key = .ok true ∧
              (∀ k1, k1 ≠ key →
                mem.rpc_dictionary_get_value h1 d k1 = mem.rpc_dictionary_get_value h d k1) ∧
              mem.rpc_dictionary_get_count h1 d = .ok (n + 1))) ∧
      (∀ (old : Nat) (h2 : mem.heap) (m : Int),
        mem.rpc_dictionary_get_value h d key = .ok (some old) →
        mem.rpc_release_impl h (some old) = .ok (h2, m) → mem.count h2 d ≠ none →
        ∃ n, mem.rpc_dictionary_get_count h d = .ok n ∧
          mem.rpc_dictionary_has_key h d key = .ok true ∧
          (∃ h1, mem.rpc_dictionary_steal_value h d key v = .ok h1 ∧
            mem.rpc_dictionary_get_value h1 d key = .ok (some v) ∧
            mem.rpc_dictionary_has_key h1 d key = .ok true ∧
            (∀ k1, k1 ≠ key →
              mem.rpc_dictionary_get_value h1 d k1 = mem.rpc_dictionary_get_value h d k1) ∧
            mem.rpc_dictionary_get_count h1 d = .ok n) ∧
          (mem.count h2 v ≠ none →
            ∃ h1, mem.rpc_dictionary_set_value h d key (some v) = .ok h1 ∧
              mem.rpc_dictionary_get_value h1 d key = .ok (some v) ∧
              mem.rpc_dictionary_has_key h1 d key = .ok true ∧
              (∀ k1, k1 ≠ key →
                mem.rpc_dictionary_get_value h1 d k1 = mem.rpc_dictionary_get_value h d k1) ∧
              mem.rpc_dictionary_get_count h1 d = .ok n)) := by
  refine ⟨by rfl, by rfl, ?_⟩
  intro h d v key
  constructor
  · intro hg
    obtain ⟨kv, hp, hr⟩ := mem_get_value_payload h d key none hg
    have hf : kv.find? (fun e => e.1 = key) = none := by
      cases hx : kv.find? (fun e => e.1 = key) with
      | none => rfl
      | some y => rw [hx] at hr; cases hr
    have hk : key ∉ kv.map Prod.fst := by
      intro hmem
      obtain ⟨e, he, hek⟩ := List.mem_map.mp hmem
      have := List.find?_eq_none.mp hf e he
      simp [hek] at this
    obtain ⟨_, g2, g3⟩ := mem_getters_of_payload h d kv hp
    obtain ⟨h1, e1, hc1, hp1, hpb1⟩ := dict_steal_new_effect h d v kv key hp hk
    refine ⟨kv.length, g3, by rw [g2, hf]; rfl, ⟨h1, e1, ?_⟩, ?_⟩
    · exact (mem_stored_of_payload h h1 d v kv key hp).1 hf hp1
    · intro hv
      obtain ⟨h3, e3, hp3⟩ := rpc_retain_payload h1 v (by rw [hc1]; exact hv)
      refine ⟨h3, by simp only [mem.rpc_dictionary_set_value, e1]; exact e3, ?_⟩
      exact (mem_stored_of_payload h h3 d v kv key hp).1 hf (by rw [hp3, hp1])
  · intro old h2 m hg er hlive
    obtain ⟨kv, hp, hr⟩ := mem_get_value_payload h d key (some old) hg
    obtain ⟨e0, hf, he0⟩ : ∃ e0, kv.find? (fun e => e.1 = key) = some e0 ∧ e0.2 = old := by
      cases hx : kv.find? (fun e => e.1 = key) with
      | none => rw [hx] at hr; cases hr
      | some y => rw [hx] at hr; exact ⟨y, rfl, by simpa using hr.symm⟩
    subst he0
    obtain ⟨_, g2, g3⟩ := mem_getters_of_payload h d kv hp
    obtain ⟨h1, e1, hc1, hp1, hpb1⟩ :=
      dict_steal_replace_general h d v kv key e0 h2 m hp hf er hlive
    refine ⟨kv.length, g3, by rw [g2, hf]; rfl, ⟨h1, e1, ?_⟩, ?_⟩
    · exact (mem_stored_of_payload h h1 d v kv key hp).2 e0 hf hp1
    · intro hv
      obtain ⟨h3, e3, hp3⟩ := rpc_retain_payload h1 v (by rw [hc1]; exact hv)
      refine ⟨h3, by simp only [mem.rpc_dictionary_set_value, e1]; exact e3, ?_⟩
      exact (mem_stored_of_payload h h3 d v kv key hp).2 e0 hf (by rw [hp3, hp1])

/-- C26: `rpc_equal` holds exactly when the two hashes are equal, and for every
value `x` the array `[x, x]` is `rpc_equal` to the empty array, to the empty
dictionary and to the null value. -/
theorem C26_equal_is_hash_equality (env : host) (o1 o2 x : rpc_object) :
    (rpc_equal env o1 o2 = true ↔ rpc_hash env o1 = rpc_hash env o2) ∧
    rpc_equal env (.array [x, x]) (.array []) = true ∧
    rpc_equal env (.array [x, x]) (.dictionary []) = true ∧
    rpc_equal env (.array [x, x]) .null = true := by
  have h : rpc_hash env (.array [x, x]) = 0 := by
    rw [rpc_hash, rpc_hash_elements_eq]
    simp
  refine ⟨by simp [rpc_equal], ?_, ?_, ?_⟩
  · simp only [rpc_equal, h]
    simp [rpc_hash, rpc_hash_elements]
  · simp only [rpc_equal, h]
    simp [rpc_hash, rpc_hash_entries]
  · simp only [rpc_equal, h]
    simp [rpc_hash]

/-- C28: the code at a URI of a scheme other than `unix` and `tcp`, and at a
`unix` URI.  For `http://host` no address is derived and `socket_listen` returns
`NULL`, that is 0, where `socket_connect` returns -1; for `unix://sock` the
address is added and the function ends without returning a value. -/
theorem C28_listen_return_value :
    socket_parse_uri gio_plain "http://host" = some none ∧
    socket_listen gio_plain "http://host" = .ret 0 ∧
    socket_connect gio_plain "http://host" = .ret (-1) ∧
    socket_listen gio_plain "unix://sock" = .no_return := by
  refine ⟨?_, ?_, ?_, ?_⟩ <;> rfl

/-- C27: a container nested at depth `d` is rendered as `<array> [` or
`<dictionary> {`, then one line per child, indented by `4 * (d + 1)` blanks,
prefixed with `index: ` or `key: `, holding the child's own description at depth
`d + 1` and ended by `,`, then the closing bracket behind `4 * d` blanks.
`rpc_copy_description` returns this text for depth 0, which ends with the
bracket and not with a newline; the array `[1, 2]` and the null value are
rendered as in the claim. -/
theorem C27_description_shape (env : printer) (xs : List rpc_object)
    (kv : List (String × rpc_object)) (d : Nat)
    (hd : 4 * (d + 1) < 2 ^ 31) (hx : xs.length ≤ 2 ^ 32) :
    rpc_create_description env (.array xs) d true
      = "<array> [\n"
        ++ xs.enum.foldr (fun p acc =>
            String.mk (List.replicate (4 * (d + 1)) ' ') ++ Nat.repr p.1 ++ ": "
              ++ rpc_create_description env p.2 (d + 1) true ++ ",\n" ++ acc) ""
        ++ String.mk (List.replicate (4 * d) ' ') ++ "]" ∧
    rpc_create_description env (.dictionary kv) d true
      = "<dictionary> \x7b\n"
        ++ kv.foldr (fun e acc =>
            String.mk (List.replicate (4 * (d + 1)) ' ') ++ c_str e.1 ++ ": "
              ++ rpc_create_description env e.2 (d + 1) true ++ ",\n" ++ acc) ""
        ++ String.mk (List.replicate (4 * d) ' ') ++ "\x7d" ∧
    rpc_copy_description env (some (.array xs)) = rpc_create_description env (.array xs) 0 true ∧
    rpc_copy_description env (some (.dictionary kv))
      = rpc_create_description env (.dictionary kv) 0 true ∧
    (rpc_copy_description env (some (.array xs))).toList.getLast? = some ']' ∧
    (rpc_copy_description env (some (.dictionary kv))).toList.getLast? = some '\x7d' ∧
    rpc_copy_description env (some (.array [.int64 1, .int64 2]))
      = "<array> [\n    0: <int64> 1,\n    1: <int64> 2,\n]" ∧
    rpc_copy_description env (some .null) = "<null>" := by
  have hl : (d + 1) % 2 ^ 32 = d + 1 := Nat.mod_eq_of_lt (by omega)
  have hp1 : printf_pad (((d + 1) * 4) % 2 ^ 32) = String.mk (List.replicate (4 * (d + 1)) ' ') := by
    rw [printf_pad_small _ (by omega), Nat.mul_comm]
  have hp0 : (if d > 0 then printf_pad ((d * 4) % 2 ^ 32) else "")
      = String.mk (List.replicate (4 * d) ' ') := by
    by_cases h0 : d > 0
    · rw [if_pos h0, printf_pad_small _ (by omega), Nat.mul_comm]
    · have : d = 0 := by omega
      subst this
      rfl
  have ha : ∀ ys : List rpc_object, rpc_copy_description env (some (.array ys))
      = rpc_create_description env (.array ys) 0 true := by
    intro ys
    simp only [rpc_copy_description, rpc_create_description, description_head, description_tail]
    simp [← String.append_assoc, truncate_last_newline]
  have hdc : ∀ es : List (String × rpc_object), rpc_copy_description env (some (.dictionary es))
      = rpc_create_description env (.dictionary es) 0 true := by
    intro es
    simp only [rpc_copy_description, rpc_create_description, description_head, description_tail]
    simp [← String.append_assoc, truncate_last_newline]
  refine ⟨?_, ?_, ha xs, hdc kv, ?_, ?_, ?_, ?_⟩
  · rw [rpc_create_description, hl, description_elements_eq env (d + 1) xs 0 (by omega), hp0, hp1]
    simp [description_head, description_tail, rpc_types, rpc_get_type, List.enum,
      String.append_assoc]
  · rw [rpc_create_description, hl, description_entries_eq env (d + 1) kv, hp0, hp1]
    simp [description_head, description_tail, rpc_types, rpc_get_type, String.append_assoc]
  · rw [ha xs, rpc_create_description]
    simp only [description_tail, if_true, String.toList, String.data_append, List.append_nil]
    exact List.getLast?_concat _
  · rw [hdc kv, rpc_create_description]
    simp only [description_tail, if_true, String.toList, String.data_append, List.append_nil]
    exact List.getLast?_concat _
  · simp only [rpc_copy_description, rpc_create_description, description_elements]
    decide
  · simp only [rpc_copy_description, rpc_create_description]
    decide

/-- C27 at depth 1, the array `[1, 2]` and the dictionary `{k: true}`. -/
theorem C27_description_shape_witness :
    4 * (1 + 1) < 2 ^ 31 ∧ [rpc_object.int64 1, rpc_object.int64 2].length ≤ 2 ^ 32 ∧
    rpc_create_description printer_none (.array [.int64 1, .int64 2]) 1 true
      = "<array> [\n        0: <int64> 1,\n        1: <int64> 2,\n    ]" ∧
    rpc_create_description printer_none (.dictionary [("k", .bool true)]) 1 true
      = "<dictionary> \x7b\n        k: <bool> true,\n    \x7d" :=
  ⟨by decide, by decide, by
    have h := (C27_description_shape printer_none [.int64 1, .int64 2] [("k", .bool true)] 1
      (by decide) (by decide)).1
    rw [h]; decide, by decide⟩

/-- C21, as stated, fails: the copy of the array holding the FD 3 holds an FD
with another payload, the descriptor that `dup` returned. -/
theorem C21_counterexample :
    rpc_copy host_none (.array [.fd 3]) = some (.array [.fd 4]) := by
  rfl

/-- C21, amended: `rpc_copy` of an ARRAY is an array with the same element count
whose element at each index is the `rpc_copy` of the original's element, with
the same tag; `rpc_copy` of a DICT is a dictionary with the same keys whose
value at each key is the `rpc_copy` of the original's value, with the same tag.
The payload is the same for NULL, BOOL, INT64, UINT64, DOUBLE, DATE and BINARY
values and for a STRING without a NUL byte; an FD holds the descriptor that
`dup` returned.  In memory, `rpc_copy` of a well-formed object returns a new
live object with the count 1: no cell of the heap before the call is changed,
every object made by the call contains objects made by the call only, so that
nothing is shared with the original, and the copy of an array holds as many new
elements, the copy of a dictionary new values under the same keys. -/
theorem C21_copy_is_deep (env : host) (xs : List rpc_object) (kv : List (String × rpc_object))
    (hk : (kv.map Prod.fst).Nodup) (hn : ∀ e ∈ kv, c_str e.1 = e.1) :
    (∃ ys, rpc_copy env (.array xs) = some (.array ys) ∧
      rpc_array_get_count ys = rpc_array_get_count xs ∧
      List.Forall₂ (fun v c => rpc_copy env v = some c ∧ rpc_get_type c = rpc_get_type v)
        xs ys) ∧
    (∃ es, rpc_copy env (.dictionary kv) = some (.dictionary es) ∧
      es.map Prod.fst = kv.map Prod.fst ∧
      ∀ k v, rpc_dictionary_get_value kv k = some v →
        ∃ c, rpc_dictionary_get_value es k = some c ∧ rpc_copy env v = some c ∧
          rpc_get_type c = rpc_get_type v) ∧
    (∀ (b : Bool) (i : Int) (u : Nat) (bits : Nat) (secs : Int) (bytes : List Nat)
        (copy : Bool) (s : String) (n : Int),
      rpc_copy env .null = some .null ∧
      rpc_copy env (.bool b) = some (.bool b) ∧
      rpc_copy env (.int64 i) = some (.int64 i) ∧
      rpc_copy env (.uint64 u) = some (.uint64 u) ∧
      rpc_copy env (.double bits) = some (.double bits) ∧
      rpc_copy env (.date secs) = some (.date secs) ∧
      rpc_copy env (.binary bytes copy) = some (.binary bytes true) ∧
      (c_str s = s → rpc_copy env (.string s) = some (.string s)) ∧
      rpc_copy env (.fd n) = some (.fd (env.dup n))) ∧
    (∀ (depth fuel : Nat) (h : mem.heap) (a : Nat),
      mem.well_formed depth h a = true → depth ≤ fuel →
      ∃ h1 c o1, mem.rpc_copy env fuel h a = .ok (h1, c) ∧
        h.length ≤ c ∧ h1[c]? = some (some o1) ∧ o1.ro_refcnt = 1 ∧
        (∀ j, j < h.length → h1[j]? = h[j]?) ∧
        mem.fresh_from h.length h1 ∧
        (∀ o vs, h[a]? = some (some o) → o.ro_value = .array vs →
          ∃ ws, o1.ro_value = .array ws ∧ ws.length = vs.length ∧ ∀ w ∈ ws, h.length ≤ w) ∧
        (∀ o es, h[a]? = some (some o) → o.ro_value = .dictionary es →
          ∃ fs, o1.ro_value = .dictionary fs ∧
            fs.map Prod.fst = es.map (fun e => c_str e.1) ∧ ∀ e ∈ fs, h.length ≤ e.2)) := by
  refine ⟨?_, ?_, ?_, ?_⟩
  · obtain ⟨ys, hys, hf⟩ := rpc_copy_elements_eq env xs []
    refine ⟨ys, ?_, ?_, ?_⟩
    · rw [rpc_copy]
      rw [show (0 : Nat) = ([] : List rpc_object).length from rfl, hys]
      rfl
    · exact hf.length_eq.symm
    · exact hf.imp (fun v c h => ⟨h, rpc_copy_type env v c h⟩)
  · obtain ⟨es, hes, hf⟩ := rpc_copy_entries_eq env kv [] hk hn (by simp)
    refine ⟨es, ?_, ?_, ?_⟩
    · rw [rpc_copy, hes]
      rfl
    · clear hes hk hn
      induction hf with
      | nil => rfl
      | cons hh _ ih => simp [hh.1, ih]
    · intro k v hv
      obtain ⟨c, h1, h2⟩ := dict_lookup_forall₂ env kv es hf k v hv
      exact ⟨c, h1, h2, rpc_copy_type env v c h2⟩
  · intro b i u bits secs bytes copy s n
    refine ⟨rfl, rfl, rfl, rfl, rfl, rfl, rfl, ?_, rfl⟩
    intro hs
    rw [rpc_copy]
    simp only [rpc_string_create, hs]
  · intro depth fuel h a hw hd
    obtain ⟨h1, c, o1, e, hlive, hcnt, harr, hdict⟩ :=
      rpc_copy_total env fuel h a (well_formed_mono depth fuel h a hd hw)
    obtain ⟨hc, _, hfresh, hkeep⟩ := rpc_copy_keeps env fuel h a h1 c e
    refine ⟨h1, c, o1, e, hc, hlive, hcnt, hkeep, hfresh, ?_, ?_⟩
    · intro o vs ho hv
      obtain ⟨ws, hws, hl⟩ := harr o vs ho hv
      refine ⟨ws, hws, hl, ?_⟩
      intro w hw1
      exact hfresh c o1 hc hlive w (by rw [hws]; exact (mem_contained_array w ws).mpr hw1)
    · intro o es ho hv
      obtain ⟨fs, hfs, hl⟩ := hdict o es ho hv
      refine ⟨fs, hfs, hl, ?_⟩
      intro e1 he1
      exact hfresh c o1 hc hlive e1.2
        (by rw [hfs]; exact (mem_contained_dictionary e1.2 fs).mpr ⟨e1, he1, rfl⟩)

/-- C21, amended, at the dictionary `{a: [1], b: "x"}` and the array `[[1], 2]`,
and in memory at the array `[7, ["x"]]` held in four cells, whose copy is made in
the cells 4 to 7. -/
theorem C21_copy_is_deep_witness :
    ([("a", rpc_object.array [.int64 1]), ("b", rpc_object.string "x")].map Prod.fst).Nodup ∧
    (∀ e ∈ [("a", rpc_object.array [.int64 1]), ("b", rpc_object.string "x")],
      c_str e.1 = e.1) ∧
    rpc_copy host_none (.array [.array [.int64 1], .int64 2])
      = some (.array [.array [.int64 1], .int64 2]) ∧
    (∃ es, rpc_copy host_none
        (.dictionary [("a", rpc_object.array [.int64 1]), ("b", rpc_object.string "x")])
          = some (.dictionary es) ∧
      es.map Prod.fst
        = [("a", rpc_object.array [.int64 1]), ("b", rpc_object.string "x")].map Prod.fst ∧
      ∀ k v, rpc_dictionary_get_value
          [("a", rpc_object.array [.int64 1]), ("b", rpc_object.string "x")] k = some v →
        ∃ c, rpc_dictionary_get_value es k = some c ∧ rpc_copy host_none v = some c ∧
          rpc_get_type c = rpc_get_type v) ∧
    mem.well_formed 3
        [some { ro_refcnt := 1, ro_value := .array [1, 2] },
         some { ro_refcnt := 1, ro_value := .int64 7 },
         some { ro_refcnt := 1, ro_value := .array [3] },
         some { ro_refcnt := 1, ro_value := .string "x" }] 0 = true ∧
    mem.rpc_copy host_none 3
        [some { ro_refcnt := 1, ro_value := .array [1, 2] },
         some { ro_refcnt := 1, ro_value := .int64 7 },
         some { ro_refcnt := 1, ro_value := .array [3] },
         some { ro_refcnt := 1, ro_value := .string "x" }] 0
      = .ok ([some { ro_refcnt := 1, ro_value := .array [1, 2] },
         some { ro_refcnt := 1, ro_value := .int64 7 },
         some { ro_refcnt := 1, ro_value := .array [3] },
         some { ro_refcnt := 1, ro_value := .string "x" },
         some { ro_refcnt := 1, ro_value := .array [5, 6] },
         some { ro_refcnt := 1, ro_value := .int64 7 },
         some { ro_refcnt := 1, ro_value := .array [7] },
         some { ro_refcnt := 1, ro_value := .string "x" }], 4) ∧
    (∃ h1 c o1, mem.rpc_copy host_none 3
        [some { ro_refcnt := 1, ro_value := .array [1, 2] },
         some { ro_refcnt := 1, ro_value := .int64 7 },
         some { ro_refcnt := 1, ro_value := .array [3] },
         some { ro_refcnt := 1, ro_value := .string "x" }] 0 = .ok (h1, c) ∧
      4 ≤ c ∧ h1[c]? = some (some o1) ∧ o1.ro_refcnt = 1 ∧ mem.fresh_from 4 h1) :=
  ⟨by decide, by decide, by rfl,
    (C21_copy_is_deep host_none [.array [.int64 1], .int64 2]
      [("a", .array [.int64 1]), ("b", .string "x")] (by decide) (by decide)).2.1,
    by rfl, by rfl,
    by
      obtain ⟨h1, c, o1, e, hc, hl, hr, _, hf, _⟩ :=
        (C21_copy_is_deep host_none [.array [.int64 1], .int64 2]
          [("a", .array [.int64 1]), ("b", .string "x")] (by decide) (by decide)).2.2.2 3 3
          [some { ro_refcnt := 1, ro_value := .array [1, 2] },
           some { ro_refcnt := 1, ro_value := .int64 7 },
           some { ro_refcnt := 1, ro_value := .array [3] },
           some { ro_refcnt := 1, ro_value := .string "x" }] 0 (by rfl) (le_refl 3)
      exact ⟨h1, c, o1, e, hc, hl, hr, hf⟩⟩

/-- C29, as stated, fails: the untyped dictionary `{%type: "T", %value: 1}`
carries no type instance, is serialised to itself, and is deserialised to the
INT64 1 with the type `T` attached, whose hash is 1 and not the hash of the
dictionary. -/
theorem C29_counterexample :
    rpct_serialize (.dictionary none
        [("%type", .leaf none (.string "T")), ("%value", .leaf none (.int64 1))])
      = .dictionary [("%type", .string "T"), ("%value", .int64 1)] ∧
    rpct_deserialize (fun _ => true)
        (.dictionary [("%type", .string "T"), ("%value", .int64 1)])
      = some (.leaf (some "T") (.int64 1)) ∧
    rpc_hash host_none (typed_object.value (.leaf (some "T") (.int64 1))) = 1 ∧
    rpc_hash host_none (typed_object.value (.dictionary none
        [("%type", .leaf none (.string "T")), ("%value", .leaf none (.int64 1))]))
      = 7026375131966 := by
  refine ⟨rfl, rfl, rfl, ?_⟩
  decide

/-- C29, amended: for every Value whose attached type instances are all
registered and in which no dictionary uses the reserved key `%type`,
`rpct_deserialize (rpct_serialize (v))` is `v` itself, type instances included,
and so has the `rpc_hash` of `v`; `rpct_serialize` replaces a typed Value by the
dictionary with the keys `%type` and `%value`. -/
theorem C29_round_trip (registered : String → Bool) (env : host) (v : typed_object)
    (h : serializable registered v = true) :
    rpct_deserialize registered (rpct_serialize v) = some v ∧
    (rpct_deserialize registered (rpct_serialize v)).map (fun r => rpc_hash env r.value)
      = some (rpc_hash env v.value) ∧
    (∀ t payload, rpct_wrap (some t) payload
      = .dictionary [("%type", .string t), ("%value", payload)]) := by
  have e := rpct_round_trip registered v h
  exact ⟨e, by rw [e]; rfl, fun _ _ => rfl⟩

/-- C29, amended, at the array holding a typed INT64 and an untyped dictionary. -/
theorem C29_round_trip_witness :
    serializable (fun t => decide (t = "T"))
      (.array none [.leaf (some "T") (.int64 1), .dictionary none [("k", .leaf none .null)]])
      = true ∧
    rpct_serialize
      (.array none [.leaf (some "T") (.int64 1), .dictionary none [("k", .leaf none .null)]])
      = .array [.dictionary [("%type", .string "T"), ("%value", .int64 1)],
          .dictionary [("k", .null)]] ∧
    rpct_deserialize (fun t => decide (t = "T")) (rpct_serialize
      (.array none [.leaf (some "T") (.int64 1), .dictionary none [("k", .leaf none .null)]]))
      = some
        (.array none [.leaf (some "T") (.int64 1), .dictionary none [("k", .leaf none .null)]]) :=
  ⟨by decide, rfl,
    (C29_round_trip (fun t => decide (t = "T")) host_none
      (.array none [.leaf (some "T") (.int64 1), .dictionary none [("k", .leaf none .null)]])
      (by decide)).1⟩

/-- C22: a constructor returns a live object with count 1.  For a live object
with count `r ≥ 1` (and `r + 1` within the `int` counter), `rpc_retain` makes
the count `r + 1`; `rpc_release_impl` makes it `r - 1` and returns the remaining
count when `r ≥ 2`, and for `r = 1` returns 0 with the object destroyed (the
alternative being undefined behaviour in the release of a contained object; with
nothing contained the heap is the old one with the object freed).  After `n`
retains and `n` releases a fresh object is the same as before, alive with count
1, and one further release destroys it.  `rpc_release_impl (NULL)` returns 0 and
leaves the heap. -/
theorem C22_refcount_balance (h : mem.heap) (val : mem.rpc_value) (a : Nat)
    (o : mem.rpc_object) (n : Nat)
    (ha : h[a]? = some (some o)) (hr : 1 ≤ o.ro_refcnt) (hmax : o.ro_refcnt + 1 < 2 ^ 31)
    (hn : (n : Int) + 1 < 2 ^ 31) :
    (mem.rpc_prim_create h val).1[(mem.rpc_prim_create h val).2]?
      = some (some { ro_refcnt := 1, ro_value := val }) ∧
    mem.rpc_retain h a = .ok (h.set a (some { o with ro_refcnt := o.ro_refcnt + 1 })) ∧
    (2 ≤ o.ro_refcnt →
      mem.rpc_release_impl h (some a)
        = .ok (h.set a (some { o with ro_refcnt := o.ro_refcnt - 1 }), o.ro_refcnt - 1)) ∧
    (o.ro_refcnt = 1 →
      (∃ h1, mem.rpc_release_impl h (some a) = .ok (h1, 0) ∧ h1[a]? = some none) ∨
      (∃ k, mem.rpc_release_impl h (some a) = .fault k)) ∧
    (o.ro_refcnt = 1 → mem.contained o.ro_value = [] →
      mem.rpc_release_impl h (some a) = .ok (h.set a none, 0)) ∧
    mem.rpc_release_impl h none = .ok (h, 0) ∧
    (∃ h1, mem.retain_times n (mem.rpc_prim_create h val).1 (mem.rpc_prim_create h val).2
        = .ok h1 ∧
      h1[(mem.rpc_prim_create h val).2]? = some (some { ro_refcnt := 1 + n, ro_value := val }) ∧
      mem.release_times n h1 (mem.rpc_prim_create h val).2
        = .ok (mem.rpc_prim_create h val).1) ∧
    ((∃ h1, mem.rpc_release_impl (mem.rpc_prim_create h val).1
          (some (mem.rpc_prim_create h val).2) = .ok (h1, 0) ∧
        h1[(mem.rpc_prim_create h val).2]? = some none) ∨
      (∃ k, mem.rpc_release_impl (mem.rpc_prim_create h val).1
          (some (mem.rpc_prim_create h val).2) = .fault k)) := by
  have hp := rpc_prim_create_live h val
  have hplt : (mem.rpc_prim_create h val).2 < (mem.rpc_prim_create h val).1.length := by
    simp [mem.rpc_prim_create]
  refine ⟨hp, rpc_retain_live h a o ha (by omega) hmax,
    fun h2 => rpc_release_impl_positive h a o ha h2,
    fun h1 => rpc_release_impl_destroys h a o ha h1,
    fun h1 hc => rpc_release_impl_leaf h a o ha h1 hc, rfl, ?_,
    rpc_release_impl_destroys _ _ _ hp rfl⟩
  refine ⟨_, retain_times_eq n _ _ _ hp (by simp) (by simp; omega), ?_, ?_⟩
  · simp only [List.getElem?_set, if_true, hplt]
  · rw [release_times_eq n _ _ { ro_refcnt := 1 + n, ro_value := val }
      (by simp only [List.getElem?_set, if_true, hplt]) (by simp; omega), List.set_set]
    simp only [add_sub_cancel_right]
    have := set_getElem_same (mem.rpc_prim_create h val).1 _ hplt
    rw [List.getElem?_eq_getElem hplt] at hp
    simp only [Option.some.injEq] at hp
    rw [hp] at this
    rw [this]

/-- C22 at a heap holding one INT64 of count 1, a new null object and 3 retains. -/
theorem C22_refcount_balance_witness :
    ([some { ro_refcnt := 1, ro_value := .int64 5 }] : mem.heap)[0]?
      = some (some { ro_refcnt := 1, ro_value := .int64 5 }) ∧
    mem.rpc_retain [some { ro_refcnt := 1, ro_value := .int64 5 }] 0
      = .ok [some { ro_refcnt := 2, ro_value := .int64 5 }] ∧
    mem.rpc_release_impl [some { ro_refcnt := 1, ro_value := .int64 5 }] (some 0)
      = .ok ([none], 0) ∧
    mem.rpc_release_impl [some { ro_refcnt := 1, ro_value := .int64 5 }] none
      = .ok ([some { ro_refcnt := 1, ro_value := .int64 5 }], 0) :=
  ⟨rfl,
    (C22_refcount_balance [some { ro_refcnt := 1, ro_value := .int64 5 }] .null 0
      { ro_refcnt := 1, ro_value := .int64 5 } 3 rfl (by decide) (by decide) (by decide)).2.1,
    rfl, rfl⟩

/-- C23: the objects a container passes a release on to are the elements of an
array, the values of a dictionary, `extra` and `stack` of an error.  The release
that brings the count of the container to zero applies `rpc_release_impl` once
to each of them, in order, and then frees the container; when they are distinct
objects with counts of at least 2, each count has gone down by exactly one and
no other object has changed.  A release that leaves the count of the container
positive changes no other object.  The release never exhausts the step budget. -/
theorem C23_release_cascades (h : mem.heap) (a : Nat) (o : mem.rpc_object) (cs : List Nat)
    (ha : h[a]? = some (some o)) :
    (∀ xs, mem.contained (.array xs) = xs.map some) ∧
    (∀ kv, mem.contained (.dictionary kv) = kv.map (fun e => some e.2)) ∧
    (∀ code msg extra stack, mem.contained (.error code msg extra stack) = [extra, stack]) ∧
    (o.ro_refcnt = 1 →
      mem.rpc_release_impl h (some a)
        = match mem.release_each (h.set a (some { o with ro_refcnt := 0 }))
            (mem.contained o.ro_value) with
          | .ok h1 => .ok (h1.set a none, 0)
          | .fault k => .fault k
          | .fuel => .fuel) ∧
    (o.ro_refcnt = 1 → mem.contained o.ro_value = cs.map some → cs.Nodup → a ∉ cs →
      (∀ c ∈ cs, ∃ oc, h[c]? = some (some oc) ∧ 2 ≤ oc.ro_refcnt) →
      ∃ h1, mem.rpc_release_impl h (some a) = .ok (h1, 0) ∧ h1[a]? = some none ∧
        (∀ c ∈ cs, ∀ oc, h[c]? = some (some oc) →
          h1[c]? = some (some { oc with ro_refcnt := oc.ro_refcnt - 1 })) ∧
        (∀ j, j ≠ a → j ∉ cs → h1[j]? = h[j]?)) ∧
    (2 ≤ o.ro_refcnt →
      ∃ h1 n, mem.rpc_release_impl h (some a) = .ok (h1, n) ∧ ∀ j, j ≠ a → h1[j]? = h[j]?) ∧
    mem.rpc_release_impl h (some a) ≠ .fuel := by
  obtain ⟨hlt, _⟩ := List.getElem?_eq_some_iff.mp ha
  refine ⟨fun _ => rfl, fun _ => rfl, fun _ _ _ _ => rfl,
    fun h1 => rpc_release_impl_last h a o ha h1, ?_, ?_, rpc_release_impl_total h (some a)⟩
  · intro h1 hc hnd hna hall
    have hother : ∀ j, j ≠ a → (h.set a (some { o with ro_refcnt := 0 }))[j]? = h[j]? := by
      intro j hj
      rw [List.getElem?_set, if_neg (Ne.symm hj)]
    obtain ⟨h2, e2, p1, p2⟩ := release_each_decrements cs
      (h.set a (some { o with ro_refcnt := 0 })) hnd (by
        intro c hcm
        obtain ⟨oc, hoc, hrc⟩ := hall c hcm
        exact ⟨oc, by rw [hother c (by intro hh; subst hh; exact hna hcm), hoc], hrc⟩)
    have hl := release_each_length _ _ _ e2
    rw [List.length_set] at hl
    refine ⟨h2.set a none, ?_, ?_, ?_, ?_⟩
    · rw [rpc_release_impl_last h a o ha h1, hc, e2]
    · rw [List.getElem?_set, if_pos rfl, if_pos (by omega)]
    · intro c hcm oc hoc
      have hca : c ≠ a := by intro hh; subst hh; exact hna hcm
      rw [List.getElem?_set, if_neg (Ne.symm hca)]
      exact p1 c hcm oc (by rw [hother c hca, hoc])
    · intro j hja hjc
      rw [List.getElem?_set, if_neg (Ne.symm hja), p2 j hjc, hother j hja]
  · intro h2
    refine ⟨_, _, rpc_release_impl_positive h a o ha h2, ?_⟩
    intro j hj
    rw [List.getElem?_set, if_neg (Ne.symm hj)]

/-- C23 at the heap holding an array of count 1 at address 0 with the elements
1 and 2, two INT64 of count 2: the array is freed and each element has count 1. -/
theorem C23_release_cascades_witness :
    ([some { ro_refcnt := 1, ro_value := .array [1, 2] },
      some { ro_refcnt := 2, ro_value := .int64 7 },
      some { ro_refcnt := 2, ro_value := .int64 8 }] : mem.heap)[0]?
      = some (some { ro_refcnt := 1, ro_value := .array [1, 2] }) ∧
    mem.rpc_release_impl
        [some { ro_refcnt := 1, ro_value := .array [1, 2] },
         some { ro_refcnt := 2, ro_value := .int64 7 },
         some { ro_refcnt := 2, ro_value := .int64 8 }] (some 0)
      = .ok ([none, some { ro_refcnt := 1, ro_value := .int64 7 },
              some { ro_refcnt := 1, ro_value := .int64 8 }], 0) ∧
    mem.rpc_release_impl
        [some { ro_refcnt := 1, ro_value := .array [1, 2] },
         some { ro_refcnt := 2, ro_value := .int64 7 },
         some { ro_refcnt := 2, ro_value := .int64 8 }] (some 0) ≠ .fuel :=
  ⟨rfl, rfl,
    (C23_release_cascades
      [some { ro_refcnt := 1, ro_value := .array [1, 2] },
       some { ro_refcnt := 2, ro_value := .int64 7 },
       some { ro_refcnt := 2, ro_value := .int64 8 }] 0
      { ro_refcnt := 1, ro_value := .array [1, 2] } [1, 2] rfl).2.2.2.2.2.2⟩
/-- C31: for every array of `n` elements (`n` fits the `guint` length of a
`GPtrArray`) and index `i < n`, `rpc_array_set_value (a, i, NULL)` leaves `n - 1`
elements, the elements before `i` unchanged and every element formerly at
`j > i` now at `j - 1`; for `i ≥ n` the array is unchanged. -/
theorem C31_set_null_removes (xs : List rpc_object) (i : Nat) (hn : xs.length < 2 ^ 32) :
    (i < xs.length →
      ∃ ys, rpc_array_set_value xs i none = some ys ∧
        rpc_array_get_count ys = rpc_array_get_count xs - 1 ∧
        (∀ j, j < i → ys[j]? = xs[j]?) ∧
        (∀ j, i < j → j < xs.length → ys[j - 1]? = xs[j]?)) ∧
    (xs.length ≤ i → rpc_array_set_value xs i none = some xs) := by
  refine ⟨?_, ?_⟩
  · intro hi
    have hm : i % 2 ^ 32 = i := Nat.mod_eq_of_lt (by omega)
    refine ⟨xs.eraseIdx i, ?_, ?_, ?_, ?_⟩
    · simp only [rpc_array_set_value, rpc_array_remove_index, rpc_array_get_count, hm]
      rw [if_neg (by omega)]
    · simp only [rpc_array_get_count]
      rw [List.length_eraseIdx, if_pos hi]
    · intro j hj
      rw [List.getElem?_eraseIdx, if_pos hj]
    · intro j hj _
      rw [List.getElem?_eraseIdx, if_neg (by omega)]
      congr 1
      omega
  · intro hi
    simp only [rpc_array_set_value, rpc_array_remove_index, rpc_array_get_count]
    rw [if_pos hi]

/-- C31 at the array `[1, 2, 3]`: removing index 1 gives `[1, 3]`, removing
index 3 changes nothing. -/
theorem C31_set_null_removes_witness :
    [rpc_object.int64 1, .int64 2, .int64 3].length < 2 ^ 32 ∧
    rpc_array_set_value [.int64 1, .int64 2, .int64 3] 1 none = some [.int64 1, .int64 3] ∧
    (∃ ys, rpc_array_set_value [.int64 1, .int64 2, .int64 3] 1 none = some ys ∧
        rpc_array_get_count ys = rpc_array_get_count [.int64 1, .int64 2, .int64 3] - 1 ∧
        (∀ j, j < 1 → ys[j]? = [rpc_object.int64 1, .int64 2, .int64 3][j]?) ∧
        (∀ j, 1 < j → j < [rpc_object.int64 1, .int64 2, .int64 3].length →
          ys[j - 1]? = [rpc_object.int64 1, .int64 2, .int64 3][j]?)) ∧
    rpc_array_set_value [.int64 1, .int64 2, .int64 3] 3 none
        = some [.int64 1, .int64 2, .int64 3] :=
  ⟨by decide, by rfl,
    (C31_set_null_removes [.int64 1, .int64 2, .int64 3] 1 (by decide)).1 (by decide),
    (C31_set_null_removes [.int64 1, .int64 2, .int64 3] 3 (by decide)).2 (by decide)⟩

/-- C36: `rpc_array_get_int64 (a, i)` returns 0 when `i` is out of range, the
stored value when `a[i]` has the tag INT64 and -1 when it has another tag;
`rpc_dictionary_get_int64 (d, k)` returns 0 when `k` is absent, the stored value
for an INT64 and -1 for another tag; an INT64 holding -1 gives the same result as
a tag mismatch. -/
theorem C36_int64_getter_defaults (xs : List rpc_object) (kv : List (String × rpc_object))
    (i : Nat) (k : String) :
    (xs.length ≤ i → rpc_array_get_int64 (.array xs) i = some 0) ∧
    (∀ v, xs[i]? = some (.int64 v) → rpc_array_get_int64 (.array xs) i = some v) ∧
    (∀ e, xs[i]? = some e → rpc_get_type e ≠ .RPC_TYPE_INT64 →
      rpc_array_get_int64 (.array xs) i = some (-1)) ∧
    (rpc_dictionary_get_value kv k = none → rpc_dictionary_get_int64 kv k = 0) ∧
    (∀ v, rpc_dictionary_get_value kv k = some (.int64 v) →
      rpc_dictionary_get_int64 kv k = v) ∧
    (∀ e, rpc_dictionary_get_value kv k = some e → rpc_get_type e ≠ .RPC_TYPE_INT64 →
      rpc_dictionary_get_int64 kv k = -1) ∧
    rpc_array_get_int64 (.array [.int64 (-1)]) 0 = rpc_array_get_int64 (.array [.null]) 0 ∧
    rpc_dictionary_get_int64 [("k", .int64 (-1))] "k"
      = rpc_dictionary_get_int64 [("k", .string "x")] "k" := by
  have hmis : ∀ e, rpc_get_type e ≠ .RPC_TYPE_INT64 → rpc_int64_get_value e = -1 := by
    intro e he
    cases e <;> first | rfl | (exact absurd rfl he)
  refine ⟨?_, ?_, ?_, ?_, ?_, ?_, by rfl, by rfl⟩
  · intro hi
    simp only [rpc_array_get_int64, rpc_array_get_count]
    rw [if_pos hi]
  · intro v hv
    obtain ⟨hlt, _⟩ := List.getElem?_eq_some_iff.mp hv
    simp only [rpc_array_get_int64, rpc_array_get_count, rpc_array_get_value, hv]
    rw [if_neg (by omega)]
    rfl
  · intro e hv he
    obtain ⟨hlt, _⟩ := List.getElem?_eq_some_iff.mp hv
    simp only [rpc_array_get_int64, rpc_array_get_count, rpc_array_get_value, hv]
    rw [if_neg (by omega), hmis e he]
  · intro h
    simp only [rpc_dictionary_get_int64, h]
  · intro v h
    simp only [rpc_dictionary_get_int64, h]
    rfl
  · intro e h he
    simp only [rpc_dictionary_get_int64, h, hmis e he]

/-- C36 at the array `[5, "x"]` and the dictionary `{a: 5, b: "x"}`. -/
theorem C36_int64_getter_defaults_witness :
    rpc_array_get_int64 (.array [.int64 5, .string "x"]) 2 = some 0 ∧
    rpc_array_get_int64 (.array [.int64 5, .string "x"]) 0 = some 5 ∧
    rpc_array_get_int64 (.array [.int64 5, .string "x"]) 1 = some (-1) ∧
    rpc_dictionary_get_int64 [("a", .int64 5), ("b", .string "x")] "c" = 0 ∧
    rpc_dictionary_get_int64 [("a", .int64 5), ("b", .string "x")] "a" = 5 ∧
    rpc_dictionary_get_int64 [("a", .int64 5), ("b", .string "x")] "b" = -1 :=
  ⟨(C36_int64_getter_defaults [.int64 5, .string "x"] [] 2 "").1 (by decide),
    (C36_int64_getter_defaults [.int64 5, .string "x"] [] 0 "").2.1 5 (by rfl),
    (C36_int64_getter_defaults [.int64 5, .string "x"] [] 1 "").2.2.1 (.string "x") (by rfl)
      (by intro h; cases h),
    (C36_int64_getter_defaults [] [("a", .int64 5), ("b", .string "x")] 0 "c").2.2.2.1 (by rfl),
    (C36_int64_getter_defaults [] [("a", .int64 5), ("b", .string "x")] 0 "a").2.2.2.2.1 5
      (by rfl),
    (C36_int64_getter_defaults [] [("a", .int64 5), ("b", .string "x")] 0 "b").2.2.2.2.2.1
      (.string "x") (by rfl) (by intro h; cases h)⟩

/-- C37: for every BINARY value of payload length `L`, offset `off` and
requested length `len`, `rpc_data_get_bytes` returns 0 and leaves the buffer as
it is when `off > L`; otherwise it returns `min (len, L - off)` and the buffer
holds the payload bytes at `off .. off + min (len, L - off) - 1` followed by its
old content; no byte at a position `≥ L` is read; for a value that is not a
BINARY it returns 0. -/
theorem C37_data_get_bytes (bytes : List Nat) (copy : Bool) (buffer : Nat → Nat)
    (off length : Nat) :
    (off > bytes.length →
      rpc_data_get_bytes (.binary bytes copy) buffer off length = some (0, buffer)) ∧
    (off ≤ bytes.length →
      ∃ b, rpc_data_get_bytes (.binary bytes copy) buffer off length
          = some (min length (bytes.length - off), b) ∧
        off + min length (bytes.length - off) ≤ bytes.length ∧
        (∀ k, k < min length (bytes.length - off) → some (b k) = bytes[off + k]?) ∧
        (∀ k, min length (bytes.length - off) ≤ k → b k = buffer k)) ∧
    (∀ o, rpc_get_type o ≠ .RPC_TYPE_BINARY →
      rpc_data_get_bytes o buffer off length = some (0, buffer)) := by
  refine ⟨?_, ?_, ?_⟩
  · intro h
    simp only [rpc_data_get_bytes]
    rw [if_pos h]
  · intro h
    have hle : off + min length (bytes.length - off) ≤ bytes.length := by omega
    refine ⟨fun k => if k < min length (bytes.length - off) then bytes.getD (off + k) 0
      else buffer k, ?_, hle, ?_, ?_⟩
    · simp only [rpc_data_get_bytes, memcpy]
      rw [if_neg (by omega), if_pos hle]
    · intro k hk
      simp only [hk, if_true]
      have hlt : off + k < bytes.length := by omega
      rw [List.getD_eq_getElem?_getD, List.getElem?_eq_getElem hlt]
      rfl
    · intro k hk
      simp only []
      rw [if_neg (by omega)]
  · intro o ho
    cases o <;> first | rfl | (exact absurd rfl ho)

/-- C37 at the payload `[10, 20, 30]`: offset 1 and length 5 copy two bytes,
offset 4 copies nothing. -/
theorem C37_data_get_bytes_witness :
    (rpc_data_get_bytes (.binary [10, 20, 30] true) (fun _ => 7) 1 5).map
        (fun r => (r.1, [r.2 0, r.2 1, r.2 2])) = some (2, [20, 30, 7]) ∧
    rpc_data_get_bytes (.binary [10, 20, 30] true) (fun _ => 7) 4 5 = some (0, fun _ => 7) ∧
    (∃ b, rpc_data_get_bytes (.binary [10, 20, 30] true) (fun _ => 7) 1 5
          = some (min 5 ([10, 20, 30].length - 1), b) ∧
        1 + min 5 ([10, 20, 30].length - 1) ≤ [10, 20, 30].length ∧
        (∀ k, k < min 5 ([10, 20, 30].length - 1) → some (b k) = [10, 20, 30][1 + k]?) ∧
        (∀ k, min 5 ([10, 20, 30].length - 1) ≤ k → b k = (fun _ => 7) k)) ∧
    rpc_data_get_bytes (.string "x") (fun _ => 7) 0 5 = some (0, fun _ => 7) :=
  ⟨by rfl,
    (C37_data_get_bytes [10, 20, 30] true (fun _ => 7) 4 5).1 (by decide),
    (C37_data_get_bytes [10, 20, 30] true (fun _ => 7) 1 5).2.1 (by decide),
    (C37_data_get_bytes [10, 20, 30] true (fun _ => 7) 0 5).2.2 (.string "x")
      (by intro h; cases h)⟩

/-- C38: with the `int` subtraction taken modulo 2^32, `rpc_cmp (o1, o2) = 0` if
and only if the two hashes are congruent modulo 2^32; `rpc_equal (o1, o2)`
implies `rpc_cmp (o1, o2) = 0`; and for INT64 0 and INT64 2^32 `rpc_cmp` is 0
while `rpc_equal` is false. -/
theorem C38_cmp_low_bits (env : host) (o1 o2 : rpc_object) :
    (rpc_cmp env o1 o2 = 0 ↔ rpc_hash env o1 % 2 ^ 32 = rpc_hash env o2 % 2 ^ 32) ∧
    (rpc_equal env o1 o2 = true → rpc_cmp env o1 o2 = 0) ∧
    rpc_cmp env (.int64 0) (.int64 (2 ^ 32)) = 0 ∧
    rpc_equal env (.int64 0) (.int64 (2 ^ 32)) = false := by
  have key : ∀ a b : Nat,
      (to_int ((to_int a - to_int b) % 2 ^ 32).toNat = 0 ↔ a % 2 ^ 32 = b % 2 ^ 32) := by
    intro a b
    have ha : a % 2 ^ 32 < 2 ^ 32 := Nat.mod_lt _ (by norm_num)
    have hb : b % 2 ^ 32 < 2 ^ 32 := Nat.mod_lt _ (by norm_num)
    have hd0 : 0 ≤ (to_int a - to_int b) % 2 ^ 32 := Int.emod_nonneg _ (by norm_num)
    have hd1 : (to_int a - to_int b) % 2 ^ 32 < 2 ^ 32 := Int.emod_lt_of_pos _ (by norm_num)
    have hmod : ((to_int a - to_int b) % 2 ^ 32).toNat % 2 ^ 32
        = ((to_int a - to_int b) % 2 ^ 32).toNat := Nat.mod_eq_of_lt (by omega)
    have hz : to_int ((to_int a - to_int b) % 2 ^ 32).toNat = 0
        ↔ (to_int a - to_int b) % 2 ^ 32 = 0 := by
      unfold to_int
      simp only [hmod]
      split_ifs <;> omega
    rw [hz]
    unfold to_int
    simp only []
    split_ifs <;> omega
  refine ⟨key _ _, ?_, ?_, ?_⟩
  · intro h
    have h1 : rpc_hash env o1 = rpc_hash env o2 := by simpa [rpc_equal] using h
    exact (key _ _).mpr (by rw [h1])
  · refine (key _ _).mpr ?_
    have e : ((2 : Int) ^ 32 % 2 ^ 64).toNat = 2 ^ 32 := by decide
    rw [rpc_hash, rpc_hash, e]
    decide
  · have e : ((2 : Int) ^ 32 % 2 ^ 64).toNat = 2 ^ 32 := by decide
    simp only [rpc_equal, rpc_hash, e]
    decide

/-- C34: `rpc_array_apply` calls the applier on the elements in ascending index
order from 0, stops after the first call that returns false and returns true
exactly when some call returned false, so false for an empty array and when
every element was visited; `rpc_array_reverse_apply` does the same in
descending index order from the last element.  With an applier that notes the
indices and returns false at the element 2, the array `[1, 2, 3]` is visited at
0 and 1 by the first and at 2 and 1 by the second. -/
theorem C34_apply_order {σ : Type} (applier : σ → Nat → rpc_object → σ × Bool)
    (xs : List rpc_object) (s : σ) :
    calls_in_order applier xs.enum s (rpc_array_apply applier xs s) ∧
    (∃ r, rpc_array_reverse_apply applier xs s = some r ∧
      calls_in_order applier xs.enum.reverse s r) ∧
    rpc_array_apply applier [] s = (s, false) ∧
    rpc_array_reverse_apply applier [] s = some (s, false) ∧
    rpc_array_apply
        (fun (log : List Nat) i v => (log ++ [i], decide (rpc_int64_get_value v ≠ 2)))
        [.int64 1, .int64 2, .int64 3] [] = ([0, 1], true) ∧
    rpc_array_reverse_apply
        (fun (log : List Nat) i v => (log ++ [i], decide (rpc_int64_get_value v ≠ 2)))
        [.int64 1, .int64 2, .int64 3] [] = some ([2, 1], true) ∧
    rpc_array_apply (fun (log : List Nat) i _ => (log ++ [i], true))
        [.int64 1, .int64 2, .int64 3] [] = ([0, 1, 2], false) := by
  refine ⟨rpc_array_apply_from_order applier xs 0 s, ?_, rfl, rfl, by decide, by decide,
    by decide⟩
  obtain ⟨r, hr, hc⟩ := rpc_array_reverse_apply_from_order applier xs xs.length s (le_refl _)
  rw [List.take_length] at hc
  exact ⟨r, hr, hc⟩

/-- C35: `rpc_array_contains (a, v)` is true if and only if some element `e` of
the array `a` has `rpc_hash (e) = rpc_hash (v)`, so the array `[INT64 0]`
contains the null value and BOOL false; and it is false whenever its first
argument is not an array. -/
theorem C35_contains_by_hash (env : host) (xs : List rpc_object) (v : rpc_object) :
    (rpc_array_contains env (some (.array xs)) v = true
      ↔ ∃ e ∈ xs, rpc_hash env e = rpc_hash env v) ∧
    rpc_array_contains env (some (.array [.int64 0])) .null = true ∧
    rpc_array_contains env (some (.array [.int64 0])) (.bool false) = true ∧
    (∀ a, (∀ ys, a ≠ some (.array ys)) → rpc_array_contains env a v = false) := by
  have hiff : ∀ (ys : List rpc_object) (w : rpc_object),
      (rpc_array_contains env (some (.array ys)) w = true
        ↔ ∃ e ∈ ys, rpc_hash env e = rpc_hash env w) := by
    intro ys w
    simp only [rpc_array_contains, rpc_array_apply]
    rw [rpc_array_contains_any]
    simp [rpc_equal]
  refine ⟨hiff xs v, ?_, ?_, ?_⟩
  · exact (hiff _ _).mpr ⟨.int64 0, by simp, by simp [rpc_hash]⟩
  · exact (hiff _ _).mpr ⟨.int64 0, by simp, by simp [rpc_hash]⟩
  · intro a ha
    cases a with
    | none => rfl
    | some o =>
      cases o with
      | array ys => exact absurd rfl (ha ys)
      | _ => rfl

/-- C40: for every STRING value made by `rpc_string_create_len` from `n` bytes,
the length of its `rpc_copy` is the index of the first NUL byte among those
bytes, or `n` if there is none, and the bytes of the copy are that many first
bytes of the original. -/
theorem C40_copy_truncates_at_nul (env : host) (s : String) :
    ∃ t, rpc_copy env (rpc_string_create_len s) = some (.string t) ∧
      rpc_string_get_length (.string t) = strlen (string_bytes s) ∧
      string_bytes t = (string_bytes s).take (strlen (string_bytes s)) ∧
      strlen (string_bytes s) ≤ rpc_string_get_length (rpc_string_create_len s) ∧
      (∀ j, j < strlen (string_bytes s) → ∃ b, (string_bytes s)[j]? = some b ∧ b ≠ 0) ∧
      (strlen (string_bytes s) < rpc_string_get_length (rpc_string_create_len s) →
        (string_bytes s)[strlen (string_bytes s)]? = some 0) ∧
      rpc_copy env (rpc_string_create_len "ab\x00cd") = some (.string "ab") ∧
      rpc_string_get_length (rpc_string_create_len "ab\x00cd") = 5 := by
  obtain ⟨h1, h2, h3⟩ := strlen_spec (string_bytes s)
  have hb := string_bytes_c_str s
  refine ⟨c_str s, ?_, ?_, ?_, h1, h2, h3, by rfl, by rfl⟩
  · rw [rpc_string_create_len, rpc_copy]
    rfl
  · simp only [rpc_string_get_length, hb]
    rfl
  · rw [hb]
    exact takeWhile_eq_take_length _ _

/-- C32, as stated, fails when the value is the element that the store
overwrites, or is contained in it: the release of the old element then reaches
the value.  With the array `[v]` and `v` of count 2, `rpc_array_set_value
(a, 0, v)` leaves the count at 2 and `rpc_array_steal_value (a, 0, v)` takes it
to 1, and `rpc_dictionary_set_value` over the same value leaves it at 2; with
the array `[[v]]`, the inner array of count 1, `rpc_array_steal_value (a, 0, v)`
frees the inner array and takes the count of `v` from 2 to 1. -/
theorem C32_counterexample :
    mem.rpc_array_set_value
        [some { ro_refcnt := 1, ro_value := .array [1] },
         some { ro_refcnt := 2, ro_value := .int64 7 }] 0 0 (some 1)
      = .ok [some { ro_refcnt := 1, ro_value := .array [1] },
         some { ro_refcnt := 2, ro_value := .int64 7 }] ∧
    mem.rpc_array_steal_value
        [some { ro_refcnt := 1, ro_value := .array [1] },
         some { ro_refcnt := 2, ro_value := .int64 7 }] 0 0 1
      = .ok [some { ro_refcnt := 1, ro_value := .array [1] },
         some { ro_refcnt := 1, ro_value := .int64 7 }] ∧
    mem.rpc_dictionary_set_value
        [some { ro_refcnt := 1, ro_value := .dictionary [("k", 1)] },
         some { ro_refcnt := 2, ro_value := .int64 7 }] 0 "k" (some 1)
      = .ok [some { ro_refcnt := 1, ro_value := .dictionary [("k", 1)] },
         some { ro_refcnt := 2, ro_value := .int64 7 }] ∧
    mem.rpc_array_steal_value
        [some { ro_refcnt := 1, ro_value := .array [1] },
         some { ro_refcnt := 1, ro_value := .array [2] },
         some { ro_refcnt := 2, ro_value := .int64 7 }] 0 0 2
      = .ok [some { ro_refcnt := 1, ro_value := .array [2] },
         none,
         some { ro_refcnt := 1, ro_value := .int64 7 }] := by
  refine ⟨by rfl, by rfl, by rfl, by rfl⟩

/-- C32, amended: for a live value `v` and an array of fewer than 2^31 elements,
`rpc_array_append_stolen_value` and `rpc_array_steal_value` leave the count of
`v` unchanged and `rpc_array_append_value` and `rpc_array_set_value` increase it
by exactly one, when the store is an append or fills a gap behind the last
element.  A store over an existing element releases that element exactly once,
by one call of `rpc_release_impl`, which takes its count down by one or, at
count 1, frees it with what it holds; if the array is live after that release,
the slot holds `v`, and the count of `v` is the one the release left for a steal
and one more for a set, every other count and payload being as the release left
it.  So the count of `v` is unchanged, or one higher, whenever the release of
the old element does not reach `v`, as over an element held elsewhere too (count
at least 2) or over one that the array alone holds and that does not hold `v`;
and a store of `v` over itself releases `v` once, so that
`rpc_array_steal_value` takes its count down by one and `rpc_array_set_value`
leaves it as it was.  `rpc_dictionary_steal_value` and
`rpc_dictionary_set_value` behave in the same way under a new key and over the
value of an existing key. -/
theorem C32_ownership_on_store (h : mem.heap) (a v : Nat) (r : Int)
    (hv : mem.count h v = some r) (h0 : 0 ≤ r) (hr1 : r + 1 < 2 ^ 31) :
    (∀ xs, mem.payload h a = some (.array xs) → xs.length < 2 ^ 31 →
      (∃ h1, mem.rpc_array_append_stolen_value h a v = .ok h1 ∧
        mem.count h1 v = some r ∧ mem.payload h1 a = some (.array (xs ++ [v]))) ∧
      (∃ h1, mem.rpc_array_append_value h a v = .ok h1 ∧
        mem.count h1 v = some (r + 1) ∧ mem.payload h1 a = some (.array (xs ++ [v]))) ∧
      (∀ i, xs.length ≤ i → i < xs.length + 2 ^ 31 →
        (∃ h1 ys, mem.rpc_array_steal_value h a i v = .ok h1 ∧
          mem.count h1 v = some r ∧ mem.payload h1 a = some (.array ys) ∧
          ys.length = i + 1 ∧ ys[i]? = some v) ∧
        (∃ h1 ys, mem.rpc_array_set_value h a i (some v) = .ok h1 ∧
          mem.count h1 v = some (r + 1) ∧ mem.payload h1 a = some (.array ys) ∧
          ys.length = i + 1 ∧ ys[i]? = some v)) ∧
      (∀ i old c, xs[i]? = some old → old ≠ v → mem.count h old = some c → 2 ≤ c →
        (∃ h1, mem.rpc_array_steal_value h a i v = .ok h1 ∧
          mem.count h1 v = some r ∧ mem.count h1 old = some (c - 1) ∧
          mem.payload h1 a = some (.array (xs.set i v))) ∧
        (∃ h1, mem.rpc_array_set_value h a i (some v) = .ok h1 ∧
          mem.count h1 v = some (r + 1) ∧ mem.count h1 old = some (c - 1) ∧
          mem.payload h1 a = some (.array (xs.set i v)))) ∧
      (∀ i, xs[i]? = some v → 2 ≤ r →
        (∃ h1, mem.rpc_array_steal_value h a i v = .ok h1 ∧
          mem.count h1 v = some (r - 1) ∧ mem.payload h1 a = some (.array xs)) ∧
        (∃ h1, mem.rpc_array_set_value h a i (some v) = .ok h1 ∧
          mem.count h1 v = some r ∧ mem.payload h1 a = some (.array xs))) ∧
      (∀ i old h2 n r2, xs[i]? = some old →
        mem.rpc_release_impl h (some old) = .ok (h2, n) → mem.count h2 a ≠ none →
        mem.count h2 v = some r2 → 0 ≤ r2 → r2 + 1 < 2 ^ 31 →
        (∃ h1, mem.rpc_array_steal_value h a i v = .ok h1 ∧
          mem.count h1 v = some r2 ∧ (∀ b, mem.count h1 b = mem.count h2 b) ∧
          mem.payload h1 a = some (.array (xs.set i v)) ∧
          (∀ b, b ≠ a → mem.payload h1 b = mem.payload h2 b)) ∧
        (∃ h1, mem.rpc_array_set_value h a i (some v) = .ok h1 ∧
          mem.count h1 v = some (r2 + 1) ∧ (∀ b, b ≠ v → mem.count h1 b = mem.count h2 b) ∧
          mem.payload h1 a = some (.array (xs.set i v)) ∧
          (∀ b, b ≠ a → mem.payload h1 b = mem.payload h2 b)))) ∧
    (∀ kv key, mem.payload h a = some (.dictionary kv) →
      (key ∉ kv.map Prod.fst →
        (∃ h1, mem.rpc_dictionary_steal_value h a key v = .ok h1 ∧
          mem.count h1 v = some r ∧ mem.payload h1 a = some (.dictionary (kv ++ [(key, v)]))) ∧
        (∃ h1, mem.rpc_dictionary_set_value h a key (some v) = .ok h1 ∧
          mem.count h1 v = some (r + 1) ∧
          mem.payload h1 a = some (.dictionary (kv ++ [(key, v)])))) ∧
      (∀ old c, kv.find? (fun e => e.1 = key) = some old → old.2 ≠ v →
        mem.count h old.2 = some c → 2 ≤ c →
        (∃ h1, mem.rpc_dictionary_steal_value h a key v = .ok h1 ∧
          mem.count h1 v = some r ∧ mem.count h1 old.2 = some (c - 1) ∧
          mem.payload h1 a
            = some (.dictionary (kv.map (fun e => if e.1 = key then (e.1, v) else e)))) ∧
        (∃ h1, mem.rpc_dictionary_set_value h a key (some v) = .ok h1 ∧
          mem.count h1 v = some (r + 1) ∧ mem.count h1 old.2 = some (c - 1) ∧
          mem.payload h1 a
            = some (.dictionary (kv.map (fun e => if e.1 = key then (e.1, v) else e))))) ∧
      (∀ old h2 n r2, kv.find? (fun e => e.1 = key) = some old →
        mem.rpc_release_impl h (some old.2) = .ok (h2, n) → mem.count h2 a ≠ none →
        mem.count h2 v = some r2 → 0 ≤ r2 → r2 + 1 < 2 ^ 31 →
        (∃ h1, mem.rpc_dictionary_steal_value h a key v = .ok h1 ∧
          mem.count h1 v = some r2 ∧ (∀ b, mem.count h1 b = mem.count h2 b) ∧
          mem.payload h1 a
            = some (.dictionary (kv.map (fun e => if e.1 = key then (e.1, v) else e))) ∧
          (∀ b, b ≠ a → mem.payload h1 b = mem.payload h2 b)) ∧
        (∃ h1, mem.rpc_dictionary_set_value h a key (some v) = .ok h1 ∧
          mem.count h1 v = some (r2 + 1) ∧ (∀ b, b ≠ v → mem.count h1 b = mem.count h2 b) ∧
          mem.payload h1 a
            = some (.dictionary (kv.map (fun e => if e.1 = key then (e.1, v) else e))) ∧
          (∀ b, b ≠ a → mem.payload h1 b = mem.payload h2 b)))) := by
  obtain ⟨ov, hov, _⟩ := count_cell h v r hv
  obtain ⟨hvlt, _⟩ := List.getElem?_eq_some_iff.mp hov
  refine ⟨?_, ?_⟩
  · intro xs hp hl
    refine ⟨?_, ?_, ?_, ?_, ?_, ?_⟩
    · obtain ⟨h1, e, hc, hpa, _⟩ := append_stolen_effect h a v xs hp
      exact ⟨h1, e, by rw [hc, hv], hpa⟩
    · obtain ⟨h1, e, hc, hpa, _⟩ := append_stolen_effect h a v xs hp
      obtain ⟨h2, e2, hc2, _, hp2⟩ := rpc_retain_effect h1 v r (by rw [hc, hv]) (by omega) hr1
      exact ⟨h2, by simp only [mem.rpc_array_append_value, e]; exact e2, hc2, by rw [hp2, hpa]⟩
    · intro i hi1 hi2
      obtain ⟨h1, e, hc, hpa, _, _⟩ := steal_behind_effect h a v xs i hp hi1 hi2
      have hlen : (xs ++ List.range' h.length (i - xs.length) ++ [v]).length = i + 1 := by
        simp; omega
      have hl0 : (xs ++ List.range' h.length (i - xs.length)).length = i := by
        simp; omega
      have hget : (xs ++ List.range' h.length (i - xs.length) ++ [v])[i]? = some v := by
        rw [List.getElem?_append_right (by omega), hl0, Nat.sub_self]
        rfl
      refine ⟨⟨h1, _, e, by rw [hc v hvlt, hv], hpa, hlen, hget⟩, ?_⟩
      obtain ⟨h2, e2, hc2, _, hp2⟩ := rpc_retain_effect h1 v r (by rw [hc v hvlt, hv])
        (by omega) hr1
      exact ⟨h2, _, by simp only [mem.rpc_array_set_value, e]; exact e2, hc2,
        by rw [hp2, hpa], hlen, hget⟩
    · intro i old c hi hne hc h2
      obtain ⟨h1, e, hco, hcb, hpa, _⟩ := steal_overwrite_effect h a v xs i old c hp hl hi hc h2
      have hcv : mem.count h1 v = some r := by rw [hcb v (Ne.symm hne), hv]
      refine ⟨⟨h1, e, hcv, hco, hpa⟩, ?_⟩
      obtain ⟨h2, e2, hc2, hcb2, hp2⟩ := rpc_retain_effect h1 v r hcv (by omega) hr1
      exact ⟨h2, by simp only [mem.rpc_array_set_value, e]; exact e2, hc2,
        by rw [hcb2 old hne, hco], by rw [hp2, hpa]⟩
    · intro i hi h2
      obtain ⟨h1, e, hco, _, hpa, _⟩ := steal_overwrite_effect h a v xs i v r hp hl hi hv h2
      have hset : xs.set i v = xs := by
        apply List.ext_getElem?
        intro j
        rw [List.getElem?_set]
        by_cases hij : i = j
        · subst hij
          obtain ⟨hilt, _⟩ := List.getElem?_eq_some_iff.mp hi
          rw [if_pos rfl, if_pos hilt, hi]
        · rw [if_neg hij]
      rw [hset] at hpa
      refine ⟨⟨h1, e, hco, hpa⟩, ?_⟩
      obtain ⟨h2, e2, hc2, _, hp2⟩ := rpc_retain_effect h1 v (r - 1) hco (by omega) (by omega)
      exact ⟨h2, by simp only [mem.rpc_array_set_value, e]; exact e2,
        by rw [hc2]; congr 1; omega, by rw [hp2, hpa]⟩
    · intro i old h2 n r2 hi er hlive hc2 h02 h12
      obtain ⟨h1, e, hc, hpa, hpb⟩ := steal_overwrite_general h a v xs i old h2 n hp hl hi er hlive
      have hcv : mem.count h1 v = some r2 := by rw [hc v, hc2]
      refine ⟨⟨h1, e, hcv, hc, hpa, hpb⟩, ?_⟩
      obtain ⟨h3, e3, hc3, hcb3, hp3⟩ := rpc_retain_effect h1 v r2 hcv (by omega) h12
      exact ⟨h3, by simp only [mem.rpc_array_set_value, e]; exact e3, hc3,
        fun b hb => by rw [hcb3 b hb, hc b], by rw [hp3, hpa],
        fun b hb => by rw [hp3, hpb b hb]⟩
  · intro kv key hp
    refine ⟨?_, ?_, ?_⟩
    · intro hk
      obtain ⟨h1, e, hc, hpa, _⟩ := dict_steal_new_effect h a v kv key hp hk
      refine ⟨⟨h1, e, by rw [hc, hv], hpa⟩, ?_⟩
      obtain ⟨h2, e2, hc2, _, hp2⟩ := rpc_retain_effect h1 v r (by rw [hc, hv]) (by omega) hr1
      exact ⟨h2, by simp only [mem.rpc_dictionary_set_value, e]; exact e2, hc2,
        by rw [hp2, hpa]⟩
    · intro old c hf hne hc h2
      obtain ⟨h1, e, hco, hcb, hpa, _⟩ := dict_steal_replace_effect h a v kv key old c hp hf hc h2
      have hcv : mem.count h1 v = some r := by rw [hcb v (Ne.symm hne), hv]
      refine ⟨⟨h1, e, hcv, hco, hpa⟩, ?_⟩
      obtain ⟨h2, e2, hc2, hcb2, hp2⟩ := rpc_retain_effect h1 v r hcv (by omega) hr1
      exact ⟨h2, by simp only [mem.rpc_dictionary_set_value, e]; exact e2, hc2,
        by rw [hcb2 old.2 hne, hco], by rw [hp2, hpa]⟩
    · intro old h2 n r2 hf er hlive hc2 h02 h12
      obtain ⟨h1, e, hc, hpa, hpb⟩ :=
        dict_steal_replace_general h a v kv key old h2 n hp hf er hlive
      have hcv : mem.count h1 v = some r2 := by rw [hc v, hc2]
      refine ⟨⟨h1, e, hcv, hc, hpa, hpb⟩, ?_⟩
      obtain ⟨h3, e3, hc3, hcb3, hp3⟩ := rpc_retain_effect h1 v r2 hcv (by omega) h12
      exact ⟨h3, by simp only [mem.rpc_dictionary_set_value, e]; exact e3, hc3,
        fun b hb => by rw [hcb3 b hb, hc b], by rw [hp3, hpa],
        fun b hb => by rw [hp3, hpb b hb]⟩

/-- C32, amended, on the heap that holds the array `["x"]` at 0, the value 7 of
count 1 at 1 and the string `x` at 2.  With the string of count 2, storing the
value at index 0 with `rpc_array_set_value` takes its count to 2 and the count
of the string to 1, and appending it takes its count to 2.  With the string of
count 1, held by the array alone, the same store frees the string and takes the
count of the value to 2. -/
theorem C32_ownership_on_store_witness :
    mem.count
        [some { ro_refcnt := 1, ro_value := .array [2] },
         some { ro_refcnt := 1, ro_value := .int64 7 },
         some { ro_refcnt := 2, ro_value := .string "x" }] 1 = some 1 ∧
    mem.rpc_array_set_value
        [some { ro_refcnt := 1, ro_value := .array [2] },
         some { ro_refcnt := 1, ro_value := .int64 7 },
         some { ro_refcnt := 2, ro_value := .string "x" }] 0 0 (some 1)
      = .ok [some { ro_refcnt := 1, ro_value := .array [1] },
         some { ro_refcnt := 2, ro_value := .int64 7 },
         some { ro_refcnt := 1, ro_value := .string "x" }] ∧
    (∃ h1, mem.rpc_array_append_value
        [some { ro_refcnt := 1, ro_value := .array [2] },
         some { ro_refcnt := 1, ro_value := .int64 7 },
         some { ro_refcnt := 2, ro_value := .string "x" }] 0 1 = .ok h1 ∧
      mem.count h1 1 = some (1 + 1) ∧ mem.payload h1 0 = some (.array ([2] ++ [1]))) ∧
    (∃ h1, mem.rpc_array_set_value
        [some { ro_refcnt := 1, ro_value := .array [2] },
         some { ro_refcnt := 1, ro_value := .int64 7 },
         some { ro_refcnt := 2, ro_value := .string "x" }] 0 0 (some 1) = .ok h1 ∧
      mem.count h1 1 = some (1 + 1) ∧ mem.count h1 2 = some (2 - 1) ∧
      mem.payload h1 0 = some (.array ([2].set 0 1))) ∧
    mem.rpc_release_impl
        [some { ro_refcnt := 1, ro_value := .array [2] },
         some { ro_refcnt := 1, ro_value := .int64 7 },
         some { ro_refcnt := 1, ro_value := .string "x" }] (some 2)
      = .ok ([some { ro_refcnt := 1, ro_value := .array [2] },
         some { ro_refcnt := 1, ro_value := .int64 7 }, none], 0) ∧
    mem.rpc_array_set_value
        [some { ro_refcnt := 1, ro_value := .array [2] },
         some { ro_refcnt := 1, ro_value := .int64 7 },
         some { ro_refcnt := 1, ro_value := .string "x" }] 0 0 (some 1)
      = .ok [some { ro_refcnt := 1, ro_value := .array [1] },
         some { ro_refcnt := 2, ro_value := .int64 7 }, none] ∧
    (∃ h1, mem.rpc_array_set_value
        [some { ro_refcnt := 1, ro_value := .array [2] },
         some { ro_refcnt := 1, ro_value := .int64 7 },
         some { ro_refcnt := 1, ro_value := .string "x" }] 0 0 (some 1) = .ok h1 ∧
      mem.count h1 1 = some (1 + 1) ∧
      (∀ b, b ≠ 1 → mem.count h1 b
        = mem.count [some { ro_refcnt := 1, ro_value := .array [2] },
            some { ro_refcnt := 1, ro_value := .int64 7 }, none] b) ∧
      mem.payload h1 0 = some (.array ([2].set 0 1)) ∧
      (∀ b, b ≠ 0 → mem.payload h1 b
        = mem.payload [some { ro_refcnt := 1, ro_value := .array [2] },
            some { ro_refcnt := 1, ro_value := .int64 7 }, none] b)) :=
  ⟨by rfl, by rfl,
    ((C32_ownership_on_store
      [some { ro_refcnt := 1, ro_value := .array [2] },
       some { ro_refcnt := 1, ro_value := .int64 7 },
       some { ro_refcnt := 2, ro_value := .string "x" }] 0 1 1 (by rfl) (by decide)
      (by decide)).1 [2] (by rfl) (by decide)).2.1,
    (((C32_ownership_on_store
      [some { ro_refcnt := 1, ro_value := .array [2] },
       some { ro_refcnt := 1, ro_value := .int64 7 },
       some { ro_refcnt := 2, ro_value := .string "x" }] 0 1 1 (by rfl) (by decide)
      (by decide)).1 [2] (by rfl) (by decide)).2.2.2.1 0 2 2 (by rfl) (by decide) (by rfl)
      (by decide)).2,
    by rfl, by rfl,
    (((C32_ownership_on_store
      [some { ro_refcnt := 1, ro_value := .array [2] },
       some { ro_refcnt := 1, ro_value := .int64 7 },
       some { ro_refcnt := 1, ro_value := .string "x" }] 0 1 1 (by rfl) (by decide)
      (by decide)).1 [2] (by rfl) (by decide)).2.2.2.2.2 0 2
      [some { ro_refcnt := 1, ro_value := .array [2] },
       some { ro_refcnt := 1, ro_value := .int64 7 }, none] 0 1 (by rfl) (by rfl)
      (by simp [mem.count]) (by rfl) (by decide) (by decide)).2⟩

/-- C33, as stated, fails for a length below -1: the sum `index + len` is taken
in `size_t`, so for the array `[1, 2, 3]`, index 0 and length -2 the end is 3 and
the slice is the whole array, where the claim has the end `min (3, -2)` and an
empty result. -/
theorem C33_counterexample :
    rpc_array_slice [.int64 1, .int64 2, .int64 3] 0 (-2)
      = [.int64 1, .int64 2, .int64 3] ∧
    mem.rpc_array_slice
        [some { ro_refcnt := 1, ro_value := .array [1] },
         some { ro_refcnt := 1, ro_value := .int64 7 }] 0 0 (-2)
      = .ok ([some { ro_refcnt := 1, ro_value := .array [1] },
         some { ro_refcnt := 2, ro_value := .int64 7 },
         some { ro_refcnt := 1, ro_value := .array [1] }], 2) := by
  refine ⟨?_, ?_⟩
  · exact ((rpc_array_slice_negative [.int64 1, .int64 2, .int64 3] 0 (-2) (by norm_num)
      (by norm_num) (by norm_num) (by norm_num)).1 (by norm_num))
  · rfl

/-- C33, amended: for every array of `n` elements, index `i` and length `len`
that is -1 or not negative, `rpc_array_slice (a, i, len)` returns an array
holding exactly the elements `a[i], ..., a[end - 1]` in order, where `end = n`
if `len = -1` and `end = min (n, i + len)` otherwise; the result is empty when
`i ≥ end`.  In memory the result is a new object behind those of the heap, of
which no payload changes, so that `a` keeps its elements. -/
theorem C33_slice (xs : List rpc_object) (i : Nat) (len : Int) (hl : -1 ≤ len)
    (hu : len < 2 ^ 63) (hn : xs.length < 2 ^ 32) :
    rpc_array_slice xs i len
      = (xs.take (if len = -1 then xs.length else min xs.length (i + len.toNat))).drop i ∧
    (∀ j, (rpc_array_slice xs i len)[j]?
      = if i + j < (if len = -1 then xs.length else min xs.length (i + len.toNat))
        then xs[i + j]? else none) ∧
    ((if len = -1 then xs.length else min xs.length (i + len.toNat)) ≤ i →
      rpc_array_slice xs i len = []) ∧
    (∀ (h : mem.heap) (a : Nat) (ys : List Nat),
      mem.payload h a = some (.array ys) → ys.length < 2 ^ 32 →
      (∀ y ∈ ys, ∃ val, mem.payload h y = some val) →
      ∃ h1, mem.rpc_array_slice h a i len = .ok (h1, h.length) ∧
        h1.length = h.length + 1 ∧
        mem.payload h1 h.length
          = some (.array ((ys.take (if len = -1 then ys.length
              else min ys.length (i + len.toNat))).drop i)) ∧
        (∀ b, b < h.length → mem.payload h1 b = mem.payload h b)) := by
  have hpure : rpc_array_slice xs i len
      = (xs.take (if len = -1 then xs.length else min xs.length (i + len.toNat))).drop i := by
    by_cases h1 : len = -1
    · subst h1
      simp [rpc_array_slice]
    · rw [if_neg h1]
      exact rpc_array_slice_length xs i len (by omega) hu hn
  refine ⟨hpure, ?_, ?_, ?_⟩
  · intro j
    rw [hpure, take_drop_getElem?]
  · intro hle
    rw [hpure, List.drop_eq_nil_of_le (by rw [List.length_take]; omega)]
  · intro h a ys hp hyn hlive
    obtain ⟨h1, e, hl1, hp1, hb1⟩ := rpc_array_slice_payload h a ys i len hp hlive
    refine ⟨h1, e, hl1, ?_, hb1⟩
    rw [hp1]
    by_cases h1 : len = -1
    · simp [h1]
    · rw [if_neg h1, if_neg h1, take_stop_length ys i len (by omega) hu hyn]

/-- C33, amended, at the array `[1, 2, 3, 4]`, index 1 and length 2, and in
memory at the array `[7, "x"]` held in three cells, index 1 and length -1. -/
theorem C33_slice_witness :
    (-1 : Int) ≤ 2 ∧ (2 : Int) < 2 ^ 63 ∧
    [rpc_object.int64 1, .int64 2, .int64 3, .int64 4].length < 2 ^ 32 ∧
    rpc_array_slice [.int64 1, .int64 2, .int64 3, .int64 4] 1 2 = [.int64 2, .int64 3] ∧
    mem.rpc_array_slice
        [some { ro_refcnt := 1, ro_value := .array [1, 2] },
         some { ro_refcnt := 1, ro_value := .int64 7 },
         some { ro_refcnt := 1, ro_value := .string "x" }] 0 1 (-1)
      = .ok ([some { ro_refcnt := 1, ro_value := .array [1, 2] },
         some { ro_refcnt := 1, ro_value := .int64 7 },
         some { ro_refcnt := 2, ro_value := .string "x" },
         some { ro_refcnt := 1, ro_value := .array [2] }], 3) ∧
    (∀ j, (rpc_array_slice [.int64 1, .int64 2, .int64 3, .int64 4] 1 2)[j]?
      = if 1 + j < (if (2 : Int) = -1
            then [rpc_object.int64 1, .int64 2, .int64 3, .int64 4].length
            else min [rpc_object.int64 1, .int64 2, .int64 3, .int64 4].length
              (1 + (2 : Int).toNat))
        then [rpc_object.int64 1, .int64 2, .int64 3, .int64 4][1 + j]? else none) :=
  ⟨by decide, by decide, by decide, by rfl, by rfl,
    (C33_slice [.int64 1, .int64 2, .int64 3, .int64 4] 1 2 (by decide) (by decide)
      (by decide)).2.1⟩

/-- C39 fails on the code for the token `b`: a format that begins with `b`, as
in `pack("bi", true, 1)`, has no value at all, since `va_arg (ap, bool)`
(line 740) is undefined whatever the stream holds.  For the rest the claim
holds: `rpc_object_vpack` stops at the first complete top-level value.  A format
that begins with one of the scalar tokens `n i u d s f` packs to the value of
that token whatever follows it; a format that packs to an object packs to the
same object with any characters added behind it, so what follows a balanced
container is not examined and no error is reported for it; this holds for the
flat arrays and dictionaries and for the nested formats in particular.
`pack ("ii", 1, 2)` is INT64 1, and `pack ("[i]x", 1)` is the array `[1]`
although `x` is no token. -/
theorem C39_pack_stops_at_first_value_bool_token
    (rpct_new : String → Option rpc_object → Option rpc_object) :
    (∀ (rest : List Char) (ap : List pack_arg),
      rpc_object_vpack rpct_new ('b' :: rest) ap = .fault .va_arg) ∧
    (∀ (t : scalar_token) (rest : List Char) (ap : List pack_arg),
      rpc_object_vpack rpct_new (t.ch :: rest) (t.args ++ ap) = .object t.value) ∧
    (∀ (fmt rest : List Char) (ap : List pack_arg) (o : rpc_object),
      rpc_object_vpack rpct_new fmt ap = .object o →
      rpc_object_vpack rpct_new (fmt ++ rest) ap = .object o) ∧
    (∀ (ts : List scalar_token) (rest : List Char) (ap : List pack_arg),
      rpc_object_vpack rpct_new (flat_array_fmt (ts.map scalar_token.ch) ++ rest)
          (ts.flatMap scalar_token.args ++ ap)
        = .object (.array (ts.map scalar_token.value))) ∧
    (∀ (es : List (String × scalar_token)) (rest : List Char) (ap : List pack_arg),
      rpc_object_vpack rpct_new (flat_dict_fmt (es.map (fun e => e.2.ch)) ++ rest)
          (es.flatMap (fun e => .str (some e.1) :: e.2.args) ++ ap)
        = .object (.dictionary
            (dict_of_entries [] (es.map (fun e => (c_str e.1, e.2.value)))))) ∧
    (∀ (g : nest) (rest : List Char) (ap : List pack_arg),
      rpc_object_vpack rpct_new (g.fmt ++ rest) (g.pack_args ++ ap) = .object g.value) ∧
    rpc_object_vpack rpct_new "ii".toList [.int64 1, .int64 2] = .object (.int64 1) ∧
    rpc_object_vpack rpct_new "[i]x".toList [.int64 1] = .object (.array [.int64 1]) ∧
    rpc_object_vpack rpct_new "x".toList [] = .einval := by
  have hscalar : ∀ (t : scalar_token) (rest : List Char) (ap : List pack_arg),
      rpc_object_vpack rpct_new (t.ch :: rest) (t.args ++ ap) = .object t.value := by
    intro t rest ap
    have h := vpack_iter_scalar_top rpct_new t (t.ch :: rest) 0 rest [] 0 ap rfl
    unfold rpc_object_vpack
    rw [vpack_loop_succ, h]
  have hbool : ∀ (rest : List Char) (ap : List pack_arg),
      rpc_object_vpack rpct_new ('b' :: rest) ap = .fault .va_arg := by
    intro rest ap
    unfold rpc_object_vpack
    rw [vpack_loop_succ]
    simp [vpack_iter, fmt_at, vpack_token]
  refine ⟨hbool, hscalar, rpc_object_vpack_append rpct_new, ?_, ?_, ?_, ?_, ?_, ?_⟩
  · intro ts rest ap
    exact rpc_object_vpack_append rpct_new _ rest _ _ (vpack_flat_array rpct_new ts ap)
  · intro es rest ap
    exact rpc_object_vpack_append rpct_new _ rest _ _ (vpack_flat_dict rpct_new es ap)
  · intro g rest ap
    exact rpc_object_vpack_append rpct_new _ rest _ _ (vpack_nest rpct_new g ap)
  · exact hscalar (.i 1) ['i'] [.int64 2]
  · exact rpc_object_vpack_append rpct_new "[i]".toList ['x'] _ _
      (vpack_flat_array rpct_new [.i 1] [])
  · rfl

end librpc
